import Mathlib

/-! coredns_omada: record synchronisation engine

A shallow embedding of `update.go` (`updateZones`, `getInterfaces`,
`purgeStaleRecords`, `addFallbackRecord`, `resolveInZones`) together with
theorems about the embedded functions.

Conventions of the embedding.

* A Go `map[string]V` is a `GoMap V`: a key-unique association list.  Map
  values are references in Go, so the local variable `records` of
  `updateZones` (`records := o.records`) denotes the very map object held in
  `o.records`; every write through `records` is therefore modelled as a write
  to the `records` field of the `Omada` state.
* `time.Time` and `time.Duration` are integers counting nanoseconds.  A
  number of seconds (the `float64` returned by `Duration.Seconds()`) is kept
  exactly, in fixed point with unit 1e-9 s; the rounding of `float64` is not
  modelled.
* The order in which Go ranges over a map is unspecified.  Where the order can
  matter (the loops over the domains of the record map) it is supplied by the
  `Run` record; the loops over the entries of one record set are order
  independent and are modelled in list order.
* A nil-pointer dereference is modelled by `none` / `Result.nilDeref`.
* `(*file.Zone).Insert` sets the owner name of the record it is handed to lower
  case, in place, and the records that `updateZones` hands to it are the ones
  the record map points to.  No branch of `update.go` reads an owner name
  (lookups go by map key, purging by timestamp), so the embedding has two
  layers.  In the base layer (`Zone.Insert`, `zoneLoop`, `applyInventory`,
  `updateZones`) every owner name stays as the synthesis wrote it.  The layer
  with the suffix `Lowering` performs the case folding as well;
  `applyInventoryLowering_eq` shows that it runs to its end exactly when the
  base layer succeeds and then yields the state of the base layer with every
  owner name of the record map and of the zones in lower case.
-/

namespace CorednsOmada

/-! ## Go maps -/

/-- Lookup of a key in an association list. -/
def alGet {V : Type} : List (String × V) → String → Option V
  | [], _ => none
  | (k, v) :: rest, key => if k = key then some v else alGet rest key

/-- Assignment `m[key] = val` on an association list: an existing entry is
overwritten where it stands, a new key is added at the end. -/
def alSet {V : Type} : List (String × V) → String → V → List (String × V)
  | [], key, val => [(key, val)]
  | (k, v) :: rest, key, val =>
    if k = key then (key, val) :: rest else (k, v) :: alSet rest key val

theorem alSet_keys {V : Type} (l : List (String × V)) (key : String) (val : V) :
    (alSet l key val).map Prod.fst =
      if key ∈ l.map Prod.fst then l.map Prod.fst else l.map Prod.fst ++ [key] := by
  induction l with
  | nil => simp [alSet]
  | cons hd tl ih =>
    obtain ⟨k, v⟩ := hd
    by_cases h : k = key
    · subst h; simp [alSet]
    · have h' : ¬ key = k := fun e => h e.symm
      simp only [alSet, h, if_false, List.map_cons, ih, List.mem_cons, h', false_or]
      split <;> simp

theorem alSet_nodup {V : Type} (l : List (String × V)) (key : String) (val : V)
    (h : (l.map Prod.fst).Nodup) : ((alSet l key val).map Prod.fst).Nodup := by
  rw [alSet_keys]
  split
  · exact h
  · rename_i hk
    rw [List.nodup_append]
    refine ⟨h, List.nodup_singleton _, ?_⟩
    intro a ha hb
    simp only [List.mem_singleton] at hb
    subst hb
    exact hk ha

theorem filter_keys_nodup {V : Type} (l : List (String × V)) (p : String × V → Bool)
    (h : (l.map Prod.fst).Nodup) : ((l.filter p).map Prod.fst).Nodup :=
  List.Nodup.sublist (List.Sublist.map _ (List.filter_sublist l)) h

/-- A Go `map[string]V`: an association list without repeated keys. -/
structure GoMap (V : Type) where
  entries : List (String × V)
  nodup : (entries.map Prod.fst).Nodup

namespace GoMap

variable {V : Type}

theorem ext_entries {a b : GoMap V} (h : a.entries = b.entries) : a = b := by
  cases a; cases b; simp only at h; subst h; rfl

instance [DecidableEq V] : DecidableEq (GoMap V) := fun a b =>
  decidable_of_iff (a.entries = b.entries) ⟨ext_entries, fun h => by rw [h]⟩

/-- The empty map, `make(map[string]V)`. -/
def empty : GoMap V := ⟨[], List.nodup_nil⟩

/-- The lookup `m[key]` with its presence flag. -/
def get? (m : GoMap V) (key : String) : Option V := alGet m.entries key

/-- The keys of the map, in list order. -/
def keys (m : GoMap V) : List String := m.entries.map Prod.fst

/-- The values of the map, in list order. -/
def values (m : GoMap V) : List V := m.entries.map Prod.snd

/-- The presence test `_, ok := m[key]`. -/
def contains (m : GoMap V) (key : String) : Bool := (m.get? key).isSome

/-- The assignment `m[key] = val`. -/
def set (m : GoMap V) (key : String) (val : V) : GoMap V :=
  ⟨alSet m.entries key val, alSet_nodup m.entries key val m.nodup⟩

/-- Keeps the entries satisfying `p`; the effect of a range loop that calls
`delete(m, k)` on the entries failing `p`. -/
def filter (m : GoMap V) (p : String → V → Bool) : GoMap V :=
  ⟨m.entries.filter (fun e => p e.1 e.2), filter_keys_nodup _ _ m.nodup⟩

end GoMap

/-! ## Records -/

/-- A parsed address, `net.IP`: its bytes. -/
structure IP where
  bytes : List Nat
deriving DecidableEq, Repr

/-- A parsed subnet, `*net.IPNet`: network number and mask. -/
structure IPNet where
  ip : List Nat
  mask : List Nat
deriving DecidableEq, Repr

/-- The resource record `dns.A`; type `A` and class `INET` are fixed. -/
structure DnsA where
  Name : String
  Ttl : Nat
  A : IP
deriving DecidableEq, Repr

/-- The resource record `dns.PTR`; type `PTR` and class `INET` are fixed. -/
structure DnsPTR where
  Name : String
  Ttl : Nat
  Ptr : String
deriving DecidableEq, Repr

/-- Go `type ARecord struct`. -/
structure ARecord where
  record : DnsA
  timestamp : Int
deriving DecidableEq, Repr

/-- Go `type PtrRecord struct`. -/
structure PtrRecord where
  record : DnsPTR
  timestamp : Int
deriving DecidableEq, Repr

/-- Go `type DnsRecords struct`. -/
structure DnsRecords where
  ARecords : GoMap ARecord
  PtrRecords : GoMap PtrRecord
deriving DecidableEq

/-- The value `DnsRecords{ARecords: make(...), PtrRecords: make(...)}`. -/
def DnsRecords.fresh : DnsRecords := ⟨GoMap.empty, GoMap.empty⟩

/-- The record map `map[string]DnsRecords`. -/
abbrev Records := GoMap DnsRecords

/-- `Duration.Seconds()`: the number of seconds, in fixed point with unit
1e-9 s, so numerically the nanosecond count itself. -/
def Seconds (d : Int) : Int := d

/-- Go `purgeStaleRecords`: `now` is the value of `time.Now()` read on entry. -/
def purgeStaleRecords (d : DnsRecords) (now : Int) (maxAgeSeconds : Int) : DnsRecords :=
  { ARecords := d.ARecords.filter
      (fun _ v => !(decide (Seconds (now - v.timestamp) > maxAgeSeconds)))
    PtrRecords := d.PtrRecords.filter
      (fun _ v => !(decide (Seconds (now - v.timestamp) > maxAgeSeconds))) }

/-! ## Inventory, configuration and state -/

/-- The fields of `omada.OmadaNetwork` read by `update.go`. -/
structure OmadaNetwork where
  Name : String
  Domain : String
  Subnet : String
  Purpose : String
deriving DecidableEq, Repr

/-- The fields of `omada.Client` read by `update.go`. -/
structure Client where
  Name : String
  MAC : String
  HostName : String
  Ip : String
deriving DecidableEq, Repr

/-- The fields of `omada.Device` read by `update.go`. -/
structure Device where
  DnsName : String
  IP : String
deriving DecidableEq, Repr

/-- The fields of `omada.DhcpReservation` read by `update.go`. -/
structure DhcpReservation where
  ClientName : String
  Mac : String
  Description : String
  IP : String
  Status : Bool
deriving DecidableEq, Repr

/-- The fields of `config` read by `update.go`. -/
structure Config where
  resolve_clients : Bool
  resolve_devices : Bool
  resolve_dhcp_reservations : Bool
  stale_record_duration : Int
  fallback : String
deriving DecidableEq, Repr

/-- Library functions and the helpers of this repository that `update.go`
calls but does not define. -/
structure Env where
  /-- The constant `ptrZone`, name of the shared reverse domain. -/
  ptrZone : String
  /-- `net.ParseIP`; `none` is the nil address. -/
  ParseIP : String → Option IP
  /-- `net.ParseCIDR`, its subnet result; `none` is an error. -/
  ParseCIDR : String → Option IPNet
  /-- `(*net.IPNet).Contains` on a non-nil address. -/
  Contains : IPNet → IP → Bool
  /-- `makeDNSSafe`. -/
  makeDNSSafe : String → String
  /-- `makeDNSSafeAllowWildcard`. -/
  makeDNSSafeAllowWildcard : String → String
  /-- `getPtrZoneFromIp`. -/
  getPtrZoneFromIp : String → String
  /-- `dns.Fqdn`. -/
  Fqdn : String → String

/-- The answers of the controller once `SetSite(s)` has selected site `s`. -/
structure Controller where
  GetNetworks : String → Except String (List OmadaNetwork)
  GetClients : String → Except String (List Client)
  GetDevices : String → Except String (List Device)
  GetDhcpReservations : String → Except String (List DhcpReservation)

/-- What one execution of `updateZones` observes of its surroundings: the
clock and the order of the range loops over domains. -/
structure Run where
  /-- `time.Now()` on line 139. -/
  timestamp : Int
  /-- `time.Now()` read by `purgeStaleRecords` when called for a domain. -/
  purgeNow : String → Int
  /-- The order of `range records` on line 256, given the keys. -/
  zoneOrder : List String → List String
  /-- The order of `range o.records` in `resolveInZones` when it is called
  for a domain, given the keys. -/
  resolveOrder : String → List String → List String
  /-- The order of `range zones` on line 279, given the keys. -/
  nameOrder : List String → List String

/-- A resource record as inserted into a zone. -/
inductive RR where
  | SOA (name : String)
  | A (r : DnsA)
  | PTR (r : DnsPTR)
deriving DecidableEq, Repr

/-- A `file.Zone`: its origin and the records inserted so far, in insertion
order (the zone is a search tree, the order carries no meaning). -/
structure Zone where
  origin : String
  rrs : List RR
deriving DecidableEq, Repr

/-- `file.NewZone(name, "")`. -/
def NewZone (name : String) : Zone := ⟨name, []⟩

/-- `(*file.Zone).Insert` without its case folding: the record is stored as it
is handed over.  The library function also sets the owner name of the record
to lower case, in place; `Zone.InsertLowering` and the definitions that follow
it model the insertion with that effect. -/
def Zone.Insert (z : Zone) (r : RR) : Zone := { z with rrs := z.rrs ++ [r] }

/-- Modelled from the spec: `addSoaRecord` is not part of the sources at hand;
it inserts the baseline authority record of the domain into the zone. -/
def addSoaRecord (z : Zone) (dnsDomain : String) : Zone := z.Insert (RR.SOA dnsDomain)

/-- The zone map `map[string]*file.Zone`. -/
abbrev Zones := GoMap Zone

/-- The fields of `Omada` used by `update.go`. -/
structure Omada where
  config : Config
  sites : List String
  zones : Zones
  zoneNames : List String
  records : Records
deriving DecidableEq

/-- How a call of `updateZones` ends. -/
inductive Result where
  | ok
  | error (msg : String)
  | nilDeref
deriving DecidableEq, Repr

/-! ## Fetching the inventory (lines 76-117) -/

/-- Whether `s` starts with `pat`. -/
def startsWithChars : List Char → List Char → Bool
  | [], _ => true
  | _ :: _, [] => false
  | p :: ps, c :: cs => p == c && startsWithChars ps cs

/-- Whether `pat` occurs in `s`. -/
def containsChars (pat : List Char) : List Char → Bool
  | [] => startsWithChars pat []
  | c :: cs => startsWithChars pat (c :: cs) || containsChars pat cs

/-- `regexp.MatchString("interface", purpose)`: the pattern has no
metacharacter, it matches where the word occurs. -/
def matchInterface (purpose : String) : Bool :=
  containsChars "interface".data purpose.data

/-- Go `getInterfaces`. -/
def getInterfaces (networks : List OmadaNetwork) : List OmadaNetwork :=
  networks.foldl
    (fun ret network => if matchInterface network.Purpose then ret ++ [network] else ret) []

/-- The local variables `networks`, `clients`, `devices`, `reservations`. -/
structure Inventory where
  networks : List OmadaNetwork
  clients : List Client
  devices : List Device
  reservations : List DhcpReservation
deriving DecidableEq, Repr

/-- The body of the loop over sites, lines 82-116. -/
def fetchSite (cfg : Config) (ctl : Controller) (inv : Inventory) (s : String) :
    Except String Inventory :=
  match ctl.GetNetworks s with
  | .error err => .error ("error getting networks from omada controller: " ++ err)
  | .ok n =>
    let inv := { inv with networks := inv.networks ++ getInterfaces n }
    match (if cfg.resolve_clients then
        (match ctl.GetClients s with
          | .error err => .error ("error getting clients from omada controller: " ++ err)
          | .ok c => .ok { inv with clients := inv.clients ++ c })
      else .ok inv : Except String Inventory) with
    | .error e => .error e
    | .ok inv =>
      match (if cfg.resolve_devices then
          (match ctl.GetDevices s with
            | .error err => .error ("error getting devices from omada controller: " ++ err)
            | .ok d => .ok { inv with devices := inv.devices ++ d })
        else .ok inv : Except String Inventory) with
      | .error e => .error e
      | .ok inv =>
        if cfg.resolve_dhcp_reservations then
          match ctl.GetDhcpReservations s with
          | .error err =>
            .error ("error getting dhcp reservations from omada controller: " ++ err)
          | .ok r => .ok { inv with reservations := inv.reservations ++ r }
        else .ok inv

/-- The loop over `o.sites`, lines 80-117. -/
def fetchInventory (cfg : Config) (ctl : Controller) : List String → Inventory →
    Except String Inventory
  | [], inv => .ok inv
  | s :: rest, inv =>
    match fetchSite cfg ctl inv s with
    | .error e => .error e
    | .ok inv => fetchInventory cfg ctl rest inv

/-! ## Record synthesis (lines 130-252) -/

/-- Applies `f` to the record set stored under `key`.  It is only used where
the key is present (it has been created on lines 133 or 154, see
`networkWrites_domain` and `ensureRecords_keys_mem`); on an absent key the Go
statement would be an assignment into a nil map. -/
def modifyRecords (records : Records) (key : String) (f : DnsRecords → DnsRecords) :
    Records :=
  match records.get? key with
  | some d => records.set key (f d)
  | none => records

/-- The statement `records[dnsDomain].ARecords[fqdn] = rec`. -/
def setARecord (records : Records) (dnsDomain fqdn : String) (rec : ARecord) : Records :=
  modifyRecords records dnsDomain (fun d => { d with ARecords := d.ARecords.set fqdn rec })

/-- The statement `records[ptrZone].PtrRecords[ptrName] = rec`. -/
def setPtrRecord (env : Env) (records : Records) (ptrName : String) (rec : PtrRecord) :
    Records :=
  modifyRecords records env.ptrZone
    (fun d => { d with PtrRecords := d.PtrRecords.set ptrName rec })

/-- Lines 131-137 and 151-158: creates the record set of a domain if absent. -/
def ensureRecords (records : Records) (key : String) : Records :=
  if records.contains key then records else records.set key DnsRecords.fresh

/-- Lines 180-193 (and their copies 202-215, 235-248): stores the forward and
the reverse record of one inventory entry. -/
def storeEntry (env : Env) (dnsDomain : String) (timestamp : Int) (records : Records)
    (fqdn : String) (ip : IP) (ipText : String) : Records :=
  let records := setARecord records dnsDomain fqdn ⟨⟨fqdn, 60, ip⟩, timestamp⟩
  let ptrName := env.getPtrZoneFromIp ipText
  setPtrRecord env records ptrName ⟨⟨ptrName, 60, env.Fqdn fqdn⟩, timestamp⟩

/-- Lines 175-178: the name of a client. -/
def clientDnsName (client : Client) : String :=
  if client.Name = client.MAC ∧ client.HostName ≠ "--" then client.HostName else client.Name

/-- Lines 230-233: the name of a reservation. -/
def reservationDnsName (reservation : DhcpReservation) : String :=
  if reservation.ClientName = reservation.Mac ∧ reservation.Description ≠ "" then
    reservation.Description
  else reservation.ClientName

/-- The body of the loop over clients, lines 167-195. -/
def processClient (env : Env) (subnet : IPNet) (dnsDomain : String) (timestamp : Int)
    (records : Records) (client : Client) : Records :=
  match env.ParseIP client.Ip with
  | none => records
  | some ip =>
    if env.Contains subnet ip then
      storeEntry env dnsDomain timestamp records
        (env.makeDNSSafe (clientDnsName client) ++ "." ++ dnsDomain) ip client.Ip
    else records

/-- The body of the loop over devices, lines 198-218.  `subnet.Contains` is
false on the nil address, so an address that does not parse stores nothing. -/
def processDevice (env : Env) (subnet : IPNet) (dnsDomain : String) (timestamp : Int)
    (records : Records) (device : Device) : Records :=
  match env.ParseIP device.IP with
  | none => records
  | some ip =>
    if env.Contains subnet ip then
      storeEntry env dnsDomain timestamp records
        (env.makeDNSSafe device.DnsName ++ "." ++ dnsDomain) ip device.IP
    else records

/-- The body of the loop over reservations, lines 221-250. -/
def processReservation (env : Env) (subnet : IPNet) (dnsDomain : String) (timestamp : Int)
    (records : Records) (reservation : DhcpReservation) : Records :=
  if !reservation.Status then records
  else
    match env.ParseIP reservation.IP with
    | none => records
    | some ip =>
      if env.Contains subnet ip then
        storeEntry env dnsDomain timestamp records
          (env.makeDNSSafeAllowWildcard (reservationDnsName reservation) ++ "." ++ dnsDomain)
          ip reservation.IP
      else records

/-- The body of the loop over networks, lines 140-252. -/
def processNetwork (env : Env) (inv : Inventory) (timestamp : Int) (records : Records)
    (network : OmadaNetwork) : Records :=
  if network.Domain = "" then records
  else
    let dnsDomain := network.Domain ++ "."
    let records := ensureRecords records dnsDomain
    match env.ParseCIDR network.Subnet with
    | none => records
    | some subnet =>
      let records := inv.clients.foldl (processClient env subnet dnsDomain timestamp) records
      let records := inv.devices.foldl (processDevice env subnet dnsDomain timestamp) records
      inv.reservations.foldl (processReservation env subnet dnsDomain timestamp) records

/-- Lines 130-252: the record map once every network has been processed. -/
def synthesize (env : Env) (inv : Inventory) (timestamp : Int) (records : Records) :
    Records :=
  inv.networks.foldl (processNetwork env inv timestamp) (ensureRecords records env.ptrZone)

/-! ## Fallback records (lines 321-387) -/

/-- Go `resolveInZones`.  `order` is the order in which this execution of
`range o.records` visits the domains; the inner loop over the forward map of
a domain compares every key with the target, which is a lookup. -/
def resolveInZones (o : Omada) (order : List String) (targetFQDN : String) : Option IP :=
  order.findSome? (fun d =>
    match o.records.get? d with
    | none => none
    | some domainRecords =>
      match domainRecords.ARecords.get? targetFQDN with
      | none => none
      | some aRecord => some aRecord.record.A)

/-- The statement `zones[key].Insert(r)`; `none` when `zones[key]` is nil. -/
def insertInto (zones : Zones) (key : String) (r : RR) : Option Zones :=
  match zones.get? key with
  | none => none
  | some z => some (zones.set key (z.Insert r))

/-- A loop of statements `zones[key].Insert(r)`, one per element. -/
def insertAll (zones : Zones) (key : String) : List RR → Option Zones
  | [] => some zones
  | r :: rest =>
    match insertInto zones key r with
    | none => none
    | some zones => insertAll zones key rest

/-- `strings.Contains(s, ".")`. -/
def containsDot (s : String) : Bool := s.data.contains '.'

/-- Lines 337-346: the name looked up for a fallback that is not an address. -/
def fallbackTarget (env : Env) (fallback dnsDomain : String) : String :=
  if containsDot fallback then env.Fqdn fallback else fallback ++ "." ++ dnsDomain

/-- Go `addFallbackRecord`.  `order` is handed on to `resolveInZones`; the
parameter `domainRecords` is not used by the Go function either. -/
def addFallbackRecord (env : Env) (o : Omada) (order : List String) (zones : Zones)
    (dnsDomain : String) (_domainRecords : DnsRecords) : Option Zones :=
  if o.config.fallback = "" then some zones
  else
    let fallbackIP : Option IP :=
      match env.ParseIP o.config.fallback with
      | some ip => some ip
      | none => resolveInZones o order (fallbackTarget env o.config.fallback dnsDomain)
    match fallbackIP with
    | none => some zones
    | some ip => insertInto zones dnsDomain (RR.A ⟨"*." ++ dnsDomain, 300, ip⟩)

/-! ## Building and publishing the zones (lines 254-290) -/

/-- The body of the loop over the record map, lines 257-274, for the key
`dnsDomain` and its value `domainRecords`.  The value is a copy of the struct
and shares its two maps with `records[dnsDomain]`, so what
`purgeStaleRecords` deletes is deleted from `o.records`. -/
def zoneLoopBody (env : Env) (run : Run) (o : Omada) (zones : Zones) (dnsDomain : String)
    (domainRecords : DnsRecords) : Omada × Option Zones :=
  let zones :=
    if zones.contains dnsDomain then zones
    else zones.set dnsDomain (addSoaRecord (NewZone dnsDomain) dnsDomain)
  let domainRecords := purgeStaleRecords domainRecords (run.purgeNow dnsDomain)
    (Seconds o.config.stale_record_duration)
  let o := { o with records := o.records.set dnsDomain domainRecords }
  match addFallbackRecord env o (run.resolveOrder dnsDomain o.records.keys) zones dnsDomain
      domainRecords with
  | none => (o, none)
  | some zones =>
    match insertAll zones dnsDomain (domainRecords.ARecords.values.map (fun v => RR.A v.record)) with
    | none => (o, none)
    | some zones =>
      (o, insertAll zones env.ptrZone
        (domainRecords.PtrRecords.values.map (fun v => RR.PTR v.record)))

/-- The loop over the record map, lines 256-275, visiting the keys `order`. -/
def zoneLoop (env : Env) (run : Run) : List String → Omada → Zones → Omada × Option Zones
  | [], o, zones => (o, some zones)
  | dnsDomain :: rest, o, zones =>
    match o.records.get? dnsDomain with
    | none => zoneLoop env run rest o zones
    | some domainRecords =>
      let step := zoneLoopBody env run o zones dnsDomain domainRecords
      match step.2 with
      | none => (step.1, none)
      | some zones => zoneLoop env run rest step.1 zones

/-- Lines 130-281 of `updateZones`: the state of `o` and the local variables
`zones` and `zoneNames` on reaching `o.zMu.Lock()`; `none` if a nil zone was
dereferenced on the way. -/
def buildCandidate (env : Env) (run : Run) (o : Omada) (inv : Inventory) :
    Omada × Option (Zones × List String) :=
  let o := { o with records := synthesize env inv run.timestamp o.records }
  let built := zoneLoop env run (run.zoneOrder o.records.keys) o GoMap.empty
  match built.2 with
  | none => (built.1, none)
  | some zones => (built.1, some (zones, run.nameOrder zones.keys))

/-- Lines 283-287: the assignments made under the lock.  The local `records`
is the map of `o.records`. -/
def publish (o : Omada) (zones : Zones) (zoneNames : List String) : Omada :=
  { o with zones := zones, zoneNames := zoneNames, records := o.records }

/-- Lines 130-290 of `updateZones`, from the fetched inventory on. -/
def applyInventory (env : Env) (run : Run) (o : Omada) (inv : Inventory) : Omada × Result :=
  let candidate := buildCandidate env run o inv
  match candidate.2 with
  | none => (candidate.1, Result.nilDeref)
  | some (zones, zoneNames) => (publish candidate.1 zones zoneNames, Result.ok)

/-- Go `updateZones`. -/
def updateZones (env : Env) (ctl : Controller) (run : Run) (o : Omada) : Omada × Result :=
  match fetchInventory o.config ctl o.sites ⟨[], [], [], []⟩ with
  | .error e => (o, Result.error e)
  | .ok inv => applyInventory env run o inv

/-! ## A concrete environment -/

/-- Splits a text at every occurrence of `sep`. -/
def splitChars (sep : Char) : List Char → List (List Char)
  | [] => [[]]
  | c :: cs =>
    if c = sep then [] :: splitChars sep cs
    else
      match splitChars sep cs with
      | [] => [[c]]
      | w :: ws => (c :: w) :: ws

/-- The value of a string of decimal digits. -/
def digitsValue : List Char → Nat → Option Nat
  | [], acc => some acc
  | c :: cs, acc => if c.isDigit then digitsValue cs (acc * 10 + (c.toNat - 48)) else none

/-- One decimal field of a dotted address: one to three digits, no leading
zero, at most 255. -/
def parseOctet (cs : List Char) : Option Nat :=
  if cs = [] ∨ 3 < cs.length ∨ (cs.head? = some '0' ∧ 1 < cs.length) then none
  else (digitsValue cs 0).bind (fun n => if n ≤ 255 then some n else none)

/-- `net.ParseIP` on dotted-quad IPv4 text (IPv6 text is not covered). -/
def parseIPv4 (s : String) : Option IP :=
  match (splitChars '.' s.data).mapM parseOctet with
  | some [a, b, c, d] => some ⟨[a, b, c, d]⟩
  | _ => none

/-- The mask bytes of a prefix length. -/
def maskBytes (ones : Nat) : List Nat :=
  (List.range 4).map (fun i => 256 - 2 ^ (8 - min 8 (ones - 8 * i)))

/-- `net.ParseCIDR` on IPv4 text `a.b.c.d/n`. -/
def parseCIDRv4 (s : String) : Option IPNet :=
  match splitChars '/' s.data with
  | [addr, len] =>
    match parseIPv4 (String.mk addr), digitsValue len 0 with
    | some ip, some n =>
      if len = [] ∨ 32 < n then none
      else some ⟨List.zipWith (fun b m => b - b % (256 - m)) ip.bytes (maskBytes n), maskBytes n⟩
    | _, _ => none
  | _ => none

/-- `(*net.IPNet).Contains` for IPv4. -/
def containsV4 (n : IPNet) (ip : IP) : Bool :=
  ip.bytes.length = n.ip.length ∧
    List.zipWith (fun b m => b - b % (256 - m)) ip.bytes n.mask = n.ip

/-- Joins texts with a separator. -/
def joinChars (sep : Char) : List (List Char) → List Char
  | [] => []
  | [w] => w
  | w :: ws => w ++ sep :: joinChars sep ws

/-- Modelled from the spec: `makeDNSSafe` is not part of the sources at hand;
characters illegal in a DNS label are replaced by a hyphen. -/
def stdMakeDNSSafe (s : String) : String :=
  String.mk (s.data.map (fun c => if c.isAlphanum ∨ c = '-' then c else '-'))

/-- Modelled from the spec: `makeDNSSafeAllowWildcard` is not part of the
sources at hand; like `makeDNSSafe` but a wildcard label is permitted. -/
def stdMakeDNSSafeAllowWildcard (s : String) : String :=
  String.mk (s.data.map (fun c => if c.isAlphanum ∨ c = '-' ∨ c = '*' ∨ c = '.' then c else '-'))

/-- Modelled from the spec: `getPtrZoneFromIp` is not part of the sources at
hand; the standard reverse-lookup name of an IPv4 address. -/
def stdGetPtrZoneFromIp (ip : String) : String :=
  String.mk (joinChars '.' (splitChars '.' ip.data).reverse) ++ ".in-addr.arpa."

/-- `dns.Fqdn` on names without escapes: adds the final dot if it is missing. -/
def stdFqdn (s : String) : String :=
  if s.data.getLast? = some '.' then s else s ++ "."

/-- An environment for IPv4 inventories, used to run the embedding. -/
def stdEnv : Env where
  ptrZone := "in-addr.arpa."
  ParseIP := parseIPv4
  ParseCIDR := parseCIDRv4
  Contains := containsV4
  makeDNSSafe := stdMakeDNSSafe
  makeDNSSafeAllowWildcard := stdMakeDNSSafeAllowWildcard
  getPtrZoneFromIp := stdGetPtrZoneFromIp
  Fqdn := stdFqdn

/-- A run in which maps are ranged over in list order, the cycle is stamped at
time `t` and every purge reads the clock at `t + 1`. -/
def stdRun (t : Int) : Run where
  timestamp := t
  purgeNow := fun _ => t + 1
  zoneOrder := id
  resolveOrder := fun _ => id
  nameOrder := id

/-- A controller that serves one inventory for every site. -/
def constController (inv : Inventory) : Controller where
  GetNetworks := fun _ => .ok inv.networks
  GetClients := fun _ => .ok inv.clients
  GetDevices := fun _ => .ok inv.devices
  GetDhcpReservations := fun _ => .ok inv.reservations

/-- The state of a new `Omada`: nothing published, empty record map. -/
def newOmada (config : Config) (sites : List String) : Omada :=
  ⟨config, sites, GoMap.empty, [], GoMap.empty⟩

/-! ## Lookups in the record map -/

/-- The forward record stored under key `k` in the record set of domain `d`. -/
def fwdAt (records : Records) (d k : String) : Option ARecord :=
  match records.get? d with
  | none => none
  | some dr => dr.ARecords.get? k

/-- The reverse record stored under key `k` in the record set of domain `d`. -/
def revAt (records : Records) (d k : String) : Option PtrRecord :=
  match records.get? d with
  | none => none
  | some dr => dr.PtrRecords.get? k

/-! ## The writes of a cycle -/

/-- One execution of lines 180-193 (or 202-215, 235-248): the domain, the
forward name, the parsed address and the address text of the entry stored. -/
structure Write where
  dnsDomain : String
  fqdn : String
  ip : IP
  ipText : String
deriving DecidableEq, Repr

/-- The forward record stored by a write. -/
def Write.aRecord (timestamp : Int) (w : Write) : ARecord :=
  ⟨⟨w.fqdn, 60, w.ip⟩, timestamp⟩

/-- The reverse key of a write. -/
def Write.ptrName (env : Env) (w : Write) : String := env.getPtrZoneFromIp w.ipText

/-- The reverse record stored by a write. -/
def Write.ptrRecord (env : Env) (timestamp : Int) (w : Write) : PtrRecord :=
  ⟨⟨w.ptrName env, 60, env.Fqdn w.fqdn⟩, timestamp⟩

/-- The write made for a client while a network is processed, if any. -/
def clientWrite (env : Env) (subnet : IPNet) (dnsDomain : String) (client : Client) :
    Option Write :=
  match env.ParseIP client.Ip with
  | none => none
  | some ip =>
    if env.Contains subnet ip then
      some ⟨dnsDomain, env.makeDNSSafe (clientDnsName client) ++ "." ++ dnsDomain, ip, client.Ip⟩
    else none

/-- The write made for a device while a network is processed, if any. -/
def deviceWrite (env : Env) (subnet : IPNet) (dnsDomain : String) (device : Device) :
    Option Write :=
  match env.ParseIP device.IP with
  | none => none
  | some ip =>
    if env.Contains subnet ip then
      some ⟨dnsDomain, env.makeDNSSafe device.DnsName ++ "." ++ dnsDomain, ip, device.IP⟩
    else none

/-- The write made for a reservation while a network is processed, if any. -/
def reservationWrite (env : Env) (subnet : IPNet) (dnsDomain : String)
    (reservation : DhcpReservation) : Option Write :=
  if !reservation.Status then none
  else
    match env.ParseIP reservation.IP with
    | none => none
    | some ip =>
      if env.Contains subnet ip then
        some ⟨dnsDomain,
          env.makeDNSSafeAllowWildcard (reservationDnsName reservation) ++ "." ++ dnsDomain,
          ip, reservation.IP⟩
      else none

/-- The writes made while one network is processed, in the order of the code:
clients, then devices, then reservations. -/
def networkWrites (env : Env) (inv : Inventory) (network : OmadaNetwork) : List Write :=
  if network.Domain = "" then []
  else
    match env.ParseCIDR network.Subnet with
    | none => []
    | some subnet =>
      inv.clients.filterMap (clientWrite env subnet (network.Domain ++ ".")) ++
      inv.devices.filterMap (deviceWrite env subnet (network.Domain ++ ".")) ++
      inv.reservations.filterMap (reservationWrite env subnet (network.Domain ++ "."))

/-- The writes of a cycle, network by network. -/
def cycleWrites (env : Env) (inv : Inventory) : List Write :=
  inv.networks.flatMap (networkWrites env inv)

/-- The effect of one write on the record map. -/
def applyWrite (env : Env) (timestamp : Int) (records : Records) (w : Write) : Records :=
  storeEntry env w.dnsDomain timestamp records w.fqdn w.ip w.ipText

/-- The forward record under key `k` of domain `d` once the writes `ws` have
been made over a record `base`: the last write to that key wins. -/
def fwdOverlay (timestamp : Int) (ws : List Write) (d k : String) (base : Option ARecord) :
    Option ARecord :=
  ws.foldl (fun acc w => if w.dnsDomain = d ∧ w.fqdn = k then some (w.aRecord timestamp) else acc)
    base

/-- The reverse record under key `k` once the writes `ws` have been made over a
record `base`: the last write to that key wins. -/
def revOverlay (env : Env) (timestamp : Int) (ws : List Write) (k : String)
    (base : Option PtrRecord) : Option PtrRecord :=
  ws.foldl (fun acc w => if w.ptrName env = k then some (w.ptrRecord env timestamp) else acc) base

/-- The record sets hold what `updateZones` stores: every record is named by
its key and has TTL 60, and reverse records are in the shared reverse domain. -/
def RecordsWF (env : Env) (records : Records) : Prop :=
  (∀ d k v, fwdAt records d k = some v → v.record.Name = k ∧ v.record.Ttl = 60) ∧
  (∀ d k v, revAt records d k = some v →
    d = env.ptrZone ∧ v.record.Name = k ∧ v.record.Ttl = 60)

/-- The range orders of a run are orders of the keys they are given, and the
clock does not run backwards. -/
def Run.Valid (run : Run) : Prop :=
  (∀ l, (run.zoneOrder l).Perm l) ∧ (∀ d l, (run.resolveOrder d l).Perm l) ∧
  (∀ l, (run.nameOrder l).Perm l) ∧ (∀ d, run.timestamp ≤ run.purgeNow d)

/-! ## Auxiliary definitions for the statements and proofs -/

/-- An inventory call that `updateZones` makes for site `s` fails. -/
def callFails (cfg : Config) (ctl : Controller) (s : String) : Prop :=
  (∃ e, ctl.GetNetworks s = .error e) ∨
  (cfg.resolve_clients = true ∧ ∃ e, ctl.GetClients s = .error e) ∨
  (cfg.resolve_devices = true ∧ ∃ e, ctl.GetDevices s = .error e) ∨
  (cfg.resolve_dhcp_reservations = true ∧ ∃ e, ctl.GetDhcpReservations s = .error e)

/-- Lines 143-158 for one network: the record set of its domain is created. -/
def ensureNetwork (records : Records) (network : OmadaNetwork) : Records :=
  if network.Domain = "" then records else ensureRecords records (network.Domain ++ ".")

/-- What a purge at time `now` leaves of a forward record. -/
def keepA (now maxAge : Int) : Option ARecord → Option ARecord
  | none => none
  | some v => if Seconds (now - v.timestamp) > maxAge then none else some v

/-- What a purge at time `now` leaves of a reverse record. -/
def keepP (now maxAge : Int) : Option PtrRecord → Option PtrRecord
  | none => none
  | some v => if Seconds (now - v.timestamp) > maxAge then none else some v

/-- The record `rr` may stand in the zone of domain `d`: it is the authority
record of `d`, a wildcard of `d`, the forward record of an entry of the record
set of `d` that a purge keeps, or, in the shared reverse zone, the reverse
record of an entry of some record set that a purge keeps. -/
def RROk (env : Env) (run : Run) (maxAge : Int) (records : Records) (d : String) (rr : RR) :
    Prop :=
  rr = RR.SOA d ∨ (∃ ip, rr = RR.A ⟨"*." ++ d, 300, ip⟩) ∨
  (∃ k v, fwdAt records d k = some v ∧ rr = RR.A v.record ∧
    ¬ Seconds (run.purgeNow d - v.timestamp) > maxAge) ∨
  (d = env.ptrZone ∧ ∃ dom k v, revAt records dom k = some v ∧ rr = RR.PTR v.record ∧
    ¬ Seconds (run.purgeNow dom - v.timestamp) > maxAge)

/-- Every record of every zone may stand there. -/
def ZonesOk (env : Env) (run : Run) (maxAge : Int) (records : Records) (zones : Zones) : Prop :=
  ∀ d z, zones.get? d = some z → ∀ rr ∈ z.rrs, RROk env run maxAge records d rr

/-- The zone map with which the body of the zone loop starts for a domain:
lines 257-262. -/
def withZone (zones : Zones) (dnsDomain : String) : Zones :=
  if zones.contains dnsDomain then zones
  else zones.set dnsDomain (addSoaRecord (NewZone dnsDomain) dnsDomain)

/-- The state with no fallback configured. -/
def noFallback (o : Omada) : Omada := { o with config := { o.config with fallback := "" } }

/-- The zone maps have the same keys and every zone of the first holds one
record more than the zone of the second. -/
def ZonesPlusOne (zones zones0 : Zones) : Prop :=
  zones.keys = zones0.keys ∧
  ∀ d z0, zones0.get? d = some z0 →
    ∃ z, zones.get? d = some z ∧ z.rrs.length = z0.rrs.length + 1

/-- The zone loop of a cycle: lines 254-275 run on the synthesized record map. -/
def cycleLoop (env : Env) (run : Run) (o : Omada) (inv : Inventory) : Omada × Option Zones :=
  zoneLoop env run (run.zoneOrder (synthesize env inv run.timestamp o.records).keys)
    { o with records := synthesize env inv run.timestamp o.records } GoMap.empty

/-- Only the record set of the shared reverse domain holds reverse records. -/
def PtrOnlyInPtrZone (env : Env) (records : Records) : Prop :=
  ∀ d k v, revAt records d k = some v → d = env.ptrZone

/-- Every zone of the map is the zone of its key: it has the key as origin and
the authority record of the key as first record. -/
def ZonesNamed (zones : Zones) : Prop :=
  ∀ d z, zones.get? d = some z → z.origin = d ∧ z.rrs.head? = some (RR.SOA d)

/-- The networks that a successful fetch for one site adds. -/
def siteInterfaces (ctl : Controller) (s : String) : List OmadaNetwork :=
  match ctl.GetNetworks s with
  | .ok n => getInterfaces n
  | .error _ => []

/-! ## Parsing the configuration (config.go) -/

/-- Go `type config struct` of `config.go`; durations are in nanoseconds. -/
structure config where
  Controller_url : String
  Site : String
  Username : String
  Password : String
  refresh_minutes : Int
  refresh_login_hours : Int
  resolve_clients : Bool
  resolve_devices : Bool
  resolve_dhcp_reservations : Bool
  stale_record_duration : Int
  ignore_startup_errors : Bool
  fallback : String
deriving DecidableEq, Repr

/-- The library functions called by `parse`: `strconv.Atoi`,
`strconv.ParseBool`, `time.ParseDuration` and the struct validator, which
returns its complaint, if any. -/
structure ParseLib where
  Atoi : String → Option Int
  ParseBool : String → Option Bool
  ParseDuration : String → Option Int
  validate : config → Option String

/-- The errors returned by `parse`: `c.ArgErr()`, `c.Errf(format, arg)` and the
error of the validator. -/
inductive ParseError where
  | ArgErr
  | Errf (format : String) (arg : String)
  | invalid (msg : String)
deriving DecidableEq, Repr

/-- The character class `[a-zA-Z0-9.-]`. -/
def fallbackChar (c : Char) : Bool := c.isAlphanum || c == '.' || c == '-'

/-- `validChars.MatchString`, for the expression `^[a-zA-Z0-9.-]+$`. -/
def validChars (s : String) : Bool := !s.data.isEmpty && s.data.all fallbackChar

/-- `noConsecutiveDots.MatchString`, for the expression `\.\.`. -/
def noConsecutiveDots (s : String) : Bool := containsChars ['.', '.'] s.data

/-- `invalidLabels.MatchString`, for the expression `(^|\.)-|-(\.|$)`: a
hyphen at the start of the text or after a dot, or a hyphen before a dot or at
the end of the text. -/
def invalidLabels (s : String) : Bool :=
  startsWithChars ['-'] s.data || containsChars ['.', '-'] s.data ||
    containsChars ['-', '.'] s.data || s.data.getLast? == some '-'

/-- The `fallback` case of `parse` once the argument is read, lines 135-157;
`len` is the length in bytes. -/
def parseFallback (cfg : config) (fallbackValue : String) : config × Option ParseError :=
  if fallbackValue.utf8ByteSize > 253 then
    (cfg, some (.Errf "fallback too long (max 253 characters): %q" fallbackValue))
  else if fallbackValue.utf8ByteSize > 0 ∧
      (!validChars fallbackValue || noConsecutiveDots fallbackValue ||
        invalidLabels fallbackValue) = true then
    (cfg, some (.Errf "fallback contains invalid characters: %q" fallbackValue))
  else ({ cfg with fallback := fallbackValue }, none)

/-- One round of the `switch` of `parse`, lines 42-161: `property` is `c.Val()`
and `arg` is the value read by `c.NextArg()`, if there is one. A failed
conversion assigns the zero value before the error is returned. -/
def parseProperty (lib : ParseLib) (cfg : config) (property : String) (arg : Option String) :
    config × Option ParseError :=
  if property = "controller_url" then
    match arg with
    | none => (cfg, some .ArgErr)
    | some v => ({ cfg with Controller_url := v }, none)
  else if property = "site" then
    match arg with
    | none => (cfg, some .ArgErr)
    | some v => ({ cfg with Site := v }, none)
  else if property = "username" then
    match arg with
    | none => (cfg, some .ArgErr)
    | some v => ({ cfg with Username := v }, none)
  else if property = "password" then
    match arg with
    | none => (cfg, some .ArgErr)
    | some v => ({ cfg with Password := v }, none)
  else if property = "refresh_minutes" then
    match arg with
    | none => (cfg, some .ArgErr)
    | some v =>
      match lib.Atoi v with
      | none => ({ cfg with refresh_minutes := 0 }, some .ArgErr)
      | some n => ({ cfg with refresh_minutes := n }, none)
  else if property = "refresh_login_hours" then
    match arg with
    | none => (cfg, some .ArgErr)
    | some v =>
      match lib.Atoi v with
      | none => ({ cfg with refresh_login_hours := 0 }, some .ArgErr)
      | some n => ({ cfg with refresh_login_hours := n }, none)
  else if property = "resolve_clients" then
    match arg with
    | none => (cfg, some .ArgErr)
    | some v =>
      match lib.ParseBool v with
      | none => ({ cfg with resolve_clients := false }, some .ArgErr)
      | some b => ({ cfg with resolve_clients := b }, none)
  else if property = "resolve_devices" then
    match arg with
    | none => (cfg, some .ArgErr)
    | some v =>
      match lib.ParseBool v with
      | none => ({ cfg with resolve_devices := false }, some .ArgErr)
      | some b => ({ cfg with resolve_devices := b }, none)
  else if property = "resolve_dhcp_reservations" then
    match arg with
    | none => (cfg, some .ArgErr)
    | some v =>
      match lib.ParseBool v with
      | none => ({ cfg with resolve_dhcp_reservations := false }, some .ArgErr)
      | some b => ({ cfg with resolve_dhcp_reservations := b }, none)
  else if property = "stale_record_duration" then
    match arg with
    | none => (cfg, some .ArgErr)
    | some v =>
      match lib.ParseDuration v with
      | none => ({ cfg with stale_record_duration := 0 }, some .ArgErr)
      | some d => ({ cfg with stale_record_duration := d }, none)
  else if property = "ignore_startup_errors" then
    match arg with
    | none => (cfg, some .ArgErr)
    | some v =>
      match lib.ParseBool v with
      | none => ({ cfg with ignore_startup_errors := false }, some .ArgErr)
      | some b => ({ cfg with ignore_startup_errors := b }, none)
  else if property = "fallback" then
    match arg with
    | none => (cfg, some .ArgErr)
    | some v => parseFallback cfg v
  else (cfg, some (.Errf "unknown property: %q" property))

/-- The rounds of `for c.NextBlock()` over the tokens of one line of the
block: `c.NextBlock()` takes the next token as the property and `c.NextArg()`
the token after it on the same line. -/
def parseTokens (lib : ParseLib) : config → List String → config × Option ParseError
  | cfg, [] => (cfg, none)
  | cfg, [property] => parseProperty lib cfg property none
  | cfg, property :: arg :: rest =>
    let step := parseProperty lib cfg property (some arg)
    match step.2 with
    | some e => (step.1, some e)
    | none => parseTokens lib step.1 rest

/-- The rounds of `for c.NextBlock()` over the lines of one block. -/
def parseLines (lib : ParseLib) : config → List (List String) → config × Option ParseError
  | cfg, [] => (cfg, none)
  | cfg, line :: rest =>
    let step := parseTokens lib cfg line
    match step.2 with
    | some e => (step.1, some e)
    | none => parseLines lib step.1 rest

/-- The rounds of `for c.Next()` over the blocks of the directive. -/
def parseBlocks (lib : ParseLib) : config → List (List (List String)) →
    config × Option ParseError
  | cfg, [] => (cfg, none)
  | cfg, block :: rest =>
    let step := parseLines lib cfg block
    match step.2 with
    | some e => (step.1, some e)
    | none => parseBlocks lib step.1 rest

/-- The configuration before the first property is read, lines 31-37. -/
def defaultConfig : config :=
  ⟨"", "", "", "", 1, 24, true, true, true, 600000000000, false, ""⟩

/-- Go `parse`: the blocks of the directive are given as lines of tokens. -/
def parse (lib : ParseLib) (blocks : List (List (List String))) : config × Option ParseError :=
  let step := parseBlocks lib defaultConfig blocks
  match step.2 with
  | some e => (step.1, some e)
  | none =>
    match lib.validate step.1 with
    | some msg => (step.1, some (.invalid msg))
    | none => (step.1, none)

/-- A label as the claim describes it: not empty, made of letters, digits and
hyphens, with no hyphen at either end. -/
def validLabel (l : List Char) : Bool :=
  !l.isEmpty && l.all (fun c => c.isAlphanum || c == '-') && l.head? != some '-' &&
    l.getLast? != some '-'

/-- A hostname as the claim describes it: every label between the dots is a
valid label. -/
def validHostname (s : String) : Bool := (splitChars '.' s.data).all validLabel

/-- The labels but the first and the last. -/
def innerLabels (ls : List (List Char)) : List (List Char) := ls.tail.dropLast

/-- A hostname that may begin or end with a dot: every label is valid, except
that the first and the last label may be empty. -/
def dottedName (s : String) : Bool :=
  (splitChars '.' s.data).all (fun l => l.isEmpty || validLabel l) &&
    (innerLabels (splitChars '.' s.data)).all validLabel

/-- A library for running `parse`: decimal integers without sign, the two
words `true` and `false`, durations in whole seconds written `<n>s`, and a
validator that asks for the four required fields. -/
def stdParseLib : ParseLib where
  Atoi := fun s => if s.data = [] then none else (digitsValue s.data 0).map Int.ofNat
  ParseBool := fun s => if s = "true" then some true else if s = "false" then some false else none
  ParseDuration := fun s =>
    match s.data.reverse with
    | 's' :: ds => if ds = [] then none
      else (digitsValue ds.reverse 0).map (fun n => Int.ofNat n * 1000000000)
    | _ => none
  validate := fun cfg =>
    if cfg.Controller_url = "" ∨ cfg.Site = "" ∨ cfg.Username = "" ∨ cfg.Password = "" then
      some "required"
    else none

/-- A block that sets the four required fields and the fallback. -/
def sampleBlock (fallback : String) : List (List (List String)) :=
  [[["controller_url", "https://10.0.0.2"], ["site", "Default"], ["username", "dns"],
    ["password", "secret"], ["fallback", fallback]]]

/-- No dot is followed by a dot or a hyphen and no hyphen is followed by a dot. -/
def GoodPair (x y : Char) : Prop :=
  (x = '.' → y ≠ '.' ∧ y ≠ '-') ∧ (x = '-' → y ≠ '.')

/-- The shape that the three expressions of the `fallback` case ask of a text. -/
def FallbackShape (cs : List Char) : Prop :=
  (∀ c ∈ cs, fallbackChar c = true) ∧ List.Chain' GoodPair cs ∧ cs.head? ≠ some '-' ∧
    cs.getLast? ≠ some '-'

/-- The shape of what follows a dot in such a text. -/
def AfterDotShape (cs : List Char) : Prop :=
  FallbackShape cs ∧ cs.head? ≠ some '.'

/-- The labels after a dot: each is valid, except that the last may be empty. -/
def afterDot : List (List Char) → Bool
  | [] => true
  | [w] => w.isEmpty || validLabel w
  | w :: ws => validLabel w && afterDot ws

/-- What `parse` may leave in the `fallback` field. -/
def FallbackStored (cfg : config) : Prop :=
  cfg.fallback.utf8ByteSize ≤ 253 ∧ FallbackShape cfg.fallback.data

/-- The zone found under key `x` once the records `rrs` have been inserted
into the zone of `key`, given the zone `z` found there before. -/
def appendAt (key : String) (rrs : List RR) (x : String) (z : Option Zone) : Option Zone :=
  if key = x then z.map (fun z => { z with rrs := z.rrs ++ rrs }) else z

/-- The wildcard record of a domain. -/
def wildcardRR (d : String) (ip : IP) : RR := RR.A ⟨"*." ++ d, 300, ip⟩

/-- The forward records of a record set as inserted into its zone. -/
def forwardRRs (dr : DnsRecords) : List RR := dr.ARecords.values.map (fun v => RR.A v.record)

/-- The reverse records of a record set as inserted into the reverse zone. -/
def reverseRRs (dr : DnsRecords) : List RR := dr.PtrRecords.values.map (fun v => RR.PTR v.record)

/-! ## The case folding of `(*file.Zone).Insert`

`Insert` sets the owner name of the record it is handed to lower case, in
place, before it stores the record.  The records that lines 268-273 hand to it
are the ones the record map points to, so a round of the zone loop also folds
the owner names held in the record set of its domain.  The definitions of this
section repeat lines 254-290 with that effect, `strings.ToLower` being the
parameter `lower`. -/

/-- The record with its owner name set to lower case. -/
def RR.lowerName (lower : String → String) : RR → RR
  | RR.SOA name => RR.SOA (lower name)
  | RR.A r => RR.A { r with Name := lower r.Name }
  | RR.PTR r => RR.PTR { r with Name := lower r.Name }

/-- The forward entry once the record it points to has been handed to
`Insert`. -/
def ARecord.lowerName (lower : String → String) (v : ARecord) : ARecord :=
  { v with record := { v.record with Name := lower v.record.Name } }

/-- The reverse entry once the record it points to has been handed to
`Insert`. -/
def PtrRecord.lowerName (lower : String → String) (v : PtrRecord) : PtrRecord :=
  { v with record := { v.record with Name := lower v.record.Name } }

theorem map_keys_nodup {V W : Type} (l : List (String × V)) (f : String → V → W)
    (h : (l.map Prod.fst).Nodup) : ((l.map (fun e => (e.1, f e.1 e.2))).map Prod.fst).Nodup := by
  rw [List.map_map]
  exact h

/-- The map with every value `v` under a key `k` replaced by `f k v`. -/
def GoMap.mapValues {V W : Type} (m : GoMap V) (f : String → V → W) : GoMap W :=
  ⟨m.entries.map (fun e => (e.1, f e.1 e.2)), map_keys_nodup _ _ m.nodup⟩

/-- The record set once every record it points to has been handed to
`Insert`. -/
def DnsRecords.lowerNames (lower : String → String) (dr : DnsRecords) : DnsRecords :=
  ⟨dr.ARecords.mapValues (fun _ v => v.lowerName lower),
   dr.PtrRecords.mapValues (fun _ v => v.lowerName lower)⟩

/-- `(*file.Zone).Insert` with its case folding: the record is stored under
its owner name in lower case. -/
def Zone.InsertLowering (lower : String → String) (z : Zone) (r : RR) : Zone :=
  { z with rrs := z.rrs ++ [r.lowerName lower] }

/-- Modelled from the spec: `addSoaRecord` is not part of the sources at hand;
it inserts the baseline authority record of the domain into the zone. -/
def addSoaRecordLowering (lower : String → String) (z : Zone) (dnsDomain : String) : Zone :=
  z.InsertLowering lower (RR.SOA dnsDomain)

/-- The statement `zones[key].Insert(r)` with the case folding; `none` when
`zones[key]` is nil. -/
def insertIntoLowering (lower : String → String) (zones : Zones) (key : String) (r : RR) :
    Option Zones :=
  match zones.get? key with
  | none => none
  | some z => some (zones.set key (z.InsertLowering lower r))

/-- A loop of statements `zones[key].Insert(r)` with the case folding, one per
element. -/
def insertAllLowering (lower : String → String) (zones : Zones) (key : String) :
    List RR → Option Zones
  | [] => some zones
  | r :: rest =>
    match insertIntoLowering lower zones key r with
    | none => none
    | some zones => insertAllLowering lower zones key rest

/-- Go `addFallbackRecord` with the case folding of `Insert`. -/
def addFallbackRecordLowering (lower : String → String) (env : Env) (o : Omada)
    (order : List String) (zones : Zones) (dnsDomain : String) (_domainRecords : DnsRecords) :
    Option Zones :=
  if o.config.fallback = "" then some zones
  else
    let fallbackIP : Option IP :=
      match env.ParseIP o.config.fallback with
      | some ip => some ip
      | none => resolveInZones o order (fallbackTarget env o.config.fallback dnsDomain)
    match fallbackIP with
    | none => some zones
    | some ip => insertIntoLowering lower zones dnsDomain (RR.A ⟨"*." ++ dnsDomain, 300, ip⟩)

/-- The body of the loop over the record map, lines 257-274, with the case
folding of `Insert`, when it runs to its end: the state and the zone map after
the round; `none` if a nil zone is dereferenced.  When the round is through,
every record of the purged record set has been handed to `Insert`. -/
def zoneLoopBodyLowering (lower : String → String) (env : Env) (run : Run) (o : Omada)
    (zones : Zones) (dnsDomain : String) (domainRecords : DnsRecords) : Option (Omada × Zones) :=
  let zones :=
    if zones.contains dnsDomain then zones
    else zones.set dnsDomain (addSoaRecordLowering lower (NewZone dnsDomain) dnsDomain)
  let domainRecords := purgeStaleRecords domainRecords (run.purgeNow dnsDomain)
    (Seconds o.config.stale_record_duration)
  let o := { o with records := o.records.set dnsDomain domainRecords }
  match addFallbackRecordLowering lower env o (run.resolveOrder dnsDomain o.records.keys) zones
      dnsDomain domainRecords with
  | none => none
  | some zones =>
    match insertAllLowering lower zones dnsDomain
        (domainRecords.ARecords.values.map (fun v => RR.A v.record)) with
    | none => none
    | some zones =>
      match insertAllLowering lower zones env.ptrZone
          (domainRecords.PtrRecords.values.map (fun v => RR.PTR v.record)) with
      | none => none
      | some zones =>
        some ({ o with records := o.records.set dnsDomain (domainRecords.lowerNames lower) },
          zones)

/-- The loop over the record map, lines 256-275, with the case folding of
`Insert`, visiting the keys `order`. -/
def zoneLoopLowering (lower : String → String) (env : Env) (run : Run) :
    List String → Omada → Zones → Option (Omada × Zones)
  | [], o, zones => some (o, zones)
  | dnsDomain :: rest, o, zones =>
    match o.records.get? dnsDomain with
    | none => zoneLoopLowering lower env run rest o zones
    | some domainRecords =>
      match zoneLoopBodyLowering lower env run o zones dnsDomain domainRecords with
      | none => none
      | some step => zoneLoopLowering lower env run rest step.1 step.2

/-- Lines 130-290 of `updateZones`, from the fetched inventory on, with the
case folding of `Insert`: the state after a cycle that runs to its end; `none`
if a nil zone is dereferenced. -/
def applyInventoryLowering (lower : String → String) (env : Env) (run : Run) (o : Omada)
    (inv : Inventory) : Option Omada :=
  let o := { o with records := synthesize env inv run.timestamp o.records }
  match zoneLoopLowering lower env run (run.zoneOrder o.records.keys) o GoMap.empty with
  | none => none
  | some built => some (publish built.1 built.2 (run.nameOrder built.2.keys))

/-- `strings.ToLower` on ASCII text. -/
def stdToLower (s : String) : String := String.mk (s.data.map Char.toLower)

/-! ## Auxiliary definitions for the case folding and the fallback lookup -/

/-- The zone with the owner name of every record in lower case. -/
def Zone.lowerNames (lower : String → String) (z : Zone) : Zone :=
  { z with rrs := z.rrs.map (RR.lowerName lower) }

/-- The state with the owner names of the records of its record map and of
its zones in lower case. -/
def Omada.lowerNames (lower : String → String) (o : Omada) : Omada :=
  { o with
    zones := o.zones.mapValues (fun _ z => z.lowerNames lower)
    records := o.records.mapValues (fun _ dr => dr.lowerNames lower) }

/-- The record map in which the record sets of the domains outside `order`
have their owner names in lower case. -/
def lowerExcept (lower : String → String) (order : List String) (records : Records) : Records :=
  records.mapValues (fun d dr => if d ∈ order then dr else dr.lowerNames lower)

/-- The wildcard that `addFallbackRecord` inserts into the zone of a domain for
the address that its lookup returned: none when nothing was found. -/
def lookupWild (d : String) : Option IP → List RR
  | none => []
  | some a => [wildcardRR d a]

/-! ## Sample data -/

/-- A configuration with every source enabled, records kept for five minutes
and no fallback. -/
def sampleConfig : Config := ⟨true, true, true, 300000000000, ""⟩

/-- One client-facing network with domain `omada.home`, two clients, an enabled
reservation at the address of the first client and a disabled reservation. -/
def sampleInventory : Inventory :=
  ⟨[⟨"LAN", "omada.home", "10.0.0.0/24", "interface"⟩],
   [⟨"client-001", "AA-BB-CC-00-00-01", "--", "10.0.0.101"⟩,
    ⟨"win10-vm", "AA-BB-CC-00-00-02", "--", "10.0.0.102"⟩],
   [],
   [⟨"client-01", "AA-BB-CC-00-00-01", "", "10.0.0.101", true⟩,
    ⟨"disabled-dhcp-01", "AA-BB-CC-00-00-03", "", "10.0.0.120", false⟩]⟩

/-- The sample inventory with one more client. -/
def sampleInventory2 : Inventory :=
  { sampleInventory with
    clients := sampleInventory.clients ++ [⟨"client-002", "AA-BB-CC-00-00-04", "--", "10.0.0.103"⟩] }

/-- Two client-facing networks that share the domain `omada.home`, a client
named `host` in the second and an enabled reservation named `host` in the
first. -/
def twoLanInventory : Inventory :=
  ⟨[⟨"LAN-B", "omada.home", "10.0.1.0/24", "interface"⟩,
    ⟨"LAN-A", "omada.home", "10.0.0.0/24", "interface"⟩],
   [⟨"host", "AA-BB-CC-00-00-05", "--", "10.0.0.5"⟩],
   [],
   [⟨"host", "AA-BB-CC-00-00-06", "", "10.0.1.5", true⟩]⟩

/-- One network, a client named `printer` and two enabled reservations named
`printer` with different addresses. -/
def twoReservationInventory : Inventory :=
  ⟨[⟨"LAN", "omada.home", "10.0.0.0/24", "interface"⟩],
   [⟨"printer", "AA-BB-CC-00-00-07", "--", "10.0.0.50"⟩],
   [],
   [⟨"printer", "AA-BB-CC-00-00-07", "", "10.0.0.50", true⟩,
    ⟨"printer", "AA-BB-CC-00-00-08", "", "10.0.0.51", true⟩]⟩

/-- The sample configuration with `stale_record_duration` set to zero. -/
def zeroRetentionConfig : Config := { sampleConfig with stale_record_duration := 0 }

/-- The state published by a first cycle over the sample inventory. -/
def samplePublished : Omada :=
  (updateZones stdEnv (constController sampleInventory) (stdRun 0)
    (newOmada sampleConfig ["Default"])).1

/-- The state published by a first cycle, stamped at time 0, over the sample
inventory with the additional client. -/
def samplePublished2 : Omada :=
  (updateZones stdEnv (constController sampleInventory2) (stdRun 0)
    (newOmada sampleConfig ["Default"])).1

/-- The state published by the first sample cycle, with a fallback target
configured. -/
def sampleWithFallback (fallback : String) : Omada :=
  { samplePublished with config := { sampleConfig with fallback := fallback } }

/-- A zone map holding the zone of `omada.home.` with its authority record. -/
def sampleZones : Zones :=
  GoMap.empty.set "omada.home." (addSoaRecord (NewZone "omada.home.") "omada.home.")

/-- The sample inventory with, in addition, a network without a domain, a
network whose subnet does not parse, and a client, a device and a reservation
whose addresses do not parse. -/
def skipInventory : Inventory :=
  ⟨[⟨"WAN", "", "192.168.0.0/24", "interface"⟩,
    ⟨"GUEST", "guest.home", "not-a-subnet", "interface"⟩] ++ sampleInventory.networks,
   ⟨"broken-client", "AA-BB-CC-00-00-10", "--", ""⟩ :: sampleInventory.clients,
   [⟨"broken-switch", "10.0.0.x"⟩],
   ⟨"broken-dhcp", "AA-BB-CC-00-00-11", "", "10.0.0", true⟩ :: sampleInventory.reservations⟩

/-- The sample inventory, the domain of the network being written
`Omada.Home`. -/
def upperInventory : Inventory :=
  { sampleInventory with networks := [⟨"LAN", "Omada.Home", "10.0.0.0/24", "interface"⟩] }

/-- The sample inventory with the additional client, the domain of the network
being written `Omada.Home`. -/
def upperInventory2 : Inventory :=
  { sampleInventory2 with networks := [⟨"LAN", "Omada.Home", "10.0.0.0/24", "interface"⟩] }

/-- The state published by a first cycle, stamped at time 0, over the
inventory of the domain `Omada.Home` with the additional client, `Insert`
folding the owner names. -/
def upperPublished2 : Omada :=
  (applyInventoryLowering stdToLower stdEnv (stdRun 0) (newOmada sampleConfig ["Default"])
    upperInventory2).getD (newOmada sampleConfig ["Default"])

/-- The state published by a second cycle over the inventory of the domain
`Omada.Home` without the additional client, stamped at time `t`. -/
def upperSecond (t : Int) : Omada :=
  (applyInventoryLowering stdToLower stdEnv (stdRun t) upperPublished2 upperInventory).getD
    upperPublished2

/-- A run like `stdRun` whose loop over the record map visits the domains in
the reverse of list order. -/
def reverseRun (t : Int) : Run where
  timestamp := t
  purgeNow := fun _ => t + 1
  zoneOrder := List.reverse
  resolveOrder := fun _ => id
  nameOrder := id

/-- The sample configuration with the fully-qualified fallback
`host.a.home`. -/
def fqdnFallbackConfig : Config := { sampleConfig with fallback := "host.a.home" }

/-- Two client-facing networks with the domains `a.home` and `b.home`, and a
client named `other` in the second. -/
def twoDomainInventory : Inventory :=
  ⟨[⟨"LAN-A", "a.home", "10.0.0.0/24", "interface"⟩,
    ⟨"LAN-B", "b.home", "10.0.1.0/24", "interface"⟩],
   [⟨"other", "AA-BB-CC-00-00-21", "--", "10.0.1.7"⟩],
   [],
   []⟩

/-- The two-domain inventory with, in addition, a client named `host` in the
first network. -/
def twoDomainInventoryWithHost : Inventory :=
  { twoDomainInventory with
    clients := ⟨"host", "AA-BB-CC-00-00-20", "--", "10.0.0.5"⟩ :: twoDomainInventory.clients }

/-- The state published by a first cycle, stamped at time 0, over the
two-domain inventory with the client `host`, the fallback being
`host.a.home`. -/
def twoDomainPublished : Omada :=
  (updateZones stdEnv (constController twoDomainInventoryWithHost) (stdRun 0)
    (newOmada fqdnFallbackConfig ["Default"])).1

/-! ## Lemmas on Go maps -/

theorem alGet_set_self {V : Type} (l : List (String × V)) (k : String) (v : V) :
    alGet (alSet l k v) k = some v := by
  induction l with
  | nil => simp [alSet, alGet]
  | cons hd tl ih =>
    obtain ⟨k0, v0⟩ := hd
    by_cases h : k0 = k
    · simp [alSet, alGet, h]
    · simp [alSet, alGet, h, ih]

theorem alGet_set_ne {V : Type} (l : List (String × V)) (k k' : String) (v : V)
    (hne : k ≠ k') : alGet (alSet l k v) k' = alGet l k' := by
  induction l with
  | nil => simp [alSet, alGet, hne]
  | cons hd tl ih =>
    obtain ⟨k0, v0⟩ := hd
    by_cases h : k0 = k
    · subst h
      simp [alSet, alGet, hne]
    · simp only [alSet, h, if_false, alGet, ih]

theorem alGet_none_of_not_mem {V : Type} (l : List (String × V)) (k : String)
    (h : k ∉ l.map Prod.fst) : alGet l k = none := by
  induction l with
  | nil => rfl
  | cons hd tl ih =>
    obtain ⟨k0, v0⟩ := hd
    simp only [List.map_cons, List.mem_cons, not_or] at h
    have h0 : ¬ k0 = k := fun e => h.1 e.symm
    simp [alGet, h0, ih h.2]

theorem alGet_mem {V : Type} (l : List (String × V)) (k : String) (v : V)
    (h : alGet l k = some v) : (k, v) ∈ l := by
  induction l with
  | nil => simp [alGet] at h
  | cons hd tl ih =>
    obtain ⟨k0, v0⟩ := hd
    by_cases h0 : k0 = k
    · simp [alGet, h0] at h
      simp [h0, h]
    · simp only [alGet, h0, if_false] at h
      exact List.mem_cons_of_mem _ (ih h)

theorem alGet_of_mem {V : Type} (l : List (String × V)) (k : String) (v : V)
    (hn : (l.map Prod.fst).Nodup) (h : (k, v) ∈ l) : alGet l k = some v := by
  induction l with
  | nil => simp at h
  | cons hd tl ih =>
    obtain ⟨k0, v0⟩ := hd
    simp only [List.map_cons, List.nodup_cons] at hn
    rcases List.mem_cons.mp h with h1 | h1
    · simp only [Prod.mk.injEq] at h1
      simp [alGet, h1.1, h1.2]
    · have hk : k ∈ tl.map Prod.fst := List.mem_map.mpr ⟨(k, v), h1, rfl⟩
      have h0 : ¬ k0 = k := fun e => hn.1 (e ▸ hk)
      simp only [alGet, h0, if_false]
      exact ih hn.2 h1

theorem alGet_filter {V : Type} (l : List (String × V)) (p : String × V → Bool) (k : String)
    (hn : (l.map Prod.fst).Nodup) :
    alGet (l.filter p) k =
      match alGet l k with
      | none => none
      | some v => if p (k, v) then some v else none := by
  induction l with
  | nil => simp [alGet]
  | cons hd tl ih =>
    obtain ⟨k0, v0⟩ := hd
    simp only [List.map_cons, List.nodup_cons] at hn
    by_cases h0 : k0 = k
    · subst h0
      by_cases hp : p (k0, v0) = true
      · simp [List.filter, hp, alGet]
      · have hnone : alGet (tl.filter p) k0 = none := by
          apply alGet_none_of_not_mem
          intro hmem
          exact hn.1 (List.Sublist.subset (List.Sublist.map _ (List.filter_sublist tl)) hmem)
        simp [List.filter, hp, alGet, hnone]
    · by_cases hp : p (k0, v0) = true
      · simp [List.filter, hp, alGet, h0, ih hn.2]
      · simp [List.filter, hp, alGet, h0, ih hn.2]

namespace GoMap

variable {V : Type}

@[simp] theorem get?_empty (k : String) : (GoMap.empty : GoMap V).get? k = none := rfl

@[simp] theorem get?_set_self (m : GoMap V) (k : String) (v : V) :
    (m.set k v).get? k = some v := alGet_set_self _ _ _

theorem get?_set_ne (m : GoMap V) (k k' : String) (v : V) (hne : k ≠ k') :
    (m.set k v).get? k' = m.get? k' := alGet_set_ne _ _ _ _ hne

theorem get?_set (m : GoMap V) (k k' : String) (v : V) :
    (m.set k v).get? k' = if k = k' then some v else m.get? k' := by
  by_cases h : k = k'
  · subst h; simp
  · simp [h, get?_set_ne _ _ _ _ h]

theorem get?_filter (m : GoMap V) (p : String → V → Bool) (k : String) :
    (m.filter p).get? k =
      match m.get? k with
      | none => none
      | some v => if p k v then some v else none :=
  alGet_filter m.entries (fun e => p e.1 e.2) k m.nodup

theorem mem_keys_iff (m : GoMap V) (k : String) : k ∈ m.keys ↔ ∃ v, m.get? k = some v := by
  constructor
  · intro h
    obtain ⟨⟨k0, v⟩, hmem, hk⟩ := List.mem_map.mp h
    simp only at hk
    subst hk
    exact ⟨v, alGet_of_mem _ _ _ m.nodup hmem⟩
  · rintro ⟨v, hv⟩
    exact List.mem_map.mpr ⟨(k, v), alGet_mem _ _ _ hv, rfl⟩

theorem contains_iff (m : GoMap V) (k : String) : m.contains k = true ↔ k ∈ m.keys := by
  rw [mem_keys_iff, contains, Option.isSome_iff_exists]

theorem mem_values_iff (m : GoMap V) (v : V) : v ∈ m.values ↔ ∃ k, m.get? k = some v := by
  constructor
  · intro h
    obtain ⟨⟨k, v0⟩, hmem, hv⟩ := List.mem_map.mp h
    simp only at hv
    subst hv
    exact ⟨k, alGet_of_mem _ _ _ m.nodup hmem⟩
  · rintro ⟨k, hk⟩
    exact List.mem_map.mpr ⟨(k, v), alGet_mem _ _ _ hk, rfl⟩

theorem keys_set (m : GoMap V) (k : String) (v : V) :
    (m.set k v).keys = if k ∈ m.keys then m.keys else m.keys ++ [k] :=
  alSet_keys _ _ _

theorem keys_set_of_mem (m : GoMap V) (k : String) (v : V) (h : k ∈ m.keys) :
    (m.set k v).keys = m.keys := by
  rw [keys_set, if_pos h]

end GoMap

/-! ## Purging -/

theorem purge_fwd (d : DnsRecords) (now maxAge : Int) (k : String) :
    (purgeStaleRecords d now maxAge).ARecords.get? k =
      match d.ARecords.get? k with
      | none => none
      | some v => if Seconds (now - v.timestamp) > maxAge then none else some v := by
  simp only [purgeStaleRecords, GoMap.get?_filter]
  cases d.ARecords.get? k with
  | none => rfl
  | some v => by_cases h : Seconds (now - v.timestamp) > maxAge <;> simp [h]

theorem purge_rev (d : DnsRecords) (now maxAge : Int) (k : String) :
    (purgeStaleRecords d now maxAge).PtrRecords.get? k =
      match d.PtrRecords.get? k with
      | none => none
      | some v => if Seconds (now - v.timestamp) > maxAge then none else some v := by
  simp only [purgeStaleRecords, GoMap.get?_filter]
  cases d.PtrRecords.get? k with
  | none => rfl
  | some v => by_cases h : Seconds (now - v.timestamp) > maxAge <;> simp [h]

theorem purgeStaleRecords_keeps_fresh (d : DnsRecords) (now maxAge : Int) :
    (∀ k v, (purgeStaleRecords d now maxAge).ARecords.get? k = some v →
      ¬ Seconds (now - v.timestamp) > maxAge) ∧
    (∀ k v, (purgeStaleRecords d now maxAge).PtrRecords.get? k = some v →
      ¬ Seconds (now - v.timestamp) > maxAge) := by
  constructor
  · intro k v h
    rw [purge_fwd] at h
    cases hg : d.ARecords.get? k with
    | none => simp [hg] at h
    | some w =>
      by_cases hs : Seconds (now - w.timestamp) > maxAge
      · simp [hg, hs] at h
      · simp only [hg, hs, if_false, Option.some.injEq] at h
        subst h
        exact hs
  · intro k v h
    rw [purge_rev] at h
    cases hg : d.PtrRecords.get? k with
    | none => simp [hg] at h
    | some w =>
      by_cases hs : Seconds (now - w.timestamp) > maxAge
      · simp [hg, hs] at h
      · simp only [hg, hs, if_false, Option.some.injEq] at h
        subst h
        exact hs

/-! ## Fetch failures -/

theorem fetchSite_fails (cfg : Config) (ctl : Controller) (inv : Inventory) (s : String)
    (h : callFails cfg ctl s) : ∃ e, fetchSite cfg ctl inv s = .error e := by
  unfold fetchSite
  cases hn : ctl.GetNetworks s with
  | error e => exact ⟨_, rfl⟩
  | ok n =>
    cases hrc : cfg.resolve_clients <;> cases hrd : cfg.resolve_devices <;>
      cases hrr : cfg.resolve_dhcp_reservations <;>
      cases hc : ctl.GetClients s <;> cases hd : ctl.GetDevices s <;>
      cases hr : ctl.GetDhcpReservations s <;>
      simp [callFails, hn, hrc, hrd, hrr, hc, hd, hr] at h ⊢

theorem fetchInventory_fails (cfg : Config) (ctl : Controller) (sites : List String)
    (inv : Inventory) (h : ∃ s ∈ sites, callFails cfg ctl s) :
    ∃ e, fetchInventory cfg ctl sites inv = .error e := by
  induction sites generalizing inv with
  | nil => simp at h
  | cons s rest ih =>
    unfold fetchInventory
    cases hs : fetchSite cfg ctl inv s with
    | error e => exact ⟨e, rfl⟩
    | ok inv1 =>
      obtain ⟨t, ht, hf⟩ := h
      rcases List.mem_cons.mp ht with h1 | h1
      · subst h1
        obtain ⟨e, he⟩ := fetchSite_fails cfg ctl inv t hf
        rw [he] at hs
        cases hs
      · exact ih inv1 ⟨t, h1, hf⟩

/-! ## Disabled reservations -/

theorem processReservation_disabled (env : Env) (subnet : IPNet) (dnsDomain : String)
    (timestamp : Int) (records : Records) (r : DhcpReservation) (h : r.Status = false) :
    processReservation env subnet dnsDomain timestamp records r = records := by
  simp [processReservation, h]

theorem processNetwork_drop_disabled (env : Env) (networks : List OmadaNetwork)
    (clients : List Client) (devices : List Device) (pre post : List DhcpReservation)
    (r : DhcpReservation) (h : r.Status = false) (timestamp : Int) (records : Records)
    (network : OmadaNetwork) :
    processNetwork env ⟨networks, clients, devices, pre ++ r :: post⟩ timestamp records network =
      processNetwork env ⟨networks, clients, devices, pre ++ post⟩ timestamp records network := by
  unfold processNetwork
  by_cases hd : network.Domain = ""
  · simp [hd]
  · simp only [hd, if_false]
    cases env.ParseCIDR network.Subnet with
    | none => rfl
    | some subnet =>
      simp only [List.foldl_append, List.foldl_cons, processReservation_disabled _ _ _ _ _ r h]

theorem synthesize_drop_disabled (env : Env) (networks : List OmadaNetwork)
    (clients : List Client) (devices : List Device) (pre post : List DhcpReservation)
    (r : DhcpReservation) (h : r.Status = false) (timestamp : Int) (records : Records) :
    synthesize env ⟨networks, clients, devices, pre ++ r :: post⟩ timestamp records =
      synthesize env ⟨networks, clients, devices, pre ++ post⟩ timestamp records := by
  unfold synthesize
  have hf : processNetwork env ⟨networks, clients, devices, pre ++ r :: post⟩ timestamp =
      processNetwork env ⟨networks, clients, devices, pre ++ post⟩ timestamp := by
    funext records network
    exact processNetwork_drop_disabled env networks clients devices pre post r h _ _ _
  simp only [hf]

/-! ## Fallback records -/

theorem resolveInZones_eq_some (o : Omada) (order : List String) (t : String) (a : IP)
    (h : resolveInZones o order t = some a) :
    ∃ dom rec, dom ∈ order ∧ fwdAt o.records dom t = some rec ∧ rec.record.A = a := by
  induction order with
  | nil => simp [resolveInZones] at h
  | cons d rest ih =>
    simp only [resolveInZones, List.findSome?] at h
    cases hd : o.records.get? d with
    | none =>
      simp only [hd] at h
      obtain ⟨dom, rec, hm, hf, ha⟩ := ih h
      exact ⟨dom, rec, List.mem_cons_of_mem _ hm, hf, ha⟩
    | some dr =>
      cases hk : dr.ARecords.get? t with
      | none =>
        simp only [hd, hk] at h
        obtain ⟨dom, rec, hm, hf, ha⟩ := ih h
        exact ⟨dom, rec, List.mem_cons_of_mem _ hm, hf, ha⟩
      | some rec =>
        simp only [hd, hk, Option.some.injEq] at h
        exact ⟨d, rec, List.mem_cons_self _ _, by simp [fwdAt, hd, hk], h⟩

theorem resolveInZones_eq_none (o : Omada) (order : List String) (t : String)
    (h : resolveInZones o order t = none) : ∀ dom ∈ order, fwdAt o.records dom t = none := by
  induction order with
  | nil => simp
  | cons d rest ih =>
    simp only [resolveInZones, List.findSome?] at h
    intro dom hdom
    cases hd : o.records.get? d with
    | none =>
      simp only [hd] at h
      rcases List.mem_cons.mp hdom with e | e
      · subst e; simp [fwdAt, hd]
      · exact ih h dom e
    | some dr =>
      cases hk : dr.ARecords.get? t with
      | none =>
        simp only [hd, hk] at h
        rcases List.mem_cons.mp hdom with e | e
        · subst e; simp [fwdAt, hd, hk]
        · exact ih h dom e
      | some rec => simp [hd, hk] at h

theorem fwdAt_some_mem_keys (records : Records) (d k : String) (v : ARecord)
    (h : fwdAt records d k = some v) : d ∈ records.keys := by
  unfold fwdAt at h
  cases hd : records.get? d with
  | none => simp [hd] at h
  | some dr => exact (GoMap.mem_keys_iff _ _).mpr ⟨dr, hd⟩

/-- What `addFallbackRecord` does once the name to look up is fixed: nothing
if no domain holds a forward record of that name, else a wildcard carrying the
address of a forward record of that name. -/
theorem addFallbackRecord_lookup (env : Env) (o : Omada) (order : List String) (zones : Zones)
    (d : String) (dr : DnsRecords) (z : Zone) (hne : o.config.fallback ≠ "")
    (hip : env.ParseIP o.config.fallback = none) (hord : order.Perm o.records.keys)
    (hz : zones.get? d = some z) :
    ((∀ dom, fwdAt o.records dom (fallbackTarget env o.config.fallback d) = none) →
      addFallbackRecord env o order zones d dr = some zones) ∧
    ((∃ dom rec, fwdAt o.records dom (fallbackTarget env o.config.fallback d) = some rec) →
      ∃ dom rec, fwdAt o.records dom (fallbackTarget env o.config.fallback d) = some rec ∧
        addFallbackRecord env o order zones d dr =
          some (zones.set d (z.Insert (RR.A ⟨"*." ++ d, 300, rec.record.A⟩)))) := by
  constructor
  · intro hnone
    cases hr : resolveInZones o order (fallbackTarget env o.config.fallback d) with
    | none => simp [addFallbackRecord, hne, hip, hr]
    | some a =>
      obtain ⟨dom, rec, _, hf, _⟩ := resolveInZones_eq_some o order _ a hr
      rw [hnone dom] at hf
      cases hf
  · rintro ⟨dom, rec, hf⟩
    cases hr : resolveInZones o order (fallbackTarget env o.config.fallback d) with
    | none =>
      have hmem : dom ∈ order := hord.symm.subset (fwdAt_some_mem_keys _ _ _ _ hf)
      rw [resolveInZones_eq_none o order _ hr dom hmem] at hf
      cases hf
    | some a =>
      obtain ⟨dom', rec', _, hf', ha⟩ := resolveInZones_eq_some o order _ a hr
      refine ⟨dom', rec', hf', ?_⟩
      simp [addFallbackRecord, hne, hip, hr, insertInto, hz, ha]

theorem containsDot_ne_empty (s : String) (h : containsDot s = true) : s ≠ "" := by
  intro e
  subst e
  simp [containsDot] at h

/-! ## The state before publication -/

theorem zoneLoopBody_fst (env : Env) (run : Run) (o : Omada) (zones : Zones) (d : String)
    (dr : DnsRecords) :
    (zoneLoopBody env run o zones d dr).1 =
      { o with records := (o.records.set d
          (purgeStaleRecords dr (run.purgeNow d) (Seconds o.config.stale_record_duration))) } := by
  unfold zoneLoopBody
  simp only
  split
  · rfl
  · split <;> rfl

theorem zoneLoop_frame (env : Env) (run : Run) (order : List String) (o : Omada) (zones : Zones) :
    (zoneLoop env run order o zones).1.config = o.config ∧
    (zoneLoop env run order o zones).1.sites = o.sites ∧
    (zoneLoop env run order o zones).1.zones = o.zones ∧
    (zoneLoop env run order o zones).1.zoneNames = o.zoneNames := by
  induction order generalizing o zones with
  | nil => simp [zoneLoop]
  | cons d rest ih =>
    unfold zoneLoop
    cases hd : o.records.get? d with
    | none => exact ih o zones
    | some dr =>
      simp only
      cases hs : (zoneLoopBody env run o zones d dr).2 with
      | none => simp [zoneLoopBody_fst]
      | some zones1 =>
        simp only
        have := ih (zoneLoopBody env run o zones d dr).1 zones1
        rw [zoneLoopBody_fst] at this ⊢
        exact this

theorem buildCandidate_fst (env : Env) (run : Run) (o : Omada) (inv : Inventory) :
    (buildCandidate env run o inv).1 =
      (zoneLoop env run
        (run.zoneOrder (synthesize env inv run.timestamp o.records).keys)
        { o with records := synthesize env inv run.timestamp o.records } GoMap.empty).1 := by
  unfold buildCandidate
  simp only
  split <;> rfl

theorem applyInventory_records (env : Env) (run : Run) (o : Omada) (inv : Inventory) :
    (applyInventory env run o inv).1.records = (buildCandidate env run o inv).1.records := by
  unfold applyInventory
  simp only
  split <;> rfl

/-! ## Record synthesis as a sequence of writes -/

theorem modifyRecords_get? (records : Records) (key x : String) (f : DnsRecords → DnsRecords) :
    (modifyRecords records key f).get? x =
      if key = x then (records.get? key).map f else records.get? x := by
  unfold modifyRecords
  cases h : records.get? key with
  | none =>
    by_cases e : key = x
    · subst e; simp [h]
    · simp [e]
  | some dr => simp [GoMap.get?_set]

theorem modifyRecords_keys (records : Records) (key : String) (f : DnsRecords → DnsRecords) :
    (modifyRecords records key f).keys = records.keys := by
  unfold modifyRecords
  cases h : records.get? key with
  | none => rfl
  | some dr => exact GoMap.keys_set_of_mem _ _ _ ((GoMap.mem_keys_iff _ _).mpr ⟨dr, h⟩)

theorem applyWrite_keys (env : Env) (ts : Int) (records : Records) (w : Write) :
    (applyWrite env ts records w).keys = records.keys := by
  simp [applyWrite, storeEntry, setARecord, setPtrRecord, modifyRecords_keys]

theorem fwdAt_modifyRecords (records : Records) (key d k : String)
    (f : DnsRecords → DnsRecords) :
    fwdAt (modifyRecords records key f) d k =
      if key = d then
        (match records.get? key with
          | none => none
          | some dr => (f dr).ARecords.get? k)
      else fwdAt records d k := by
  unfold fwdAt
  rw [modifyRecords_get?]
  by_cases h : key = d
  · subst h
    simp only [if_true]
    cases records.get? key <;> rfl
  · simp only [h, if_false]

theorem revAt_modifyRecords (records : Records) (key d k : String)
    (f : DnsRecords → DnsRecords) :
    revAt (modifyRecords records key f) d k =
      if key = d then
        (match records.get? key with
          | none => none
          | some dr => (f dr).PtrRecords.get? k)
      else revAt records d k := by
  unfold revAt
  rw [modifyRecords_get?]
  by_cases h : key = d
  · subst h
    simp only [if_true]
    cases records.get? key <;> rfl
  · simp only [h, if_false]

theorem fwdAt_setPtrRecord (env : Env) (records : Records) (ptrName : String) (rec : PtrRecord)
    (d k : String) : fwdAt (setPtrRecord env records ptrName rec) d k = fwdAt records d k := by
  unfold setPtrRecord
  rw [fwdAt_modifyRecords]
  by_cases h : env.ptrZone = d
  · subst h
    simp only [if_true, fwdAt]
  · simp only [h, if_false]

theorem revAt_setARecord (records : Records) (dnsDomain fqdn : String) (rec : ARecord)
    (d k : String) : revAt (setARecord records dnsDomain fqdn rec) d k = revAt records d k := by
  unfold setARecord
  rw [revAt_modifyRecords]
  by_cases h : dnsDomain = d
  · subst h
    simp only [if_true, revAt]
  · simp only [h, if_false]

theorem fwdAt_setARecord (records : Records) (dnsDomain fqdn : String) (rec : ARecord)
    (d k : String) (hd : dnsDomain ∈ records.keys) :
    fwdAt (setARecord records dnsDomain fqdn rec) d k =
      if dnsDomain = d ∧ fqdn = k then some rec else fwdAt records d k := by
  obtain ⟨dr0, hdr0⟩ := (GoMap.mem_keys_iff _ _).mp hd
  unfold setARecord
  rw [fwdAt_modifyRecords]
  by_cases h : dnsDomain = d
  · subst h
    simp only [if_true, true_and, hdr0, GoMap.get?_set, fwdAt]
  · simp only [h, if_false, false_and]

theorem revAt_setPtrRecord (env : Env) (records : Records) (ptrName : String) (rec : PtrRecord)
    (d k : String) (hp : env.ptrZone ∈ records.keys) :
    revAt (setPtrRecord env records ptrName rec) d k =
      if env.ptrZone = d ∧ ptrName = k then some rec else revAt records d k := by
  obtain ⟨dr0, hdr0⟩ := (GoMap.mem_keys_iff _ _).mp hp
  unfold setPtrRecord
  rw [revAt_modifyRecords]
  by_cases h : env.ptrZone = d
  · subst h
    simp only [if_true, true_and, hdr0, GoMap.get?_set, revAt]
  · simp only [h, if_false, false_and]

theorem applyWrite_fwdAt (env : Env) (ts : Int) (records : Records) (w : Write) (d k : String)
    (hd : w.dnsDomain ∈ records.keys) :
    fwdAt (applyWrite env ts records w) d k =
      if w.dnsDomain = d ∧ w.fqdn = k then some (w.aRecord ts) else fwdAt records d k := by
  unfold applyWrite storeEntry
  simp only
  rw [fwdAt_setPtrRecord, fwdAt_setARecord _ _ _ _ _ _ hd]
  rfl

theorem applyWrite_revAt (env : Env) (ts : Int) (records : Records) (w : Write) (d k : String)
    (hp : env.ptrZone ∈ records.keys) :
    revAt (applyWrite env ts records w) d k =
      if env.ptrZone = d ∧ w.ptrName env = k then some (w.ptrRecord env ts)
      else revAt records d k := by
  unfold applyWrite storeEntry
  simp only
  rw [revAt_setPtrRecord, revAt_setARecord]
  · rfl
  · unfold setARecord
    rw [modifyRecords_keys]
    exact hp

theorem applyWrites_keys (env : Env) (ts : Int) (ws : List Write) (records : Records) :
    (ws.foldl (applyWrite env ts) records).keys = records.keys := by
  induction ws generalizing records with
  | nil => rfl
  | cons w rest ih => rw [List.foldl_cons, ih, applyWrite_keys]

theorem applyWrites_fwdAt (env : Env) (ts : Int) (ws : List Write) (records : Records)
    (d k : String) (hd : ∀ w ∈ ws, w.dnsDomain ∈ records.keys) :
    fwdAt (ws.foldl (applyWrite env ts) records) d k = fwdOverlay ts ws d k (fwdAt records d k) := by
  induction ws generalizing records with
  | nil => rfl
  | cons w rest ih =>
    rw [List.foldl_cons, ih]
    · rw [applyWrite_fwdAt env ts records w d k (hd w (List.mem_cons_self _ _))]
      rfl
    · intro w' hw'
      rw [applyWrite_keys]
      exact hd w' (List.mem_cons_of_mem _ hw')

theorem applyWrites_revAt (env : Env) (ts : Int) (ws : List Write) (records : Records)
    (d k : String) (hp : env.ptrZone ∈ records.keys) :
    revAt (ws.foldl (applyWrite env ts) records) d k =
      if env.ptrZone = d then revOverlay env ts ws k (revAt records d k)
      else revAt records d k := by
  induction ws generalizing records with
  | nil => simp [revOverlay]
  | cons w rest ih =>
    rw [List.foldl_cons, ih]
    · rw [applyWrite_revAt env ts records w d k hp]
      by_cases hpd : env.ptrZone = d
      · simp [hpd, revOverlay]
      · simp [hpd]
    · rw [applyWrite_keys]
      exact hp

theorem foldl_optional_writes {α : Type} (env : Env) (ts : Int) (step : Records → α → Records)
    (wr : α → Option Write)
    (hstep : ∀ records x, step records x =
      match wr x with
      | none => records
      | some w => applyWrite env ts records w)
    (xs : List α) (records : Records) :
    xs.foldl step records = (xs.filterMap wr).foldl (applyWrite env ts) records := by
  induction xs generalizing records with
  | nil => rfl
  | cons x rest ih =>
    rw [List.foldl_cons, ih, hstep]
    cases h : wr x with
    | none => simp [List.filterMap_cons, h]
    | some w => simp [List.filterMap_cons, h]

theorem processClient_eq (env : Env) (subnet : IPNet) (dnsDomain : String) (ts : Int)
    (records : Records) (client : Client) :
    processClient env subnet dnsDomain ts records client =
      match clientWrite env subnet dnsDomain client with
      | none => records
      | some w => applyWrite env ts records w := by
  unfold processClient clientWrite
  cases env.ParseIP client.Ip with
  | none => rfl
  | some ip =>
    by_cases h : env.Contains subnet ip = true
    · simp [h, applyWrite]
    · simp [h]

theorem processDevice_eq (env : Env) (subnet : IPNet) (dnsDomain : String) (ts : Int)
    (records : Records) (device : Device) :
    processDevice env subnet dnsDomain ts records device =
      match deviceWrite env subnet dnsDomain device with
      | none => records
      | some w => applyWrite env ts records w := by
  unfold processDevice deviceWrite
  cases env.ParseIP device.IP with
  | none => rfl
  | some ip =>
    by_cases h : env.Contains subnet ip = true
    · simp [h, applyWrite]
    · simp [h]

theorem processReservation_eq (env : Env) (subnet : IPNet) (dnsDomain : String) (ts : Int)
    (records : Records) (reservation : DhcpReservation) :
    processReservation env subnet dnsDomain ts records reservation =
      match reservationWrite env subnet dnsDomain reservation with
      | none => records
      | some w => applyWrite env ts records w := by
  unfold processReservation reservationWrite
  cases reservation.Status with
  | false => rfl
  | true =>
    cases env.ParseIP reservation.IP with
    | none => rfl
    | some ip =>
      by_cases h : env.Contains subnet ip = true
      · simp [h, applyWrite]
      · simp [h]

theorem processNetwork_eq (env : Env) (inv : Inventory) (ts : Int) (records : Records)
    (network : OmadaNetwork) :
    processNetwork env inv ts records network =
      (networkWrites env inv network).foldl (applyWrite env ts) (ensureNetwork records network) := by
  unfold processNetwork networkWrites ensureNetwork
  by_cases hd : network.Domain = ""
  · simp [hd]
  · simp only [hd, if_false]
    cases env.ParseCIDR network.Subnet with
    | none => rfl
    | some subnet =>
      simp only [List.foldl_append]
      rw [foldl_optional_writes env ts _ _ (processClient_eq env subnet _ ts),
        foldl_optional_writes env ts _ _ (processDevice_eq env subnet _ ts),
        foldl_optional_writes env ts _ _ (processReservation_eq env subnet _ ts)]

theorem networkWrites_domain (env : Env) (inv : Inventory) (network : OmadaNetwork) (w : Write)
    (h : w ∈ networkWrites env inv network) :
    network.Domain ≠ "" ∧ w.dnsDomain = network.Domain ++ "." := by
  unfold networkWrites at h
  by_cases hd : network.Domain = ""
  · simp [hd] at h
  · refine ⟨hd, ?_⟩
    simp only [hd, if_false] at h
    cases hc : env.ParseCIDR network.Subnet with
    | none => simp [hc] at h
    | some subnet =>
      simp only [hc, List.mem_append, List.mem_filterMap] at h
      rcases h with (⟨c, _, hw⟩ | ⟨c, _, hw⟩) | ⟨c, _, hw⟩
      · unfold clientWrite at hw
        cases hip : env.ParseIP c.Ip with
        | none => simp [hip] at hw
        | some ip =>
          by_cases hcn : env.Contains subnet ip = true
          · simp [hip, hcn] at hw; rw [← hw]
          · simp [hip, hcn] at hw
      · unfold deviceWrite at hw
        cases hip : env.ParseIP c.IP with
        | none => simp [hip] at hw
        | some ip =>
          by_cases hcn : env.Contains subnet ip = true
          · simp [hip, hcn] at hw; rw [← hw]
          · simp [hip, hcn] at hw
      · unfold reservationWrite at hw
        cases hs : c.Status with
        | false => simp [hs] at hw
        | true =>
          cases hip : env.ParseIP c.IP with
          | none => simp [hs, hip] at hw
          | some ip =>
            by_cases hcn : env.Contains subnet ip = true
            · simp [hs, hip, hcn] at hw; rw [← hw]
            · simp [hs, hip, hcn] at hw

theorem ensureRecords_keys_mem (records : Records) (key : String) :
    key ∈ (ensureRecords records key).keys := by
  unfold ensureRecords
  by_cases h : records.contains key = true
  · simp only [h, if_true]
    exact (GoMap.contains_iff _ _).mp h
  · simp only [h, Bool.false_eq_true, if_false]
    rw [GoMap.keys_set]
    split
    · assumption
    · simp

theorem ensureRecords_keys_mono (records : Records) (key x : String) (h : x ∈ records.keys) :
    x ∈ (ensureRecords records key).keys := by
  unfold ensureRecords
  by_cases hc : records.contains key = true
  · simpa [hc] using h
  · simp only [hc, Bool.false_eq_true, if_false]
    rw [GoMap.keys_set]
    split
    · exact h
    · exact List.mem_append_left _ h

theorem ensureRecords_get? (records : Records) (key x : String) :
    (ensureRecords records key).get? x =
      if key = x ∧ records.get? key = none then some DnsRecords.fresh else records.get? x := by
  unfold ensureRecords
  cases hg : records.get? key with
  | some dr => simp [GoMap.contains, hg]
  | none =>
    simp only [GoMap.contains, hg, Option.isSome_none, Bool.false_eq_true, if_false, and_true,
      GoMap.get?_set]

theorem ensureRecords_fwdAt (records : Records) (key d k : String) :
    fwdAt (ensureRecords records key) d k = fwdAt records d k := by
  unfold fwdAt
  rw [ensureRecords_get?]
  by_cases h : key = d ∧ records.get? key = none
  · obtain ⟨h1, h2⟩ := h
    subst h1
    simp [h2, DnsRecords.fresh]
  · simp only [h, if_false]

theorem ensureRecords_revAt (records : Records) (key d k : String) :
    revAt (ensureRecords records key) d k = revAt records d k := by
  unfold revAt
  rw [ensureRecords_get?]
  by_cases h : key = d ∧ records.get? key = none
  · obtain ⟨h1, h2⟩ := h
    subst h1
    simp [h2, DnsRecords.fresh]
  · simp only [h, if_false]

/-! ## The last write wins -/

theorem fwdOverlay_append (ts : Int) (ws ws' : List Write) (d k : String)
    (base : Option ARecord) :
    fwdOverlay ts (ws ++ ws') d k base = fwdOverlay ts ws' d k (fwdOverlay ts ws d k base) := by
  simp [fwdOverlay, List.foldl_append]

theorem revOverlay_append (env : Env) (ts : Int) (ws ws' : List Write) (k : String)
    (base : Option PtrRecord) :
    revOverlay env ts (ws ++ ws') k base =
      revOverlay env ts ws' k (revOverlay env ts ws k base) := by
  simp [revOverlay, List.foldl_append]

theorem fwdOverlay_no_match (ts : Int) (ws : List Write) (d k : String) (base : Option ARecord)
    (h : ∀ w ∈ ws, ¬ (w.dnsDomain = d ∧ w.fqdn = k)) : fwdOverlay ts ws d k base = base := by
  induction ws generalizing base with
  | nil => rfl
  | cons w rest ih =>
    have hw := h w (List.mem_cons_self _ _)
    simp only [fwdOverlay, List.foldl_cons, hw, if_false]
    exact ih base (fun w' hw' => h w' (List.mem_cons_of_mem _ hw'))

theorem revOverlay_no_match (env : Env) (ts : Int) (ws : List Write) (k : String)
    (base : Option PtrRecord) (h : ∀ w ∈ ws, w.ptrName env ≠ k) :
    revOverlay env ts ws k base = base := by
  induction ws generalizing base with
  | nil => rfl
  | cons w rest ih =>
    have hw := h w (List.mem_cons_self _ _)
    simp only [revOverlay, List.foldl_cons, hw, if_false]
    exact ih base (fun w' hw' => h w' (List.mem_cons_of_mem _ hw'))

theorem fwdOverlay_last (ts : Int) (pre post : List Write) (w : Write) (base : Option ARecord)
    (h : ∀ w' ∈ post, ¬ (w'.dnsDomain = w.dnsDomain ∧ w'.fqdn = w.fqdn)) :
    fwdOverlay ts (pre ++ w :: post) w.dnsDomain w.fqdn base = some (w.aRecord ts) := by
  rw [fwdOverlay_append]
  have : fwdOverlay ts (w :: post) w.dnsDomain w.fqdn (fwdOverlay ts pre w.dnsDomain w.fqdn base) =
      fwdOverlay ts post w.dnsDomain w.fqdn (some (w.aRecord ts)) := by
    simp [fwdOverlay]
  rw [this, fwdOverlay_no_match ts post _ _ _ h]

theorem revOverlay_last (env : Env) (ts : Int) (pre post : List Write) (w : Write)
    (base : Option PtrRecord) (h : ∀ w' ∈ post, w'.ptrName env ≠ w.ptrName env) :
    revOverlay env ts (pre ++ w :: post) (w.ptrName env) base = some (w.ptrRecord env ts) := by
  rw [revOverlay_append]
  have : revOverlay env ts (w :: post) (w.ptrName env)
      (revOverlay env ts pre (w.ptrName env) base) =
      revOverlay env ts post (w.ptrName env) (some (w.ptrRecord env ts)) := by
    simp [revOverlay]
  rw [this, revOverlay_no_match env ts post _ _ h]

theorem fwdOverlay_cases (ts : Int) (ws : List Write) (d k : String) (base : Option ARecord) :
    fwdOverlay ts ws d k base = base ∨
      ∃ w ∈ ws, w.dnsDomain = d ∧ w.fqdn = k ∧ fwdOverlay ts ws d k base = some (w.aRecord ts) := by
  induction ws generalizing base with
  | nil => exact Or.inl rfl
  | cons w rest ih =>
    by_cases hw : w.dnsDomain = d ∧ w.fqdn = k
    · have e : fwdOverlay ts (w :: rest) d k base = fwdOverlay ts rest d k (some (w.aRecord ts)) := by
        simp [fwdOverlay, hw]
      rw [e]
      rcases ih (some (w.aRecord ts)) with h | ⟨w', hm, h1, h2, h3⟩
      · exact Or.inr ⟨w, List.mem_cons_self _ _, hw.1, hw.2, h⟩
      · exact Or.inr ⟨w', List.mem_cons_of_mem _ hm, h1, h2, h3⟩
    · have e : fwdOverlay ts (w :: rest) d k base = fwdOverlay ts rest d k base := by
        simp [fwdOverlay, hw]
      rw [e]
      rcases ih base with h | ⟨w', hm, h1, h2, h3⟩
      · exact Or.inl h
      · exact Or.inr ⟨w', List.mem_cons_of_mem _ hm, h1, h2, h3⟩

theorem revOverlay_cases (env : Env) (ts : Int) (ws : List Write) (k : String)
    (base : Option PtrRecord) :
    revOverlay env ts ws k base = base ∨
      ∃ w ∈ ws, w.ptrName env = k ∧ revOverlay env ts ws k base = some (w.ptrRecord env ts) := by
  induction ws generalizing base with
  | nil => exact Or.inl rfl
  | cons w rest ih =>
    by_cases hw : w.ptrName env = k
    · have e : revOverlay env ts (w :: rest) k base =
          revOverlay env ts rest k (some (w.ptrRecord env ts)) := by
        simp [revOverlay, hw]
      rw [e]
      rcases ih (some (w.ptrRecord env ts)) with h | ⟨w', hm, h1, h2⟩
      · exact Or.inr ⟨w, List.mem_cons_self _ _, hw, h⟩
      · exact Or.inr ⟨w', List.mem_cons_of_mem _ hm, h1, h2⟩
    · have e : revOverlay env ts (w :: rest) k base = revOverlay env ts rest k base := by
        simp [revOverlay, hw]
      rw [e]
      rcases ih base with h | ⟨w', hm, h1, h2⟩
      · exact Or.inl h
      · exact Or.inr ⟨w', List.mem_cons_of_mem _ hm, h1, h2⟩

theorem ensureNetwork_keys_mono (records : Records) (network : OmadaNetwork) (x : String)
    (h : x ∈ records.keys) : x ∈ (ensureNetwork records network).keys := by
  unfold ensureNetwork
  split
  · exact h
  · exact ensureRecords_keys_mono _ _ _ h

theorem processNetwork_keys_mono (env : Env) (inv : Inventory) (ts : Int) (records : Records)
    (network : OmadaNetwork) (x : String) (h : x ∈ records.keys) :
    x ∈ (processNetwork env inv ts records network).keys := by
  rw [processNetwork_eq, applyWrites_keys]
  exact ensureNetwork_keys_mono _ _ _ h

theorem processNetwork_fwdAt (env : Env) (inv : Inventory) (ts : Int) (records : Records)
    (network : OmadaNetwork) (d k : String) :
    fwdAt (processNetwork env inv ts records network) d k =
      fwdOverlay ts (networkWrites env inv network) d k (fwdAt records d k) := by
  rw [processNetwork_eq, applyWrites_fwdAt]
  · congr 1
    unfold ensureNetwork
    split
    · rfl
    · exact ensureRecords_fwdAt _ _ _ _
  · intro w hw
    obtain ⟨hd, hw⟩ := networkWrites_domain env inv network w hw
    rw [hw]
    simp only [ensureNetwork, hd, if_false]
    exact ensureRecords_keys_mem _ _

theorem processNetwork_revAt (env : Env) (inv : Inventory) (ts : Int) (records : Records)
    (network : OmadaNetwork) (d k : String) (hp : env.ptrZone ∈ records.keys) :
    revAt (processNetwork env inv ts records network) d k =
      if env.ptrZone = d then revOverlay env ts (networkWrites env inv network) k (revAt records d k)
      else revAt records d k := by
  have hr : revAt (ensureNetwork records network) d k = revAt records d k := by
    unfold ensureNetwork
    split
    · rfl
    · exact ensureRecords_revAt _ _ _ _
  rw [processNetwork_eq, applyWrites_revAt _ _ _ _ _ _ (ensureNetwork_keys_mono _ _ _ hp), hr]

theorem foldl_processNetwork_keys_mono (env : Env) (inv : Inventory) (ts : Int)
    (ns : List OmadaNetwork) (records : Records) (x : String) (h : x ∈ records.keys) :
    x ∈ (ns.foldl (processNetwork env inv ts) records).keys := by
  induction ns generalizing records with
  | nil => exact h
  | cons n rest ih =>
    rw [List.foldl_cons]
    exact ih _ (processNetwork_keys_mono env inv ts records n x h)

theorem foldl_processNetwork_fwdAt (env : Env) (inv : Inventory) (ts : Int)
    (ns : List OmadaNetwork) (records : Records) (d k : String) :
    fwdAt (ns.foldl (processNetwork env inv ts) records) d k =
      fwdOverlay ts (ns.flatMap (networkWrites env inv)) d k (fwdAt records d k) := by
  induction ns generalizing records with
  | nil => rfl
  | cons n rest ih =>
    rw [List.foldl_cons, ih, List.flatMap_cons, fwdOverlay_append, processNetwork_fwdAt]

theorem foldl_processNetwork_revAt (env : Env) (inv : Inventory) (ts : Int)
    (ns : List OmadaNetwork) (records : Records) (d k : String)
    (hp : env.ptrZone ∈ records.keys) :
    revAt (ns.foldl (processNetwork env inv ts) records) d k =
      if env.ptrZone = d then
        revOverlay env ts (ns.flatMap (networkWrites env inv)) k (revAt records d k)
      else revAt records d k := by
  induction ns generalizing records with
  | nil => simp [revOverlay]
  | cons n rest ih =>
    rw [List.foldl_cons, ih _ (processNetwork_keys_mono env inv ts records n _ hp),
      List.flatMap_cons, revOverlay_append, processNetwork_revAt _ _ _ _ _ _ _ hp]
    by_cases h : env.ptrZone = d
    · simp [h]
    · simp [h]

/-- The forward records after synthesis: over the records carried over from
the previous cycle, every key holds the record of its last write. -/
theorem synthesize_fwdAt (env : Env) (inv : Inventory) (ts : Int) (records : Records)
    (d k : String) :
    fwdAt (synthesize env inv ts records) d k =
      fwdOverlay ts (cycleWrites env inv) d k (fwdAt records d k) := by
  unfold synthesize cycleWrites
  rw [foldl_processNetwork_fwdAt, ensureRecords_fwdAt]

/-- The reverse records after synthesis: only the shared reverse domain is
written, and every key of it holds the record of its last write. -/
theorem synthesize_revAt (env : Env) (inv : Inventory) (ts : Int) (records : Records)
    (d k : String) :
    revAt (synthesize env inv ts records) d k =
      if env.ptrZone = d then revOverlay env ts (cycleWrites env inv) k (revAt records d k)
      else revAt records d k := by
  unfold synthesize cycleWrites
  rw [foldl_processNetwork_revAt _ _ _ _ _ _ _ (ensureRecords_keys_mem _ _), ensureRecords_revAt]

theorem synthesize_keys_mono (env : Env) (inv : Inventory) (ts : Int) (records : Records)
    (x : String) (h : x ∈ records.keys) : x ∈ (synthesize env inv ts records).keys := by
  unfold synthesize
  exact foldl_processNetwork_keys_mono _ _ _ _ _ _ (ensureRecords_keys_mono _ _ _ h)

theorem synthesize_ptrZone_mem (env : Env) (inv : Inventory) (ts : Int) (records : Records) :
    env.ptrZone ∈ (synthesize env inv ts records).keys := by
  unfold synthesize
  exact foldl_processNetwork_keys_mono _ _ _ _ _ _ (ensureRecords_keys_mem _ _)

/-! ## The record map through the zone loop -/

theorem keepA_idem (now maxAge : Int) (x : Option ARecord) :
    keepA now maxAge (keepA now maxAge x) = keepA now maxAge x := by
  cases x with
  | none => rfl
  | some v =>
    by_cases h : Seconds (now - v.timestamp) > maxAge
    · simp [keepA, h]
    · simp [keepA, h]

theorem keepP_idem (now maxAge : Int) (x : Option PtrRecord) :
    keepP now maxAge (keepP now maxAge x) = keepP now maxAge x := by
  cases x with
  | none => rfl
  | some v =>
    by_cases h : Seconds (now - v.timestamp) > maxAge
    · simp [keepP, h]
    · simp [keepP, h]

theorem purged_fwdAt (records : Records) (d : String) (dr : DnsRecords) (now maxAge : Int)
    (h : records.get? d = some dr) (d' k : String) :
    fwdAt (records.set d (purgeStaleRecords dr now maxAge)) d' k =
      if d = d' then keepA now maxAge (fwdAt records d' k) else fwdAt records d' k := by
  unfold fwdAt
  rw [GoMap.get?_set]
  by_cases e : d = d'
  · subst e
    simp only [if_true, h, purge_fwd]
    cases dr.ARecords.get? k <;> rfl
  · simp only [e, if_false]

theorem purged_revAt (records : Records) (d : String) (dr : DnsRecords) (now maxAge : Int)
    (h : records.get? d = some dr) (d' k : String) :
    revAt (records.set d (purgeStaleRecords dr now maxAge)) d' k =
      if d = d' then keepP now maxAge (revAt records d' k) else revAt records d' k := by
  unfold revAt
  rw [GoMap.get?_set]
  by_cases e : d = d'
  · subst e
    simp only [if_true, h, purge_rev]
    cases dr.PtrRecords.get? k <;> rfl
  · simp only [e, if_false]

theorem zoneLoop_fwdAt (env : Env) (run : Run) (order : List String) (o : Omada) (zones : Zones)
    (d k : String) :
    (fwdAt (zoneLoop env run order o zones).1.records d k = fwdAt o.records d k ∨
      fwdAt (zoneLoop env run order o zones).1.records d k =
        keepA (run.purgeNow d) (Seconds o.config.stale_record_duration) (fwdAt o.records d k)) ∧
    ((zoneLoop env run order o zones).2.isSome = true → d ∈ order →
      fwdAt (zoneLoop env run order o zones).1.records d k =
        keepA (run.purgeNow d) (Seconds o.config.stale_record_duration) (fwdAt o.records d k)) := by
  induction order generalizing o zones with
  | nil => simp [zoneLoop]
  | cons d1 rest ih =>
    unfold zoneLoop
    cases hd : o.records.get? d1 with
    | none =>
      simp only
      refine ⟨(ih o zones).1, ?_⟩
      intro hs hm
      rcases List.mem_cons.mp hm with e | e
      · subst e
        have hx : fwdAt o.records d k = none := by simp [fwdAt, hd]
        rcases (ih o zones).1 with h | h
        · rw [h, hx]; rfl
        · exact h
      · exact (ih o zones).2 hs e
    | some dr =>
      simp only
      have h1 : (zoneLoopBody env run o zones d1 dr).1 = _ := zoneLoopBody_fst env run o zones d1 dr
      cases hs : (zoneLoopBody env run o zones d1 dr).2 with
      | none =>
        simp only [h1, Option.isSome_none, Bool.false_eq_true, false_implies, and_true]
        rw [purged_fwdAt _ _ _ _ _ hd]
        by_cases e : d1 = d
        · subst e; simp
        · simp [e]
      | some zones1 =>
        simp only
        have hi := ih (zoneLoopBody env run o zones d1 dr).1 zones1
        rw [h1] at hi ⊢
        simp only at hi
        rw [purged_fwdAt _ _ _ _ _ hd] at hi
        by_cases e : d1 = d
        · subst e
          simp only [if_true, keepA_idem, or_self] at hi
          exact ⟨Or.inr hi.1, fun _ _ => hi.1⟩
        · simp only [e, if_false] at hi
          refine ⟨hi.1, ?_⟩
          intro hsome hm
          rcases List.mem_cons.mp hm with e' | e'
          · exact absurd e'.symm e
          · exact hi.2 hsome e'

theorem zoneLoop_revAt (env : Env) (run : Run) (order : List String) (o : Omada) (zones : Zones)
    (d k : String) :
    (revAt (zoneLoop env run order o zones).1.records d k = revAt o.records d k ∨
      revAt (zoneLoop env run order o zones).1.records d k =
        keepP (run.purgeNow d) (Seconds o.config.stale_record_duration) (revAt o.records d k)) ∧
    ((zoneLoop env run order o zones).2.isSome = true → d ∈ order →
      revAt (zoneLoop env run order o zones).1.records d k =
        keepP (run.purgeNow d) (Seconds o.config.stale_record_duration) (revAt o.records d k)) := by
  induction order generalizing o zones with
  | nil => simp [zoneLoop]
  | cons d1 rest ih =>
    unfold zoneLoop
    cases hd : o.records.get? d1 with
    | none =>
      simp only
      refine ⟨(ih o zones).1, ?_⟩
      intro hs hm
      rcases List.mem_cons.mp hm with e | e
      · subst e
        have hx : revAt o.records d k = none := by simp [revAt, hd]
        rcases (ih o zones).1 with h | h
        · rw [h, hx]; rfl
        · exact h
      · exact (ih o zones).2 hs e
    | some dr =>
      simp only
      have h1 : (zoneLoopBody env run o zones d1 dr).1 = _ := zoneLoopBody_fst env run o zones d1 dr
      cases hs : (zoneLoopBody env run o zones d1 dr).2 with
      | none =>
        simp only [h1, Option.isSome_none, Bool.false_eq_true, false_implies, and_true]
        rw [purged_revAt _ _ _ _ _ hd]
        by_cases e : d1 = d
        · subst e; simp
        · simp [e]
      | some zones1 =>
        simp only
        have hi := ih (zoneLoopBody env run o zones d1 dr).1 zones1
        rw [h1] at hi ⊢
        simp only at hi
        rw [purged_revAt _ _ _ _ _ hd] at hi
        by_cases e : d1 = d
        · subst e
          simp only [if_true, keepP_idem, or_self] at hi
          exact ⟨Or.inr hi.1, fun _ _ => hi.1⟩
        · simp only [e, if_false] at hi
          refine ⟨hi.1, ?_⟩
          intro hsome hm
          rcases List.mem_cons.mp hm with e' | e'
          · exact absurd e'.symm e
          · exact hi.2 hsome e'

/-! ## Records after a cycle -/

theorem applyInventory_fwdAt_fresh (env : Env) (run : Run) (o : Omada) (inv : Inventory)
    (d k : String) (v : ARecord)
    (hv : fwdAt (synthesize env inv run.timestamp o.records) d k = some v)
    (hfresh : ¬ Seconds (run.purgeNow d - v.timestamp) > Seconds o.config.stale_record_duration) :
    fwdAt (applyInventory env run o inv).1.records d k = some v := by
  rw [applyInventory_records, buildCandidate_fst]
  have hk : keepA (run.purgeNow d) (Seconds o.config.stale_record_duration) (some v) = some v := by
    simp [keepA, hfresh]
  rcases (zoneLoop_fwdAt env run
    (run.zoneOrder (synthesize env inv run.timestamp o.records).keys)
    { o with records := synthesize env inv run.timestamp o.records } GoMap.empty d k).1 with h | h
  · rw [h]; exact hv
  · rw [h]; simp only; rw [hv]; exact hk

theorem applyInventory_revAt_fresh (env : Env) (run : Run) (o : Omada) (inv : Inventory)
    (d k : String) (v : PtrRecord)
    (hv : revAt (synthesize env inv run.timestamp o.records) d k = some v)
    (hfresh : ¬ Seconds (run.purgeNow d - v.timestamp) > Seconds o.config.stale_record_duration) :
    revAt (applyInventory env run o inv).1.records d k = some v := by
  rw [applyInventory_records, buildCandidate_fst]
  have hk : keepP (run.purgeNow d) (Seconds o.config.stale_record_duration) (some v) = some v := by
    simp [keepP, hfresh]
  rcases (zoneLoop_revAt env run
    (run.zoneOrder (synthesize env inv run.timestamp o.records).keys)
    { o with records := synthesize env inv run.timestamp o.records } GoMap.empty d k).1 with h | h
  · rw [h]; exact hv
  · rw [h]; simp only; rw [hv]; exact hk

/-- The record of the last write to a forward key, and of the last write to a
reverse key, is in the record map after the cycle unless it is stale already
when its domain is purged. -/
theorem last_write_published (env : Env) (run : Run) (o : Omada) (inv : Inventory)
    (pre post : List Write) (w : Write) (hw : cycleWrites env inv = pre ++ w :: post) :
    ((∀ w' ∈ post, ¬ (w'.dnsDomain = w.dnsDomain ∧ w'.fqdn = w.fqdn)) →
      ¬ Seconds (run.purgeNow w.dnsDomain - run.timestamp) >
        Seconds o.config.stale_record_duration →
      fwdAt (applyInventory env run o inv).1.records w.dnsDomain w.fqdn =
        some ⟨⟨w.fqdn, 60, w.ip⟩, run.timestamp⟩) ∧
    ((∀ w' ∈ post, w'.ptrName env ≠ w.ptrName env) →
      ¬ Seconds (run.purgeNow env.ptrZone - run.timestamp) >
        Seconds o.config.stale_record_duration →
      revAt (applyInventory env run o inv).1.records env.ptrZone (env.getPtrZoneFromIp w.ipText) =
        some ⟨⟨env.getPtrZoneFromIp w.ipText, 60, env.Fqdn w.fqdn⟩, run.timestamp⟩) := by
  constructor
  · intro hlast hfresh
    apply applyInventory_fwdAt_fresh
    · rw [synthesize_fwdAt, hw, fwdOverlay_last _ _ _ _ _ hlast]
      rfl
    · exact hfresh
  · intro hlast hfresh
    apply applyInventory_revAt_fresh
    · rw [synthesize_revAt, hw]
      simp only [if_true]
      exact revOverlay_last env _ _ _ _ _ hlast
    · exact hfresh

theorem clientWrite_eq (env : Env) (subnet : IPNet) (dnsDomain : String) (c : Client) (ip : IP)
    (hip : env.ParseIP c.Ip = some ip) (hin : env.Contains subnet ip = true) :
    clientWrite env subnet dnsDomain c =
      some ⟨dnsDomain, env.makeDNSSafe (clientDnsName c) ++ "." ++ dnsDomain, ip, c.Ip⟩ := by
  simp [clientWrite, hip, hin]

theorem deviceWrite_eq (env : Env) (subnet : IPNet) (dnsDomain : String) (dv : Device) (ip : IP)
    (hip : env.ParseIP dv.IP = some ip) (hin : env.Contains subnet ip = true) :
    deviceWrite env subnet dnsDomain dv =
      some ⟨dnsDomain, env.makeDNSSafe dv.DnsName ++ "." ++ dnsDomain, ip, dv.IP⟩ := by
  simp [deviceWrite, hip, hin]

theorem reservationWrite_eq (env : Env) (subnet : IPNet) (dnsDomain : String)
    (r : DhcpReservation) (ip : IP) (hst : r.Status = true)
    (hip : env.ParseIP r.IP = some ip) (hin : env.Contains subnet ip = true) :
    reservationWrite env subnet dnsDomain r =
      some ⟨dnsDomain, env.makeDNSSafeAllowWildcard (reservationDnsName r) ++ "." ++ dnsDomain,
        ip, r.IP⟩ := by
  simp [reservationWrite, hst, hip, hin]

theorem networkWrites_eq (env : Env) (inv : Inventory) (n : OmadaNetwork) (subnet : IPNet)
    (hdom : n.Domain ≠ "") (hsub : env.ParseCIDR n.Subnet = some subnet) :
    networkWrites env inv n =
      inv.clients.filterMap (clientWrite env subnet (n.Domain ++ ".")) ++
      inv.devices.filterMap (deviceWrite env subnet (n.Domain ++ ".")) ++
      inv.reservations.filterMap (reservationWrite env subnet (n.Domain ++ ".")) := by
  simp [networkWrites, hdom, hsub]

theorem mem_cycleWrites (env : Env) (inv : Inventory) (n : OmadaNetwork) (w : Write)
    (hn : n ∈ inv.networks) (hw : w ∈ networkWrites env inv n) : w ∈ cycleWrites env inv :=
  List.mem_flatMap.mpr ⟨n, hn, hw⟩

/-- The writes of a cycle, split at the write of one reservation of one
network. -/
theorem cycleWrites_split (env : Env) (inv : Inventory) (npre npost : List OmadaNetwork)
    (n : OmadaNetwork) (rpre rpost : List DhcpReservation) (r : DhcpReservation)
    (subnet : IPNet) (w : Write)
    (hn : inv.networks = npre ++ n :: npost) (hr : inv.reservations = rpre ++ r :: rpost)
    (hdom : n.Domain ≠ "") (hsub : env.ParseCIDR n.Subnet = some subnet)
    (hw : reservationWrite env subnet (n.Domain ++ ".") r = some w) :
    cycleWrites env inv =
      (npre.flatMap (networkWrites env inv) ++
        (inv.clients.filterMap (clientWrite env subnet (n.Domain ++ ".")) ++
          inv.devices.filterMap (deviceWrite env subnet (n.Domain ++ ".")) ++
          rpre.filterMap (reservationWrite env subnet (n.Domain ++ ".")))) ++
      w :: (rpost.filterMap (reservationWrite env subnet (n.Domain ++ ".")) ++
        npost.flatMap (networkWrites env inv)) := by
  unfold cycleWrites
  rw [hn, List.flatMap_append, List.flatMap_cons, networkWrites_eq env inv n subnet hdom hsub, hr,
    List.filterMap_append, List.filterMap_cons, hw]
  simp only [List.append_assoc, List.cons_append]

/-! ## The contents of the zones -/

theorem keepA_eq_some (now maxAge : Int) (x : Option ARecord) (v : ARecord)
    (h : keepA now maxAge x = some v) : x = some v ∧ ¬ Seconds (now - v.timestamp) > maxAge := by
  cases x with
  | none => simp [keepA] at h
  | some u =>
    by_cases hs : Seconds (now - u.timestamp) > maxAge
    · simp [keepA, hs] at h
    · simp only [keepA, hs, if_false, Option.some.injEq] at h
      subst h
      exact ⟨rfl, hs⟩

theorem keepP_eq_some (now maxAge : Int) (x : Option PtrRecord) (v : PtrRecord)
    (h : keepP now maxAge x = some v) : x = some v ∧ ¬ Seconds (now - v.timestamp) > maxAge := by
  cases x with
  | none => simp [keepP] at h
  | some u =>
    by_cases hs : Seconds (now - u.timestamp) > maxAge
    · simp [keepP, hs] at h
    · simp only [keepP, hs, if_false, Option.some.injEq] at h
      subst h
      exact ⟨rfl, hs⟩

theorem keepA_of_fresh (now maxAge : Int) (v : ARecord)
    (h : ¬ Seconds (now - v.timestamp) > maxAge) : keepA now maxAge (some v) = some v := by
  simp [keepA, h]

theorem keepP_of_fresh (now maxAge : Int) (v : PtrRecord)
    (h : ¬ Seconds (now - v.timestamp) > maxAge) : keepP now maxAge (some v) = some v := by
  simp [keepP, h]

theorem RROk_purged (env : Env) (run : Run) (maxAge : Int) (records : Records) (d1 : String)
    (dr : DnsRecords) (hd : records.get? d1 = some dr) (d : String) (rr : RR)
    (h : RROk env run maxAge records d rr) :
    RROk env run maxAge (records.set d1 (purgeStaleRecords dr (run.purgeNow d1) maxAge)) d rr := by
  rcases h with h | h | ⟨k, v, hf, hrr, hfresh⟩ | ⟨hp, dom, k, v, hf, hrr, hfresh⟩
  · exact Or.inl h
  · exact Or.inr (Or.inl h)
  · refine Or.inr (Or.inr (Or.inl ⟨k, v, ?_, hrr, hfresh⟩))
    rw [purged_fwdAt _ _ _ _ _ hd, hf]
    by_cases e : d1 = d
    · subst e; simp [keepA_of_fresh _ _ _ hfresh]
    · simp [e]
  · refine Or.inr (Or.inr (Or.inr ⟨hp, dom, k, v, ?_, hrr, hfresh⟩))
    rw [purged_revAt _ _ _ _ _ hd, hf]
    by_cases e : d1 = dom
    · subst e; simp [keepP_of_fresh _ _ _ hfresh]
    · simp [e]

theorem ZonesOk_purged (env : Env) (run : Run) (maxAge : Int) (records : Records) (d1 : String)
    (dr : DnsRecords) (hd : records.get? d1 = some dr) (zones : Zones)
    (h : ZonesOk env run maxAge records zones) :
    ZonesOk env run maxAge (records.set d1 (purgeStaleRecords dr (run.purgeNow d1) maxAge))
      zones :=
  fun d z hz rr hrr => RROk_purged env run maxAge records d1 dr hd d rr (h d z hz rr hrr)

theorem ZonesOk_set (env : Env) (run : Run) (maxAge : Int) (records : Records) (zones : Zones)
    (key : String) (z : Zone) (h : ZonesOk env run maxAge records zones)
    (hz : ∀ rr ∈ z.rrs, RROk env run maxAge records key rr) :
    ZonesOk env run maxAge records (zones.set key z) := by
  intro d z' hz' rr hrr
  rw [GoMap.get?_set] at hz'
  by_cases e : key = d
  · subst e
    simp only [if_true, Option.some.injEq] at hz'
    subst hz'
    exact hz rr hrr
  · simp only [e, if_false] at hz'
    exact h d z' hz' rr hrr

theorem ZonesOk_insertInto (env : Env) (run : Run) (maxAge : Int) (records : Records)
    (zones zones' : Zones) (key : String) (r : RR) (h : ZonesOk env run maxAge records zones)
    (hr : RROk env run maxAge records key r) (hi : insertInto zones key r = some zones') :
    ZonesOk env run maxAge records zones' := by
  unfold insertInto at hi
  cases hz : zones.get? key with
  | none => simp [hz] at hi
  | some z =>
    simp only [hz, Option.some.injEq] at hi
    subst hi
    apply ZonesOk_set _ _ _ _ _ _ _ h
    intro rr hrr
    simp only [Zone.Insert, List.mem_append, List.mem_singleton] at hrr
    rcases hrr with hrr | hrr
    · exact h key z hz rr hrr
    · subst hrr; exact hr

theorem ZonesOk_insertAll (env : Env) (run : Run) (maxAge : Int) (records : Records)
    (key : String) (rrs : List RR) (zones zones' : Zones)
    (h : ZonesOk env run maxAge records zones)
    (hr : ∀ r ∈ rrs, RROk env run maxAge records key r)
    (hi : insertAll zones key rrs = some zones') : ZonesOk env run maxAge records zones' := by
  induction rrs generalizing zones with
  | nil =>
    simp only [insertAll, Option.some.injEq] at hi
    subst hi
    exact h
  | cons r rest ih =>
    unfold insertAll at hi
    cases h1 : insertInto zones key r with
    | none => simp [h1] at hi
    | some zones1 =>
      simp only [h1] at hi
      exact ih zones1
        (ZonesOk_insertInto env run maxAge records zones zones1 key r h
          (hr r (List.mem_cons_self _ _)) h1)
        (fun r' hr' => hr r' (List.mem_cons_of_mem _ hr')) hi

theorem ZonesOk_addFallbackRecord (env : Env) (run : Run) (maxAge : Int) (o : Omada)
    (order : List String) (zones zones' : Zones) (d : String) (dr : DnsRecords)
    (h : ZonesOk env run maxAge o.records zones)
    (hi : addFallbackRecord env o order zones d dr = some zones') :
    ZonesOk env run maxAge o.records zones' := by
  unfold addFallbackRecord at hi
  by_cases hf : o.config.fallback = ""
  · simp only [hf, if_true, Option.some.injEq] at hi
    subst hi
    exact h
  · simp only [hf, if_false] at hi
    split at hi
    · simp only [Option.some.injEq] at hi
      subst hi
      exact h
    · rename_i ip _
      exact ZonesOk_insertInto env run maxAge o.records zones zones' d _ h
        (Or.inr (Or.inl ⟨ip, rfl⟩)) hi

theorem zoneLoopBody_snd (env : Env) (run : Run) (o : Omada) (zones : Zones) (d : String)
    (dr : DnsRecords) :
    (zoneLoopBody env run o zones d dr).2 =
      (addFallbackRecord env (zoneLoopBody env run o zones d dr).1
        (run.resolveOrder d (zoneLoopBody env run o zones d dr).1.records.keys)
        (withZone zones d) d
        (purgeStaleRecords dr (run.purgeNow d) (Seconds o.config.stale_record_duration))).bind
      (fun z1 =>
        (insertAll z1 d
          ((purgeStaleRecords dr (run.purgeNow d)
            (Seconds o.config.stale_record_duration)).ARecords.values.map
              (fun v => RR.A v.record))).bind
        (fun z2 => insertAll z2 env.ptrZone
          ((purgeStaleRecords dr (run.purgeNow d)
            (Seconds o.config.stale_record_duration)).PtrRecords.values.map
              (fun v => RR.PTR v.record)))) := by
  rw [zoneLoopBody_fst]
  unfold zoneLoopBody withZone
  simp only
  split
  · rename_i h; simp [h]
  · rename_i z1 h
    simp only [h, Option.some_bind]
    split
    · rename_i h2; simp [h2]
    · rename_i z2 h2; simp [h2]

theorem ZonesOk_withZone (env : Env) (run : Run) (maxAge : Int) (records : Records)
    (zones : Zones) (d : String) (h : ZonesOk env run maxAge records zones) :
    ZonesOk env run maxAge records (withZone zones d) := by
  unfold withZone
  split
  · exact h
  · apply ZonesOk_set _ _ _ _ _ _ _ h
    intro rr hrr
    simp only [addSoaRecord, NewZone, Zone.Insert, List.nil_append, List.mem_singleton] at hrr
    exact Or.inl hrr

theorem zoneLoopBody_ZonesOk (env : Env) (run : Run) (o : Omada) (zones zones' : Zones)
    (d : String) (dr : DnsRecords) (hd : o.records.get? d = some dr)
    (h : ZonesOk env run (Seconds o.config.stale_record_duration) o.records zones)
    (hs : (zoneLoopBody env run o zones d dr).2 = some zones') :
    ZonesOk env run (Seconds o.config.stale_record_duration)
      (zoneLoopBody env run o zones d dr).1.records zones' := by
  rw [zoneLoopBody_snd] at hs
  have hrec : (zoneLoopBody env run o zones d dr).1.records =
      o.records.set d (purgeStaleRecords dr (run.purgeNow d)
        (Seconds o.config.stale_record_duration)) := by
    rw [zoneLoopBody_fst]
  have h0 := ZonesOk_purged env run _ o.records d dr hd _ (ZonesOk_withZone env run _ _ zones d h)
  rw [← hrec] at h0
  cases h1 : addFallbackRecord env (zoneLoopBody env run o zones d dr).1
      (run.resolveOrder d (zoneLoopBody env run o zones d dr).1.records.keys) (withZone zones d) d
      (purgeStaleRecords dr (run.purgeNow d) (Seconds o.config.stale_record_duration)) with
  | none => simp [h1] at hs
  | some z1 =>
    simp only [h1, Option.some_bind] at hs
    have hz1 := ZonesOk_addFallbackRecord env run _ _ _ _ _ _ _ h0 h1
    cases h2 : insertAll z1 d ((purgeStaleRecords dr (run.purgeNow d)
        (Seconds o.config.stale_record_duration)).ARecords.values.map
          (fun v => RR.A v.record)) with
    | none => simp [h2] at hs
    | some z2 =>
      simp only [h2, Option.some_bind] at hs
      have hz2 : ZonesOk env run (Seconds o.config.stale_record_duration)
          (zoneLoopBody env run o zones d dr).1.records z2 := by
        apply ZonesOk_insertAll env run _ _ d _ z1 z2 hz1 _ h2
        intro r hr
        obtain ⟨v, hv, rfl⟩ := List.mem_map.mp hr
        obtain ⟨k, hk⟩ := (GoMap.mem_values_iff _ _).mp hv
        refine Or.inr (Or.inr (Or.inl ⟨k, v, ?_, rfl, ?_⟩))
        · rw [hrec]
          simp only [fwdAt, GoMap.get?_set_self]
          exact hk
        · exact ((purgeStaleRecords_keeps_fresh dr _ _).1 k v hk)
      apply ZonesOk_insertAll env run _ _ env.ptrZone _ z2 zones' hz2 _ hs
      intro r hr
      obtain ⟨v, hv, rfl⟩ := List.mem_map.mp hr
      obtain ⟨k, hk⟩ := (GoMap.mem_values_iff _ _).mp hv
      refine Or.inr (Or.inr (Or.inr ⟨rfl, d, k, v, ?_, rfl, ?_⟩))
      · rw [hrec]
        simp only [revAt, GoMap.get?_set_self]
        exact hk
      · exact ((purgeStaleRecords_keeps_fresh dr _ _).2 k v hk)

theorem zoneLoop_ZonesOk (env : Env) (run : Run) (order : List String) (o : Omada)
    (zones zones' : Zones)
    (h : ZonesOk env run (Seconds o.config.stale_record_duration) o.records zones)
    (hs : (zoneLoop env run order o zones).2 = some zones') :
    ZonesOk env run (Seconds o.config.stale_record_duration)
      (zoneLoop env run order o zones).1.records zones' := by
  induction order generalizing o zones with
  | nil =>
    simp only [zoneLoop, Option.some.injEq] at hs ⊢
    subst hs
    exact h
  | cons d rest ih =>
    unfold zoneLoop at hs ⊢
    cases hd : o.records.get? d with
    | none =>
      simp only [hd] at hs ⊢
      exact ih o zones h hs
    | some dr =>
      simp only [hd] at hs ⊢
      cases hb : (zoneLoopBody env run o zones d dr).2 with
      | none => simp [hb] at hs
      | some zones1 =>
        simp only [hb] at hs ⊢
        have hz := zoneLoopBody_ZonesOk env run o zones zones1 d dr hd h hb
        have hc : (zoneLoopBody env run o zones d dr).1.config = o.config := by
          rw [zoneLoopBody_fst]
        have := ih (zoneLoopBody env run o zones d dr).1 zones1 (by rw [hc]; exact hz) hs
        rw [hc] at this
        exact this

/-! ## Well-formed record maps -/

theorem RecordsWF_empty (env : Env) : RecordsWF env GoMap.empty := by
  constructor
  · intro d k v h
    simp [fwdAt] at h
  · intro d k v h
    simp [revAt] at h

theorem RecordsWF_synthesize (env : Env) (inv : Inventory) (ts : Int) (records : Records)
    (h : RecordsWF env records) : RecordsWF env (synthesize env inv ts records) := by
  constructor
  · intro d k v hv
    rw [synthesize_fwdAt] at hv
    rcases fwdOverlay_cases ts (cycleWrites env inv) d k (fwdAt records d k) with e | ⟨w, _, _, hk, e⟩
    · rw [e] at hv
      exact h.1 d k v hv
    · rw [e] at hv
      simp only [Option.some.injEq] at hv
      subst hv
      exact ⟨hk, rfl⟩
  · intro d k v hv
    rw [synthesize_revAt] at hv
    by_cases hp : env.ptrZone = d
    · simp only [hp, if_true] at hv
      rcases revOverlay_cases env ts (cycleWrites env inv) k (revAt records d k) with
        e | ⟨w, _, hk, e⟩
      · rw [e] at hv
        exact h.2 d k v hv
      · rw [e] at hv
        simp only [Option.some.injEq] at hv
        subst hv
        exact ⟨hp.symm, hk, rfl⟩
    · simp only [hp, if_false] at hv
      exact h.2 d k v hv

theorem zoneLoop_fwdAt_sub (env : Env) (run : Run) (order : List String) (o : Omada)
    (zones : Zones) (d k : String) (v : ARecord)
    (h : fwdAt (zoneLoop env run order o zones).1.records d k = some v) :
    fwdAt o.records d k = some v := by
  rcases (zoneLoop_fwdAt env run order o zones d k).1 with e | e
  · rw [e] at h; exact h
  · rw [e] at h; exact (keepA_eq_some _ _ _ _ h).1

theorem zoneLoop_revAt_sub (env : Env) (run : Run) (order : List String) (o : Omada)
    (zones : Zones) (d k : String) (v : PtrRecord)
    (h : revAt (zoneLoop env run order o zones).1.records d k = some v) :
    revAt o.records d k = some v := by
  rcases (zoneLoop_revAt env run order o zones d k).1 with e | e
  · rw [e] at h; exact h
  · rw [e] at h; exact (keepP_eq_some _ _ _ _ h).1

theorem RecordsWF_applyInventory (env : Env) (run : Run) (o : Omada) (inv : Inventory)
    (h : RecordsWF env o.records) : RecordsWF env (applyInventory env run o inv).1.records := by
  have hs := RecordsWF_synthesize env inv run.timestamp o.records h
  rw [applyInventory_records, buildCandidate_fst]
  constructor
  · intro d k v hv
    exact hs.1 d k v (zoneLoop_fwdAt_sub env run _ _ _ d k v hv)
  · intro d k v hv
    exact hs.2 d k v (zoneLoop_revAt_sub env run _ _ _ d k v hv)

theorem RecordsWF_updateZones (env : Env) (ctl : Controller) (run : Run) (o : Omada)
    (h : RecordsWF env o.records) : RecordsWF env (updateZones env ctl run o).1.records := by
  unfold updateZones
  split
  · exact h
  · exact RecordsWF_applyInventory env run o _ h

theorem stdRun_valid (t : Int) : (stdRun t).Valid :=
  ⟨fun _ => List.Perm.refl _, fun _ _ => List.Perm.refl _, fun _ => List.Perm.refl _,
    fun _ => by simp [stdRun]⟩

theorem applyInventory_ok (env : Env) (run : Run) (o : Omada) (inv : Inventory)
    (h : (applyInventory env run o inv).2 = Result.ok) :
    ∃ zones, (zoneLoop env run
        (run.zoneOrder (synthesize env inv run.timestamp o.records).keys)
        { o with records := synthesize env inv run.timestamp o.records } GoMap.empty).2 =
          some zones ∧
      (applyInventory env run o inv).1.zones = zones := by
  unfold applyInventory buildCandidate at h ⊢
  simp only at h ⊢
  cases hz : (zoneLoop env run
      (run.zoneOrder (synthesize env inv run.timestamp o.records).keys)
      { o with records := synthesize env inv run.timestamp o.records } GoMap.empty).2 with
  | none => simp [hz] at h
  | some zones => exact ⟨zones, rfl, by simp [hz, publish]⟩

theorem ZonesOk_empty (env : Env) (run : Run) (maxAge : Int) (records : Records) :
    ZonesOk env run maxAge records GoMap.empty := by
  intro d z hz
  simp at hz

/-- After a successful cycle every record of every published zone may stand
there, with respect to the record map of the final state. -/
theorem applyInventory_ZonesOk (env : Env) (run : Run) (o : Omada) (inv : Inventory)
    (h : (applyInventory env run o inv).2 = Result.ok) :
    ZonesOk env run (Seconds o.config.stale_record_duration)
      (applyInventory env run o inv).1.records (applyInventory env run o inv).1.zones := by
  obtain ⟨zones, hz, he⟩ := applyInventory_ok env run o inv h
  rw [he, applyInventory_records, buildCandidate_fst]
  exact zoneLoop_ZonesOk env run _
    { o with records := synthesize env inv run.timestamp o.records } GoMap.empty zones
    (ZonesOk_empty env run _ _) hz

/-- After a successful cycle in a valid run the forward and reverse records
are those of the synthesis that the purge of their domain keeps. -/
theorem applyInventory_purged (env : Env) (run : Run) (o : Omada) (inv : Inventory)
    (hrun : run.Valid) (h : (applyInventory env run o inv).2 = Result.ok) (d k : String) :
    (d ∈ (synthesize env inv run.timestamp o.records).keys →
      fwdAt (applyInventory env run o inv).1.records d k =
        keepA (run.purgeNow d) (Seconds o.config.stale_record_duration)
          (fwdAt (synthesize env inv run.timestamp o.records) d k)) ∧
    (d ∈ (synthesize env inv run.timestamp o.records).keys →
      revAt (applyInventory env run o inv).1.records d k =
        keepP (run.purgeNow d) (Seconds o.config.stale_record_duration)
          (revAt (synthesize env inv run.timestamp o.records) d k)) := by
  obtain ⟨zones, hz, _⟩ := applyInventory_ok env run o inv h
  rw [applyInventory_records, buildCandidate_fst]
  have hsome : (zoneLoop env run
      (run.zoneOrder (synthesize env inv run.timestamp o.records).keys)
      { o with records := synthesize env inv run.timestamp o.records } GoMap.empty).2.isSome =
      true := by rw [hz]; rfl
  constructor
  · intro hd
    exact (zoneLoop_fwdAt env run _ _ _ d k).2 hsome ((hrun.1 _).symm.subset hd)
  · intro hd
    exact (zoneLoop_revAt env run _ _ _ d k).2 hsome ((hrun.1 _).symm.subset hd)

/-! ## A literal fallback through the whole cycle -/

theorem GoMap.get?_none_of_not_mem {V : Type} (m : GoMap V) (k : String) (h : k ∉ m.keys) :
    m.get? k = none := by
  cases hg : m.get? k with
  | none => rfl
  | some v => exact absurd ((GoMap.mem_keys_iff m k).mpr ⟨v, hg⟩) h

theorem GoMap.mem_keys_set_self {V : Type} (m : GoMap V) (k : String) (v : V) :
    k ∈ (m.set k v).keys :=
  (GoMap.mem_keys_iff _ _).mpr ⟨v, GoMap.get?_set_self m k v⟩

theorem insertInto_keys (zones zones' : Zones) (key : String) (r : RR)
    (h : insertInto zones key r = some zones') : zones'.keys = zones.keys := by
  unfold insertInto at h
  cases hz : zones.get? key with
  | none => simp [hz] at h
  | some z =>
    simp only [hz, Option.some.injEq] at h
    subst h
    exact GoMap.keys_set_of_mem _ _ _ ((GoMap.mem_keys_iff _ _).mpr ⟨z, hz⟩)

theorem insertAll_keys (key : String) (rrs : List RR) (zones zones' : Zones)
    (h : insertAll zones key rrs = some zones') : zones'.keys = zones.keys := by
  induction rrs generalizing zones with
  | nil =>
    simp only [insertAll, Option.some.injEq] at h
    rw [h]
  | cons r rest ih =>
    unfold insertAll at h
    cases h1 : insertInto zones key r with
    | none => simp [h1] at h
    | some zones1 =>
      simp only [h1] at h
      rw [ih zones1 h, insertInto_keys _ _ _ _ h1]

theorem insertInto_plusOne (zones zones0 : Zones) (key : String) (r : RR)
    (h : ZonesPlusOne zones zones0) :
    (insertInto zones key r = none ∧ insertInto zones0 key r = none) ∨
    (∃ z' z0', insertInto zones key r = some z' ∧ insertInto zones0 key r = some z0' ∧
      ZonesPlusOne z' z0') := by
  cases hz0 : zones0.get? key with
  | none =>
    left
    have hnot : key ∉ zones.keys := by
      rw [h.1]
      intro hm
      obtain ⟨v, hv⟩ := (GoMap.mem_keys_iff _ _).mp hm
      rw [hz0] at hv
      cases hv
    simp [insertInto, hz0, GoMap.get?_none_of_not_mem zones key hnot]
  | some z0 =>
    right
    obtain ⟨z, hz, hlen⟩ := h.2 key z0 hz0
    refine ⟨zones.set key (z.Insert r), zones0.set key (z0.Insert r), by simp [insertInto, hz],
      by simp [insertInto, hz0], ?_, ?_⟩
    · rw [GoMap.keys_set_of_mem _ _ _ ((GoMap.mem_keys_iff _ _).mpr ⟨z, hz⟩),
        GoMap.keys_set_of_mem _ _ _ ((GoMap.mem_keys_iff _ _).mpr ⟨z0, hz0⟩)]
      exact h.1
    · intro d y0 hy0
      rw [GoMap.get?_set] at hy0 ⊢
      by_cases e : key = d
      · simp only [e, if_true, Option.some.injEq] at hy0 ⊢
        subst hy0
        exact ⟨_, rfl, by simp [Zone.Insert, hlen]⟩
      · simp only [e, if_false] at hy0 ⊢
        exact h.2 d y0 hy0

theorem insertAll_plusOne (key : String) (rrs : List RR) (zones zones0 : Zones)
    (h : ZonesPlusOne zones zones0) :
    (insertAll zones key rrs = none ∧ insertAll zones0 key rrs = none) ∨
    (∃ z' z0', insertAll zones key rrs = some z' ∧ insertAll zones0 key rrs = some z0' ∧
      ZonesPlusOne z' z0') := by
  induction rrs generalizing zones zones0 with
  | nil => exact Or.inr ⟨zones, zones0, rfl, rfl, h⟩
  | cons r rest ih =>
    unfold insertAll
    rcases insertInto_plusOne zones zones0 key r h with ⟨h1, h2⟩ | ⟨z1, z01, h1, h2, hr⟩
    · left; simp [h1, h2]
    · simp only [h1, h2]
      exact ih z1 z01 hr

theorem withZone_fresh (zones : Zones) (d : String) (h : d ∉ zones.keys) :
    withZone zones d = zones.set d (addSoaRecord (NewZone d) d) := by
  unfold withZone
  have : zones.contains d = false := by
    cases hc : zones.contains d with
    | false => rfl
    | true => exact absurd ((GoMap.contains_iff _ _).mp hc) h
  simp [this]

theorem addFallbackRecord_noFallback (env : Env) (o : Omada) (order : List String)
    (zones : Zones) (d : String) (dr : DnsRecords) :
    addFallbackRecord env (noFallback o) order zones d dr = some zones := by
  simp [addFallbackRecord, noFallback]

theorem zoneLoopBody_noFallback_fst (env : Env) (run : Run) (o : Omada) (zones zones0 : Zones)
    (d : String) (dr : DnsRecords) :
    (zoneLoopBody env run (noFallback o) zones0 d dr).1 =
      noFallback (zoneLoopBody env run o zones d dr).1 := by
  rw [zoneLoopBody_fst, zoneLoopBody_fst]
  rfl

theorem zoneLoopBody_plusOne (env : Env) (run : Run) (o : Omada) (zones zones0 : Zones)
    (d : String) (dr : DnsRecords) (ip : IP) (hne : o.config.fallback ≠ "")
    (hip : env.ParseIP o.config.fallback = some ip) (hd : d ∉ zones.keys)
    (h : ZonesPlusOne zones zones0) :
    ((zoneLoopBody env run o zones d dr).2 = none ∧
      (zoneLoopBody env run (noFallback o) zones0 d dr).2 = none) ∨
    (∃ z' z0', (zoneLoopBody env run o zones d dr).2 = some z' ∧
      (zoneLoopBody env run (noFallback o) zones0 d dr).2 = some z0' ∧
      ZonesPlusOne z' z0' ∧ z'.keys = zones.keys ++ [d]) := by
  have hd0 : d ∉ zones0.keys := by rw [← h.1]; exact hd
  rw [zoneLoopBody_snd, zoneLoopBody_snd, zoneLoopBody_noFallback_fst env run o zones zones0 d dr,
    addFallbackRecord_noFallback, withZone_fresh zones d hd, withZone_fresh zones0 d hd0]
  have hfb : addFallbackRecord env (zoneLoopBody env run o zones d dr).1
      (run.resolveOrder d (zoneLoopBody env run o zones d dr).1.records.keys)
      (zones.set d (addSoaRecord (NewZone d) d)) d
      (purgeStaleRecords dr (run.purgeNow d) (Seconds o.config.stale_record_duration)) =
      some ((zones.set d (addSoaRecord (NewZone d) d)).set d
        ((addSoaRecord (NewZone d) d).Insert (RR.A ⟨"*." ++ d, 300, ip⟩))) := by
    have hc : (zoneLoopBody env run o zones d dr).1.config = o.config := by
      rw [zoneLoopBody_fst]
    simp [addFallbackRecord, hc, hne, hip, insertInto]
  rw [hfb]
  have hstale : (noFallback o).config.stale_record_duration = o.config.stale_record_duration :=
    rfl
  rw [hstale]
  simp only [Option.some_bind]
  have hk1 : ((zones.set d (addSoaRecord (NewZone d) d)).set d
      ((addSoaRecord (NewZone d) d).Insert (RR.A ⟨"*." ++ d, 300, ip⟩))).keys =
      zones.keys ++ [d] := by
    rw [GoMap.keys_set_of_mem _ _ _ (GoMap.mem_keys_set_self _ _ _), GoMap.keys_set, if_neg hd]
  have hk0 : (zones0.set d (addSoaRecord (NewZone d) d)).keys = zones0.keys ++ [d] := by
    rw [GoMap.keys_set, if_neg hd0]
  have hrel : ZonesPlusOne ((zones.set d (addSoaRecord (NewZone d) d)).set d
      ((addSoaRecord (NewZone d) d).Insert (RR.A ⟨"*." ++ d, 300, ip⟩)))
      (zones0.set d (addSoaRecord (NewZone d) d)) := by
    refine ⟨by rw [hk1, hk0, h.1], ?_⟩
    intro d' y0 hy0
    rw [GoMap.get?_set] at hy0
    rw [GoMap.get?_set, GoMap.get?_set]
    by_cases e : d = d'
    · simp only [e, if_true, Option.some.injEq] at hy0 ⊢
      subst hy0
      exact ⟨_, rfl, by simp [Zone.Insert]⟩
    · simp only [e, if_false] at hy0 ⊢
      exact h.2 d' y0 hy0
  rcases insertAll_plusOne d ((purgeStaleRecords dr (run.purgeNow d)
      (Seconds o.config.stale_record_duration)).ARecords.values.map (fun v => RR.A v.record))
      _ _ hrel with ⟨h1, h2⟩ | ⟨z1, z01, h1, h2, hr1⟩
  · left; simp [h1, h2]
  · simp only [h1, h2, Option.some_bind]
    rcases insertAll_plusOne env.ptrZone ((purgeStaleRecords dr (run.purgeNow d)
        (Seconds o.config.stale_record_duration)).PtrRecords.values.map
          (fun v => RR.PTR v.record)) z1 z01 hr1 with ⟨h3, h4⟩ | ⟨z2, z02, h3, h4, hr2⟩
    · left; exact ⟨h3, h4⟩
    · right
      refine ⟨z2, z02, h3, h4, hr2, ?_⟩
      rw [insertAll_keys _ _ _ _ h3, insertAll_keys _ _ _ _ h1, hk1]

theorem zoneLoop_cons_none (env : Env) (run : Run) (d : String) (rest : List String) (o : Omada)
    (zones : Zones) (h : o.records.get? d = none) :
    zoneLoop env run (d :: rest) o zones = zoneLoop env run rest o zones := by
  rw [zoneLoop]
  simp only [h]

theorem zoneLoop_cons_fail (env : Env) (run : Run) (d : String) (rest : List String) (o : Omada)
    (zones : Zones) (dr : DnsRecords) (h : o.records.get? d = some dr)
    (hs : (zoneLoopBody env run o zones d dr).2 = none) :
    zoneLoop env run (d :: rest) o zones = ((zoneLoopBody env run o zones d dr).1, none) := by
  rw [zoneLoop]
  simp only [h, hs]

theorem zoneLoop_cons_step (env : Env) (run : Run) (d : String) (rest : List String) (o : Omada)
    (zones zones1 : Zones) (dr : DnsRecords) (h : o.records.get? d = some dr)
    (hs : (zoneLoopBody env run o zones d dr).2 = some zones1) :
    zoneLoop env run (d :: rest) o zones =
      zoneLoop env run rest (zoneLoopBody env run o zones d dr).1 zones1 := by
  rw [zoneLoop]
  simp only [h, hs]

theorem zoneLoop_plusOne (env : Env) (run : Run) (ip : IP) (order : List String) (o : Omada)
    (zones zones0 : Zones) (hne : o.config.fallback ≠ "")
    (hip : env.ParseIP o.config.fallback = some ip) (hnd : order.Nodup)
    (hdis : ∀ d ∈ order, d ∉ zones.keys) (h : ZonesPlusOne zones zones0) :
    (zoneLoop env run order (noFallback o) zones0).1 =
      noFallback (zoneLoop env run order o zones).1 ∧
    (((zoneLoop env run order o zones).2 = none ∧
        (zoneLoop env run order (noFallback o) zones0).2 = none) ∨
      ∃ z' z0', (zoneLoop env run order o zones).2 = some z' ∧
        (zoneLoop env run order (noFallback o) zones0).2 = some z0' ∧ ZonesPlusOne z' z0') := by
  induction order generalizing o zones zones0 with
  | nil => exact ⟨rfl, Or.inr ⟨zones, zones0, rfl, rfl, h⟩⟩
  | cons d rest ih =>
    have hnd' : rest.Nodup := (List.nodup_cons.mp hnd).2
    have hd : d ∉ zones.keys := hdis d (List.mem_cons_self _ _)
    cases hg : o.records.get? d with
    | none =>
      have hg0 : (noFallback o).records.get? d = none := hg
      rw [zoneLoop_cons_none _ _ _ _ _ _ hg, zoneLoop_cons_none _ _ _ _ _ _ hg0]
      exact ih o zones zones0 hne hip hnd' (fun d' hd' => hdis d' (List.mem_cons_of_mem _ hd')) h
    | some dr =>
      have hg0 : (noFallback o).records.get? d = some dr := hg
      have hfst := zoneLoopBody_noFallback_fst env run o zones zones0 d dr
      rcases zoneLoopBody_plusOne env run o zones zones0 d dr ip hne hip hd h with
        ⟨h1, h2⟩ | ⟨z1, z01, h1, h2, hr, hk⟩
      · rw [zoneLoop_cons_fail _ _ _ _ _ _ _ hg h1, zoneLoop_cons_fail _ _ _ _ _ _ _ hg0 h2]
        exact ⟨hfst, Or.inl ⟨rfl, rfl⟩⟩
      · rw [zoneLoop_cons_step _ _ _ _ _ _ _ _ hg h1, zoneLoop_cons_step _ _ _ _ _ _ _ _ hg0 h2,
          hfst]
        have hc : (zoneLoopBody env run o zones d dr).1.config = o.config := by
          rw [zoneLoopBody_fst]
        apply ih (zoneLoopBody env run o zones d dr).1 z1 z01 (by rw [hc]; exact hne)
          (by rw [hc]; exact hip) hnd' _ hr
        intro d' hd'
        rw [hk]
        intro hm
        rcases List.mem_append.mp hm with hm | hm
        · exact hdis d' (List.mem_cons_of_mem _ hd') hm
        · simp only [List.mem_singleton] at hm
          subst hm
          exact (List.nodup_cons.mp hnd).1 hd'

theorem applyInventory_of_loop_none (env : Env) (run : Run) (o : Omada) (inv : Inventory)
    (h : (cycleLoop env run o inv).2 = none) :
    applyInventory env run o inv = ((cycleLoop env run o inv).1, Result.nilDeref) := by
  unfold cycleLoop at h
  unfold applyInventory buildCandidate cycleLoop
  simp only [h]

theorem applyInventory_of_loop_some (env : Env) (run : Run) (o : Omada) (inv : Inventory)
    (zones : Zones) (h : (cycleLoop env run o inv).2 = some zones) :
    applyInventory env run o inv =
      (publish (cycleLoop env run o inv).1 zones (run.nameOrder zones.keys), Result.ok) := by
  unfold cycleLoop at h
  unfold applyInventory buildCandidate cycleLoop
  simp only [h]

theorem cycleLoop_plusOne (env : Env) (run : Run) (o : Omada) (inv : Inventory) (ip : IP)
    (hne : o.config.fallback ≠ "") (hip : env.ParseIP o.config.fallback = some ip)
    (hrun : run.Valid) :
    (cycleLoop env run (noFallback o) inv).1 = noFallback (cycleLoop env run o inv).1 ∧
    (((cycleLoop env run o inv).2 = none ∧ (cycleLoop env run (noFallback o) inv).2 = none) ∨
      ∃ z' z0', (cycleLoop env run o inv).2 = some z' ∧
        (cycleLoop env run (noFallback o) inv).2 = some z0' ∧ ZonesPlusOne z' z0') := by
  have hnd : (run.zoneOrder (synthesize env inv run.timestamp o.records).keys).Nodup :=
    ((hrun.1 _).nodup_iff).mpr (synthesize env inv run.timestamp o.records).nodup
  exact zoneLoop_plusOne env run ip
    (run.zoneOrder (synthesize env inv run.timestamp o.records).keys)
    { o with records := synthesize env inv run.timestamp o.records } GoMap.empty GoMap.empty
    hne hip hnd (fun d _ hm => by simp [GoMap.keys, GoMap.empty] at hm)
    ⟨rfl, fun d z0 hz0 => by simp at hz0⟩

/-- With a fallback that parses as an address, a cycle ends as the cycle with
no fallback does, with the same record map, and every published zone holds
exactly one record more. -/
theorem literal_fallback_cycle (env : Env) (run : Run) (o : Omada) (inv : Inventory) (ip : IP)
    (hne : o.config.fallback ≠ "") (hip : env.ParseIP o.config.fallback = some ip)
    (hrun : run.Valid) :
    (applyInventory env run o inv).2 = (applyInventory env run (noFallback o) inv).2 ∧
    (applyInventory env run o inv).1.records =
      (applyInventory env run (noFallback o) inv).1.records ∧
    ((applyInventory env run o inv).2 = Result.ok →
      ZonesPlusOne (applyInventory env run o inv).1.zones
        (applyInventory env run (noFallback o) inv).1.zones) := by
  obtain ⟨hfst, hsnd⟩ := cycleLoop_plusOne env run o inv ip hne hip hrun
  rcases hsnd with ⟨h1, h2⟩ | ⟨z1, z01, h1, h2, hr⟩
  · rw [applyInventory_of_loop_none _ _ _ _ h1, applyInventory_of_loop_none _ _ _ _ h2, hfst]
    refine ⟨rfl, rfl, ?_⟩
    intro hcontra
    cases hcontra
  · rw [applyInventory_of_loop_some _ _ _ _ _ h1, applyInventory_of_loop_some _ _ _ _ _ h2, hfst]
    exact ⟨rfl, rfl, fun _ => hr⟩

/-! ## The zone loop never meets a nil zone -/

theorem GoMap.entries_nil_of_get?_none {V : Type} (m : GoMap V) (h : ∀ k, m.get? k = none) :
    m.entries = [] := by
  cases he : m.entries with
  | nil => rfl
  | cons hd tl =>
    have := h hd.1
    simp [GoMap.get?, he, alGet] at this

theorem GoMap.values_nil_of_get?_none {V : Type} (m : GoMap V) (h : ∀ k, m.get? k = none) :
    m.values = [] := by
  simp [GoMap.values, GoMap.entries_nil_of_get?_none m h]

theorem withZone_mem (zones : Zones) (d : String) : d ∈ (withZone zones d).keys := by
  unfold withZone
  cases hc : zones.contains d with
  | true => simpa using (GoMap.contains_iff _ _).mp hc
  | false => simpa using GoMap.mem_keys_set_self zones d _

theorem insertInto_of_mem (zones : Zones) (key : String) (r : RR) (h : key ∈ zones.keys) :
    ∃ zones', insertInto zones key r = some zones' := by
  obtain ⟨z, hz⟩ := (GoMap.mem_keys_iff _ _).mp h
  exact ⟨zones.set key (z.Insert r), by simp [insertInto, hz]⟩

theorem insertAll_of_mem (key : String) (rrs : List RR) (zones : Zones) (h : key ∈ zones.keys) :
    ∃ zones', insertAll zones key rrs = some zones' := by
  induction rrs generalizing zones with
  | nil => exact ⟨zones, rfl⟩
  | cons r rest ih =>
    obtain ⟨z1, h1⟩ := insertInto_of_mem zones key r h
    have hk : key ∈ z1.keys := by rw [insertInto_keys _ _ _ _ h1]; exact h
    obtain ⟨z2, h2⟩ := ih z1 hk
    exact ⟨z2, by simp [insertAll, h1, h2]⟩

theorem addFallbackRecord_of_mem (env : Env) (o : Omada) (order : List String) (zones : Zones)
    (d : String) (dr : DnsRecords) (h : d ∈ zones.keys) :
    ∃ zones', addFallbackRecord env o order zones d dr = some zones' ∧
      zones'.keys = zones.keys := by
  unfold addFallbackRecord
  by_cases hf : o.config.fallback = ""
  · exact ⟨zones, by simp [hf], rfl⟩
  · simp only [hf, if_false]
    split
    · exact ⟨zones, rfl, rfl⟩
    · rename_i ip _
      obtain ⟨z1, h1⟩ := insertInto_of_mem zones d (RR.A ⟨"*." ++ d, 300, ip⟩) h
      exact ⟨z1, h1, insertInto_keys _ _ _ _ h1⟩

theorem zoneLoopBody_succeeds (env : Env) (run : Run) (o : Omada) (zones : Zones) (d : String)
    (dr : DnsRecords) (hd : o.records.get? d = some dr)
    (h : PtrOnlyInPtrZone env o.records) :
    ∃ zones', (zoneLoopBody env run o zones d dr).2 = some zones' ∧
      zones'.keys = (withZone zones d).keys := by
  rw [zoneLoopBody_snd]
  obtain ⟨z1, h1, hk1⟩ := addFallbackRecord_of_mem env (zoneLoopBody env run o zones d dr).1
    (run.resolveOrder d (zoneLoopBody env run o zones d dr).1.records.keys) (withZone zones d) d
    (purgeStaleRecords dr (run.purgeNow d) (Seconds o.config.stale_record_duration))
    (withZone_mem zones d)
  have hd1 : d ∈ z1.keys := by rw [hk1]; exact withZone_mem zones d
  obtain ⟨z2, h2⟩ := insertAll_of_mem d ((purgeStaleRecords dr (run.purgeNow d)
    (Seconds o.config.stale_record_duration)).ARecords.values.map (fun v => RR.A v.record)) z1 hd1
  have hk2 : z2.keys = z1.keys := insertAll_keys _ _ _ _ h2
  simp only [h1, h2, Option.some_bind]
  by_cases hp : d = env.ptrZone
  · have hp2 : env.ptrZone ∈ z2.keys := by rw [hk2, ← hp]; exact hd1
    obtain ⟨z3, h3⟩ := insertAll_of_mem env.ptrZone ((purgeStaleRecords dr (run.purgeNow d)
      (Seconds o.config.stale_record_duration)).PtrRecords.values.map
        (fun v => RR.PTR v.record)) z2 hp2
    exact ⟨z3, h3, by rw [insertAll_keys _ _ _ _ h3, hk2, hk1]⟩
  · have hnil : (purgeStaleRecords dr (run.purgeNow d)
        (Seconds o.config.stale_record_duration)).PtrRecords.values = [] := by
      apply GoMap.values_nil_of_get?_none
      intro k
      rw [purge_rev]
      cases hg : dr.PtrRecords.get? k with
      | none => rfl
      | some v =>
        have : revAt o.records d k = some v := by simp [revAt, hd, hg]
        exact absurd (h d k v this) hp
    rw [hnil]
    exact ⟨z2, rfl, by rw [hk2, hk1]⟩

theorem PtrOnlyInPtrZone_purged (env : Env) (records : Records) (d : String) (dr : DnsRecords)
    (now maxAge : Int) (hd : records.get? d = some dr) (h : PtrOnlyInPtrZone env records) :
    PtrOnlyInPtrZone env (records.set d (purgeStaleRecords dr now maxAge)) := by
  intro d' k v hv
  rw [purged_revAt _ _ _ _ _ hd] at hv
  by_cases e : d = d'
  · simp only [e, if_true] at hv
    exact h d' k v (keepP_eq_some _ _ _ _ hv).1
  · simp only [e, if_false] at hv
    exact h d' k v hv

theorem zoneLoop_succeeds (env : Env) (run : Run) (order : List String) (o : Omada)
    (zones : Zones) (h : PtrOnlyInPtrZone env o.records) :
    ∃ zones', (zoneLoop env run order o zones).2 = some zones' := by
  induction order generalizing o zones with
  | nil => exact ⟨zones, rfl⟩
  | cons d rest ih =>
    cases hg : o.records.get? d with
    | none =>
      rw [zoneLoop_cons_none _ _ _ _ _ _ hg]
      exact ih o zones h
    | some dr =>
      obtain ⟨z1, h1, _⟩ := zoneLoopBody_succeeds env run o zones d dr hg h
      rw [zoneLoop_cons_step _ _ _ _ _ _ _ _ hg h1]
      apply ih
      rw [zoneLoopBody_fst]
      exact PtrOnlyInPtrZone_purged env o.records d dr _ _ hg h

theorem PtrOnlyInPtrZone_synthesize (env : Env) (inv : Inventory) (ts : Int) (records : Records)
    (h : PtrOnlyInPtrZone env records) : PtrOnlyInPtrZone env (synthesize env inv ts records) := by
  intro d k v hv
  rw [synthesize_revAt] at hv
  by_cases hp : env.ptrZone = d
  · exact hp.symm
  · simp only [hp, if_false] at hv
    exact h d k v hv

theorem PtrOnlyInPtrZone_empty (env : Env) : PtrOnlyInPtrZone env GoMap.empty := by
  intro d k v h
  simp [revAt] at h

theorem PtrOnlyInPtrZone_of_WF (env : Env) (records : Records) (h : RecordsWF env records) :
    PtrOnlyInPtrZone env records :=
  fun d k v hv => (h.2 d k v hv).1

theorem applyInventory_succeeds (env : Env) (run : Run) (o : Omada) (inv : Inventory)
    (h : PtrOnlyInPtrZone env o.records) : (applyInventory env run o inv).2 = Result.ok := by
  obtain ⟨zones, hz⟩ := zoneLoop_succeeds env run
    (run.zoneOrder (synthesize env inv run.timestamp o.records).keys)
    { o with records := synthesize env inv run.timestamp o.records } GoMap.empty
    (PtrOnlyInPtrZone_synthesize env inv run.timestamp o.records h)
  have hz' : (cycleLoop env run o inv).2 = some zones := hz
  rw [applyInventory_of_loop_some _ _ _ _ _ hz']

theorem PtrOnlyInPtrZone_applyInventory (env : Env) (run : Run) (o : Omada) (inv : Inventory)
    (h : PtrOnlyInPtrZone env o.records) :
    PtrOnlyInPtrZone env (applyInventory env run o inv).1.records := by
  intro d k v hv
  rw [applyInventory_records, buildCandidate_fst] at hv
  exact PtrOnlyInPtrZone_synthesize env inv run.timestamp o.records h d k v
    (zoneLoop_revAt_sub env run _ _ _ d k v hv)

theorem PtrOnlyInPtrZone_updateZones (env : Env) (ctl : Controller) (run : Run) (o : Omada)
    (h : PtrOnlyInPtrZone env o.records) :
    PtrOnlyInPtrZone env (updateZones env ctl run o).1.records := by
  unfold updateZones
  split
  · exact h
  · exact PtrOnlyInPtrZone_applyInventory env run o _ h

/-! ## The keys of the zone map -/

theorem withZone_keys (zones : Zones) (d : String) :
    (withZone zones d).keys = if d ∈ zones.keys then zones.keys else zones.keys ++ [d] := by
  unfold withZone
  cases hc : zones.contains d with
  | true =>
    have := (GoMap.contains_iff _ _).mp hc
    simp [this]
  | false =>
    have hn : d ∉ zones.keys := fun hm => by
      rw [(GoMap.contains_iff _ _).mpr hm] at hc
      cases hc
    simp only [Bool.false_eq_true, if_false, GoMap.keys_set, hn]

theorem addFallbackRecord_keys (env : Env) (o : Omada) (order : List String) (zones zones' : Zones)
    (d : String) (dr : DnsRecords) (h : addFallbackRecord env o order zones d dr = some zones') :
    zones'.keys = zones.keys := by
  unfold addFallbackRecord at h
  by_cases hf : o.config.fallback = ""
  · simp only [hf, if_true, Option.some.injEq] at h
    rw [h]
  · simp only [hf, if_false] at h
    split at h
    · simp only [Option.some.injEq] at h
      rw [h]
    · exact insertInto_keys _ _ _ _ h

theorem zoneLoopBody_zone_keys (env : Env) (run : Run) (o : Omada) (zones zones' : Zones)
    (d : String) (dr : DnsRecords) (h : (zoneLoopBody env run o zones d dr).2 = some zones') :
    zones'.keys = (withZone zones d).keys := by
  rw [zoneLoopBody_snd] at h
  cases h1 : addFallbackRecord env (zoneLoopBody env run o zones d dr).1
      (run.resolveOrder d (zoneLoopBody env run o zones d dr).1.records.keys) (withZone zones d) d
      (purgeStaleRecords dr (run.purgeNow d) (Seconds o.config.stale_record_duration)) with
  | none => simp [h1] at h
  | some z1 =>
    simp only [h1, Option.some_bind] at h
    cases h2 : insertAll z1 d ((purgeStaleRecords dr (run.purgeNow d)
        (Seconds o.config.stale_record_duration)).ARecords.values.map
          (fun v => RR.A v.record)) with
    | none => simp [h2] at h
    | some z2 =>
      simp only [h2, Option.some_bind] at h
      rw [insertAll_keys _ _ _ _ h, insertAll_keys _ _ _ _ h2,
        addFallbackRecord_keys _ _ _ _ _ _ _ h1]

theorem zoneLoopBody_records_keys (env : Env) (run : Run) (o : Omada) (zones : Zones)
    (d : String) (dr : DnsRecords) (hd : o.records.get? d = some dr) :
    (zoneLoopBody env run o zones d dr).1.records.keys = o.records.keys := by
  rw [zoneLoopBody_fst]
  exact GoMap.keys_set_of_mem _ _ _ ((GoMap.mem_keys_iff _ _).mpr ⟨dr, hd⟩)

theorem zoneLoop_records_keys (env : Env) (run : Run) (order : List String) (o : Omada)
    (zones : Zones) : (zoneLoop env run order o zones).1.records.keys = o.records.keys := by
  induction order generalizing o zones with
  | nil => rfl
  | cons d rest ih =>
    cases hg : o.records.get? d with
    | none =>
      rw [zoneLoop_cons_none _ _ _ _ _ _ hg]
      exact ih o zones
    | some dr =>
      cases hs : (zoneLoopBody env run o zones d dr).2 with
      | none =>
        rw [zoneLoop_cons_fail _ _ _ _ _ _ _ hg hs]
        exact zoneLoopBody_records_keys env run o zones d dr hg
      | some z1 =>
        rw [zoneLoop_cons_step _ _ _ _ _ _ _ _ hg hs, ih]
        exact zoneLoopBody_records_keys env run o zones d dr hg

theorem zoneLoop_zone_keys (env : Env) (run : Run) (order : List String) (o : Omada)
    (zones zones' : Zones) (hnd : order.Nodup) (hrec : ∀ d ∈ order, d ∈ o.records.keys)
    (hdis : ∀ d ∈ order, d ∉ zones.keys)
    (h : (zoneLoop env run order o zones).2 = some zones') :
    zones'.keys = zones.keys ++ order := by
  induction order generalizing o zones with
  | nil =>
    simp only [zoneLoop, Option.some.injEq] at h
    simp [h]
  | cons d rest ih =>
    obtain ⟨dr, hg⟩ := (GoMap.mem_keys_iff _ _).mp (hrec d (List.mem_cons_self _ _))
    cases hs : (zoneLoopBody env run o zones d dr).2 with
    | none =>
      rw [zoneLoop_cons_fail _ _ _ _ _ _ _ hg hs] at h
      cases h
    | some z1 =>
      rw [zoneLoop_cons_step _ _ _ _ _ _ _ _ hg hs] at h
      have hk1 : z1.keys = zones.keys ++ [d] := by
        rw [zoneLoopBody_zone_keys _ _ _ _ _ _ _ hs, withZone_keys,
          if_neg (hdis d (List.mem_cons_self _ _))]
      rw [ih (zoneLoopBody env run o zones d dr).1 z1 (List.nodup_cons.mp hnd).2 _ _ h, hk1]
      · simp
      · intro d' hd'
        rw [zoneLoopBody_records_keys _ _ _ _ _ _ hg]
        exact hrec d' (List.mem_cons_of_mem _ hd')
      · intro d' hd' hm
        rw [hk1] at hm
        rcases List.mem_append.mp hm with hm | hm
        · exact hdis d' (List.mem_cons_of_mem _ hd') hm
        · simp only [List.mem_singleton] at hm
          subst hm
          exact (List.nodup_cons.mp hnd).1 hd'

theorem ZonesNamed_set (zones : Zones) (key : String) (z : Zone) (h : ZonesNamed zones)
    (hz : z.origin = key ∧ z.rrs.head? = some (RR.SOA key)) : ZonesNamed (zones.set key z) := by
  intro d z' hz'
  rw [GoMap.get?_set] at hz'
  by_cases e : key = d
  · subst e
    simp only [if_true, Option.some.injEq] at hz'
    subst hz'
    exact hz
  · simp only [e, if_false] at hz'
    exact h d z' hz'

theorem ZonesNamed_insertInto (zones zones' : Zones) (key : String) (r : RR)
    (h : ZonesNamed zones) (hi : insertInto zones key r = some zones') : ZonesNamed zones' := by
  unfold insertInto at hi
  cases hz : zones.get? key with
  | none => simp [hz] at hi
  | some z =>
    simp only [hz, Option.some.injEq] at hi
    subst hi
    apply ZonesNamed_set _ _ _ h
    obtain ⟨h1, h2⟩ := h key z hz
    refine ⟨h1, ?_⟩
    cases hr : z.rrs with
    | nil => simp [hr] at h2
    | cons a rest => simpa [Zone.Insert, hr] using h2

theorem ZonesNamed_insertAll (key : String) (rrs : List RR) (zones zones' : Zones)
    (h : ZonesNamed zones) (hi : insertAll zones key rrs = some zones') : ZonesNamed zones' := by
  induction rrs generalizing zones with
  | nil =>
    simp only [insertAll, Option.some.injEq] at hi
    subst hi
    exact h
  | cons r rest ih =>
    unfold insertAll at hi
    cases h1 : insertInto zones key r with
    | none => simp [h1] at hi
    | some zones1 =>
      simp only [h1] at hi
      exact ih zones1 (ZonesNamed_insertInto zones zones1 key r h h1) hi

theorem ZonesNamed_addFallbackRecord (env : Env) (o : Omada) (order : List String)
    (zones zones' : Zones) (d : String) (dr : DnsRecords) (h : ZonesNamed zones)
    (hi : addFallbackRecord env o order zones d dr = some zones') : ZonesNamed zones' := by
  unfold addFallbackRecord at hi
  by_cases hf : o.config.fallback = ""
  · simp only [hf, if_true, Option.some.injEq] at hi
    subst hi
    exact h
  · simp only [hf, if_false] at hi
    split at hi
    · simp only [Option.some.injEq] at hi
      subst hi
      exact h
    · exact ZonesNamed_insertInto zones zones' d _ h hi

theorem ZonesNamed_withZone (zones : Zones) (d : String) (h : ZonesNamed zones) :
    ZonesNamed (withZone zones d) := by
  unfold withZone
  split
  · exact h
  · exact ZonesNamed_set _ _ _ h ⟨rfl, rfl⟩

theorem zoneLoopBody_ZonesNamed (env : Env) (run : Run) (o : Omada) (zones zones' : Zones)
    (d : String) (dr : DnsRecords) (h : ZonesNamed zones)
    (hs : (zoneLoopBody env run o zones d dr).2 = some zones') : ZonesNamed zones' := by
  rw [zoneLoopBody_snd] at hs
  cases h1 : addFallbackRecord env (zoneLoopBody env run o zones d dr).1
      (run.resolveOrder d (zoneLoopBody env run o zones d dr).1.records.keys) (withZone zones d) d
      (purgeStaleRecords dr (run.purgeNow d) (Seconds o.config.stale_record_duration)) with
  | none => simp [h1] at hs
  | some z1 =>
    simp only [h1, Option.some_bind] at hs
    cases h2 : insertAll z1 d ((purgeStaleRecords dr (run.purgeNow d)
        (Seconds o.config.stale_record_duration)).ARecords.values.map
          (fun v => RR.A v.record)) with
    | none => simp [h2] at hs
    | some z2 =>
      simp only [h2, Option.some_bind] at hs
      exact ZonesNamed_insertAll _ _ _ _
        (ZonesNamed_insertAll _ _ _ _
          (ZonesNamed_addFallbackRecord _ _ _ _ _ _ _ (ZonesNamed_withZone zones d h) h1) h2) hs

theorem zoneLoop_ZonesNamed (env : Env) (run : Run) (order : List String) (o : Omada)
    (zones zones' : Zones) (h : ZonesNamed zones)
    (hs : (zoneLoop env run order o zones).2 = some zones') : ZonesNamed zones' := by
  induction order generalizing o zones with
  | nil =>
    simp only [zoneLoop, Option.some.injEq] at hs
    subst hs
    exact h
  | cons d rest ih =>
    cases hg : o.records.get? d with
    | none =>
      rw [zoneLoop_cons_none _ _ _ _ _ _ hg] at hs
      exact ih o zones h hs
    | some dr =>
      cases hb : (zoneLoopBody env run o zones d dr).2 with
      | none =>
        rw [zoneLoop_cons_fail _ _ _ _ _ _ _ hg hb] at hs
        cases hs
      | some z1 =>
        rw [zoneLoop_cons_step _ _ _ _ _ _ _ _ hg hb] at hs
        exact ih _ z1 (zoneLoopBody_ZonesNamed env run o zones z1 d dr h hb) hs

theorem foldl_processNetwork_domain_mem (env : Env) (inv : Inventory) (ts : Int)
    (ns : List OmadaNetwork) (records : Records) (n : OmadaNetwork) (hn : n ∈ ns)
    (hd : n.Domain ≠ "") :
    n.Domain ++ "." ∈ (ns.foldl (processNetwork env inv ts) records).keys := by
  induction ns generalizing records with
  | nil => simp at hn
  | cons m rest ih =>
    rw [List.foldl_cons]
    rcases List.mem_cons.mp hn with e | e
    · subst e
      apply foldl_processNetwork_keys_mono
      rw [processNetwork_eq, applyWrites_keys]
      simp only [ensureNetwork, hd, if_false]
      exact ensureRecords_keys_mem _ _
    · exact ih _ e

theorem synthesize_domain_mem (env : Env) (inv : Inventory) (ts : Int) (records : Records)
    (n : OmadaNetwork) (hn : n ∈ inv.networks) (hd : n.Domain ≠ "") :
    n.Domain ++ "." ∈ (synthesize env inv ts records).keys :=
  foldl_processNetwork_domain_mem env inv ts inv.networks _ n hn hd

/-- After a successful cycle of a valid run: the keys of the published zone
map are the keys of the synthesized record map in the order of the zone loop,
the record map keeps the keys of the synthesis, and the zones are named. -/
theorem applyInventory_zone_keys (env : Env) (run : Run) (o : Omada) (inv : Inventory)
    (hrun : run.Valid) (hok : (applyInventory env run o inv).2 = Result.ok) :
    (applyInventory env run o inv).1.zones.keys =
      run.zoneOrder (synthesize env inv run.timestamp o.records).keys ∧
    (applyInventory env run o inv).1.records.keys =
      (synthesize env inv run.timestamp o.records).keys ∧
    (applyInventory env run o inv).1.zoneNames =
      run.nameOrder (applyInventory env run o inv).1.zones.keys ∧
    ZonesNamed (applyInventory env run o inv).1.zones := by
  obtain ⟨zones, hz, he⟩ := applyInventory_ok env run o inv hok
  have hperm := hrun.1 (synthesize env inv run.timestamp o.records).keys
  have hkeys := zoneLoop_zone_keys env run _
    { o with records := synthesize env inv run.timestamp o.records } GoMap.empty zones
    ((hperm.nodup_iff).mpr (synthesize env inv run.timestamp o.records).nodup)
    (fun d hd => hperm.subset hd) (fun d _ hm => by simp [GoMap.keys, GoMap.empty] at hm) hz
  have hnamed := zoneLoop_ZonesNamed env run _
    { o with records := synthesize env inv run.timestamp o.records } GoMap.empty zones
    (fun d z hz => by simp at hz) hz
  have hz' : (cycleLoop env run o inv).2 = some zones := hz
  refine ⟨?_, ?_, ?_, ?_⟩
  · rw [he, hkeys]
    simp [GoMap.keys, GoMap.empty]
  · rw [applyInventory_records, buildCandidate_fst, zoneLoop_records_keys]
  · rw [applyInventory_of_loop_some _ _ _ _ _ hz']
    rfl
  · rw [he]
    exact hnamed

/-! ## A fallback target that no record has -/

theorem addFallbackRecord_unresolved (env : Env) (o : Omada) (order : List String) (zones : Zones)
    (d : String) (dr : DnsRecords) (hip : env.ParseIP o.config.fallback = none)
    (hnone : ∀ dom, fwdAt o.records dom (fallbackTarget env o.config.fallback d) = none) :
    addFallbackRecord env o order zones d dr = some zones := by
  by_cases hf : o.config.fallback = ""
  · simp [addFallbackRecord, hf]
  · cases hr : resolveInZones o order (fallbackTarget env o.config.fallback d) with
    | none => simp [addFallbackRecord, hf, hip, hr]
    | some a =>
      obtain ⟨dom, rec, _, hfw, _⟩ := resolveInZones_eq_some o order _ a hr
      rw [hnone dom] at hfw
      cases hfw

theorem zoneLoopBody_unresolved (env : Env) (run : Run) (o : Omada) (zones : Zones) (d : String)
    (dr : DnsRecords) (hd : o.records.get? d = some dr)
    (hip : env.ParseIP o.config.fallback = none)
    (hnone : ∀ d' dom, fwdAt o.records dom (fallbackTarget env o.config.fallback d') = none) :
    (zoneLoopBody env run (noFallback o) zones d dr).2 = (zoneLoopBody env run o zones d dr).2 := by
  rw [zoneLoopBody_snd, zoneLoopBody_snd, zoneLoopBody_noFallback_fst env run o zones zones d dr,
    addFallbackRecord_noFallback]
  have hc : (zoneLoopBody env run o zones d dr).1.config = o.config := by
    rw [zoneLoopBody_fst]
  have hrec : (zoneLoopBody env run o zones d dr).1.records =
      o.records.set d (purgeStaleRecords dr (run.purgeNow d)
        (Seconds o.config.stale_record_duration)) := by
    rw [zoneLoopBody_fst]
  rw [addFallbackRecord_unresolved env (zoneLoopBody env run o zones d dr).1 _ _ d _
    (by rw [hc]; exact hip)]
  · rfl
  · intro dom
    rw [hc, hrec, purged_fwdAt _ _ _ _ _ hd, hnone d dom]
    split <;> rfl

theorem zoneLoop_unresolved (env : Env) (run : Run) (order : List String) (o : Omada)
    (zones : Zones) (hip : env.ParseIP o.config.fallback = none)
    (hnone : ∀ d' dom, fwdAt o.records dom (fallbackTarget env o.config.fallback d') = none) :
    zoneLoop env run order (noFallback o) zones =
      (noFallback (zoneLoop env run order o zones).1, (zoneLoop env run order o zones).2) := by
  induction order generalizing o zones with
  | nil => rfl
  | cons d rest ih =>
    cases hg : o.records.get? d with
    | none =>
      have hg0 : (noFallback o).records.get? d = none := hg
      rw [zoneLoop_cons_none _ _ _ _ _ _ hg, zoneLoop_cons_none _ _ _ _ _ _ hg0]
      exact ih o zones hip hnone
    | some dr =>
      have hg0 : (noFallback o).records.get? d = some dr := hg
      have hsnd := zoneLoopBody_unresolved env run o zones d dr hg hip hnone
      have hfst := zoneLoopBody_noFallback_fst env run o zones zones d dr
      cases hs : (zoneLoopBody env run o zones d dr).2 with
      | none =>
        rw [zoneLoop_cons_fail _ _ _ _ _ _ _ hg hs,
          zoneLoop_cons_fail _ _ _ _ _ _ _ hg0 (hsnd.trans hs), hfst]
      | some z1 =>
        rw [zoneLoop_cons_step _ _ _ _ _ _ _ _ hg hs,
          zoneLoop_cons_step _ _ _ _ _ _ _ _ hg0 (hsnd.trans hs), hfst]
        have hc : (zoneLoopBody env run o zones d dr).1.config = o.config := by
          rw [zoneLoopBody_fst]
        apply ih
        · rw [hc]; exact hip
        · intro d' dom
          rw [hc, zoneLoopBody_fst]
          simp only
          rw [purged_fwdAt _ _ _ _ _ hg, hnone d' dom]
          split <;> rfl

/-- When no forward record of the synthesized record map has a name the
fallback could be looked up under, the cycle is the cycle with no fallback
configured. -/
theorem unresolved_fallback_cycle (env : Env) (run : Run) (o : Omada) (inv : Inventory)
    (hip : env.ParseIP o.config.fallback = none)
    (hnone : ∀ d' dom, fwdAt (synthesize env inv run.timestamp o.records) dom
      (fallbackTarget env o.config.fallback d') = none) :
    applyInventory env run (noFallback o) inv =
      (noFallback (applyInventory env run o inv).1, (applyInventory env run o inv).2) := by
  have hl : cycleLoop env run (noFallback o) inv =
      (noFallback (cycleLoop env run o inv).1, (cycleLoop env run o inv).2) :=
    zoneLoop_unresolved env run _
      { o with records := synthesize env inv run.timestamp o.records } GoMap.empty hip hnone
  cases hs : (cycleLoop env run o inv).2 with
  | none =>
    have hs0 : (cycleLoop env run (noFallback o) inv).2 = none := by rw [hl]; exact hs
    rw [applyInventory_of_loop_none _ _ _ _ hs, applyInventory_of_loop_none _ _ _ _ hs0, hl]
  | some z =>
    have hs0 : (cycleLoop env run (noFallback o) inv).2 = some z := by rw [hl]; exact hs
    rw [applyInventory_of_loop_some _ _ _ _ _ hs, applyInventory_of_loop_some _ _ _ _ _ hs0, hl]
    rfl

/-! ## Every write is for an address inside the subnet -/

theorem clientWrite_sound (env : Env) (subnet : IPNet) (dnsDomain : String) (c : Client)
    (w : Write) (h : clientWrite env subnet dnsDomain c = some w) :
    w.dnsDomain = dnsDomain ∧ w.ipText = c.Ip ∧ env.ParseIP c.Ip = some w.ip ∧
      env.Contains subnet w.ip = true ∧
      w.fqdn = env.makeDNSSafe (clientDnsName c) ++ "." ++ dnsDomain := by
  unfold clientWrite at h
  cases hip : env.ParseIP c.Ip with
  | none => simp [hip] at h
  | some ip =>
    by_cases hcn : env.Contains subnet ip = true
    · simp only [hip, hcn, if_true, Option.some.injEq] at h
      subst h
      exact ⟨rfl, rfl, rfl, hcn, rfl⟩
    · simp [hip, hcn] at h

theorem deviceWrite_sound (env : Env) (subnet : IPNet) (dnsDomain : String) (dv : Device)
    (w : Write) (h : deviceWrite env subnet dnsDomain dv = some w) :
    w.dnsDomain = dnsDomain ∧ w.ipText = dv.IP ∧ env.ParseIP dv.IP = some w.ip ∧
      env.Contains subnet w.ip = true ∧
      w.fqdn = env.makeDNSSafe dv.DnsName ++ "." ++ dnsDomain := by
  unfold deviceWrite at h
  cases hip : env.ParseIP dv.IP with
  | none => simp [hip] at h
  | some ip =>
    by_cases hcn : env.Contains subnet ip = true
    · simp only [hip, hcn, if_true, Option.some.injEq] at h
      subst h
      exact ⟨rfl, rfl, rfl, hcn, rfl⟩
    · simp [hip, hcn] at h

theorem reservationWrite_sound (env : Env) (subnet : IPNet) (dnsDomain : String)
    (r : DhcpReservation) (w : Write) (h : reservationWrite env subnet dnsDomain r = some w) :
    r.Status = true ∧ w.dnsDomain = dnsDomain ∧ w.ipText = r.IP ∧
      env.ParseIP r.IP = some w.ip ∧ env.Contains subnet w.ip = true ∧
      w.fqdn = env.makeDNSSafeAllowWildcard (reservationDnsName r) ++ "." ++ dnsDomain := by
  unfold reservationWrite at h
  cases hs : r.Status with
  | false => simp [hs] at h
  | true =>
    cases hip : env.ParseIP r.IP with
    | none => simp [hs, hip] at h
    | some ip =>
      by_cases hcn : env.Contains subnet ip = true
      · simp only [hs, hip, hcn, if_true, Option.some.injEq, Bool.not_true, Bool.false_eq_true,
          if_false] at h
        subst h
        exact ⟨rfl, rfl, rfl, rfl, hcn, rfl⟩
      · simp [hs, hip, hcn] at h

theorem networkWrites_sound (env : Env) (inv : Inventory) (n : OmadaNetwork) (w : Write)
    (h : w ∈ networkWrites env inv n) :
    n.Domain ≠ "" ∧ w.dnsDomain = n.Domain ++ "." ∧
      ∃ subnet, env.ParseCIDR n.Subnet = some subnet ∧ env.ParseIP w.ipText = some w.ip ∧
        env.Contains subnet w.ip = true := by
  obtain ⟨hd, hdom⟩ := networkWrites_domain env inv n w h
  refine ⟨hd, hdom, ?_⟩
  unfold networkWrites at h
  simp only [hd, if_false] at h
  cases hc : env.ParseCIDR n.Subnet with
  | none => simp [hc] at h
  | some subnet =>
    refine ⟨subnet, rfl, ?_⟩
    simp only [hc, List.mem_append, List.mem_filterMap] at h
    rcases h with (⟨c, _, hw⟩ | ⟨c, _, hw⟩) | ⟨c, _, hw⟩
    · obtain ⟨_, h2, h3, h4, _⟩ := clientWrite_sound env subnet _ c w hw
      exact ⟨by rw [h2]; exact h3, h4⟩
    · obtain ⟨_, h2, h3, h4, _⟩ := deviceWrite_sound env subnet _ c w hw
      exact ⟨by rw [h2]; exact h3, h4⟩
    · obtain ⟨_, _, h2, h3, h4, _⟩ := reservationWrite_sound env subnet _ c w hw
      exact ⟨by rw [h2]; exact h3, h4⟩

theorem cycleWrites_sound (env : Env) (inv : Inventory) (w : Write)
    (h : w ∈ cycleWrites env inv) :
    ∃ n ∈ inv.networks, n.Domain ≠ "" ∧ w.dnsDomain = n.Domain ++ "." ∧
      ∃ subnet, env.ParseCIDR n.Subnet = some subnet ∧ env.ParseIP w.ipText = some w.ip ∧
        env.Contains subnet w.ip = true := by
  obtain ⟨n, hn, hw⟩ := List.mem_flatMap.mp h
  exact ⟨n, hn, networkWrites_sound env inv n w hw⟩

/-! ## Eligible networks and successful fetches -/

theorem startsWithChars_iff (pat s : List Char) :
    startsWithChars pat s = true ↔ ∃ post, s = pat ++ post := by
  induction pat generalizing s with
  | nil => simp [startsWithChars]
  | cons p ps ih =>
    cases s with
    | nil => simp [startsWithChars]
    | cons c cs =>
      simp only [startsWithChars, Bool.and_eq_true, beq_iff_eq, ih, List.cons_append,
        List.cons.injEq]
      constructor
      · rintro ⟨e, post, h⟩
        exact ⟨post, e.symm, h⟩
      · rintro ⟨post, e, h⟩
        exact ⟨e.symm, post, h⟩

theorem containsChars_iff (pat s : List Char) :
    containsChars pat s = true ↔ ∃ pre post, s = pre ++ pat ++ post := by
  induction s with
  | nil =>
    simp only [containsChars, startsWithChars_iff]
    constructor
    · rintro ⟨post, h⟩
      exact ⟨[], post, by simpa using h⟩
    · rintro ⟨pre, post, h⟩
      have h1 : pre ++ pat ++ post = [] := h.symm
      simp only [List.append_eq_nil] at h1
      exact ⟨[], by simp [h1.1.2]⟩
  | cons c cs ih =>
    simp only [containsChars, Bool.or_eq_true, startsWithChars_iff, ih]
    constructor
    · rintro (⟨post, h⟩ | ⟨pre, post, h⟩)
      · exact ⟨[], post, by simpa using h⟩
      · exact ⟨c :: pre, post, by simp [h]⟩
    · rintro ⟨pre, post, h⟩
      cases pre with
      | nil => exact Or.inl ⟨post, by simpa using h⟩
      | cons a pre' =>
        simp only [List.cons_append, List.cons.injEq] at h
        exact Or.inr ⟨pre', post, h.2⟩

theorem getInterfaces_foldl (acc ns : List OmadaNetwork) :
    ns.foldl
      (fun ret network => if matchInterface network.Purpose then ret ++ [network] else ret) acc =
      acc ++ ns.filter (fun n => matchInterface n.Purpose) := by
  induction ns generalizing acc with
  | nil => simp
  | cons n rest ih =>
    rw [List.foldl_cons, ih]
    by_cases h : matchInterface n.Purpose = true
    · simp [h, List.filter_cons]
    · simp [h, List.filter_cons]

theorem getInterfaces_eq_filter (ns : List OmadaNetwork) :
    getInterfaces ns = ns.filter (fun n => matchInterface n.Purpose) := by
  unfold getInterfaces
  rw [getInterfaces_foldl]
  rfl

theorem fetchSite_networks (cfg : Config) (ctl : Controller) (inv inv' : Inventory) (s : String)
    (h : fetchSite cfg ctl inv s = .ok inv') :
    inv'.networks = inv.networks ++ siteInterfaces ctl s := by
  unfold fetchSite at h
  unfold siteInterfaces
  cases hn : ctl.GetNetworks s with
  | error e => simp [hn] at h
  | ok n =>
    simp only [hn] at h ⊢
    cases hrc : cfg.resolve_clients <;> cases hrd : cfg.resolve_devices <;>
      cases hrr : cfg.resolve_dhcp_reservations <;>
      cases hc : ctl.GetClients s <;> cases hd : ctl.GetDevices s <;>
      cases hr : ctl.GetDhcpReservations s <;>
      simp [hrc, hrd, hrr, hc, hd, hr] at h <;> (rw [← h])

theorem fetchInventory_networks (cfg : Config) (ctl : Controller) (sites : List String)
    (inv inv' : Inventory) (h : fetchInventory cfg ctl sites inv = .ok inv') :
    inv'.networks = inv.networks ++ sites.flatMap (siteInterfaces ctl) := by
  induction sites generalizing inv with
  | nil =>
    simp only [fetchInventory, Except.ok.injEq] at h
    simp [h]
  | cons s rest ih =>
    unfold fetchInventory at h
    cases hs : fetchSite cfg ctl inv s with
    | error e => simp [hs] at h
    | ok inv1 =>
      simp only [hs] at h
      rw [ih inv1 h, fetchSite_networks cfg ctl inv inv1 s hs, List.flatMap_cons,
        List.append_assoc]

theorem fetchSite_succeeds (cfg : Config) (ctl : Controller) (inv : Inventory) (s : String)
    (h : ¬ callFails cfg ctl s) : ∃ inv', fetchSite cfg ctl inv s = .ok inv' := by
  unfold fetchSite
  unfold callFails at h
  cases hn : ctl.GetNetworks s with
  | error e => exact absurd (Or.inl ⟨e, hn⟩) h
  | ok n =>
    cases hrc : cfg.resolve_clients <;> cases hrd : cfg.resolve_devices <;>
      cases hrr : cfg.resolve_dhcp_reservations <;>
      cases hc : ctl.GetClients s <;> cases hd : ctl.GetDevices s <;>
      cases hr : ctl.GetDhcpReservations s <;>
      simp [hn, hrc, hrd, hrr, hc, hd, hr] at h ⊢

theorem fetchInventory_succeeds (cfg : Config) (ctl : Controller) (sites : List String)
    (inv : Inventory) (h : ∀ s ∈ sites, ¬ callFails cfg ctl s) :
    ∃ inv', fetchInventory cfg ctl sites inv = .ok inv' := by
  induction sites generalizing inv with
  | nil => exact ⟨inv, rfl⟩
  | cons s rest ih =>
    obtain ⟨inv1, h1⟩ := fetchSite_succeeds cfg ctl inv s (h s (List.mem_cons_self _ _))
    obtain ⟨inv2, h2⟩ := ih inv1 (fun t ht => h t (List.mem_cons_of_mem _ ht))
    exact ⟨inv2, by simp [fetchInventory, h1, h2]⟩

theorem networkWrites_skipped (env : Env) (inv : Inventory) (n : OmadaNetwork)
    (h : n.Domain = "" ∨ env.ParseCIDR n.Subnet = none) : networkWrites env inv n = [] := by
  unfold networkWrites
  rcases h with h | h
  · simp [h]
  · by_cases hd : n.Domain = ""
    · simp [hd]
    · simp [hd, h]

theorem networkWrites_inventory (env : Env) (inv inv' : Inventory) (n : OmadaNetwork)
    (hc : ∀ subnet d, inv.clients.filterMap (clientWrite env subnet d) =
      inv'.clients.filterMap (clientWrite env subnet d))
    (hd : ∀ subnet d, inv.devices.filterMap (deviceWrite env subnet d) =
      inv'.devices.filterMap (deviceWrite env subnet d))
    (hr : ∀ subnet d, inv.reservations.filterMap (reservationWrite env subnet d) =
      inv'.reservations.filterMap (reservationWrite env subnet d)) :
    networkWrites env inv n = networkWrites env inv' n := by
  unfold networkWrites
  split
  · rfl
  · split
    · rfl
    · rw [hc, hd, hr]

theorem filterMap_drop_none {α β : Type} (f : α → Option β) (pre post : List α) (x : α)
    (h : f x = none) : (pre ++ x :: post).filterMap f = (pre ++ post).filterMap f := by
  simp [List.filterMap_append, List.filterMap_cons, h]

theorem cycleWrites_drop_network (env : Env) (pre post : List OmadaNetwork) (n : OmadaNetwork)
    (clients : List Client) (devices : List Device) (reservations : List DhcpReservation)
    (h : n.Domain = "" ∨ env.ParseCIDR n.Subnet = none) :
    cycleWrites env ⟨pre ++ n :: post, clients, devices, reservations⟩ =
      cycleWrites env ⟨pre ++ post, clients, devices, reservations⟩ := by
  have hf : ∀ m, networkWrites env ⟨pre ++ n :: post, clients, devices, reservations⟩ m =
      networkWrites env ⟨pre ++ post, clients, devices, reservations⟩ m :=
    fun m => networkWrites_inventory env _ _ m (fun _ _ => rfl) (fun _ _ => rfl) (fun _ _ => rfl)
  unfold cycleWrites
  simp only [funext hf, List.flatMap_append, List.flatMap_cons,
    networkWrites_skipped env ⟨pre ++ post, clients, devices, reservations⟩ n h, List.nil_append]

theorem clientWrite_unparsed (env : Env) (subnet : IPNet) (d : String) (c : Client)
    (h : env.ParseIP c.Ip = none) : clientWrite env subnet d c = none := by
  simp [clientWrite, h]

theorem deviceWrite_unparsed (env : Env) (subnet : IPNet) (d : String) (dv : Device)
    (h : env.ParseIP dv.IP = none) : deviceWrite env subnet d dv = none := by
  simp [deviceWrite, h]

theorem reservationWrite_unparsed (env : Env) (subnet : IPNet) (d : String)
    (r : DhcpReservation) (h : env.ParseIP r.IP = none) :
    reservationWrite env subnet d r = none := by
  unfold reservationWrite
  cases r.Status <;> simp [h]

theorem cycleWrites_drop_client (env : Env) (networks : List OmadaNetwork)
    (pre post : List Client) (c : Client) (devices : List Device)
    (reservations : List DhcpReservation) (h : env.ParseIP c.Ip = none) :
    cycleWrites env ⟨networks, pre ++ c :: post, devices, reservations⟩ =
      cycleWrites env ⟨networks, pre ++ post, devices, reservations⟩ := by
  unfold cycleWrites
  congr 1
  funext m
  exact networkWrites_inventory env _ _ m
    (fun subnet d => filterMap_drop_none _ pre post c (clientWrite_unparsed env subnet d c h))
    (fun _ _ => rfl) (fun _ _ => rfl)

theorem cycleWrites_drop_device (env : Env) (networks : List OmadaNetwork)
    (clients : List Client) (pre post : List Device) (dv : Device)
    (reservations : List DhcpReservation) (h : env.ParseIP dv.IP = none) :
    cycleWrites env ⟨networks, clients, pre ++ dv :: post, reservations⟩ =
      cycleWrites env ⟨networks, clients, pre ++ post, reservations⟩ := by
  unfold cycleWrites
  congr 1
  funext m
  exact networkWrites_inventory env _ _ m (fun _ _ => rfl)
    (fun subnet d => filterMap_drop_none _ pre post dv (deviceWrite_unparsed env subnet d dv h))
    (fun _ _ => rfl)

theorem cycleWrites_drop_reservation (env : Env) (networks : List OmadaNetwork)
    (clients : List Client) (devices : List Device) (pre post : List DhcpReservation)
    (r : DhcpReservation) (h : env.ParseIP r.IP = none) :
    cycleWrites env ⟨networks, clients, devices, pre ++ r :: post⟩ =
      cycleWrites env ⟨networks, clients, devices, pre ++ post⟩ := by
  unfold cycleWrites
  congr 1
  funext m
  exact networkWrites_inventory env _ _ m (fun _ _ => rfl) (fun _ _ => rfl)
    (fun subnet d =>
      filterMap_drop_none _ pre post r (reservationWrite_unparsed env subnet d r h))

/-- The forward and reverse records after synthesis depend on the inventory
through the writes of the cycle only. -/
theorem synthesize_lookups_of_writes (env : Env) (inv inv' : Inventory) (ts : Int)
    (records : Records) (h : cycleWrites env inv = cycleWrites env inv') :
    (∀ d k, fwdAt (synthesize env inv ts records) d k =
      fwdAt (synthesize env inv' ts records) d k) ∧
    (∀ d k, revAt (synthesize env inv ts records) d k =
      revAt (synthesize env inv' ts records) d k) := by
  constructor
  · intro d k
    rw [synthesize_fwdAt, synthesize_fwdAt, h]
  · intro d k
    rw [synthesize_revAt, synthesize_revAt, h]

theorem fwdAt_none_of_keys (records : Records) (k : String)
    (h : ∀ d ∈ records.keys, fwdAt records d k = none) : ∀ d, fwdAt records d k = none := by
  intro d
  by_cases hd : d ∈ records.keys
  · exact h d hd
  · simp [fwdAt, GoMap.get?_none_of_not_mem records d hd]

theorem purged_ptr_values_nil (env : Env) (records : Records) (d : String) (dr : DnsRecords)
    (now maxAge : Int) (hd : records.get? d = some dr) (h : PtrOnlyInPtrZone env records)
    (hp : d ≠ env.ptrZone) : (purgeStaleRecords dr now maxAge).PtrRecords.values = [] := by
  apply GoMap.values_nil_of_get?_none
  intro k
  rw [purge_rev]
  cases hg : dr.PtrRecords.get? k with
  | none => rfl
  | some v =>
    have : revAt records d k = some v := by simp [revAt, hd, hg]
    exact absurd (h d k v this) hp

theorem updateZones_of_fetch (env : Env) (ctl : Controller) (run : Run) (o : Omada)
    (inv : Inventory) (h : fetchInventory o.config ctl o.sites ⟨[], [], [], []⟩ = .ok inv) :
    updateZones env ctl run o = applyInventory env run o inv := by
  unfold updateZones
  rw [h]

theorem updateZones_ok_fetch (env : Env) (ctl : Controller) (run : Run) (o : Omada)
    (h : (updateZones env ctl run o).2 = Result.ok) :
    ∃ inv, fetchInventory o.config ctl o.sites ⟨[], [], [], []⟩ = .ok inv ∧
      updateZones env ctl run o = applyInventory env run o inv := by
  cases hf : fetchInventory o.config ctl o.sites ⟨[], [], [], []⟩ with
  | error e =>
    unfold updateZones at h
    rw [hf] at h
    cases h
  | ok inv => exact ⟨inv, rfl, updateZones_of_fetch env ctl run o inv hf⟩

theorem mem_siteInterfaces (ctl : Controller) (s : String) (ns : List OmadaNetwork)
    (n : OmadaNetwork) (hs : ctl.GetNetworks s = .ok ns) (hn : n ∈ getInterfaces ns) :
    n ∈ siteInterfaces ctl s := by
  unfold siteInterfaces
  rw [hs]
  exact hn

theorem processNetwork_skip (env : Env) (inv : Inventory) (ts : Int) (records : Records)
    (n : OmadaNetwork) (h : n.Domain = "") : processNetwork env inv ts records n = records := by
  simp [processNetwork, h]

theorem foldl_processNetwork_filter (env : Env) (inv : Inventory) (ts : Int)
    (ns : List OmadaNetwork) (records : Records) :
    ns.foldl (processNetwork env inv ts) records =
      (ns.filter (fun n => decide (n.Domain ≠ ""))).foldl (processNetwork env inv ts) records := by
  induction ns generalizing records with
  | nil => rfl
  | cons n rest ih =>
    by_cases h : n.Domain = ""
    · rw [List.foldl_cons, processNetwork_skip env inv ts records n h, ih]
      simp [List.filter_cons, h]
    · rw [List.foldl_cons, ih]
      simp [List.filter_cons, h]

theorem constController_calls (cfg : Config) (inv : Inventory) (s : String) :
    ¬ callFails cfg (constController inv) s := by
  rintro (⟨e, h⟩ | ⟨_, e, h⟩ | ⟨_, e, h⟩ | ⟨_, e, h⟩) <;> cases h

/-! ## The validation of the fallback value -/

theorem utf8ByteSize_go_ge (cs : List Char) : cs.length ≤ String.utf8ByteSize.go cs := by
  induction cs with
  | nil => simp [String.utf8ByteSize.go]
  | cons c cs ih =>
    have := Char.utf8Size_pos c
    simp only [String.utf8ByteSize.go, List.length_cons]
    omega

theorem fallbackChar_utf8Size (c : Char) (h : fallbackChar c = true) : c.utf8Size = 1 := by
  have h127 : c.val ≤ 127 := by
    simp only [fallbackChar, Char.isAlphanum, Char.isAlpha, Char.isUpper, Char.isLower,
      Char.isDigit, Bool.or_eq_true, Bool.and_eq_true, decide_eq_true_eq, beq_iff_eq] at h
    rcases h with ((((⟨_, h⟩ | ⟨_, h⟩) | ⟨_, h⟩) | h) | h)
    · exact Nat.le_trans (show c.val.toNat ≤ 90 from h) (by decide)
    · exact Nat.le_trans (show c.val.toNat ≤ 122 from h) (by decide)
    · exact Nat.le_trans (show c.val.toNat ≤ 57 from h) (by decide)
    · rw [h]; decide
    · rw [h]; decide
  simp [Char.utf8Size, h127]

theorem utf8ByteSize_go_eq (cs : List Char) (h : ∀ c ∈ cs, fallbackChar c = true) :
    String.utf8ByteSize.go cs = cs.length := by
  induction cs with
  | nil => simp [String.utf8ByteSize.go]
  | cons c cs ih =>
    simp only [String.utf8ByteSize.go, List.length_cons]
    rw [ih (fun x hx => h x (List.mem_cons_of_mem _ hx)),
      fallbackChar_utf8Size c (h c (List.mem_cons_self _ _))]

theorem utf8ByteSize_ge (s : String) : s.length ≤ s.utf8ByteSize := by
  cases s with
  | mk data => exact utf8ByteSize_go_ge data

theorem utf8ByteSize_eq (s : String) (h : ∀ c ∈ s.data, fallbackChar c = true) :
    s.utf8ByteSize = s.length := by
  cases s with
  | mk data => exact utf8ByteSize_go_eq data h

theorem utf8ByteSize_pos_iff (s : String) : 0 < s.utf8ByteSize ↔ s.data ≠ [] := by
  cases s with
  | mk data =>
    cases data with
    | nil => simp [String.utf8ByteSize, String.utf8ByteSize.go]
    | cons c cs =>
      have := Char.utf8Size_pos c
      simp only [String.utf8ByteSize, String.utf8ByteSize.go, ne_eq, reduceCtorEq,
        not_false_eq_true, iff_true]
      omega

theorem containsChars_short (a b : Char) (cs : List Char) (h : cs.length < 2) :
    containsChars [a, b] cs = false := by
  match cs, h with
  | [], _ => simp [containsChars, startsWithChars]
  | [c], _ => simp [containsChars, startsWithChars]

theorem containsChars_pair (a b c d : Char) (cs : List Char) :
    containsChars [a, b] (c :: d :: cs) = ((a == c && b == d) || containsChars [a, b] (d :: cs)) := by
  simp [containsChars, startsWithChars]

theorem noPairs_iff (cs : List Char) :
    (containsChars ['.', '.'] cs = false ∧ containsChars ['.', '-'] cs = false ∧
      containsChars ['-', '.'] cs = false) ↔ List.Chain' GoodPair cs := by
  induction cs with
  | nil => simp [containsChars_short]
  | cons c cs ih =>
    cases cs with
    | nil => simp [containsChars_short]
    | cons d cs =>
      rw [List.chain'_cons, ← ih, containsChars_pair, containsChars_pair, containsChars_pair]
      simp only [Bool.or_eq_false_iff, Bool.and_eq_false_iff, beq_eq_false_iff_ne, ne_eq,
        GoodPair]
      constructor
      · rintro ⟨⟨h1, h2⟩, ⟨h3, h4⟩, h5, h6⟩
        refine ⟨⟨?_, ?_⟩, h2, h4, h6⟩
        · intro hc
          subst hc
          exact ⟨by rcases h1 with h | h; exact absurd rfl h; exact fun e => h e.symm,
            by rcases h3 with h | h; exact absurd rfl h; exact fun e => h e.symm⟩
        · intro hc
          subst hc
          rcases h5 with h | h
          · exact absurd rfl h
          · exact fun e => h e.symm
      · rintro ⟨⟨g1, g2⟩, h2, h4, h6⟩
        refine ⟨⟨?_, h2⟩, ⟨?_, h4⟩, ?_, h6⟩
        · by_cases hc : c = '.'
          · exact Or.inr (fun e => (g1 hc).1 e.symm)
          · exact Or.inl (fun e => hc e.symm)
        · by_cases hc : c = '.'
          · exact Or.inr (fun e => (g1 hc).2 e.symm)
          · exact Or.inl (fun e => hc e.symm)
        · by_cases hc : c = '-'
          · exact Or.inr (fun e => g2 hc e.symm)
          · exact Or.inl (fun e => hc e.symm)

theorem startsWithChars_single (a : Char) (cs : List Char) :
    startsWithChars [a] cs = true ↔ cs.head? = some a := by
  cases cs with
  | nil => simp [startsWithChars]
  | cons c cs =>
    simp only [startsWithChars, Bool.and_true, beq_iff_eq, List.head?_cons, Option.some.injEq]
    exact eq_comm

theorem FallbackShape_nil : FallbackShape [] := by
  simp [FallbackShape]

/-- The three expressions together: a non-empty text passes them when it has
the fallback shape. -/
theorem regex_iff_shape (s : String) :
    (!validChars s || noConsecutiveDots s || invalidLabels s) = false ↔
      s.data ≠ [] ∧ FallbackShape s.data := by
  simp only [Bool.or_eq_false_iff, Bool.not_eq_false', validChars, noConsecutiveDots,
    invalidLabels, Bool.and_eq_true, Bool.not_eq_true', List.isEmpty_eq_false, List.all_eq_true,
    beq_eq_false_iff_ne, ne_eq, FallbackShape, ← noPairs_iff]
  have hs := startsWithChars_single '-' s.data
  constructor
  · rintro ⟨⟨⟨hne, hall⟩, hdd⟩, ⟨⟨hst, hdh⟩, hhd⟩, hl⟩
    refine ⟨hne, hall, ⟨hdd, hdh, hhd⟩, ?_, hl⟩
    intro hh
    rw [hs.mpr hh] at hst
    cases hst
  · rintro ⟨hne, hall, ⟨hdd, hdh, hhd⟩, hh, hl⟩
    refine ⟨⟨⟨hne, hall⟩, hdd⟩, ⟨⟨?_, hdh⟩, hhd⟩, hl⟩
    cases hst : startsWithChars ['-'] s.data with
    | false => rfl
    | true => exact absurd (hs.mp hst) hh

theorem parseFallback_accepts_iff (cfg : config) (v : String) :
    (parseFallback cfg v).2 = none ↔ v.utf8ByteSize ≤ 253 ∧ FallbackShape v.data := by
  unfold parseFallback
  by_cases hlen : v.utf8ByteSize > 253
  · simp only [hlen, if_true]
    constructor
    · intro h; cases h
    · intro h; omega
  · simp only [hlen, if_false]
    have hle : v.utf8ByteSize ≤ 253 := by omega
    by_cases hne : v.data = []
    · have h0 : ¬ v.utf8ByteSize > 0 := by
        rw [gt_iff_lt, utf8ByteSize_pos_iff]
        exact fun h => h hne
      simp only [h0, false_and, if_false, true_iff]
      rw [hne]
      exact ⟨hle, FallbackShape_nil⟩
    · have h0 : v.utf8ByteSize > 0 := (utf8ByteSize_pos_iff v).mpr hne
      cases hr : (!validChars v || noConsecutiveDots v || invalidLabels v) with
      | true =>
        simp only [h0, true_and, if_true]
        constructor
        · intro h; cases h
        · rintro ⟨_, hs⟩
          have := (regex_iff_shape v).mpr ⟨hne, hs⟩
          rw [hr] at this
          cases this
      | false =>
        simp only [h0, true_and, Bool.false_eq_true, if_false, true_iff]
        exact ⟨hle, ((regex_iff_shape v).mp hr).2⟩

theorem parseFallback_cases (cfg : config) (v : String) :
    ((parseFallback cfg v).2 = none ∧ (parseFallback cfg v).1 = { cfg with fallback := v }) ∨
    ((parseFallback cfg v).2 ≠ none ∧ (parseFallback cfg v).1 = cfg) := by
  unfold parseFallback
  split
  · exact Or.inr ⟨by simp, rfl⟩
  · split
    · exact Or.inr ⟨by simp, rfl⟩
    · exact Or.inl ⟨rfl, rfl⟩

theorem splitChars_ne_nil (sep : Char) (cs : List Char) : splitChars sep cs ≠ [] := by
  cases cs with
  | nil => simp [splitChars]
  | cons c cs =>
    unfold splitChars
    split
    · simp
    · split <;> simp

theorem joinChars_cons_cons (sep : Char) (w w2 : List Char) (ws : List (List Char)) :
    joinChars sep (w :: w2 :: ws) = w ++ sep :: joinChars sep (w2 :: ws) := rfl

theorem joinChars_splitChars (sep : Char) (cs : List Char) :
    joinChars sep (splitChars sep cs) = cs := by
  induction cs with
  | nil => rfl
  | cons c cs ih =>
    unfold splitChars
    cases hs : splitChars sep cs with
    | nil => exact absurd hs (splitChars_ne_nil sep cs)
    | cons w ws =>
      rw [hs] at ih
      by_cases hc : c = sep
      · simp only [hc, if_true]
        rw [joinChars_cons_cons, ih]
        rfl
      · simp only [hc, if_false]
        cases ws with
        | nil =>
          simp only [joinChars] at ih ⊢
          rw [ih]
        | cons w2 ws =>
          rw [joinChars_cons_cons] at ih ⊢
          rw [List.cons_append, ih]

theorem splitChars_no_sep (sep : Char) (cs : List Char) :
    ∀ l ∈ splitChars sep cs, sep ∉ l := by
  induction cs with
  | nil => simp [splitChars]
  | cons c cs ih =>
    unfold splitChars
    cases hs : splitChars sep cs with
    | nil => exact absurd hs (splitChars_ne_nil sep cs)
    | cons w ws =>
      rw [hs] at ih
      by_cases hc : c = sep
      · simp only [hc, if_true]
        intro l hl
        rcases List.mem_cons.mp hl with e | e
        · rw [e]; simp
        · exact ih l e
      · simp only [hc, if_false]
        intro l hl
        rcases List.mem_cons.mp hl with e | e
        · rw [e]
          intro hm
          rcases List.mem_cons.mp hm with e2 | e2
          · exact hc e2.symm
          · exact ih w (List.mem_cons_self _ _) e2
        · exact ih l (List.mem_cons_of_mem _ e)

theorem chain_of_no_dot (w : List Char) (hw : '.' ∉ w) : List.Chain' GoodPair w := by
  induction w with
  | nil => exact List.chain'_nil
  | cons c cs ih =>
    have hc : c ≠ '.' := fun e => hw (by rw [e]; exact List.mem_cons_self _ _)
    have hcs : '.' ∉ cs := fun h => hw (List.mem_cons_of_mem _ h)
    rw [List.chain'_cons']
    refine ⟨?_, ih hcs⟩
    intro y hy
    have hyc : y ∈ cs := List.mem_of_mem_head? hy
    have hy' : y ≠ '.' := fun e => hcs (by rw [← e]; exact hyc)
    exact ⟨fun e => absurd e hc, fun _ => hy'⟩

theorem label_shape (w : List Char) (hw : '.' ∉ w) :
    FallbackShape w ↔ w = [] ∨ validLabel w = true := by
  by_cases hne : w = []
  · simp [hne, FallbackShape_nil]
  · simp only [FallbackShape, validLabel, hne, false_or, Bool.and_eq_true, Bool.not_eq_true',
      List.isEmpty_eq_false, List.all_eq_true, Bool.or_eq_true, beq_iff_eq, bne_iff_ne, ne_eq]
    constructor
    · rintro ⟨hall, _, hh, hl⟩
      refine ⟨⟨⟨not_false, ?_⟩, hh⟩, hl⟩
      intro c hc
      have := hall c hc
      simp only [fallbackChar, Bool.or_eq_true, beq_iff_eq] at this
      rcases this with (h | h) | h
      · exact Or.inl h
      · exact absurd (h ▸ hc) hw
      · exact Or.inr h
    · rintro ⟨⟨⟨_, hall⟩, hh⟩, hl⟩
      refine ⟨?_, chain_of_no_dot w hw, hh, hl⟩
      intro c hc
      simp only [fallbackChar, Bool.or_eq_true, beq_iff_eq]
      rcases hall c hc with h | h
      · exact Or.inl (Or.inl h)
      · exact Or.inr h

theorem head?_ne_of_no_dot (w : List Char) (hw : '.' ∉ w) : w.head? ≠ some '.' :=
  fun h => hw (List.mem_of_mem_head? h)

theorem getLast?_ne_of_no_dot (w : List Char) (hw : '.' ∉ w) : w.getLast? ≠ some '.' :=
  fun h => hw (List.mem_of_mem_getLast? h)

theorem goodPair_dot_right (x : Char) : GoodPair x '.' ↔ x ≠ '.' ∧ x ≠ '-' := by
  simp only [GoodPair, ne_eq, not_true_eq_false, false_and, imp_false]

theorem goodPair_dot_left (y : Char) : GoodPair '.' y ↔ y ≠ '.' ∧ y ≠ '-' := by
  simp only [GoodPair, ne_eq, true_implies]
  constructor
  · exact fun h => h.1
  · exact fun h => ⟨h, fun e => by cases e⟩

theorem getLast?_cons_ne (a b : Char) (t : List Char) (hab : a ≠ b) :
    (a :: t).getLast? ≠ some b ↔ t.getLast? ≠ some b := by
  rw [List.getLast?_cons]
  cases t.getLast? with
  | none => simp [hab]
  | some x => simp

/-- The shape of a text with a dot in it, in terms of the part before the dot
and the part after it. -/
theorem shape_split (w t : List Char) :
    FallbackShape (w ++ '.' :: t) ↔
      (FallbackShape w ∧ w.getLast? ≠ some '.') ∧ AfterDotShape t := by
  have hl : (w ++ '.' :: t).getLast? ≠ some '-' ↔ t.getLast? ≠ some '-' := by
    rw [List.getLast?_append, List.getLast?_cons]
    simp only [Option.or_some]
    rw [← List.getLast?_cons]
    exact getLast?_cons_ne '.' '-' t (by decide)
  have hh : (w ++ '.' :: t).head? ≠ some '-' ↔ w.head? ≠ some '-' := by
    cases w with
    | nil => simp
    | cons c cs => simp
  have hall : (∀ c ∈ w ++ '.' :: t, fallbackChar c = true) ↔
      (∀ c ∈ w, fallbackChar c = true) ∧ (∀ c ∈ t, fallbackChar c = true) := by
    simp only [List.mem_append, List.mem_cons]
    constructor
    · intro h
      exact ⟨fun c hc => h c (Or.inl hc), fun c hc => h c (Or.inr (Or.inr hc))⟩
    · rintro ⟨h1, h2⟩ c (hc | hc | hc)
      · exact h1 c hc
      · rw [hc]; decide
      · exact h2 c hc
  have hchain : List.Chain' GoodPair (w ++ '.' :: t) ↔
      (List.Chain' GoodPair w ∧ (w.getLast? ≠ some '.' ∧ w.getLast? ≠ some '-')) ∧
      (List.Chain' GoodPair t ∧ (t.head? ≠ some '.' ∧ t.head? ≠ some '-')) := by
    rw [List.chain'_append, List.chain'_cons']
    simp only [List.head?_cons, Option.mem_def, Option.some.injEq, forall_eq',
      goodPair_dot_right, goodPair_dot_left]
    constructor
    · rintro ⟨h1, ⟨h2, h3⟩, h4⟩
      exact ⟨⟨h1, fun e => (h4 _ e).1 rfl, fun e => (h4 _ e).2 rfl⟩,
        h3, fun e => (h2 _ e).1 rfl, fun e => (h2 _ e).2 rfl⟩
    · rintro ⟨⟨h1, h2, h3⟩, h4, h5, h6⟩
      exact ⟨h1, ⟨fun y hy => ⟨fun e => h5 (e ▸ hy), fun e => h6 (e ▸ hy)⟩, h4⟩,
        fun x hx => ⟨fun e => h2 (e ▸ hx), fun e => h3 (e ▸ hx)⟩⟩
  unfold AfterDotShape FallbackShape
  rw [hall, hchain, hh, hl]
  constructor
  · rintro ⟨⟨h1, h2⟩, ⟨⟨h3, h4, h5⟩, h6, h7, h8⟩, h9, h10⟩
    exact ⟨⟨⟨h1, h3, h9, h5⟩, h4⟩, ⟨h2, h6, h8, h10⟩, h7⟩
  · rintro ⟨⟨⟨h1, h3, h9, h5⟩, h4⟩, ⟨h2, h6, h8, h10⟩, h7⟩
    exact ⟨⟨h1, h2⟩, ⟨⟨h3, h4, h5⟩, h6, h7, h8⟩, h9, h10⟩

theorem validLabel_ne_nil (w : List Char) (h : validLabel w = true) : w ≠ [] := by
  intro e
  rw [e] at h
  simp [validLabel] at h

theorem afterDotShape_label (w : List Char) (hw : '.' ∉ w) :
    AfterDotShape w ↔ w = [] ∨ validLabel w = true := by
  unfold AfterDotShape
  rw [label_shape w hw]
  exact ⟨fun h => h.1, fun h => ⟨h, head?_ne_of_no_dot w hw⟩⟩

theorem afterDotShape_split (w t : List Char) (hw : '.' ∉ w) :
    AfterDotShape (w ++ '.' :: t) ↔ validLabel w = true ∧ AfterDotShape t := by
  have hsplit := shape_split w t
  rw [label_shape w hw] at hsplit
  have hh : (w ++ '.' :: t).head? ≠ some '.' ↔ w ≠ [] := by
    cases w with
    | nil => simp
    | cons c cs =>
      have hc : c ≠ '.' := fun e => hw (by rw [e]; exact List.mem_cons_self _ _)
      simp [hc]
  have e : AfterDotShape (w ++ '.' :: t) ↔
      FallbackShape (w ++ '.' :: t) ∧ (w ++ '.' :: t).head? ≠ some '.' := Iff.rfl
  rw [e, hsplit, hh]
  constructor
  · rintro ⟨⟨⟨h1 | h1, _⟩, h3⟩, h4⟩
    · exact absurd h1 h4
    · exact ⟨h1, h3⟩
  · rintro ⟨h1, h3⟩
    exact ⟨⟨⟨Or.inr h1, getLast?_ne_of_no_dot w hw⟩, h3⟩, validLabel_ne_nil w h1⟩

theorem afterDot_iff (ls : List (List Char)) (hne : ls ≠ []) (hdf : ∀ l ∈ ls, '.' ∉ l) :
    AfterDotShape (joinChars '.' ls) ↔ afterDot ls = true := by
  induction ls with
  | nil => exact absurd rfl hne
  | cons w ws ih =>
    cases ws with
    | nil =>
      simp only [joinChars, afterDot, Bool.or_eq_true, List.isEmpty_iff]
      exact afterDotShape_label w (hdf w (List.mem_cons_self _ _))
    | cons w2 ws =>
      rw [joinChars_cons_cons, afterDotShape_split w _ (hdf w (List.mem_cons_self _ _)),
        ih (by simp) (fun l hl => hdf l (List.mem_cons_of_mem _ hl))]
      simp only [afterDot, Bool.and_eq_true]

theorem shape_labels (w : List Char) (ws : List (List Char))
    (hdf : ∀ l ∈ w :: ws, '.' ∉ l) :
    FallbackShape (joinChars '.' (w :: ws)) ↔
      (w = [] ∨ validLabel w = true) ∧ (ws = [] ∨ afterDot ws = true) := by
  have hw := hdf w (List.mem_cons_self _ _)
  cases ws with
  | nil =>
    simp only [joinChars, true_or, and_true]
    exact label_shape w hw
  | cons w2 ws =>
    rw [joinChars_cons_cons, shape_split, label_shape w hw,
      afterDot_iff (w2 :: ws) (by simp) (fun l hl => hdf l (List.mem_cons_of_mem _ hl))]
    simp only [reduceCtorEq, false_or]
    exact ⟨fun h => ⟨h.1.1, h.2⟩, fun h => ⟨⟨h.1, getLast?_ne_of_no_dot w hw⟩, h.2⟩⟩

theorem afterDot_all (ws : List (List Char)) (hne : ws ≠ []) :
    afterDot ws = true ↔
      ws.all (fun l => l.isEmpty || validLabel l) = true ∧ ws.dropLast.all validLabel = true := by
  induction ws with
  | nil => exact absurd rfl hne
  | cons w ws ih =>
    cases ws with
    | nil => simp [afterDot]
    | cons w2 ws =>
      have ih' := ih (by simp)
      simp only [afterDot, Bool.and_eq_true] at ih' ⊢
      rw [ih']
      simp only [List.all_cons, List.dropLast_cons₂, Bool.and_eq_true, Bool.or_eq_true]
      constructor
      · rintro ⟨h1, ⟨h2, h3⟩, h4⟩
        exact ⟨⟨Or.inr h1, h2, h3⟩, h1, h4⟩
      · rintro ⟨⟨_, h2, h3⟩, h1, h4⟩
        exact ⟨h1, ⟨h2, h3⟩, h4⟩

/-- A text has the fallback shape when it is a dotted name: its labels are
valid, except that the first and the last may be empty. -/
theorem dottedName_iff (s : String) : dottedName s = true ↔ FallbackShape s.data := by
  have hj := joinChars_splitChars '.' s.data
  have hdf := splitChars_no_sep '.' s.data
  unfold dottedName innerLabels
  cases hs : splitChars '.' s.data with
  | nil => exact absurd hs (splitChars_ne_nil '.' s.data)
  | cons w ws =>
    rw [hs] at hj hdf
    rw [← hj, shape_labels w ws hdf]
    cases ws with
    | nil => simp
    | cons w2 ws =>
      rw [afterDot_all (w2 :: ws) (by simp)]
      simp only [List.all_cons, List.tail_cons, Bool.and_eq_true, Bool.or_eq_true,
        List.isEmpty_iff, reduceCtorEq, false_or]
      constructor
      · rintro ⟨⟨h1, h2, h3⟩, h4⟩
        exact ⟨h1, ⟨h2, h3⟩, h4⟩
      · rintro ⟨h1, ⟨h2, h3⟩, h4⟩
        exact ⟨⟨h1, h2, h3⟩, h4⟩

theorem dottedName_of_validHostname (s : String) (h : validHostname s = true) :
    dottedName s = true := by
  unfold validHostname at h
  unfold dottedName innerLabels
  rw [List.all_eq_true] at h
  simp only [Bool.and_eq_true, List.all_eq_true, Bool.or_eq_true]
  refine ⟨fun l hl => Or.inr (h l hl), fun l hl => h l ?_⟩
  exact List.mem_of_mem_tail (List.mem_of_mem_dropLast hl)

theorem mapM_some_forall {α β : Type} (f : α → Option β) (l : List α) (r : List β)
    (h : l.mapM f = some r) : r.length = l.length ∧ ∀ x ∈ l, ∃ y, f x = some y := by
  induction l generalizing r with
  | nil =>
    simp only [List.mapM_nil, Option.pure_def, Option.some.injEq] at h
    simp [← h]
  | cons a l ih =>
    rw [List.mapM_cons] at h
    cases hfa : f a with
    | none =>
      rw [hfa] at h
      cases h
    | some b =>
      cases hl : l.mapM f with
      | none =>
        rw [hfa, hl] at h
        cases h
      | some r' =>
        rw [hfa, hl] at h
        simp only [Option.pure_def, Option.bind_eq_bind, Option.some_bind,
          Option.some.injEq] at h
        obtain ⟨h1, h2⟩ := ih r' hl
        refine ⟨by rw [← h, List.length_cons, List.length_cons, h1], ?_⟩
        intro x hx
        rcases List.mem_cons.mp hx with e | e
        · exact ⟨b, by rw [e]; exact hfa⟩
        · exact h2 x e

theorem digitsValue_digits (cs : List Char) (acc n : Nat) (h : digitsValue cs acc = some n) :
    ∀ c ∈ cs, c.isDigit = true := by
  induction cs generalizing acc with
  | nil => simp
  | cons c cs ih =>
    unfold digitsValue at h
    by_cases hc : c.isDigit = true
    · simp only [hc, if_true] at h
      intro x hx
      rcases List.mem_cons.mp hx with e | e
      · rw [e]; exact hc
      · exact ih _ h x e
    · simp [hc] at h

theorem parseOctet_label (cs : List Char) (n : Nat) (h : parseOctet cs = some n) :
    cs ≠ [] ∧ cs.length ≤ 3 ∧ ∀ c ∈ cs, c.isDigit = true := by
  unfold parseOctet at h
  split at h
  · cases h
  · rename_i hc
    simp only [not_or, not_lt] at hc
    cases hd : digitsValue cs 0 with
    | none => simp [hd] at h
    | some m => exact ⟨hc.1, hc.2.1, digitsValue_digits cs 0 m hd⟩

theorem isDigit_ne_hyphen (c : Char) (h : c.isDigit = true) : c ≠ '-' := by
  intro e
  rw [e] at h
  revert h
  decide

theorem validLabel_of_digits (cs : List Char) (hne : cs ≠ [])
    (hd : ∀ c ∈ cs, c.isDigit = true) : validLabel cs = true := by
  simp only [validLabel, Bool.and_eq_true, Bool.not_eq_true', List.isEmpty_eq_false,
    List.all_eq_true, Bool.or_eq_true, beq_iff_eq, bne_iff_ne, ne_eq]
  refine ⟨⟨⟨hne, ?_⟩, ?_⟩, ?_⟩
  · intro c hc
    exact Or.inl (by simp [Char.isAlphanum, hd c hc])
  · intro h
    exact isDigit_ne_hyphen _ (hd _ (List.mem_of_mem_head? h)) rfl
  · intro h
    exact isDigit_ne_hyphen _ (hd _ (List.mem_of_mem_getLast? h)) rfl

/-- A dotted-quad address text is a valid hostname of at most 15 characters. -/
theorem parseIPv4_hostname (s : String) (ip : IP) (h : parseIPv4 s = some ip) :
    validHostname s = true ∧ s.length ≤ 15 := by
  unfold parseIPv4 at h
  cases hm : (splitChars '.' s.data).mapM parseOctet with
  | none =>
    rw [hm] at h
    cases h
  | some r =>
    obtain ⟨hlen, hall⟩ := mapM_some_forall parseOctet _ r hm
    have hl : ∀ l ∈ splitChars '.' s.data,
        l ≠ [] ∧ l.length ≤ 3 ∧ ∀ c ∈ l, c.isDigit = true := by
      intro l hl
      obtain ⟨n, hn⟩ := hall l hl
      exact parseOctet_label l n hn
    refine ⟨?_, ?_⟩
    · unfold validHostname
      rw [List.all_eq_true]
      intro l hm
      exact validLabel_of_digits l (hl l hm).1 (hl l hm).2.2
    · have hr : r.length = 4 := by
        rw [hm] at h
        match r, h with
        | [_, _, _, _], _ => rfl
      have hj := joinChars_splitChars '.' s.data
      match hs : splitChars '.' s.data, hlen ▸ hr with
      | [a, b, c, d], _ =>
        rw [hs] at hj hl
        have ha := (hl a (by simp)).2.1
        have hb := (hl b (by simp)).2.1
        have hc := (hl c (by simp)).2.1
        have hd := (hl d (by simp)).2.1
        have hlen2 : s.length = s.data.length := rfl
        rw [hlen2, ← hj]
        simp only [joinChars, List.length_append, List.length_cons]
        omega

theorem parseProperty_fallback (lib : ParseLib) (cfg : config) (v : String) :
    parseProperty lib cfg "fallback" (some v) = parseFallback cfg v := by
  unfold parseProperty
  simp

theorem FallbackStored_default : FallbackStored defaultConfig :=
  ⟨by decide, FallbackShape_nil⟩

theorem parseFallback_stored (cfg : config) (v : String) (h : FallbackStored cfg) :
    FallbackStored (parseFallback cfg v).1 := by
  rcases parseFallback_cases cfg v with ⟨h1, h2⟩ | ⟨_, h2⟩
  · rw [h2]
    exact (parseFallback_accepts_iff cfg v).mp h1
  · rw [h2]
    exact h

theorem parseProperty_fallback_field (lib : ParseLib) (cfg : config) (property : String)
    (arg : Option String) :
    (parseProperty lib cfg property arg).1.fallback = cfg.fallback ∨
      ∃ v, property = "fallback" ∧ arg = some v ∧
        parseProperty lib cfg property arg = parseFallback cfg v := by
  by_cases hp : property = "fallback"
  · cases arg with
    | none =>
      left
      rw [hp]
      unfold parseProperty
      simp
    | some v =>
      right
      exact ⟨v, hp, rfl, by rw [hp]; exact parseProperty_fallback lib cfg v⟩
  · left
    unfold parseProperty
    by_cases h : property = "controller_url"
    · rw [if_pos h]
      cases arg <;> rfl
    rw [if_neg h]
    clear h
    by_cases h : property = "site"
    · rw [if_pos h]
      cases arg <;> rfl
    rw [if_neg h]
    clear h
    by_cases h : property = "username"
    · rw [if_pos h]
      cases arg <;> rfl
    rw [if_neg h]
    clear h
    by_cases h : property = "password"
    · rw [if_pos h]
      cases arg <;> rfl
    rw [if_neg h]
    clear h
    by_cases h : property = "refresh_minutes"
    · rw [if_pos h]
      cases arg with
      | none => rfl
      | some v =>
        dsimp only
        split <;> rfl
    rw [if_neg h]
    clear h
    by_cases h : property = "refresh_login_hours"
    · rw [if_pos h]
      cases arg with
      | none => rfl
      | some v =>
        dsimp only
        split <;> rfl
    rw [if_neg h]
    clear h
    by_cases h : property = "resolve_clients"
    · rw [if_pos h]
      cases arg with
      | none => rfl
      | some v =>
        dsimp only
        split <;> rfl
    rw [if_neg h]
    clear h
    by_cases h : property = "resolve_devices"
    · rw [if_pos h]
      cases arg with
      | none => rfl
      | some v =>
        dsimp only
        split <;> rfl
    rw [if_neg h]
    clear h
    by_cases h : property = "resolve_dhcp_reservations"
    · rw [if_pos h]
      cases arg with
      | none => rfl
      | some v =>
        dsimp only
        split <;> rfl
    rw [if_neg h]
    clear h
    by_cases h : property = "stale_record_duration"
    · rw [if_pos h]
      cases arg with
      | none => rfl
      | some v =>
        dsimp only
        split <;> rfl
    rw [if_neg h]
    clear h
    by_cases h : property = "ignore_startup_errors"
    · rw [if_pos h]
      cases arg with
      | none => rfl
      | some v =>
        dsimp only
        split <;> rfl
    rw [if_neg h]
    clear h
    rw [if_neg hp]

theorem parseProperty_stored (lib : ParseLib) (cfg : config) (property : String)
    (arg : Option String) (h : FallbackStored cfg) :
    FallbackStored (parseProperty lib cfg property arg).1 := by
  rcases parseProperty_fallback_field lib cfg property arg with e | ⟨v, _, _, e⟩
  · exact ⟨by rw [e]; exact h.1, by rw [e]; exact h.2⟩
  · rw [e]
    exact parseFallback_stored cfg v h

theorem parseTokens_stored (lib : ParseLib) (n : Nat) :
    ∀ (toks : List String) (cfg : config), toks.length ≤ n → FallbackStored cfg →
      FallbackStored (parseTokens lib cfg toks).1 := by
  induction n with
  | zero =>
    intro toks cfg hl h
    have : toks = [] := List.length_eq_zero.mp (Nat.le_zero.mp hl)
    rw [this]
    exact h
  | succ n ih =>
    intro toks cfg hl h
    match toks, hl with
    | [], _ => exact h
    | [property], _ => exact parseProperty_stored lib cfg property none h
    | property :: arg :: rest, hl =>
      have hs := parseProperty_stored lib cfg property (some arg) h
      unfold parseTokens
      simp only
      split
      · exact hs
      · exact ih rest _ (by simp only [List.length_cons] at hl; omega) hs

theorem parseLines_stored (lib : ParseLib) (lines : List (List String)) (cfg : config)
    (h : FallbackStored cfg) : FallbackStored (parseLines lib cfg lines).1 := by
  induction lines generalizing cfg with
  | nil => exact h
  | cons line rest ih =>
    have hs := parseTokens_stored lib line.length line cfg (le_refl _) h
    unfold parseLines
    simp only
    split
    · exact hs
    · exact ih _ hs

theorem parseBlocks_stored (lib : ParseLib) (blocks : List (List (List String))) (cfg : config)
    (h : FallbackStored cfg) : FallbackStored (parseBlocks lib cfg blocks).1 := by
  induction blocks generalizing cfg with
  | nil => exact h
  | cons block rest ih =>
    have hs := parseLines_stored lib block cfg h
    unfold parseBlocks
    simp only
    split
    · exact hs
    · exact ih _ hs

theorem parse_stored (lib : ParseLib) (blocks : List (List (List String))) :
    FallbackStored (parse lib blocks).1 := by
  have hs := parseBlocks_stored lib blocks defaultConfig FallbackStored_default
  unfold parse
  simp only
  split
  · exact hs
  · split <;> exact hs

theorem parse_single_fallback (lib : ParseLib) (v : String) :
    (parse lib [[["fallback", v]]]).1 = (parseFallback defaultConfig v).1 ∧
    ((parseFallback defaultConfig v).2 ≠ none →
      (parse lib [[["fallback", v]]]).2 = (parseFallback defaultConfig v).2) := by
  unfold parse parseBlocks parseLines parseTokens
  simp only [parseProperty_fallback]
  cases h : (parseFallback defaultConfig v).2 with
  | some e => simp [h]
  | none =>
    simp only [h, parseTokens, parseLines, parseBlocks, ne_eq, not_true_eq_false, false_implies,
      and_true]
    split <;> rfl

theorem accepts_iff_dottedName (cfg : config) (v : String) :
    (parseFallback cfg v).2 = none ↔ v.length ≤ 253 ∧ dottedName v = true := by
  rw [parseFallback_accepts_iff, dottedName_iff]
  constructor
  · rintro ⟨h1, h2⟩
    rw [utf8ByteSize_eq v h2.1] at h1
    exact ⟨h1, h2⟩
  · rintro ⟨h1, h2⟩
    rw [utf8ByteSize_eq v h2.1]
    exact ⟨h1, h2⟩

/-! ## The zone of one domain -/

theorem appendAt_nil (key x : String) (z : Option Zone) : appendAt key [] x z = z := by
  unfold appendAt
  split
  · cases z with
    | none => rfl
    | some z => simp
  · rfl

theorem appendAt_append (key x : String) (r1 r2 : List RR) (z : Option Zone) :
    appendAt key r2 x (appendAt key r1 x z) = appendAt key (r1 ++ r2) x z := by
  unfold appendAt
  by_cases h : key = x
  · simp only [h, if_true]
    cases z with
    | none => rfl
    | some z => simp [List.append_assoc]
  · simp only [h, if_false]

theorem appendAt_ne (key x : String) (rrs : List RR) (z : Option Zone) (h : key ≠ x) :
    appendAt key rrs x z = z := by
  simp [appendAt, h]

theorem appendAt_self (key : String) (rrs : List RR) (z : Zone) :
    appendAt key rrs key (some z) = some { z with rrs := z.rrs ++ rrs } := by
  simp [appendAt]

theorem insertInto_get? (zones zones' : Zones) (key : String) (r : RR)
    (h : insertInto zones key r = some zones') (x : String) :
    zones'.get? x = appendAt key [r] x (zones.get? x) := by
  unfold insertInto at h
  cases hz : zones.get? key with
  | none => simp [hz] at h
  | some z =>
    simp only [hz, Option.some.injEq] at h
    subst h
    rw [GoMap.get?_set]
    unfold appendAt
    by_cases e : key = x
    · subst e
      simp [hz, Zone.Insert]
    · simp [e]

theorem insertAll_get? (key : String) (rrs : List RR) (zones zones' : Zones)
    (h : insertAll zones key rrs = some zones') (x : String) :
    zones'.get? x = appendAt key rrs x (zones.get? x) := by
  induction rrs generalizing zones with
  | nil =>
    simp only [insertAll, Option.some.injEq] at h
    rw [← h, appendAt_nil]
  | cons r rest ih =>
    unfold insertAll at h
    cases h1 : insertInto zones key r with
    | none => simp [h1] at h
    | some zones1 =>
      simp only [h1] at h
      rw [ih zones1 h, insertInto_get? _ _ _ _ h1, appendAt_append]
      rfl

theorem withZone_get? (zones : Zones) (d x : String) :
    (withZone zones d).get? x =
      if d = x ∧ zones.get? d = none then some ⟨d, [RR.SOA d]⟩ else zones.get? x := by
  unfold withZone
  cases hc : zones.contains d with
  | true =>
    obtain ⟨z, hz⟩ := (GoMap.mem_keys_iff _ _).mp ((GoMap.contains_iff _ _).mp hc)
    simp [hz]
  | false =>
    have hn : zones.get? d = none := by
      apply GoMap.get?_none_of_not_mem
      intro hm
      rw [(GoMap.contains_iff _ _).mpr hm] at hc
      cases hc
    simp only [Bool.false_eq_true, if_false, GoMap.get?_set, hn, and_true]
    rfl

/-- What `addFallbackRecord` does to the zone map: it inserts at most one
record, a wildcard of the domain, into the zone of the domain. -/
theorem addFallbackRecord_get? (env : Env) (o : Omada) (order : List String)
    (zones zones' : Zones) (d : String) (dr : DnsRecords)
    (h : addFallbackRecord env o order zones d dr = some zones') :
    ∃ wild, (wild = [] ∨ ∃ ip, wild = [wildcardRR d ip]) ∧
      (o.config.fallback = "" → wild = []) ∧
      (o.config.fallback ≠ "" → ∀ ip, env.ParseIP o.config.fallback = some ip →
        wild = [wildcardRR d ip]) ∧
      ∀ x, zones'.get? x = appendAt d wild x (zones.get? x) := by
  unfold addFallbackRecord at h
  by_cases hf : o.config.fallback = ""
  · simp only [hf, if_true, Option.some.injEq] at h
    subst h
    exact ⟨[], Or.inl rfl, fun _ => rfl, fun hne => absurd hf hne,
      fun x => (appendAt_nil d x _).symm⟩
  · simp only [hf, if_false] at h
    split at h
    · simp only [Option.some.injEq] at h
      subst h
      rename_i hnone
      refine ⟨[], Or.inl rfl, fun _ => rfl, ?_, fun x => (appendAt_nil d x _).symm⟩
      intro _ ip hip
      rw [hip] at hnone
      cases hnone
    · rename_i ip hsome
      refine ⟨[wildcardRR d ip], Or.inr ⟨ip, rfl⟩, fun e => absurd e hf, ?_,
        fun x => insertInto_get? _ _ _ _ h x⟩
      intro _ ip' hip'
      rw [hip'] at hsome
      simp only [Option.some.injEq] at hsome
      rw [hsome]

/-- What one round of the zone loop does to the zone map. -/
theorem zoneLoopBody_get? (env : Env) (run : Run) (o : Omada) (zones zones' : Zones)
    (d : String) (dr : DnsRecords) (h : (zoneLoopBody env run o zones d dr).2 = some zones') :
    ∃ wild, (wild = [] ∨ ∃ ip, wild = [wildcardRR d ip]) ∧
      (o.config.fallback = "" → wild = []) ∧
      (o.config.fallback ≠ "" → ∀ ip, env.ParseIP o.config.fallback = some ip →
        wild = [wildcardRR d ip]) ∧
      ∀ x, zones'.get? x =
        appendAt env.ptrZone
          (reverseRRs (purgeStaleRecords dr (run.purgeNow d)
            (Seconds o.config.stale_record_duration))) x
          (appendAt d
            (wild ++ forwardRRs (purgeStaleRecords dr (run.purgeNow d)
              (Seconds o.config.stale_record_duration))) x
            ((withZone zones d).get? x)) := by
  rw [zoneLoopBody_snd] at h
  cases h1 : addFallbackRecord env (zoneLoopBody env run o zones d dr).1
      (run.resolveOrder d (zoneLoopBody env run o zones d dr).1.records.keys) (withZone zones d) d
      (purgeStaleRecords dr (run.purgeNow d) (Seconds o.config.stale_record_duration)) with
  | none => simp [h1] at h
  | some z1 =>
    simp only [h1, Option.some_bind] at h
    cases h2 : insertAll z1 d ((purgeStaleRecords dr (run.purgeNow d)
        (Seconds o.config.stale_record_duration)).ARecords.values.map
          (fun v => RR.A v.record)) with
    | none => simp [h2] at h
    | some z2 =>
      simp only [h2, Option.some_bind] at h
      have hc : (zoneLoopBody env run o zones d dr).1.config = o.config := by
        rw [zoneLoopBody_fst]
      obtain ⟨wild, hw, hw0, hw1, hg⟩ := addFallbackRecord_get? env _ _ _ _ d _ h1
      rw [hc] at hw0 hw1
      refine ⟨wild, hw, hw0, hw1, ?_⟩
      intro x
      rw [insertAll_get? _ _ _ _ h x, insertAll_get? _ _ _ _ h2 x, hg x, appendAt_append]
      rfl

theorem zoneLoopBody_get?_other (env : Env) (run : Run) (o : Omada) (zones zones' : Zones)
    (d : String) (dr : DnsRecords) (h : (zoneLoopBody env run o zones d dr).2 = some zones')
    (x : String) (hx : d ≠ x)
    (hp : env.ptrZone ≠ x ∨ reverseRRs (purgeStaleRecords dr (run.purgeNow d)
      (Seconds o.config.stale_record_duration)) = []) :
    zones'.get? x = zones.get? x := by
  obtain ⟨wild, _, _, _, hg⟩ := zoneLoopBody_get? env run o zones zones' d dr h
  rw [hg x, appendAt_ne d x _ _ hx, withZone_get?]
  simp only [hx, false_and, if_false]
  rcases hp with hp | hp
  · exact appendAt_ne _ _ _ _ hp
  · rw [hp, appendAt_nil]

theorem reverseRRs_nil (env : Env) (records : Records) (d : String) (dr : DnsRecords)
    (now maxAge : Int) (hd : records.get? d = some dr) (h : PtrOnlyInPtrZone env records)
    (hp : d ≠ env.ptrZone) : reverseRRs (purgeStaleRecords dr now maxAge) = [] := by
  unfold reverseRRs
  rw [purged_ptr_values_nil env records d dr now maxAge hd h hp]
  rfl

/-- The rounds of the zone loop for other domains leave the zone of a domain as
it is: they insert into their own zone and, reverse records, into the reverse
zone. -/
theorem zoneLoop_get?_frame (env : Env) (run : Run) (order : List String) (o : Omada)
    (zones zones' : Zones) (x : String) (hx : x ∉ order)
    (hp : env.ptrZone ≠ x ∨ PtrOnlyInPtrZone env o.records)
    (h : (zoneLoop env run order o zones).2 = some zones') :
    zones'.get? x = zones.get? x := by
  induction order generalizing o zones with
  | nil =>
    simp only [zoneLoop, Option.some.injEq] at h
    rw [h]
  | cons d rest ih =>
    have hdx : d ≠ x := fun e => hx (by rw [e]; exact List.mem_cons_self _ _)
    have hx' : x ∉ rest := fun hm => hx (List.mem_cons_of_mem _ hm)
    cases hg : o.records.get? d with
    | none =>
      rw [zoneLoop_cons_none _ _ _ _ _ _ hg] at h
      exact ih o zones hx' hp h
    | some dr =>
      cases hs : (zoneLoopBody env run o zones d dr).2 with
      | none =>
        rw [zoneLoop_cons_fail _ _ _ _ _ _ _ hg hs] at h
        cases h
      | some z1 =>
        rw [zoneLoop_cons_step _ _ _ _ _ _ _ _ hg hs] at h
        have hp1 : env.ptrZone ≠ x ∨
            PtrOnlyInPtrZone env (zoneLoopBody env run o zones d dr).1.records := by
          rcases hp with hp | hp
          · exact Or.inl hp
          · right
            rw [zoneLoopBody_fst]
            exact PtrOnlyInPtrZone_purged env o.records d dr _ _ hg hp
        rw [ih _ z1 hx' hp1 h]
        apply zoneLoopBody_get?_other env run o zones z1 d dr hs x hdx
        rcases hp with hp | hp
        · exact Or.inl hp
        · by_cases e : env.ptrZone = x
          · right
            exact reverseRRs_nil env o.records d dr _ _ hg hp (fun e2 => hdx (e2.trans e))
          · exact Or.inl e

/-- The zone that a successful zone loop builds for a domain of its order that
has a record set and no zone yet: the authority record, at most one wildcard,
the forward records that the purge keeps and, in the reverse zone, the reverse
records that the purge keeps. -/
theorem zoneLoop_zone_exact (env : Env) (run : Run) (order : List String) (o : Omada)
    (zones zones' : Zones) (d : String) (dr : DnsRecords) (hnd : order.Nodup)
    (hmem : d ∈ order) (hget : o.records.get? d = some dr) (hfresh : zones.get? d = none)
    (hp : env.ptrZone ≠ d ∨ PtrOnlyInPtrZone env o.records)
    (h : (zoneLoop env run order o zones).2 = some zones') :
    ∃ wild, (wild = [] ∨ ∃ ip, wild = [wildcardRR d ip]) ∧
      (o.config.fallback = "" → wild = []) ∧
      (o.config.fallback ≠ "" → ∀ ip, env.ParseIP o.config.fallback = some ip →
        wild = [wildcardRR d ip]) ∧
      zones'.get? d = some ⟨d, RR.SOA d :: (wild ++
        forwardRRs (purgeStaleRecords dr (run.purgeNow d)
          (Seconds o.config.stale_record_duration)) ++
        (if env.ptrZone = d then reverseRRs (purgeStaleRecords dr (run.purgeNow d)
          (Seconds o.config.stale_record_duration)) else []))⟩ := by
  induction order generalizing o zones with
  | nil => simp at hmem
  | cons d1 rest ih =>
    have hnd' : rest.Nodup := (List.nodup_cons.mp hnd).2
    have hd1 : d1 ∉ rest := (List.nodup_cons.mp hnd).1
    cases hg : o.records.get? d1 with
    | none =>
      rw [zoneLoop_cons_none _ _ _ _ _ _ hg] at h
      have hne : d ≠ d1 := fun e => by rw [e, hg] at hget; cases hget
      have hm : d ∈ rest := by
        rcases List.mem_cons.mp hmem with e | e
        · exact absurd e hne
        · exact e
      exact ih o zones hnd' hm hget hfresh hp h
    | some dr1 =>
      cases hs : (zoneLoopBody env run o zones d1 dr1).2 with
      | none =>
        rw [zoneLoop_cons_fail _ _ _ _ _ _ _ hg hs] at h
        cases h
      | some z1 =>
        rw [zoneLoop_cons_step _ _ _ _ _ _ _ _ hg hs] at h
        have hc : (zoneLoopBody env run o zones d1 dr1).1.config = o.config := by
          rw [zoneLoopBody_fst]
        have hp1 : env.ptrZone ≠ d ∨
            PtrOnlyInPtrZone env (zoneLoopBody env run o zones d1 dr1).1.records := by
          rcases hp with hp | hp
          · exact Or.inl hp
          · right
            rw [zoneLoopBody_fst]
            exact PtrOnlyInPtrZone_purged env o.records d1 dr1 _ _ hg hp
        by_cases e : d1 = d
        · subst e
          have hdr : dr1 = dr := by rw [hg] at hget; exact Option.some.inj hget
          subst hdr
          obtain ⟨wild, hw, hw0, hw1, hgz⟩ := zoneLoopBody_get? env run o zones z1 d1 dr1 hs
          refine ⟨wild, hw, hw0, hw1, ?_⟩
          rw [zoneLoop_get?_frame env run rest _ z1 zones' d1 hd1 hp1 h, hgz d1, withZone_get?]
          simp only [hfresh, and_self, if_true, appendAt_self]
          by_cases ep : env.ptrZone = d1
          · simp only [ep, if_true, appendAt_self, List.singleton_append, List.cons_append,
              List.nil_append]
          · simp only [ep, if_false, appendAt_ne _ _ _ _ ep, List.append_nil,
              List.singleton_append]
        · have hm : d ∈ rest := by
            rcases List.mem_cons.mp hmem with e2 | e2
            · exact absurd e2.symm e
            · exact e2
          have hget1 : (zoneLoopBody env run o zones d1 dr1).1.records.get? d = some dr := by
            rw [zoneLoopBody_fst]
            simp only
            rw [GoMap.get?_set_ne _ _ _ _ e]
            exact hget
          have hfresh1 : z1.get? d = none := by
            rw [zoneLoopBody_get?_other env run o zones z1 d1 dr1 hs d e]
            · exact hfresh
            · rcases hp with hp | hp
              · exact Or.inl hp
              · by_cases e3 : env.ptrZone = d
                · right
                  exact reverseRRs_nil env o.records d1 dr1 _ _ hg hp
                    (fun e2 => e (e2.trans e3))
                · exact Or.inl e3
          have := ih (zoneLoopBody env run o zones d1 dr1).1 z1 hnd' hm hget1 hfresh1 hp1 h
          rw [hc] at this
          exact this

theorem appendAt_some (key x : String) (rrs : List RR) (z : Option Zone) (z' : Zone)
    (h : appendAt key rrs x z = some z') :
    ∃ z0, z = some z0 ∧ ∀ r ∈ z0.rrs, r ∈ z'.rrs := by
  unfold appendAt at h
  cases z with
  | none =>
    split at h <;> cases h
  | some z0 =>
    refine ⟨z0, rfl, ?_⟩
    split at h
    · simp only [Option.map_some', Option.some.injEq] at h
      rw [← h]
      intro r hr
      exact List.mem_append_left _ hr
    · simp only [Option.some.injEq] at h
      rw [h]
      exact fun r hr => hr

/-- With a fallback that parses as an address, one round of the zone loop
leaves a wildcard with that address in every zone that has one, and in the zone
of its domain. -/
theorem zoneLoopBody_wildcard (env : Env) (run : Run) (o : Omada) (zones zones' : Zones)
    (d : String) (dr : DnsRecords) (ip : IP) (hne : o.config.fallback ≠ "")
    (hip : env.ParseIP o.config.fallback = some ip)
    (hw : ∀ x z, zones.get? x = some z → wildcardRR x ip ∈ z.rrs)
    (h : (zoneLoopBody env run o zones d dr).2 = some zones') :
    ∀ x z, zones'.get? x = some z → wildcardRR x ip ∈ z.rrs := by
  obtain ⟨wild, _, _, hw1, hg⟩ := zoneLoopBody_get? env run o zones zones' d dr h
  have hwild := hw1 hne ip hip
  intro x z hz
  rw [hg x] at hz
  obtain ⟨z1, hz1, hsub1⟩ := appendAt_some _ _ _ _ _ hz
  apply hsub1
  by_cases e : d = x
  · subst e
    cases hwz : (withZone zones d).get? d with
    | none => rw [hwz] at hz1; simp [appendAt] at hz1
    | some z0 =>
      rw [hwz, appendAt_self, Option.some.injEq] at hz1
      rw [← hz1, hwild]
      simp
  · rw [appendAt_ne _ _ _ _ e, withZone_get?] at hz1
    simp only [e, false_and, if_false] at hz1
    exact hw x z1 hz1

theorem zoneLoop_wildcard (env : Env) (run : Run) (order : List String) (o : Omada)
    (zones zones' : Zones) (ip : IP) (hne : o.config.fallback ≠ "")
    (hip : env.ParseIP o.config.fallback = some ip)
    (hw : ∀ x z, zones.get? x = some z → wildcardRR x ip ∈ z.rrs)
    (h : (zoneLoop env run order o zones).2 = some zones') :
    ∀ x z, zones'.get? x = some z → wildcardRR x ip ∈ z.rrs := by
  induction order generalizing o zones with
  | nil =>
    simp only [zoneLoop, Option.some.injEq] at h
    rw [← h]
    exact hw
  | cons d rest ih =>
    cases hg : o.records.get? d with
    | none =>
      rw [zoneLoop_cons_none _ _ _ _ _ _ hg] at h
      exact ih o zones hne hip hw h
    | some dr =>
      cases hs : (zoneLoopBody env run o zones d dr).2 with
      | none =>
        rw [zoneLoop_cons_fail _ _ _ _ _ _ _ hg hs] at h
        cases h
      | some z1 =>
        rw [zoneLoop_cons_step _ _ _ _ _ _ _ _ hg hs] at h
        have hc : (zoneLoopBody env run o zones d dr).1.config = o.config := by
          rw [zoneLoopBody_fst]
        exact ih _ z1 (by rw [hc]; exact hne) (by rw [hc]; exact hip)
          (zoneLoopBody_wildcard env run o zones z1 d dr ip hne hip hw hs) h

/-- With a fallback that parses as an address, every zone published by a
successful cycle holds the wildcard of its name with that address. -/
theorem applyInventory_wildcard (env : Env) (run : Run) (o : Omada) (inv : Inventory) (ip : IP)
    (hne : o.config.fallback ≠ "") (hip : env.ParseIP o.config.fallback = some ip)
    (hok : (applyInventory env run o inv).2 = Result.ok) :
    ∀ x z, (applyInventory env run o inv).1.zones.get? x = some z → wildcardRR x ip ∈ z.rrs := by
  obtain ⟨zones, hz, he⟩ := applyInventory_ok env run o inv hok
  rw [he]
  exact zoneLoop_wildcard env run _
    { o with records := synthesize env inv run.timestamp o.records } GoMap.empty zones ip hne hip
    (fun x z hx => by simp at hx) hz

theorem forwardRRs_nil (dr : DnsRecords) (now maxAge : Int)
    (h : ∀ k, keepA now maxAge (dr.ARecords.get? k) = none) :
    forwardRRs (purgeStaleRecords dr now maxAge) = [] := by
  unfold forwardRRs
  rw [GoMap.values_nil_of_get?_none]
  · rfl
  · intro k
    rw [purge_fwd]
    have := h k
    cases hg : dr.ARecords.get? k with
    | none => rfl
    | some v =>
      rw [hg] at this
      exact this

/-- The zone that a successful cycle of a valid run publishes for a domain of
the synthesized record map. -/
theorem applyInventory_zone_exact (env : Env) (run : Run) (o : Omada) (inv : Inventory)
    (hrun : run.Valid) (hok : (applyInventory env run o inv).2 = Result.ok) (d : String)
    (dr : DnsRecords) (hget : (synthesize env inv run.timestamp o.records).get? d = some dr)
    (hp : env.ptrZone ≠ d ∨ PtrOnlyInPtrZone env o.records) :
    ∃ wild, (wild = [] ∨ ∃ ip, wild = [wildcardRR d ip]) ∧
      (o.config.fallback = "" → wild = []) ∧
      (o.config.fallback ≠ "" → ∀ ip, env.ParseIP o.config.fallback = some ip →
        wild = [wildcardRR d ip]) ∧
      (applyInventory env run o inv).1.zones.get? d = some ⟨d, RR.SOA d :: (wild ++
        forwardRRs (purgeStaleRecords dr (run.purgeNow d)
          (Seconds o.config.stale_record_duration)) ++
        (if env.ptrZone = d then reverseRRs (purgeStaleRecords dr (run.purgeNow d)
          (Seconds o.config.stale_record_duration)) else []))⟩ := by
  obtain ⟨zones, hz, he⟩ := applyInventory_ok env run o inv hok
  rw [he]
  have hperm := hrun.1 (synthesize env inv run.timestamp o.records).keys
  have hnd : (run.zoneOrder (synthesize env inv run.timestamp o.records).keys).Nodup :=
    (hperm.nodup_iff).mpr (synthesize env inv run.timestamp o.records).nodup
  have hmem : d ∈ run.zoneOrder (synthesize env inv run.timestamp o.records).keys :=
    hperm.mem_iff.mpr ((GoMap.mem_keys_iff _ _).mpr ⟨dr, hget⟩)
  have hp' : env.ptrZone ≠ d ∨
      PtrOnlyInPtrZone env (synthesize env inv run.timestamp o.records) := by
    rcases hp with hp | hp
    · exact Or.inl hp
    · exact Or.inr (PtrOnlyInPtrZone_synthesize env inv run.timestamp o.records hp)
  exact zoneLoop_zone_exact env run _
    { o with records := synthesize env inv run.timestamp o.records } GoMap.empty zones d dr
    hnd hmem hget (by simp) hp' hz

theorem addFallbackRecord_congr (env : Env) (o o' : Omada) (order : List String) (zones : Zones)
    (d : String) (dr dr' : DnsRecords) (hc : o.config.fallback = o'.config.fallback)
    (hr : o.records = o'.records) :
    addFallbackRecord env o order zones d dr = addFallbackRecord env o' order zones d dr' := by
  unfold addFallbackRecord resolveInZones
  rw [hc, hr]

theorem resolveInZones_congr (o o' : Omada) (order : List String) (t : String)
    (hr : o.records = o'.records) : resolveInZones o order t = resolveInZones o' order t := by
  unfold resolveInZones
  rw [hr]

theorem zoneLoop_congr (env : Env) (run : Run) (order : List String) (o o' : Omada)
    (zones : Zones) (hc : o.config = o'.config) (hr : o.records = o'.records) :
    (zoneLoop env run order o zones).2 = (zoneLoop env run order o' zones).2 ∧
    (zoneLoop env run order o zones).1.records = (zoneLoop env run order o' zones).1.records := by
  induction order generalizing o o' zones with
  | nil => exact ⟨rfl, hr⟩
  | cons d rest ih =>
    cases hg : o.records.get? d with
    | none =>
      have hg' : o'.records.get? d = none := by rw [← hr]; exact hg
      rw [zoneLoop_cons_none _ _ _ _ _ _ hg, zoneLoop_cons_none _ _ _ _ _ _ hg']
      exact ih o o' zones hc hr
    | some dr =>
      have hg' : o'.records.get? d = some dr := by rw [← hr]; exact hg
      have h1c : (zoneLoopBody env run o zones d dr).1.config =
          (zoneLoopBody env run o' zones d dr).1.config := by
        rw [zoneLoopBody_fst, zoneLoopBody_fst]
        exact hc
      have h1r : (zoneLoopBody env run o zones d dr).1.records =
          (zoneLoopBody env run o' zones d dr).1.records := by
        rw [zoneLoopBody_fst, zoneLoopBody_fst]
        simp only
        rw [hr, hc]
      have h2 : (zoneLoopBody env run o zones d dr).2 = (zoneLoopBody env run o' zones d dr).2 := by
        rw [zoneLoopBody_snd, zoneLoopBody_snd, ← hc, h1r]
        rw [addFallbackRecord_congr env (zoneLoopBody env run o zones d dr).1
          (zoneLoopBody env run o' zones d dr).1 _ _ d _ _ (by rw [h1c]) h1r]
      cases hs : (zoneLoopBody env run o zones d dr).2 with
      | none =>
        have hs' := hs
        rw [h2] at hs'
        rw [zoneLoop_cons_fail _ _ _ _ _ _ _ hg hs, zoneLoop_cons_fail _ _ _ _ _ _ _ hg' hs']
        exact ⟨rfl, h1r⟩
      | some z1 =>
        have hs' := hs
        rw [h2] at hs'
        rw [zoneLoop_cons_step _ _ _ _ _ _ _ _ hg hs, zoneLoop_cons_step _ _ _ _ _ _ _ _ hg' hs']
        exact ih _ _ z1 h1c h1r

/-- The zones, the record map and the result of a cycle do not depend on the
zone map and the zone-name list published before it. -/
theorem applyInventory_prior_zones (env : Env) (run : Run) (o : Omada) (inv : Inventory)
    (zones0 : Zones) (names0 : List String) :
    (applyInventory env run { o with zones := zones0, zoneNames := names0 } inv).2 =
      (applyInventory env run o inv).2 ∧
    (applyInventory env run { o with zones := zones0, zoneNames := names0 } inv).1.records =
      (applyInventory env run o inv).1.records ∧
    ((applyInventory env run o inv).2 = Result.ok →
      (applyInventory env run { o with zones := zones0, zoneNames := names0 } inv).1.zones =
        (applyInventory env run o inv).1.zones ∧
      (applyInventory env run { o with zones := zones0, zoneNames := names0 } inv).1.zoneNames =
        (applyInventory env run o inv).1.zoneNames) := by
  have h := zoneLoop_congr env run
    (run.zoneOrder (synthesize env inv run.timestamp o.records).keys)
    { o with zones := zones0, zoneNames := names0,
             records := synthesize env inv run.timestamp o.records }
    { o with records := synthesize env inv run.timestamp o.records } GoMap.empty rfl rfl
  have h2 : (cycleLoop env run { o with zones := zones0, zoneNames := names0 } inv).2 =
      (cycleLoop env run o inv).2 := h.1
  have h1 : (cycleLoop env run { o with zones := zones0, zoneNames := names0 } inv).1.records =
      (cycleLoop env run o inv).1.records := h.2
  cases hs : (cycleLoop env run o inv).2 with
  | none =>
    rw [hs] at h2
    rw [applyInventory_of_loop_none _ _ _ _ hs, applyInventory_of_loop_none _ _ _ _ h2]
    refine ⟨rfl, h1, ?_⟩
    intro hc
    cases hc
  | some z =>
    rw [hs] at h2
    rw [applyInventory_of_loop_some _ _ _ _ _ hs, applyInventory_of_loop_some _ _ _ _ _ h2]
    exact ⟨rfl, h1, fun _ => ⟨rfl, rfl⟩⟩

theorem insertAll_fails (key : String) (rrs : List RR) (zones : Zones) (hne : rrs ≠ [])
    (hk : key ∉ zones.keys) : insertAll zones key rrs = none := by
  cases rrs with
  | nil => exact absurd rfl hne
  | cons r rest =>
    simp [insertAll, insertInto, GoMap.get?_none_of_not_mem zones key hk]

/-- Whether a round of the zone loop ends in a nil zone depends on the keys of
the zone map and on the reverse records that the purge keeps, not on the
fallback. -/
theorem zoneLoopBody_outcome (env : Env) (run : Run) (o : Omada) (zones : Zones) (d : String)
    (dr : DnsRecords) :
    ((zoneLoopBody env run o zones d dr).2 = none ∧
      reverseRRs (purgeStaleRecords dr (run.purgeNow d)
        (Seconds o.config.stale_record_duration)) ≠ [] ∧
      env.ptrZone ∉ (withZone zones d).keys) ∨
    (∃ zones', (zoneLoopBody env run o zones d dr).2 = some zones' ∧
      zones'.keys = (withZone zones d).keys ∧
      (reverseRRs (purgeStaleRecords dr (run.purgeNow d)
        (Seconds o.config.stale_record_duration)) = [] ∨
        env.ptrZone ∈ (withZone zones d).keys)) := by
  rw [zoneLoopBody_snd]
  obtain ⟨z1, h1, hk1⟩ := addFallbackRecord_of_mem env (zoneLoopBody env run o zones d dr).1
    (run.resolveOrder d (zoneLoopBody env run o zones d dr).1.records.keys) (withZone zones d) d
    (purgeStaleRecords dr (run.purgeNow d) (Seconds o.config.stale_record_duration))
    (withZone_mem zones d)
  have hd1 : d ∈ z1.keys := by rw [hk1]; exact withZone_mem zones d
  obtain ⟨z2, h2⟩ := insertAll_of_mem d ((purgeStaleRecords dr (run.purgeNow d)
    (Seconds o.config.stale_record_duration)).ARecords.values.map (fun v => RR.A v.record)) z1 hd1
  have hk2 : z2.keys = z1.keys := insertAll_keys _ _ _ _ h2
  simp only [h1, h2, Option.some_bind]
  by_cases hp : env.ptrZone ∈ (withZone zones d).keys
  · right
    obtain ⟨z3, h3⟩ := insertAll_of_mem env.ptrZone
      (reverseRRs (purgeStaleRecords dr (run.purgeNow d)
        (Seconds o.config.stale_record_duration))) z2 (by rw [hk2, hk1]; exact hp)
    exact ⟨z3, h3, by rw [insertAll_keys _ _ _ _ h3, hk2, hk1], Or.inr hp⟩
  · by_cases hn : reverseRRs (purgeStaleRecords dr (run.purgeNow d)
        (Seconds o.config.stale_record_duration)) = []
    · right
      refine ⟨z2, ?_, by rw [hk2, hk1], Or.inl hn⟩
      have : insertAll z2 env.ptrZone (reverseRRs (purgeStaleRecords dr (run.purgeNow d)
          (Seconds o.config.stale_record_duration))) = some z2 := by
        rw [hn]
        rfl
      exact this
    · left
      exact ⟨insertAll_fails _ _ z2 hn (by rw [hk2, hk1]; exact hp), hn, hp⟩

theorem withZone_keys_congr (zones zones0 : Zones) (d : String) (h : zones.keys = zones0.keys) :
    (withZone zones d).keys = (withZone zones0 d).keys := by
  rw [withZone_keys, withZone_keys, h]

theorem zoneLoopBody_noFallback_outcome (env : Env) (run : Run) (o : Omada)
    (zones zones0 : Zones) (d : String) (dr : DnsRecords) (h : zones.keys = zones0.keys) :
    ((zoneLoopBody env run o zones d dr).2 = none ∧
      (zoneLoopBody env run (noFallback o) zones0 d dr).2 = none) ∨
    (∃ z z0, (zoneLoopBody env run o zones d dr).2 = some z ∧
      (zoneLoopBody env run (noFallback o) zones0 d dr).2 = some z0 ∧ z.keys = z0.keys) := by
  have hk := withZone_keys_congr zones zones0 d h
  have hst : (noFallback o).config.stale_record_duration = o.config.stale_record_duration := rfl
  rcases zoneLoopBody_outcome env run o zones d dr with ⟨h1, hn, hp⟩ | ⟨z, h1, hkz, hc⟩
  · rcases zoneLoopBody_outcome env run (noFallback o) zones0 d dr with
      ⟨h2, _, _⟩ | ⟨z0, _, _, hc0⟩
    · exact Or.inl ⟨h1, h2⟩
    · rw [hst, ← hk] at hc0
      rcases hc0 with e | e
      · exact absurd e hn
      · exact absurd e hp
  · rcases zoneLoopBody_outcome env run (noFallback o) zones0 d dr with
      ⟨_, hn0, hp0⟩ | ⟨z0, h2, hkz0, _⟩
    · rw [hst] at hn0
      rw [← hk] at hp0
      rcases hc with e | e
      · exact absurd e hn0
      · exact absurd e hp0
    · exact Or.inr ⟨z, z0, h1, h2, by rw [hkz, hkz0, hk]⟩

theorem zoneLoop_noFallback (env : Env) (run : Run) (order : List String) (o : Omada)
    (zones zones0 : Zones) (h : zones.keys = zones0.keys) :
    (zoneLoop env run order (noFallback o) zones0).1 =
      noFallback (zoneLoop env run order o zones).1 ∧
    (((zoneLoop env run order o zones).2 = none ∧
        (zoneLoop env run order (noFallback o) zones0).2 = none) ∨
      ∃ z z0, (zoneLoop env run order o zones).2 = some z ∧
        (zoneLoop env run order (noFallback o) zones0).2 = some z0 ∧ z.keys = z0.keys) := by
  induction order generalizing o zones zones0 with
  | nil => exact ⟨rfl, Or.inr ⟨zones, zones0, rfl, rfl, h⟩⟩
  | cons d rest ih =>
    cases hg : o.records.get? d with
    | none =>
      have hg0 : (noFallback o).records.get? d = none := hg
      rw [zoneLoop_cons_none _ _ _ _ _ _ hg, zoneLoop_cons_none _ _ _ _ _ _ hg0]
      exact ih o zones zones0 h
    | some dr =>
      have hg0 : (noFallback o).records.get? d = some dr := hg
      have hfst := zoneLoopBody_noFallback_fst env run o zones zones0 d dr
      rcases zoneLoopBody_noFallback_outcome env run o zones zones0 d dr h with
        ⟨h1, h2⟩ | ⟨z1, z01, h1, h2, hk⟩
      · rw [zoneLoop_cons_fail _ _ _ _ _ _ _ hg h1, zoneLoop_cons_fail _ _ _ _ _ _ _ hg0 h2]
        exact ⟨hfst, Or.inl ⟨rfl, rfl⟩⟩
      · rw [zoneLoop_cons_step _ _ _ _ _ _ _ _ hg h1, zoneLoop_cons_step _ _ _ _ _ _ _ _ hg0 h2,
          hfst]
        exact ih _ z1 z01 hk

/-- The record map and the result of a cycle, the keys of the published zone
map and the published names do not depend on the configured fallback. -/
theorem applyInventory_noFallback (env : Env) (run : Run) (o : Omada) (inv : Inventory) :
    (applyInventory env run (noFallback o) inv).2 = (applyInventory env run o inv).2 ∧
    (applyInventory env run (noFallback o) inv).1.records =
      (applyInventory env run o inv).1.records ∧
    ((applyInventory env run o inv).2 = Result.ok →
      (applyInventory env run (noFallback o) inv).1.zones.keys =
        (applyInventory env run o inv).1.zones.keys ∧
      (applyInventory env run (noFallback o) inv).1.zoneNames =
        (applyInventory env run o inv).1.zoneNames) := by
  have hl := zoneLoop_noFallback env run
    (run.zoneOrder (synthesize env inv run.timestamp o.records).keys)
    { o with records := synthesize env inv run.timestamp o.records } GoMap.empty GoMap.empty rfl
  have hfst : (cycleLoop env run (noFallback o) inv).1 = noFallback (cycleLoop env run o inv).1 :=
    hl.1
  rcases hl.2 with ⟨h1, h2⟩ | ⟨z, z0, h1, h2, hk⟩
  · have h1' : (cycleLoop env run o inv).2 = none := h1
    have h2' : (cycleLoop env run (noFallback o) inv).2 = none := h2
    rw [applyInventory_of_loop_none _ _ _ _ h1', applyInventory_of_loop_none _ _ _ _ h2', hfst]
    refine ⟨rfl, rfl, ?_⟩
    intro hc
    cases hc
  · have h1' : (cycleLoop env run o inv).2 = some z := h1
    have h2' : (cycleLoop env run (noFallback o) inv).2 = some z0 := h2
    rw [applyInventory_of_loop_some _ _ _ _ _ h1', applyInventory_of_loop_some _ _ _ _ _ h2', hfst]
    refine ⟨rfl, rfl, fun _ => ⟨hk.symm, ?_⟩⟩
    simp only [publish]
    rw [hk]

theorem zoneLoop_records_get?_frame (env : Env) (run : Run) (order : List String) (o : Omada)
    (zones : Zones) (d : String) (hd : d ∉ order) :
    (zoneLoop env run order o zones).1.records.get? d = o.records.get? d := by
  induction order generalizing o zones with
  | nil => rfl
  | cons d1 rest ih =>
    have hne : d1 ≠ d := fun e => hd (by rw [e]; exact List.mem_cons_self _ _)
    have hd' : d ∉ rest := fun hm => hd (List.mem_cons_of_mem _ hm)
    cases hg : o.records.get? d1 with
    | none =>
      rw [zoneLoop_cons_none _ _ _ _ _ _ hg]
      exact ih o zones hd'
    | some dr1 =>
      have hb : (zoneLoopBody env run o zones d1 dr1).1.records.get? d = o.records.get? d := by
        rw [zoneLoopBody_fst]
        exact GoMap.get?_set_ne _ _ _ _ hne
      cases hs : (zoneLoopBody env run o zones d1 dr1).2 with
      | none =>
        rw [zoneLoop_cons_fail _ _ _ _ _ _ _ hg hs]
        exact hb
      | some z1 =>
        rw [zoneLoop_cons_step _ _ _ _ _ _ _ _ hg hs, ih _ z1 hd']
        exact hb

/-- The record set that a successful zone loop leaves for a domain of its
order: what the purge keeps of the record set it found. -/
theorem zoneLoop_records_get? (env : Env) (run : Run) (order : List String) (o : Omada)
    (zones zones' : Zones) (d : String) (dr : DnsRecords) (hnd : order.Nodup) (hmem : d ∈ order)
    (hget : o.records.get? d = some dr) (h : (zoneLoop env run order o zones).2 = some zones') :
    (zoneLoop env run order o zones).1.records.get? d =
      some (purgeStaleRecords dr (run.purgeNow d) (Seconds o.config.stale_record_duration)) := by
  induction order generalizing o zones with
  | nil => simp at hmem
  | cons d1 rest ih =>
    have hnd' : rest.Nodup := (List.nodup_cons.mp hnd).2
    have hd1 : d1 ∉ rest := (List.nodup_cons.mp hnd).1
    cases hg : o.records.get? d1 with
    | none =>
      rw [zoneLoop_cons_none _ _ _ _ _ _ hg] at h ⊢
      have hne : d ≠ d1 := fun e => by rw [e, hg] at hget; cases hget
      have hm : d ∈ rest := by
        rcases List.mem_cons.mp hmem with e | e
        · exact absurd e hne
        · exact e
      exact ih o zones hnd' hm hget h
    | some dr1 =>
      cases hs : (zoneLoopBody env run o zones d1 dr1).2 with
      | none =>
        rw [zoneLoop_cons_fail _ _ _ _ _ _ _ hg hs] at h
        cases h
      | some z1 =>
        rw [zoneLoop_cons_step _ _ _ _ _ _ _ _ hg hs] at h ⊢
        have hc : (zoneLoopBody env run o zones d1 dr1).1.config = o.config := by
          rw [zoneLoopBody_fst]
        by_cases e : d1 = d
        · subst e
          have hdr : dr1 = dr := by rw [hg] at hget; exact Option.some.inj hget
          subst hdr
          rw [zoneLoop_records_get?_frame env run rest _ z1 d1 hd1, zoneLoopBody_fst]
          exact GoMap.get?_set_self _ _ _
        · have hm : d ∈ rest := by
            rcases List.mem_cons.mp hmem with e2 | e2
            · exact absurd e2.symm e
            · exact e2
          have hget1 : (zoneLoopBody env run o zones d1 dr1).1.records.get? d = some dr := by
            rw [zoneLoopBody_fst]
            simp only
            rw [GoMap.get?_set_ne _ _ _ _ e]
            exact hget
          have := ih (zoneLoopBody env run o zones d1 dr1).1 z1 hnd' hm hget1 h
          rw [hc] at this
          exact this

/-- The zone and the record set that a successful cycle of a valid run
publishes for a domain of the synthesized record map: the zone holds the
authority record, at most one wildcard, the forward records of the record set
and, in the reverse zone, its reverse records. -/
theorem applyInventory_zone_of_records (env : Env) (run : Run) (o : Omada) (inv : Inventory)
    (hrun : run.Valid) (hok : (applyInventory env run o inv).2 = Result.ok) (d : String)
    (hd : d ∈ (synthesize env inv run.timestamp o.records).keys)
    (hp : env.ptrZone ≠ d ∨ PtrOnlyInPtrZone env o.records) :
    ∃ dr wild, (applyInventory env run o inv).1.records.get? d = some dr ∧
      (wild = [] ∨ ∃ ip, wild = [wildcardRR d ip]) ∧
      (o.config.fallback = "" → wild = []) ∧
      (o.config.fallback ≠ "" → ∀ ip, env.ParseIP o.config.fallback = some ip →
        wild = [wildcardRR d ip]) ∧
      (applyInventory env run o inv).1.zones.get? d = some ⟨d, RR.SOA d :: (wild ++
        forwardRRs dr ++ (if env.ptrZone = d then reverseRRs dr else []))⟩ := by
  obtain ⟨dr0, hget⟩ := (GoMap.mem_keys_iff _ _).mp hd
  obtain ⟨wild, hw, hw0, hw1, hz⟩ := applyInventory_zone_exact env run o inv hrun hok d dr0 hget hp
  obtain ⟨zones, hl, _⟩ := applyInventory_ok env run o inv hok
  have hperm := hrun.1 (synthesize env inv run.timestamp o.records).keys
  have hnd : (run.zoneOrder (synthesize env inv run.timestamp o.records).keys).Nodup :=
    (hperm.nodup_iff).mpr (synthesize env inv run.timestamp o.records).nodup
  refine ⟨_, wild, ?_, hw, hw0, hw1, hz⟩
  rw [applyInventory_records, buildCandidate_fst]
  exact zoneLoop_records_get? env run _
    { o with records := synthesize env inv run.timestamp o.records } GoMap.empty zones d dr0
    hnd (hperm.mem_iff.mpr hd) hget hl

theorem synthesize_fwdAt_no_network (env : Env) (inv : Inventory) (ts : Int) (records : Records)
    (d k : String) (h : ∀ n ∈ inv.networks, n.Domain ++ "." ≠ d) :
    fwdAt (synthesize env inv ts records) d k = fwdAt records d k := by
  rw [synthesize_fwdAt]
  apply fwdOverlay_no_match
  intro w hw hc
  obtain ⟨n, hn, _, hdom, _⟩ := cycleWrites_sound env inv w hw
  exact h n hn (by rw [← hdom, hc.1])

theorem applyInventory_records_keys (env : Env) (run : Run) (o : Omada) (inv : Inventory) :
    (applyInventory env run o inv).1.records.keys =
      (synthesize env inv run.timestamp o.records).keys := by
  rw [applyInventory_records, buildCandidate_fst]
  exact zoneLoop_records_keys env run _ _ _

theorem applyInventory_names (env : Env) (run : Run) (o : Omada) (inv : Inventory)
    (hrun : run.Valid) :
    ((applyInventory env run o inv).2 = Result.ok ∧
      ∀ d, d ∈ (applyInventory env run o inv).1.zoneNames ↔
        d ∈ (synthesize env inv run.timestamp o.records).keys) ∨
    ((applyInventory env run o inv).2 = Result.nilDeref ∧
      (applyInventory env run o inv).1.zoneNames = o.zoneNames) := by
  cases hs : (cycleLoop env run o inv).2 with
  | some zones =>
    left
    have hok : (applyInventory env run o inv).2 = Result.ok := by
      rw [applyInventory_of_loop_some _ _ _ _ _ hs]
    obtain ⟨hz, _, hn, _⟩ := applyInventory_zone_keys env run o inv hrun hok
    refine ⟨hok, fun d => ?_⟩
    rw [hn, (hrun.2.2.1 _).mem_iff, hz, (hrun.1 _).mem_iff]
  | none =>
    right
    rw [applyInventory_of_loop_none _ _ _ _ hs]
    exact ⟨rfl, (zoneLoop_frame env run _ _ _).2.2.2⟩

/-! ## The case folding of `Insert` through the cycle -/

theorem alGet_map {V W : Type} (l : List (String × V)) (f : String → V → W) (k : String) :
    alGet (l.map (fun e => (e.1, f e.1 e.2))) k = (alGet l k).map (f k) := by
  induction l with
  | nil => rfl
  | cons hd tl ih =>
    obtain ⟨k0, v0⟩ := hd
    by_cases h : k0 = k
    · subst h
      simp [alGet]
    · simp [alGet, h, ih]

theorem entries_eq_of_get {V : Type} (l1 l2 : List (String × V))
    (h1 : (l1.map Prod.fst).Nodup) (h2 : (l2.map Prod.fst).Nodup)
    (hk : l1.map Prod.fst = l2.map Prod.fst) (hg : ∀ k, alGet l1 k = alGet l2 k) : l1 = l2 := by
  induction l1 generalizing l2 with
  | nil =>
    cases l2 with
    | nil => rfl
    | cons b t => simp at hk
  | cons a t1 ih =>
    cases l2 with
    | nil => simp at hk
    | cons b t2 =>
      obtain ⟨ka, va⟩ := a
      obtain ⟨kb, vb⟩ := b
      simp only [List.map_cons, List.cons.injEq] at hk
      obtain ⟨hkab, hkt⟩ := hk
      subst hkab
      have hva : va = vb := by
        have := hg ka
        simpa [alGet] using this
      subst hva
      have hn1 := List.nodup_cons.mp h1
      have hn2 := List.nodup_cons.mp h2
      congr 1
      apply ih t2 hn1.2 hn2.2 hkt
      intro k
      by_cases e : ka = k
      · subst e
        rw [alGet_none_of_not_mem t1 ka hn1.1, alGet_none_of_not_mem t2 ka hn2.1]
      · have := hg k
        simpa [alGet, e] using this

/-- Two maps with the same keys in the same order and the same lookups are
equal. -/
theorem GoMap.ext_get {V : Type} (a b : GoMap V) (hk : a.keys = b.keys)
    (hg : ∀ k, a.get? k = b.get? k) : a = b :=
  GoMap.ext_entries (entries_eq_of_get _ _ a.nodup b.nodup hk hg)

theorem GoMap.get?_mapValues {V W : Type} (m : GoMap V) (f : String → V → W) (k : String) :
    (m.mapValues f).get? k = (m.get? k).map (f k) :=
  alGet_map m.entries f k

theorem GoMap.keys_mapValues {V W : Type} (m : GoMap V) (f : String → V → W) :
    (m.mapValues f).keys = m.keys := by
  unfold GoMap.keys GoMap.mapValues
  simp only [List.map_map]
  rfl

theorem GoMap.values_mapValues {V W : Type} (m : GoMap V) (g : V → W) :
    (m.mapValues (fun _ v => g v)).values = m.values.map g := by
  unfold GoMap.values GoMap.mapValues
  simp only [List.map_map]
  rfl

theorem GoMap.contains_mapValues {V W : Type} (m : GoMap V) (f : String → V → W) (k : String) :
    (m.mapValues f).contains k = m.contains k := by
  unfold GoMap.contains
  rw [GoMap.get?_mapValues]
  cases m.get? k <;> rfl

theorem GoMap.set_mapValues {V W : Type} (m : GoMap V) (f : String → V → W) (k : String)
    (v : V) : (m.mapValues f).set k (f k v) = (m.set k v).mapValues f := by
  apply GoMap.ext_get
  · rw [GoMap.keys_set, GoMap.keys_mapValues, GoMap.keys_mapValues, GoMap.keys_set]
  · intro x
    rw [GoMap.get?_set, GoMap.get?_mapValues, GoMap.get?_mapValues, GoMap.get?_set]
    by_cases e : k = x
    · subst e
      simp
    · simp [e]

theorem GoMap.mapValues_congr {V W : Type} (m : GoMap V) (f g : String → V → W)
    (h : ∀ k v, m.get? k = some v → f k v = g k v) : m.mapValues f = m.mapValues g := by
  apply GoMap.ext_get
  · rw [GoMap.keys_mapValues, GoMap.keys_mapValues]
  · intro k
    rw [GoMap.get?_mapValues, GoMap.get?_mapValues]
    cases hk : m.get? k with
    | none => rfl
    | some v => simp [h k v hk]

theorem GoMap.mapValues_id {V : Type} (m : GoMap V) (f : String → V → V)
    (h : ∀ k v, m.get? k = some v → f k v = v) : m.mapValues f = m := by
  apply GoMap.ext_get
  · rw [GoMap.keys_mapValues]
  · intro k
    rw [GoMap.get?_mapValues]
    cases hk : m.get? k with
    | none => rfl
    | some v => simp [h k v hk]

theorem GoMap.filter_mapValues {V W : Type} (m : GoMap V) (f : String → V → W)
    (p : String → V → Bool) (q : String → W → Bool) (h : ∀ k v, q k (f k v) = p k v) :
    (m.mapValues f).filter q = (m.filter p).mapValues f := by
  apply GoMap.ext_entries
  unfold GoMap.filter GoMap.mapValues
  simp only [List.filter_map]
  congr 1
  apply List.filter_congr
  intro e _
  simp [Function.comp, h]

theorem purge_lowerNames (lower : String → String) (dr : DnsRecords) (now maxAge : Int) :
    purgeStaleRecords (dr.lowerNames lower) now maxAge =
      (purgeStaleRecords dr now maxAge).lowerNames lower := by
  unfold purgeStaleRecords DnsRecords.lowerNames
  simp only
  rw [GoMap.filter_mapValues _ _ (fun _ v => !(decide (Seconds (now - v.timestamp) > maxAge))),
    GoMap.filter_mapValues _ _ (fun _ v => !(decide (Seconds (now - v.timestamp) > maxAge)))]
  · intro k v; rfl
  · intro k v; rfl

theorem fwdAt_mapValues_lowerNames (lower : String → String) (records : Records) (d k : String) :
    fwdAt (records.mapValues (fun _ dr => dr.lowerNames lower)) d k =
      (fwdAt records d k).map (ARecord.lowerName lower) := by
  unfold fwdAt
  rw [GoMap.get?_mapValues]
  cases records.get? d with
  | none => rfl
  | some dr => exact GoMap.get?_mapValues _ _ _

theorem revAt_mapValues_lowerNames (lower : String → String) (records : Records) (d k : String) :
    revAt (records.mapValues (fun _ dr => dr.lowerNames lower)) d k =
      (revAt records d k).map (PtrRecord.lowerName lower) := by
  unfold revAt
  rw [GoMap.get?_mapValues]
  cases records.get? d with
  | none => rfl
  | some dr => exact GoMap.get?_mapValues _ _ _

theorem lowerExcept_get? (lower : String → String) (order : List String) (records : Records)
    (d : String) :
    (lowerExcept lower order records).get? d =
      (records.get? d).map (fun dr => if d ∈ order then dr else dr.lowerNames lower) :=
  GoMap.get?_mapValues _ _ _

theorem lowerExcept_keys (lower : String → String) (order : List String) (records : Records) :
    (lowerExcept lower order records).keys = records.keys :=
  GoMap.keys_mapValues _ _

theorem lowerExcept_nil (lower : String → String) (records : Records) :
    lowerExcept lower [] records = records.mapValues (fun _ dr => dr.lowerNames lower) := by
  unfold lowerExcept
  apply GoMap.mapValues_congr
  intro k v _
  simp

theorem lowerExcept_all (lower : String → String) (order : List String) (records : Records)
    (h : ∀ d ∈ records.keys, d ∈ order) : lowerExcept lower order records = records := by
  unfold lowerExcept
  apply GoMap.mapValues_id
  intro k v hk
  simp [h k ((GoMap.mem_keys_iff _ _).mpr ⟨v, hk⟩)]

theorem lowerExcept_cons_none (lower : String → String) (d : String) (rest : List String)
    (records : Records) (h : records.get? d = none) :
    lowerExcept lower (d :: rest) records = lowerExcept lower rest records := by
  unfold lowerExcept
  apply GoMap.mapValues_congr
  intro k v hk
  have hne : k ≠ d := fun e => by rw [e, h] at hk; cases hk
  simp [hne]

theorem lowerExcept_set_self (lower : String → String) (d : String) (rest : List String)
    (records : Records) (dr : DnsRecords) :
    (lowerExcept lower (d :: rest) records).set d dr =
      lowerExcept lower (d :: rest) (records.set d dr) := by
  unfold lowerExcept
  rw [← GoMap.set_mapValues]
  simp

theorem lowerExcept_step (lower : String → String) (d : String) (rest : List String)
    (records : Records) (dr : DnsRecords) (hd : d ∉ rest) :
    (lowerExcept lower (d :: rest) (records.set d dr)).set d (dr.lowerNames lower) =
      lowerExcept lower rest (records.set d dr) := by
  apply GoMap.ext_get
  · rw [GoMap.keys_set_of_mem]
    · rw [lowerExcept_keys, lowerExcept_keys]
    · rw [lowerExcept_keys]
      exact GoMap.mem_keys_set_self _ _ _
  · intro k
    rw [GoMap.get?_set, lowerExcept_get?, lowerExcept_get?, GoMap.get?_set]
    by_cases e : d = k
    · subst e
      simp [hd]
    · have e' : ¬ k = d := fun h => e h.symm
      simp [e, e']

theorem resolveInZones_lowerExcept (lower : String → String) (o : Omada) (rest : List String)
    (order : List String) (t : String) :
    resolveInZones { o with records := lowerExcept lower rest o.records } order t =
      resolveInZones o order t := by
  unfold resolveInZones
  congr 1
  funext d
  simp only
  rw [lowerExcept_get?]
  cases o.records.get? d with
  | none => rfl
  | some dr =>
    simp only [Option.map_some']
    by_cases h : d ∈ rest
    · simp only [h, if_true]
    · simp only [h, if_false, DnsRecords.lowerNames, GoMap.get?_mapValues]
      cases dr.ARecords.get? t <;> rfl

theorem Zone.lowerNames_Insert (lower : String → String) (z : Zone) (r : RR) :
    (z.lowerNames lower).InsertLowering lower r = (z.Insert r).lowerNames lower := by
  simp [Zone.lowerNames, Zone.InsertLowering, Zone.Insert]

theorem insertIntoLowering_mapValues (lower : String → String) (zones : Zones) (key : String)
    (r : RR) :
    insertIntoLowering lower (zones.mapValues (fun _ z => z.lowerNames lower)) key r =
      (insertInto zones key r).map (fun zs => zs.mapValues (fun _ z => z.lowerNames lower)) := by
  unfold insertIntoLowering insertInto
  rw [GoMap.get?_mapValues]
  cases zones.get? key with
  | none => rfl
  | some z =>
    simp only [Option.map_some']
    rw [Zone.lowerNames_Insert, GoMap.set_mapValues zones (fun _ z => z.lowerNames lower)]

theorem insertAllLowering_mapValues (lower : String → String) (key : String) (rrs : List RR)
    (zones : Zones) :
    insertAllLowering lower (zones.mapValues (fun _ z => z.lowerNames lower)) key rrs =
      (insertAll zones key rrs).map
        (fun zs => zs.mapValues (fun _ z => z.lowerNames lower)) := by
  induction rrs generalizing zones with
  | nil => rfl
  | cons r rest ih =>
    unfold insertAllLowering insertAll
    rw [insertIntoLowering_mapValues]
    cases insertInto zones key r with
    | none => rfl
    | some z1 =>
      simp only [Option.map_some']
      exact ih z1

theorem addFallbackRecordLowering_mapValues (lower : String → String) (env : Env) (o : Omada)
    (rest order : List String) (zones : Zones) (d : String) (dr dr' : DnsRecords) :
    addFallbackRecordLowering lower env { o with records := lowerExcept lower rest o.records }
        order (zones.mapValues (fun _ z => z.lowerNames lower)) d dr =
      (addFallbackRecord env o order zones d dr').map
        (fun zs => zs.mapValues (fun _ z => z.lowerNames lower)) := by
  unfold addFallbackRecordLowering addFallbackRecord
  simp only
  by_cases hf : o.config.fallback = ""
  · simp [hf]
  · simp only [hf, if_false]
    rw [resolveInZones_lowerExcept]
    cases env.ParseIP o.config.fallback with
    | some ip => exact insertIntoLowering_mapValues lower zones d _
    | none =>
      simp only
      cases resolveInZones o order (fallbackTarget env o.config.fallback d) with
      | none => rfl
      | some ip => exact insertIntoLowering_mapValues lower zones d _

theorem withZone_mapValues (lower : String → String) (zones : Zones) (d : String) :
    (if (zones.mapValues (fun _ z => z.lowerNames lower)).contains d then
        zones.mapValues (fun _ z => z.lowerNames lower)
      else (zones.mapValues (fun _ z => z.lowerNames lower)).set d
        (addSoaRecordLowering lower (NewZone d) d)) =
      (withZone zones d).mapValues (fun _ z => z.lowerNames lower) := by
  unfold withZone
  rw [GoMap.contains_mapValues]
  cases zones.contains d with
  | true => rfl
  | false =>
    simp only [Bool.false_eq_true, if_false]
    rw [← GoMap.set_mapValues]
    rfl

/-- One round of the zone loop with the case folding of `Insert` runs to its
end exactly when the round without it does, and then leaves the same state and
zones with the owner names of the record set of the round and of the inserted
records in lower case. -/
theorem zoneLoopBodyLowering_eq (lower : String → String) (env : Env) (run : Run) (o : Omada)
    (zones : Zones) (d : String) (rest : List String) (dr : DnsRecords) (hd : d ∉ rest) :
    zoneLoopBodyLowering lower env run { o with records := lowerExcept lower (d :: rest) o.records }
        (zones.mapValues (fun _ z => z.lowerNames lower)) d dr =
      ((zoneLoopBody env run o zones d dr).2).map (fun zs =>
        ({ (zoneLoopBody env run o zones d dr).1 with
            records := lowerExcept lower rest (zoneLoopBody env run o zones d dr).1.records },
          zs.mapValues (fun _ z => z.lowerNames lower))) := by
  rw [zoneLoopBody_snd, zoneLoopBody_fst]
  unfold zoneLoopBodyLowering
  simp only
  rw [withZone_mapValues, lowerExcept_set_self, lowerExcept_keys]
  have hfb := addFallbackRecordLowering_mapValues lower env
    { o with records := (o.records.set d
        (purgeStaleRecords dr (run.purgeNow d) (Seconds o.config.stale_record_duration))) }
    (d :: rest)
    (run.resolveOrder d (o.records.set d
        (purgeStaleRecords dr (run.purgeNow d) (Seconds o.config.stale_record_duration))).keys)
    (withZone zones d) d
    (purgeStaleRecords dr (run.purgeNow d) (Seconds o.config.stale_record_duration))
    (purgeStaleRecords dr (run.purgeNow d) (Seconds o.config.stale_record_duration))
  simp only at hfb
  rw [hfb]
  cases addFallbackRecord env
      { o with records := (o.records.set d
          (purgeStaleRecords dr (run.purgeNow d) (Seconds o.config.stale_record_duration))) }
      (run.resolveOrder d (o.records.set d
          (purgeStaleRecords dr (run.purgeNow d) (Seconds o.config.stale_record_duration))).keys)
      (withZone zones d) d
      (purgeStaleRecords dr (run.purgeNow d) (Seconds o.config.stale_record_duration)) with
  | none => rfl
  | some z1 =>
    simp only [Option.map_some', Option.some_bind]
    rw [insertAllLowering_mapValues]
    cases insertAll z1 d ((purgeStaleRecords dr (run.purgeNow d)
        (Seconds o.config.stale_record_duration)).ARecords.values.map
          (fun v => RR.A v.record)) with
    | none => rfl
    | some z2 =>
      simp only [Option.map_some', Option.some_bind]
      rw [insertAllLowering_mapValues]
      cases insertAll z2 env.ptrZone ((purgeStaleRecords dr (run.purgeNow d)
          (Seconds o.config.stale_record_duration)).PtrRecords.values.map
            (fun v => RR.PTR v.record)) with
      | none => rfl
      | some z3 =>
        simp only [Option.map_some', Option.some.injEq, Prod.mk.injEq, and_true]
        rw [lowerExcept_step lower d rest _ _ hd]

/-- The zone loop with the case folding of `Insert` runs to its end exactly
when the loop without it does, and then leaves the same state and zones with
every owner name in lower case. -/
theorem zoneLoopLowering_eq (lower : String → String) (env : Env) (run : Run)
    (order : List String) (o : Omada) (zones : Zones) (hnd : order.Nodup) :
    zoneLoopLowering lower env run order { o with records := lowerExcept lower order o.records }
        (zones.mapValues (fun _ z => z.lowerNames lower)) =
      ((zoneLoop env run order o zones).2).map (fun zs =>
        ({ (zoneLoop env run order o zones).1 with
            records := lowerExcept lower [] (zoneLoop env run order o zones).1.records },
          zs.mapValues (fun _ z => z.lowerNames lower))) := by
  induction order generalizing o zones with
  | nil => rfl
  | cons d rest ih =>
    have hnd' : rest.Nodup := (List.nodup_cons.mp hnd).2
    have hd : d ∉ rest := (List.nodup_cons.mp hnd).1
    unfold zoneLoopLowering
    simp only [lowerExcept_get?]
    cases hg : o.records.get? d with
    | none =>
      simp only [Option.map_none']
      rw [zoneLoop_cons_none _ _ _ _ _ _ hg, lowerExcept_cons_none _ _ _ _ hg]
      exact ih o zones hnd'
    | some dr =>
      simp only [Option.map_some', List.mem_cons, true_or, if_true]
      rw [zoneLoopBodyLowering_eq lower env run o zones d rest dr hd]
      cases hs : (zoneLoopBody env run o zones d dr).2 with
      | none =>
        rw [zoneLoop_cons_fail _ _ _ _ _ _ _ hg hs]
        rfl
      | some z1 =>
        rw [zoneLoop_cons_step _ _ _ _ _ _ _ _ hg hs]
        simp only [Option.map_some']
        exact ih (zoneLoopBody env run o zones d dr).1 z1 hnd'

theorem mapValues_empty {V W : Type} (f : String → V → W) :
    (GoMap.empty : GoMap V).mapValues f = GoMap.empty := rfl

/-- A cycle with the case folding of `Insert` runs to its end exactly when the
cycle without it does, and then publishes the same state with every owner name
of the record map and of the zones in lower case. -/
theorem applyInventoryLowering_eq (lower : String → String) (env : Env) (run : Run) (o : Omada)
    (inv : Inventory) (hrun : run.Valid) :
    applyInventoryLowering lower env run o inv =
      if (applyInventory env run o inv).2 = Result.ok then
        some ((applyInventory env run o inv).1.lowerNames lower)
      else none := by
  have hperm := hrun.1 (synthesize env inv run.timestamp o.records).keys
  have hnd : (run.zoneOrder (synthesize env inv run.timestamp o.records).keys).Nodup :=
    (hperm.nodup_iff).mpr (synthesize env inv run.timestamp o.records).nodup
  have hall := lowerExcept_all lower
    (run.zoneOrder (synthesize env inv run.timestamp o.records).keys)
    (synthesize env inv run.timestamp o.records) (fun d hd => hperm.mem_iff.mpr hd)
  have hsim := zoneLoopLowering_eq lower env run
    (run.zoneOrder (synthesize env inv run.timestamp o.records).keys)
    { o with records := synthesize env inv run.timestamp o.records } GoMap.empty hnd
  simp only [hall, mapValues_empty] at hsim
  unfold applyInventoryLowering
  simp only
  rw [hsim]
  cases hs : (cycleLoop env run o inv).2 with
  | none =>
    have hs' : (zoneLoop env run
        (run.zoneOrder (synthesize env inv run.timestamp o.records).keys)
        { o with records := synthesize env inv run.timestamp o.records } GoMap.empty).2 =
        none := hs
    rw [hs', applyInventory_of_loop_none _ _ _ _ hs]
    simp
  | some zones =>
    have hs' : (zoneLoop env run
        (run.zoneOrder (synthesize env inv run.timestamp o.records).keys)
        { o with records := synthesize env inv run.timestamp o.records } GoMap.empty).2 =
        some zones := hs
    rw [hs', applyInventory_of_loop_some _ _ _ _ _ hs]
    simp only [Option.map_some', if_true, Option.some.injEq]
    simp only [publish, Omada.lowerNames, lowerExcept_nil, GoMap.keys_mapValues]
    rfl

theorem applyInventoryLowering_some (lower : String → String) (env : Env) (run : Run) (o : Omada)
    (inv : Inventory) (final : Omada) (hrun : run.Valid)
    (h : applyInventoryLowering lower env run o inv = some final) :
    (applyInventory env run o inv).2 = Result.ok ∧
    final = (applyInventory env run o inv).1.lowerNames lower := by
  rw [applyInventoryLowering_eq lower env run o inv hrun] at h
  by_cases hok : (applyInventory env run o inv).2 = Result.ok
  · rw [if_pos hok, Option.some.injEq] at h
    exact ⟨hok, h.symm⟩
  · rw [if_neg hok] at h
    cases h

/-- What a successful cycle leaves of a forward record that no write of the
cycle replaces: the record if it is not stale at the purge of its domain,
nothing if it is. -/
theorem applyInventory_unbacked_fwd (env : Env) (run : Run) (o : Omada) (inv : Inventory)
    (hrun : run.Valid) (hok : (applyInventory env run o inv).2 = Result.ok) (d k : String)
    (v : ARecord) (hv : fwdAt o.records d k = some v)
    (hnone : ∀ w ∈ cycleWrites env inv, ¬ (w.dnsDomain = d ∧ w.fqdn = k)) :
    fwdAt (applyInventory env run o inv).1.records d k =
      keepA (run.purgeNow d) (Seconds o.config.stale_record_duration) (some v) := by
  have hsyn : fwdAt (synthesize env inv run.timestamp o.records) d k = some v := by
    rw [synthesize_fwdAt, fwdOverlay_no_match _ _ _ _ _ hnone, hv]
  have hmem := fwdAt_some_mem_keys _ _ _ _ hsyn
  rw [(applyInventory_purged env run o inv hrun hok d k).1 hmem, hsyn]

/-- What a successful cycle leaves of a reverse record of the reverse domain
that no write of the cycle replaces. -/
theorem applyInventory_unbacked_rev (env : Env) (run : Run) (o : Omada) (inv : Inventory)
    (hrun : run.Valid) (hok : (applyInventory env run o inv).2 = Result.ok) (k : String)
    (v : PtrRecord) (hv : revAt o.records env.ptrZone k = some v)
    (hnone : ∀ w ∈ cycleWrites env inv, w.ptrName env ≠ k) :
    revAt (applyInventory env run o inv).1.records env.ptrZone k =
      keepP (run.purgeNow env.ptrZone) (Seconds o.config.stale_record_duration) (some v) := by
  have hsyn : revAt (synthesize env inv run.timestamp o.records) env.ptrZone k = some v := by
    rw [synthesize_revAt]
    simp only [if_true]
    rw [revOverlay_no_match _ _ _ _ _ hnone, hv]
  have hmem := synthesize_ptrZone_mem env inv run.timestamp o.records
  rw [(applyInventory_purged env run o inv hrun hok env.ptrZone k).2 hmem, hsyn]

theorem forwardRRs_lowerNames (lower : String → String) (dr : DnsRecords) :
    (forwardRRs dr).map (RR.lowerName lower) = forwardRRs (dr.lowerNames lower) := by
  unfold forwardRRs DnsRecords.lowerNames
  simp only
  rw [GoMap.values_mapValues, List.map_map, List.map_map]
  rfl

theorem reverseRRs_lowerNames (lower : String → String) (dr : DnsRecords) :
    (reverseRRs dr).map (RR.lowerName lower) = reverseRRs (dr.lowerNames lower) := by
  unfold reverseRRs DnsRecords.lowerNames
  simp only
  rw [GoMap.values_mapValues, List.map_map, List.map_map]
  rfl

/-- After a cycle with the case folding of `Insert` that runs to its end, the
owner name of every record of the record map is in lower case, `lower` being
idempotent. -/
theorem applyInventoryLowering_names (lower : String → String) (env : Env) (run : Run)
    (o : Omada) (inv : Inventory) (final : Omada) (hrun : run.Valid)
    (hok : applyInventoryLowering lower env run o inv = some final)
    (hidem : ∀ s, lower (lower s) = lower s) :
    (∀ d k v, fwdAt final.records d k = some v → lower v.record.Name = v.record.Name) ∧
    (∀ d k v, revAt final.records d k = some v → lower v.record.Name = v.record.Name) := by
  obtain ⟨_, hfin⟩ := applyInventoryLowering_some lower env run o inv final hrun hok
  have hrec : final.records =
      (applyInventory env run o inv).1.records.mapValues (fun _ dr => dr.lowerNames lower) := by
    rw [hfin]; rfl
  rw [hrec]
  constructor
  · intro d k v hv
    rw [fwdAt_mapValues_lowerNames] at hv
    cases hb : fwdAt (applyInventory env run o inv).1.records d k with
    | none => rw [hb] at hv; cases hv
    | some vb =>
      rw [hb, Option.map_some', Option.some.injEq] at hv
      rw [← hv]
      exact hidem _
  · intro d k v hv
    rw [revAt_mapValues_lowerNames] at hv
    cases hb : revAt (applyInventory env run o inv).1.records d k with
    | none => rw [hb] at hv; cases hv
    | some vb =>
      rw [hb, Option.map_some', Option.some.injEq] at hv
      rw [← hv]
      exact hidem _

/-! ## A fallback name through the whole cycle -/

theorem fallbackTarget_of_dot (env : Env) (fallback d : String)
    (h : containsDot fallback = true) : fallbackTarget env fallback d = env.Fqdn fallback := by
  simp [fallbackTarget, h]

/-- What `addFallbackRecord` does to the zone map when the fallback is a name:
it inserts the wildcard of the address that the lookup returns, if any. -/
theorem addFallbackRecord_name_get? (env : Env) (o : Omada) (order : List String)
    (zones zones' : Zones) (d : String) (dr : DnsRecords) (hne : o.config.fallback ≠ "")
    (hip : env.ParseIP o.config.fallback = none)
    (h : addFallbackRecord env o order zones d dr = some zones') (x : String) :
    zones'.get? x =
      appendAt d (lookupWild d
        (resolveInZones o order (fallbackTarget env o.config.fallback d))) x (zones.get? x) := by
  unfold addFallbackRecord at h
  simp only [hne, if_false, hip] at h
  cases hr : resolveInZones o order (fallbackTarget env o.config.fallback d) with
  | none =>
    simp only [hr, Option.some.injEq] at h
    subst h
    exact (appendAt_nil d x _).symm
  | some a =>
    simp only [hr] at h
    exact insertInto_get? _ _ _ _ h x

/-- What one round of the zone loop does to the zone map when the fallback is a
name. -/
theorem zoneLoopBody_name_get? (env : Env) (run : Run) (o : Omada) (zones zones' : Zones)
    (d : String) (dr : DnsRecords) (hne : o.config.fallback ≠ "")
    (hip : env.ParseIP o.config.fallback = none)
    (h : (zoneLoopBody env run o zones d dr).2 = some zones') (x : String) :
    zones'.get? x =
      appendAt env.ptrZone
        (reverseRRs (purgeStaleRecords dr (run.purgeNow d)
          (Seconds o.config.stale_record_duration))) x
        (appendAt d
          (lookupWild d (resolveInZones (zoneLoopBody env run o zones d dr).1
              (run.resolveOrder d (zoneLoopBody env run o zones d dr).1.records.keys)
              (fallbackTarget env o.config.fallback d)) ++
            forwardRRs (purgeStaleRecords dr (run.purgeNow d)
              (Seconds o.config.stale_record_duration))) x
          ((withZone zones d).get? x)) := by
  rw [zoneLoopBody_snd] at h
  have hc : (zoneLoopBody env run o zones d dr).1.config = o.config := by
    rw [zoneLoopBody_fst]
  cases h1 : addFallbackRecord env (zoneLoopBody env run o zones d dr).1
      (run.resolveOrder d (zoneLoopBody env run o zones d dr).1.records.keys) (withZone zones d) d
      (purgeStaleRecords dr (run.purgeNow d) (Seconds o.config.stale_record_duration)) with
  | none => simp [h1] at h
  | some z1 =>
    simp only [h1, Option.some_bind] at h
    cases h2 : insertAll z1 d ((purgeStaleRecords dr (run.purgeNow d)
        (Seconds o.config.stale_record_duration)).ARecords.values.map
          (fun v => RR.A v.record)) with
    | none => simp [h2] at h
    | some z2 =>
      simp only [h2, Option.some_bind] at h
      have hg := addFallbackRecord_name_get? env _ _ _ _ d _ (by rw [hc]; exact hne)
        (by rw [hc]; exact hip) h1 x
      rw [hc] at hg
      rw [insertAll_get? _ _ _ _ h x, insertAll_get? _ _ _ _ h2 x, hg, appendAt_append]
      rfl

/-- The lookup of one round of the zone loop: it finds nothing only if no
record of the name is left after the purge of the round, and what it finds is
the address of a record of that name that was there before the round and that
the purge of the round, if it is of the same domain, keeps. -/
theorem zoneLoopBody_resolve (env : Env) (run : Run) (o : Omada) (zones : Zones) (d : String)
    (dr : DnsRecords) (t : String) (hrun : run.Valid) (hg : o.records.get? d = some dr) :
    (resolveInZones (zoneLoopBody env run o zones d dr).1
        (run.resolveOrder d (zoneLoopBody env run o zones d dr).1.records.keys) t = none →
      ∀ dom, fwdAt (zoneLoopBody env run o zones d dr).1.records dom t = none) ∧
    (∀ a, resolveInZones (zoneLoopBody env run o zones d dr).1
        (run.resolveOrder d (zoneLoopBody env run o zones d dr).1.records.keys) t = some a →
      ∃ dom rec, fwdAt o.records dom t = some rec ∧ rec.record.A = a ∧
        fwdAt (zoneLoopBody env run o zones d dr).1.records dom t = some rec) := by
  constructor
  · intro h dom
    by_cases hm : dom ∈ (zoneLoopBody env run o zones d dr).1.records.keys
    · exact resolveInZones_eq_none _ _ _ h dom ((hrun.2.1 d _).mem_iff.mpr hm)
    · cases hf : fwdAt (zoneLoopBody env run o zones d dr).1.records dom t with
      | none => rfl
      | some v => exact absurd (fwdAt_some_mem_keys _ _ _ _ hf) hm
  · intro a h
    obtain ⟨dom, rec, _, hf, ha⟩ := resolveInZones_eq_some _ _ _ a h
    refine ⟨dom, rec, ?_, ha, hf⟩
    rw [zoneLoopBody_fst] at hf
    simp only at hf
    rw [purged_fwdAt _ _ _ _ _ hg] at hf
    by_cases e : d = dom
    · simp only [e, if_true] at hf
      exact (keepA_eq_some _ _ _ _ hf).1
    · simp only [e, if_false] at hf
      exact hf

/-- What the rest of the zone loop leaves of a forward record: the record, or
nothing if it is stale at the purge of its domain. -/
theorem zoneLoop_fwdAt_fate (env : Env) (run : Run) (order : List String) (o : Omada)
    (zones : Zones) (d k : String) (v : ARecord) (h : fwdAt o.records d k = some v) :
    fwdAt (zoneLoop env run order o zones).1.records d k = some v ∨
    (fwdAt (zoneLoop env run order o zones).1.records d k = none ∧
      Seconds (run.purgeNow d - v.timestamp) > Seconds o.config.stale_record_duration) := by
  rcases (zoneLoop_fwdAt env run order o zones d k).1 with e | e
  · left
    rw [e, h]
  · rw [h] at e
    by_cases hs : Seconds (run.purgeNow d - v.timestamp) > Seconds o.config.stale_record_duration
    · right
      refine ⟨?_, hs⟩
      rw [e]
      simp [keepA, hs]
    · left
      rw [e, keepA_of_fresh _ _ _ hs]

/-- The zone that a successful zone loop builds for a domain of its order when
the fallback is a name: the authority record, the wildcard, the forward
records and, in the reverse zone, the reverse records that the purge keeps.
There is no wildcard only if no record of the name is left after the loop; the
address of the wildcard is that of a record of the name that the loop found,
which is left after the loop or is a stale record of another domain. -/
theorem zoneLoop_name_zone (env : Env) (run : Run) (order : List String) (o : Omada)
    (zones zones' : Zones) (d : String) (dr : DnsRecords) (hrun : run.Valid)
    (hne : o.config.fallback ≠ "") (hip : env.ParseIP o.config.fallback = none)
    (hnd : order.Nodup) (hmem : d ∈ order) (hget : o.records.get? d = some dr)
    (hfresh : zones.get? d = none) (hp : env.ptrZone ≠ d ∨ PtrOnlyInPtrZone env o.records)
    (h : (zoneLoop env run order o zones).2 = some zones') :
    ∃ wild,
      ((wild = [] ∧ ∀ dom, fwdAt (zoneLoop env run order o zones).1.records dom
          (fallbackTarget env o.config.fallback d) = none) ∨
        ∃ dom rec, fwdAt o.records dom (fallbackTarget env o.config.fallback d) = some rec ∧
          wild = [wildcardRR d rec.record.A] ∧
          (fwdAt (zoneLoop env run order o zones).1.records dom
              (fallbackTarget env o.config.fallback d) = some rec ∨
            (dom ≠ d ∧ Seconds (run.purgeNow dom - rec.timestamp) >
              Seconds o.config.stale_record_duration))) ∧
      zones'.get? d = some ⟨d, RR.SOA d :: (wild ++
        forwardRRs (purgeStaleRecords dr (run.purgeNow d)
          (Seconds o.config.stale_record_duration)) ++
        (if env.ptrZone = d then reverseRRs (purgeStaleRecords dr (run.purgeNow d)
          (Seconds o.config.stale_record_duration)) else []))⟩ := by
  induction order generalizing o zones with
  | nil => simp at hmem
  | cons d1 rest ih =>
    have hnd' : rest.Nodup := (List.nodup_cons.mp hnd).2
    have hd1 : d1 ∉ rest := (List.nodup_cons.mp hnd).1
    cases hg : o.records.get? d1 with
    | none =>
      rw [zoneLoop_cons_none _ _ _ _ _ _ hg] at h ⊢
      have hne1 : d ≠ d1 := fun e => by rw [e, hg] at hget; cases hget
      have hm : d ∈ rest := by
        rcases List.mem_cons.mp hmem with e | e
        · exact absurd e hne1
        · exact e
      exact ih o zones hne hip hnd' hm hget hfresh hp h
    | some dr1 =>
      cases hs : (zoneLoopBody env run o zones d1 dr1).2 with
      | none =>
        rw [zoneLoop_cons_fail _ _ _ _ _ _ _ hg hs] at h
        cases h
      | some z1 =>
        rw [zoneLoop_cons_step _ _ _ _ _ _ _ _ hg hs] at h ⊢
        have hc : (zoneLoopBody env run o zones d1 dr1).1.config = o.config := by
          rw [zoneLoopBody_fst]
        have hp1 : env.ptrZone ≠ d ∨
            PtrOnlyInPtrZone env (zoneLoopBody env run o zones d1 dr1).1.records := by
          rcases hp with hp | hp
          · exact Or.inl hp
          · right
            rw [zoneLoopBody_fst]
            exact PtrOnlyInPtrZone_purged env o.records d1 dr1 _ _ hg hp
        by_cases e : d1 = d
        · subst e
          have hdr : dr1 = dr := by rw [hg] at hget; exact Option.some.inj hget
          subst hdr
          have hgz := zoneLoopBody_name_get? env run o zones z1 d1 dr1 hne hip hs d1
          have hres := zoneLoopBody_resolve env run o zones d1 dr1
            (fallbackTarget env o.config.fallback d1) hrun hg
          refine ⟨lookupWild d1 (resolveInZones (zoneLoopBody env run o zones d1 dr1).1
              (run.resolveOrder d1 (zoneLoopBody env run o zones d1 dr1).1.records.keys)
              (fallbackTarget env o.config.fallback d1)), ?_, ?_⟩
          · cases hr : resolveInZones (zoneLoopBody env run o zones d1 dr1).1
                (run.resolveOrder d1 (zoneLoopBody env run o zones d1 dr1).1.records.keys)
                (fallbackTarget env o.config.fallback d1) with
            | none =>
              left
              refine ⟨rfl, fun dom => ?_⟩
              cases hf : fwdAt (zoneLoop env run rest (zoneLoopBody env run o zones d1 dr1).1
                  z1).1.records dom (fallbackTarget env o.config.fallback d1) with
              | none => rfl
              | some v =>
                have := zoneLoop_fwdAt_sub env run rest _ z1 dom _ v hf
                rw [hres.1 hr dom] at this
                cases this
            | some a =>
              right
              obtain ⟨dom, rec, hf0, ha, hf1⟩ := hres.2 a hr
              refine ⟨dom, rec, hf0, by rw [ha]; rfl, ?_⟩
              rcases zoneLoop_fwdAt_fate env run rest _ z1 dom _ rec hf1 with hk | ⟨hk, hst⟩
              · exact Or.inl hk
              · rw [hc] at hst
                right
                refine ⟨?_, hst⟩
                intro e
                subst e
                rw [zoneLoopBody_fst] at hf1
                simp only at hf1
                rw [purged_fwdAt _ _ _ _ _ hg] at hf1
                simp only [if_true] at hf1
                exact (keepA_eq_some _ _ _ _ hf1).2 hst
          · rw [zoneLoop_get?_frame env run rest _ z1 zones' d1 hd1 hp1 h, hgz, withZone_get?]
            simp only [hfresh, and_self, if_true, appendAt_self]
            by_cases ep : env.ptrZone = d1
            · simp only [ep, if_true, appendAt_self, List.singleton_append, List.cons_append,
                List.nil_append, List.append_assoc]
            · simp only [ep, if_false, appendAt_ne _ _ _ _ ep, List.append_nil,
                List.singleton_append]
        · have hm : d ∈ rest := by
            rcases List.mem_cons.mp hmem with e2 | e2
            · exact absurd e2.symm e
            · exact e2
          have hget1 : (zoneLoopBody env run o zones d1 dr1).1.records.get? d = some dr := by
            rw [zoneLoopBody_fst]
            simp only
            rw [GoMap.get?_set_ne _ _ _ _ e]
            exact hget
          have hfresh1 : z1.get? d = none := by
            rw [zoneLoopBody_get?_other env run o zones z1 d1 dr1 hs d e]
            · exact hfresh
            · rcases hp with hp | hp
              · exact Or.inl hp
              · by_cases e3 : env.ptrZone = d
                · right
                  exact reverseRRs_nil env o.records d1 dr1 _ _ hg hp
                    (fun e2 => e (e2.trans e3))
                · exact Or.inl e3
          obtain ⟨wild, hw, hz⟩ := ih (zoneLoopBody env run o zones d1 dr1).1 z1
            (by rw [hc]; exact hne) (by rw [hc]; exact hip) hnd' hm hget1 hfresh1 hp1 h
          rw [hc] at hw hz
          refine ⟨wild, ?_, hz⟩
          rcases hw with hw | ⟨dom, rec, hf, hw, hfate⟩
          · exact Or.inl hw
          · right
            refine ⟨dom, rec, ?_, hw, hfate⟩
            rw [zoneLoopBody_fst] at hf
            simp only at hf
            rw [purged_fwdAt _ _ _ _ _ hg] at hf
            by_cases e4 : d1 = dom
            · simp only [e4, if_true] at hf
              exact (keepA_eq_some _ _ _ _ hf).1
            · simp only [e4, if_false] at hf
              exact hf

/-- With a fallback that is a name, one round of the zone loop after which a
record of the name is left puts a wildcard into the zone of its domain, with
the address of a record of the name, and keeps the wildcards of the other
zones. -/
theorem zoneLoopBody_name_wildcard (env : Env) (run : Run) (o : Omada) (zones zones' : Zones)
    (d : String) (dr : DnsRecords) (P : IP → Prop) (t : String) (hrun : run.Valid)
    (hne : o.config.fallback ≠ "") (hip : env.ParseIP o.config.fallback = none)
    (ht : fallbackTarget env o.config.fallback d = t) (hg : o.records.get? d = some dr)
    (hP : ∀ dom rec, fwdAt o.records dom t = some rec → P rec.record.A)
    (hlive : ∃ dom rec, fwdAt (zoneLoopBody env run o zones d dr).1.records dom t = some rec)
    (hw : ∀ x z, zones.get? x = some z → ∃ a, P a ∧ wildcardRR x a ∈ z.rrs)
    (h : (zoneLoopBody env run o zones d dr).2 = some zones') :
    ∀ x z, zones'.get? x = some z → ∃ a, P a ∧ wildcardRR x a ∈ z.rrs := by
  intro x z hz
  rw [zoneLoopBody_name_get? env run o zones zones' d dr hne hip h x, ht] at hz
  obtain ⟨z1, hz1, hsub1⟩ := appendAt_some _ _ _ _ _ hz
  have hres := zoneLoopBody_resolve env run o zones d dr t hrun hg
  by_cases e : d = x
  · subst e
    cases hwz : (withZone zones d).get? d with
    | none => rw [hwz] at hz1; simp [appendAt] at hz1
    | some z0 =>
      rw [hwz, appendAt_self, Option.some.injEq] at hz1
      cases hr : resolveInZones (zoneLoopBody env run o zones d dr).1
          (run.resolveOrder d (zoneLoopBody env run o zones d dr).1.records.keys) t with
      | none =>
        obtain ⟨dom, rec, hf⟩ := hlive
        rw [hres.1 hr dom] at hf
        cases hf
      | some a =>
        obtain ⟨dom, rec, hf0, ha, _⟩ := hres.2 a hr
        refine ⟨a, ?_, hsub1 _ ?_⟩
        · rw [← ha]
          exact hP dom rec hf0
        · rw [← hz1, hr]
          simp [lookupWild]
  · rw [appendAt_ne _ _ _ _ e, withZone_get?] at hz1
    simp only [e, false_and, if_false] at hz1
    obtain ⟨a, ha, hin⟩ := hw x z1 hz1
    exact ⟨a, ha, hsub1 _ hin⟩

theorem zoneLoop_name_wildcard (env : Env) (run : Run) (order : List String) (o : Omada)
    (zones zones' : Zones) (P : IP → Prop) (t : String) (hrun : run.Valid)
    (hne : o.config.fallback ≠ "") (hip : env.ParseIP o.config.fallback = none)
    (ht : ∀ d, fallbackTarget env o.config.fallback d = t)
    (hP : ∀ dom rec, fwdAt o.records dom t = some rec → P rec.record.A)
    (hlive : ∃ dom rec, fwdAt (zoneLoop env run order o zones).1.records dom t = some rec)
    (hw : ∀ x z, zones.get? x = some z → ∃ a, P a ∧ wildcardRR x a ∈ z.rrs)
    (h : (zoneLoop env run order o zones).2 = some zones') :
    ∀ x z, zones'.get? x = some z → ∃ a, P a ∧ wildcardRR x a ∈ z.rrs := by
  induction order generalizing o zones with
  | nil =>
    simp only [zoneLoop, Option.some.injEq] at h
    rw [← h]
    exact hw
  | cons d rest ih =>
    cases hg : o.records.get? d with
    | none =>
      rw [zoneLoop_cons_none _ _ _ _ _ _ hg] at h hlive
      exact ih o zones hne hip ht hP hlive hw h
    | some dr =>
      cases hs : (zoneLoopBody env run o zones d dr).2 with
      | none =>
        rw [zoneLoop_cons_fail _ _ _ _ _ _ _ hg hs] at h
        cases h
      | some z1 =>
        rw [zoneLoop_cons_step _ _ _ _ _ _ _ _ hg hs] at h hlive
        have hc : (zoneLoopBody env run o zones d dr).1.config = o.config := by
          rw [zoneLoopBody_fst]
        have hsub : ∀ dom rec,
            fwdAt (zoneLoopBody env run o zones d dr).1.records dom t = some rec →
            fwdAt o.records dom t = some rec := by
          intro dom rec hf
          rw [zoneLoopBody_fst] at hf
          simp only at hf
          rw [purged_fwdAt _ _ _ _ _ hg] at hf
          by_cases e : d = dom
          · simp only [e, if_true] at hf
            exact (keepA_eq_some _ _ _ _ hf).1
          · simp only [e, if_false] at hf
            exact hf
        have hlive1 : ∃ dom rec,
            fwdAt (zoneLoopBody env run o zones d dr).1.records dom t = some rec := by
          obtain ⟨dom, rec, hf⟩ := hlive
          exact ⟨dom, rec, zoneLoop_fwdAt_sub env run rest _ z1 dom t rec hf⟩
        exact ih _ z1 (by rw [hc]; exact hne) (by rw [hc]; exact hip) (by rw [hc]; exact ht)
          (fun dom rec hf => hP dom rec (hsub dom rec hf)) hlive
          (zoneLoopBody_name_wildcard env run o zones z1 d dr P t hrun hne hip (ht d) hg hP
            hlive1 hw hs) h

/-- With a fallback that is a name, if a record of the name is left in the
record map after a successful cycle, every published zone holds a wildcard
with the address of a record of the name in the synthesized record map. -/
theorem applyInventory_name_wildcard (env : Env) (run : Run) (o : Omada) (inv : Inventory)
    (P : IP → Prop) (t : String) (hrun : run.Valid) (hne : o.config.fallback ≠ "")
    (hip : env.ParseIP o.config.fallback = none)
    (ht : ∀ d, fallbackTarget env o.config.fallback d = t)
    (hok : (applyInventory env run o inv).2 = Result.ok)
    (hP : ∀ dom rec, fwdAt (synthesize env inv run.timestamp o.records) dom t = some rec →
      P rec.record.A)
    (hlive : ∃ dom rec, fwdAt (applyInventory env run o inv).1.records dom t = some rec) :
    ∀ x z, (applyInventory env run o inv).1.zones.get? x = some z →
      ∃ a, P a ∧ wildcardRR x a ∈ z.rrs := by
  obtain ⟨zones, hz, he⟩ := applyInventory_ok env run o inv hok
  rw [he]
  rw [applyInventory_records, buildCandidate_fst] at hlive
  exact zoneLoop_name_wildcard env run _
    { o with records := synthesize env inv run.timestamp o.records } GoMap.empty zones P t hrun
    hne hip ht hP hlive (fun x z hx => by simp at hx) hz

/-- The zone and the record set that a successful cycle of a valid run
publishes for a domain of the synthesized record map when the fallback is a
name. -/
theorem applyInventory_name_zone (env : Env) (run : Run) (o : Omada) (inv : Inventory)
    (hrun : run.Valid) (hne : o.config.fallback ≠ "")
    (hip : env.ParseIP o.config.fallback = none)
    (hok : (applyInventory env run o inv).2 = Result.ok) (d : String)
    (hd : d ∈ (synthesize env inv run.timestamp o.records).keys)
    (hp : env.ptrZone ≠ d ∨ PtrOnlyInPtrZone env o.records) :
    ∃ dr wild, (applyInventory env run o inv).1.records.get? d = some dr ∧
      ((wild = [] ∧ ∀ dom, fwdAt (applyInventory env run o inv).1.records dom
          (fallbackTarget env o.config.fallback d) = none) ∨
        ∃ dom rec, fwdAt (synthesize env inv run.timestamp o.records) dom
            (fallbackTarget env o.config.fallback d) = some rec ∧
          wild = [wildcardRR d rec.record.A] ∧
          (fwdAt (applyInventory env run o inv).1.records dom
              (fallbackTarget env o.config.fallback d) = some rec ∨
            (dom ≠ d ∧ Seconds (run.purgeNow dom - rec.timestamp) >
              Seconds o.config.stale_record_duration))) ∧
      (applyInventory env run o inv).1.zones.get? d = some ⟨d, RR.SOA d :: (wild ++
        forwardRRs dr ++ (if env.ptrZone = d then reverseRRs dr else []))⟩ := by
  obtain ⟨dr0, hget⟩ := (GoMap.mem_keys_iff _ _).mp hd
  obtain ⟨zones, hl, he⟩ := applyInventory_ok env run o inv hok
  have hperm := hrun.1 (synthesize env inv run.timestamp o.records).keys
  have hnd : (run.zoneOrder (synthesize env inv run.timestamp o.records).keys).Nodup :=
    (hperm.nodup_iff).mpr (synthesize env inv run.timestamp o.records).nodup
  have hp' : env.ptrZone ≠ d ∨
      PtrOnlyInPtrZone env (synthesize env inv run.timestamp o.records) := by
    rcases hp with hp | hp
    · exact Or.inl hp
    · exact Or.inr (PtrOnlyInPtrZone_synthesize env inv run.timestamp o.records hp)
  obtain ⟨wild, hw, hz⟩ := zoneLoop_name_zone env run _
    { o with records := synthesize env inv run.timestamp o.records } GoMap.empty zones d dr0
    hrun hne hip hnd (hperm.mem_iff.mpr hd) hget (by simp) hp' hl
  refine ⟨purgeStaleRecords dr0 (run.purgeNow d) (Seconds o.config.stale_record_duration),
    wild, ?_, ?_, ?_⟩
  · rw [applyInventory_records, buildCandidate_fst]
    exact zoneLoop_records_get? env run _
      { o with records := synthesize env inv run.timestamp o.records } GoMap.empty zones d dr0
      hnd (hperm.mem_iff.mpr hd) hget hl
  · rw [applyInventory_records, buildCandidate_fst]
    exact hw
  · rw [he]
    exact hz

theorem reverseRun_valid (t : Int) : (reverseRun t).Valid :=
  ⟨fun l => List.reverse_perm l, fun _ _ => List.Perm.refl _, fun _ => List.Perm.refl _,
    fun _ => by simp [reverseRun]⟩

/-- In the record map synthesized by a second two-domain cycle, stamped one
minute after the first, every record of the name `host.a.home.` has the
address `10.0.0.5`. -/
theorem twoDomain_host_address (dom : String) (rec : ARecord)
    (h : fwdAt (synthesize stdEnv twoDomainInventory 60000000000 twoDomainPublished.records) dom
      "host.a.home." = some rec) : rec.record.A = ⟨[10, 0, 0, 5]⟩ := by
  have hk := fwdAt_some_mem_keys _ _ _ _ h
  have hkeys : (synthesize stdEnv twoDomainInventory 60000000000
      twoDomainPublished.records).keys = ["in-addr.arpa.", "a.home.", "b.home."] := by decide
  rw [hkeys] at hk
  simp only [List.mem_cons, List.mem_singleton, List.not_mem_nil, or_false] at hk
  rcases hk with e | e | e
  · subst e
    have hv : fwdAt (synthesize stdEnv twoDomainInventory 60000000000
        twoDomainPublished.records) "in-addr.arpa." "host.a.home." = none := by decide
    rw [hv] at h
    cases h
  · subst e
    have hv : fwdAt (synthesize stdEnv twoDomainInventory 60000000000
        twoDomainPublished.records) "a.home." "host.a.home." =
        some ⟨⟨"host.a.home.", 60, ⟨[10, 0, 0, 5]⟩⟩, 0⟩ := by decide
    rw [hv] at h
    cases h
    rfl
  · subst e
    have hv : fwdAt (synthesize stdEnv twoDomainInventory 60000000000
        twoDomainPublished.records) "b.home." "host.a.home." = none := by decide
    rw [hv] at h
    cases h

/-! ## C1: priority merge -/

/-- C1, as stated, fails.  (1) Two networks share a domain, the reservation
`host` passes the subnet filter of the network processed first and the client
`host` that of the network processed second; both produce the forward key
`host.omada.home.`, and after a successful cycle the record under that key
carries the address of the client.  (2) Of two enabled reservations with the
forward key of a client, the record stored is that of the second, not that of
the first.  (3) With `stale_record_duration` zero the records of the cycle are
purged in the same cycle and nothing is stored under the key. -/
theorem reservation_record_not_always_stored :
    (updateZones stdEnv (constController twoLanInventory) (stdRun 0)
      (newOmada sampleConfig ["Default"])).2 = Result.ok ∧
    (stdEnv.ParseCIDR "10.0.0.0/24").bind
        (fun subnet => clientWrite stdEnv subnet "omada.home."
          ⟨"host", "AA-BB-CC-00-00-05", "--", "10.0.0.5"⟩) =
      some ⟨"omada.home.", "host.omada.home.", ⟨[10, 0, 0, 5]⟩, "10.0.0.5"⟩ ∧
    (stdEnv.ParseCIDR "10.0.1.0/24").bind
        (fun subnet => reservationWrite stdEnv subnet "omada.home."
          ⟨"host", "AA-BB-CC-00-00-06", "", "10.0.1.5", true⟩) =
      some ⟨"omada.home.", "host.omada.home.", ⟨[10, 0, 1, 5]⟩, "10.0.1.5"⟩ ∧
    fwdAt (updateZones stdEnv (constController twoLanInventory) (stdRun 0)
      (newOmada sampleConfig ["Default"])).1.records "omada.home." "host.omada.home." =
      some ⟨⟨"host.omada.home.", 60, ⟨[10, 0, 0, 5]⟩⟩, 0⟩ ∧
    fwdAt (updateZones stdEnv (constController twoReservationInventory) (stdRun 0)
      (newOmada sampleConfig ["Default"])).1.records "omada.home." "printer.omada.home." =
      some ⟨⟨"printer.omada.home.", 60, ⟨[10, 0, 0, 51]⟩⟩, 0⟩ ∧
    (updateZones stdEnv (constController sampleInventory) (stdRun 0)
      (newOmada zeroRetentionConfig ["Default"])).2 = Result.ok ∧
    fwdAt (updateZones stdEnv (constController sampleInventory) (stdRun 0)
      (newOmada zeroRetentionConfig ["Default"])).1.records "omada.home."
      "client-01.omada.home." = none ∧
    revAt (updateZones stdEnv (constController sampleInventory) (stdRun 0)
      (newOmada zeroRetentionConfig ["Default"])).1.records "in-addr.arpa."
      "101.0.0.10.in-addr.arpa." = none := by
  decide

/-- C1, amended: an enabled reservation passes the subnet filter of a network.
If no reservation after it in the list, processed for the same network, and no
entry of a network processed later writes its forward key, then after the
cycle the record under that forward key is the reservation's (its name, its
address), whatever the clients and devices of that network and of the networks
processed before are; and if none of those later writes has its reverse key,
the record under that reverse key is the reservation's (target: its name).
Both hold provided the records of the cycle are not stale already when the
domain is purged. -/
theorem reservation_priority (env : Env) (run : Run) (o : Omada) (inv : Inventory)
    (npre npost : List OmadaNetwork) (n : OmadaNetwork) (rpre rpost : List DhcpReservation)
    (r : DhcpReservation) (subnet : IPNet) (ip : IP)
    (hn : inv.networks = npre ++ n :: npost) (hr : inv.reservations = rpre ++ r :: rpost)
    (hdom : n.Domain ≠ "") (hsub : env.ParseCIDR n.Subnet = some subnet)
    (hst : r.Status = true) (hip : env.ParseIP r.IP = some ip)
    (hin : env.Contains subnet ip = true) :
    ((∀ w ∈ rpost.filterMap (reservationWrite env subnet (n.Domain ++ ".")) ++
          npost.flatMap (networkWrites env inv),
        ¬ (w.dnsDomain = n.Domain ++ "." ∧
          w.fqdn = env.makeDNSSafeAllowWildcard (reservationDnsName r) ++ "." ++
            (n.Domain ++ "."))) →
      ¬ Seconds (run.purgeNow (n.Domain ++ ".") - run.timestamp) >
        Seconds o.config.stale_record_duration →
      fwdAt (applyInventory env run o inv).1.records (n.Domain ++ ".")
          (env.makeDNSSafeAllowWildcard (reservationDnsName r) ++ "." ++ (n.Domain ++ ".")) =
        some ⟨⟨env.makeDNSSafeAllowWildcard (reservationDnsName r) ++ "." ++ (n.Domain ++ "."),
          60, ip⟩, run.timestamp⟩) ∧
    ((∀ w ∈ rpost.filterMap (reservationWrite env subnet (n.Domain ++ ".")) ++
          npost.flatMap (networkWrites env inv),
        w.ptrName env ≠ env.getPtrZoneFromIp r.IP) →
      ¬ Seconds (run.purgeNow env.ptrZone - run.timestamp) >
        Seconds o.config.stale_record_duration →
      revAt (applyInventory env run o inv).1.records env.ptrZone (env.getPtrZoneFromIp r.IP) =
        some ⟨⟨env.getPtrZoneFromIp r.IP, 60,
          env.Fqdn (env.makeDNSSafeAllowWildcard (reservationDnsName r) ++ "." ++
            (n.Domain ++ "."))⟩, run.timestamp⟩) := by
  have hw := reservationWrite_eq env subnet (n.Domain ++ ".") r ip hst hip hin
  have hsplit := cycleWrites_split env inv npre npost n rpre rpost r subnet _ hn hr hdom hsub hw
  exact last_write_published env run o inv _ _ _ hsplit

theorem reservation_priority_witness :
    fwdAt (applyInventory stdEnv (stdRun 0) (newOmada sampleConfig ["Default"])
        sampleInventory).1.records "omada.home." "client-01.omada.home." =
      some ⟨⟨"client-01.omada.home.", 60, ⟨[10, 0, 0, 101]⟩⟩, 0⟩ ∧
    revAt (applyInventory stdEnv (stdRun 0) (newOmada sampleConfig ["Default"])
        sampleInventory).1.records "in-addr.arpa." "101.0.0.10.in-addr.arpa." =
      some ⟨⟨"101.0.0.10.in-addr.arpa.", 60, "client-01.omada.home."⟩, 0⟩ :=
  ⟨(reservation_priority stdEnv (stdRun 0) (newOmada sampleConfig ["Default"]) sampleInventory
      [] [] ⟨"LAN", "omada.home", "10.0.0.0/24", "interface"⟩ []
      [⟨"disabled-dhcp-01", "AA-BB-CC-00-00-03", "", "10.0.0.120", false⟩]
      ⟨"client-01", "AA-BB-CC-00-00-01", "", "10.0.0.101", true⟩
      ⟨[10, 0, 0, 0], [255, 255, 255, 0]⟩ ⟨[10, 0, 0, 101]⟩
      rfl rfl (by decide) (by decide) rfl (by decide) (by decide)).1 (by decide) (by decide),
   (reservation_priority stdEnv (stdRun 0) (newOmada sampleConfig ["Default"]) sampleInventory
      [] [] ⟨"LAN", "omada.home", "10.0.0.0/24", "interface"⟩ []
      [⟨"disabled-dhcp-01", "AA-BB-CC-00-00-03", "", "10.0.0.120", false⟩]
      ⟨"client-01", "AA-BB-CC-00-00-01", "", "10.0.0.101", true⟩
      ⟨[10, 0, 0, 0], [255, 255, 255, 0]⟩ ⟨[10, 0, 0, 101]⟩
      rfl rfl (by decide) (by decide) rfl (by decide) (by decide)).2 (by decide) (by decide)⟩

/-! ## C2: round trip -/

/-- C2, as stated, fails.  (1) In the sample inventory the client `client-001`
has the address 10.0.0.101 inside the subnet of its network, and after a
successful cycle the reverse record for that address names `client-01`, the
enabled reservation at the same address, not the client.  (2) The disabled
reservation `disabled-dhcp-01`, whose address is inside the subnet too, has no
forward record at all.  (3) With `stale_record_duration` zero the records of
the cycle are purged in the same cycle: the client `win10-vm` has neither a
forward nor a reverse record after a successful cycle. -/
theorem round_trip_fails_for_overridden_client :
    (updateZones stdEnv (constController sampleInventory) (stdRun 0)
      (newOmada sampleConfig ["Default"])).2 = Result.ok ∧
    (stdEnv.ParseCIDR "10.0.0.0/24").bind
        (fun subnet => clientWrite stdEnv subnet "omada.home."
          ⟨"client-001", "AA-BB-CC-00-00-01", "--", "10.0.0.101"⟩) =
      some ⟨"omada.home.", "client-001.omada.home.", ⟨[10, 0, 0, 101]⟩, "10.0.0.101"⟩ ∧
    revAt (updateZones stdEnv (constController sampleInventory) (stdRun 0)
      (newOmada sampleConfig ["Default"])).1.records "in-addr.arpa." "101.0.0.10.in-addr.arpa." =
      some ⟨⟨"101.0.0.10.in-addr.arpa.", 60, "client-01.omada.home."⟩, 0⟩ ∧
    (stdEnv.ParseCIDR "10.0.0.0/24").bind
        (fun subnet => (stdEnv.ParseIP "10.0.0.120").map (stdEnv.Contains subnet)) = some true ∧
    fwdAt (updateZones stdEnv (constController sampleInventory) (stdRun 0)
      (newOmada sampleConfig ["Default"])).1.records "omada.home."
      "disabled-dhcp-01.omada.home." = none ∧
    (updateZones stdEnv (constController sampleInventory) (stdRun 0)
      (newOmada zeroRetentionConfig ["Default"])).2 = Result.ok ∧
    fwdAt (updateZones stdEnv (constController sampleInventory) (stdRun 0)
      (newOmada zeroRetentionConfig ["Default"])).1.records "omada.home."
      "win10-vm.omada.home." = none ∧
    revAt (updateZones stdEnv (constController sampleInventory) (stdRun 0)
      (newOmada zeroRetentionConfig ["Default"])).1.records "in-addr.arpa."
      "102.0.0.10.in-addr.arpa." = none := by
  decide

/-- C2, amended: for every client, device and enabled reservation whose address
parses and lies within the subnet of a network with a domain and a subnet that
parses, the cycle makes a write pairing the entry's sanitized name followed by
`"."` and the domain with the entry's address.  For every write of the cycle,
the record set of its domain maps that name to that address unless a later
write of the cycle has the same forward key, and the shared reverse record set
maps the reverse name of the address to that name unless a later write has the
same reverse key, provided the records of the cycle are not stale already when
the domain is purged. -/
theorem round_trip_of_last_writes (env : Env) (run : Run) (o : Omada) (inv : Inventory) :
    (∀ n ∈ inv.networks, ∀ subnet, n.Domain ≠ "" → env.ParseCIDR n.Subnet = some subnet →
      (∀ c ∈ inv.clients, ∀ ip, env.ParseIP c.Ip = some ip → env.Contains subnet ip = true →
        (⟨n.Domain ++ ".", env.makeDNSSafe (clientDnsName c) ++ "." ++ (n.Domain ++ "."),
          ip, c.Ip⟩ : Write) ∈ cycleWrites env inv) ∧
      (∀ dv ∈ inv.devices, ∀ ip, env.ParseIP dv.IP = some ip → env.Contains subnet ip = true →
        (⟨n.Domain ++ ".", env.makeDNSSafe dv.DnsName ++ "." ++ (n.Domain ++ "."),
          ip, dv.IP⟩ : Write) ∈ cycleWrites env inv) ∧
      (∀ r ∈ inv.reservations, r.Status = true →
        ∀ ip, env.ParseIP r.IP = some ip → env.Contains subnet ip = true →
        (⟨n.Domain ++ ".",
          env.makeDNSSafeAllowWildcard (reservationDnsName r) ++ "." ++ (n.Domain ++ "."),
          ip, r.IP⟩ : Write) ∈ cycleWrites env inv)) ∧
    (∀ pre w post, cycleWrites env inv = pre ++ w :: post →
      ((∀ w' ∈ post, ¬ (w'.dnsDomain = w.dnsDomain ∧ w'.fqdn = w.fqdn)) →
        ¬ Seconds (run.purgeNow w.dnsDomain - run.timestamp) >
          Seconds o.config.stale_record_duration →
        fwdAt (applyInventory env run o inv).1.records w.dnsDomain w.fqdn =
          some ⟨⟨w.fqdn, 60, w.ip⟩, run.timestamp⟩) ∧
      ((∀ w' ∈ post, w'.ptrName env ≠ w.ptrName env) →
        ¬ Seconds (run.purgeNow env.ptrZone - run.timestamp) >
          Seconds o.config.stale_record_duration →
        revAt (applyInventory env run o inv).1.records env.ptrZone
            (env.getPtrZoneFromIp w.ipText) =
          some ⟨⟨env.getPtrZoneFromIp w.ipText, 60, env.Fqdn w.fqdn⟩, run.timestamp⟩)) := by
  refine ⟨?_, fun pre w post hw => last_write_published env run o inv pre post w hw⟩
  intro n hn subnet hdom hsub
  have hnw := networkWrites_eq env inv n subnet hdom hsub
  refine ⟨?_, ?_, ?_⟩
  · intro c hc ip hip hin
    apply mem_cycleWrites env inv n _ hn
    rw [hnw]
    apply List.mem_append_left
    apply List.mem_append_left
    exact List.mem_filterMap.mpr ⟨c, hc, clientWrite_eq env subnet _ c ip hip hin⟩
  · intro dv hdv ip hip hin
    apply mem_cycleWrites env inv n _ hn
    rw [hnw]
    apply List.mem_append_left
    apply List.mem_append_right
    exact List.mem_filterMap.mpr ⟨dv, hdv, deviceWrite_eq env subnet _ dv ip hip hin⟩
  · intro r hr hst ip hip hin
    apply mem_cycleWrites env inv n _ hn
    rw [hnw]
    apply List.mem_append_right
    exact List.mem_filterMap.mpr ⟨r, hr, reservationWrite_eq env subnet _ r ip hst hip hin⟩

theorem round_trip_of_last_writes_witness :
    (⟨"omada.home.", "win10-vm.omada.home.", ⟨[10, 0, 0, 102]⟩, "10.0.0.102"⟩ : Write) ∈
      cycleWrites stdEnv sampleInventory ∧
    fwdAt (applyInventory stdEnv (stdRun 0) (newOmada sampleConfig ["Default"])
        sampleInventory).1.records "omada.home." "win10-vm.omada.home." =
      some ⟨⟨"win10-vm.omada.home.", 60, ⟨[10, 0, 0, 102]⟩⟩, 0⟩ ∧
    revAt (applyInventory stdEnv (stdRun 0) (newOmada sampleConfig ["Default"])
        sampleInventory).1.records "in-addr.arpa." "102.0.0.10.in-addr.arpa." =
      some ⟨⟨"102.0.0.10.in-addr.arpa.", 60, "win10-vm.omada.home."⟩, 0⟩ :=
  ⟨((round_trip_of_last_writes stdEnv (stdRun 0) (newOmada sampleConfig ["Default"])
      sampleInventory).1 ⟨"LAN", "omada.home", "10.0.0.0/24", "interface"⟩ (by decide)
      ⟨[10, 0, 0, 0], [255, 255, 255, 0]⟩ (by decide) (by decide)).1
      ⟨"win10-vm", "AA-BB-CC-00-00-02", "--", "10.0.0.102"⟩ (by decide) ⟨[10, 0, 0, 102]⟩
      (by decide) (by decide),
   ((round_trip_of_last_writes stdEnv (stdRun 0) (newOmada sampleConfig ["Default"])
      sampleInventory).2
      [⟨"omada.home.", "client-001.omada.home.", ⟨[10, 0, 0, 101]⟩, "10.0.0.101"⟩]
      ⟨"omada.home.", "win10-vm.omada.home.", ⟨[10, 0, 0, 102]⟩, "10.0.0.102"⟩
      [⟨"omada.home.", "client-01.omada.home.", ⟨[10, 0, 0, 101]⟩, "10.0.0.101"⟩]
      (by decide)).1 (by decide) (by decide),
   ((round_trip_of_last_writes stdEnv (stdRun 0) (newOmada sampleConfig ["Default"])
      sampleInventory).2
      [⟨"omada.home.", "client-001.omada.home.", ⟨[10, 0, 0, 101]⟩, "10.0.0.101"⟩]
      ⟨"omada.home.", "win10-vm.omada.home.", ⟨[10, 0, 0, 102]⟩, "10.0.0.102"⟩
      [⟨"omada.home.", "client-01.omada.home.", ⟨[10, 0, 0, 101]⟩, "10.0.0.101"⟩]
      (by decide)).2 (by decide) (by decide)⟩

/-! ## C3: disabled reservations -/

/-- C3: a reservation whose `Status` is false yields no records: when the
fetched reservation list holds such a reservation, `updateZones` ends in the
same state (record map, zones, zone names) and with the same result as the
cycle whose fetched reservation list is that list with the entry removed. -/
theorem disabled_reservation_yields_nothing (env : Env) (ctl ctl' : Controller) (run : Run)
    (o : Omada) (networks : List OmadaNetwork) (clients : List Client) (devices : List Device)
    (pre post : List DhcpReservation) (r : DhcpReservation) (hr : r.Status = false)
    (hf : fetchInventory o.config ctl o.sites ⟨[], [], [], []⟩ =
      .ok ⟨networks, clients, devices, pre ++ r :: post⟩)
    (hf' : fetchInventory o.config ctl' o.sites ⟨[], [], [], []⟩ =
      .ok ⟨networks, clients, devices, pre ++ post⟩) :
    updateZones env ctl run o = updateZones env ctl' run o := by
  simp only [updateZones, hf, hf', applyInventory, buildCandidate,
    synthesize_drop_disabled env networks clients devices pre post r hr]

theorem disabled_reservation_yields_nothing_witness :
    updateZones stdEnv (constController sampleInventory) (stdRun 0)
        (newOmada sampleConfig ["Default"]) =
      updateZones stdEnv
        (constController { sampleInventory with
          reservations := [⟨"client-01", "AA-BB-CC-00-00-01", "", "10.0.0.101", true⟩] })
        (stdRun 0) (newOmada sampleConfig ["Default"]) :=
  disabled_reservation_yields_nothing stdEnv (constController sampleInventory)
    (constController { sampleInventory with
      reservations := [⟨"client-01", "AA-BB-CC-00-00-01", "", "10.0.0.101", true⟩] })
    (stdRun 0) (newOmada sampleConfig ["Default"]) sampleInventory.networks
    sampleInventory.clients sampleInventory.devices
    [⟨"client-01", "AA-BB-CC-00-00-01", "", "10.0.0.101", true⟩] []
    ⟨"disabled-dhcp-01", "AA-BB-CC-00-00-03", "", "10.0.0.120", false⟩ rfl rfl rfl

/-! ## C4: staleness across cycles -/

/-- C4: staleness across cycles, with the case folding of `Insert`.  In a cycle
that runs to its end (of a run whose range orders are permutations), take a
forward record, or a reverse record of the reverse domain, that is in the
record map before the cycle and whose key no write of the cycle has.  If its
age when its domain is purged does not exceed `stale_record_duration`, the key
still holds it after the cycle, with the same timestamp, address or target and
TTL and with its owner name in lower case, so the very same record when its
owner name was in lower case before.  If its age exceeds
`stale_record_duration`, the key is absent from the record map, and the
record, in lower case, stands in a published zone only as the wildcard of the
zone or as the record of another entry that is left in the record map; it
stands in no zone when no entry that is left has its owner name (and its TTL
is not that of a wildcard).  Third part: the zone of a domain holds the
authority record, at most one wildcard and the records of the record set of
the domain after the cycle, nothing else.  Fourth part: after the cycle every
owner name of the record map is in lower case, `lower` being idempotent.  Last
part: when the record map before the cycle is the one that an earlier cycle
left, a record that is not stale is still there after the cycle, unchanged.
Nothing is asked of the owner names or TTLs found in the record map before the
cycle. -/
theorem unbacked_record_kept_until_stale (lower : String → String) (env : Env) (run : Run)
    (o : Omada) (inv : Inventory) (final : Omada) (hrun : run.Valid)
    (hok : applyInventoryLowering lower env run o inv = some final) :
    (∀ d k v, fwdAt o.records d k = some v →
      (∀ w ∈ cycleWrites env inv, ¬ (w.dnsDomain = d ∧ w.fqdn = k)) →
      (¬ Seconds (run.purgeNow d - v.timestamp) > Seconds o.config.stale_record_duration →
        fwdAt final.records d k = some (v.lowerName lower) ∧
        (lower v.record.Name = v.record.Name → fwdAt final.records d k = some v)) ∧
      (Seconds (run.purgeNow d - v.timestamp) > Seconds o.config.stale_record_duration →
        fwdAt final.records d k = none ∧
        (∀ z, final.zones.get? d = some z → RR.A (v.lowerName lower).record ∈ z.rrs →
          (∃ ip, (v.lowerName lower).record = ⟨lower ("*." ++ d), 300, ip⟩) ∨
          ∃ k' v', k' ≠ k ∧ fwdAt final.records d k' = some v' ∧
            v'.record = (v.lowerName lower).record) ∧
        (v.record.Ttl ≠ 300 →
          (∀ k' v', fwdAt final.records d k' = some v' →
            v'.record.Name ≠ lower v.record.Name) →
          ∀ z, final.zones.get? d = some z → RR.A (v.lowerName lower).record ∉ z.rrs))) ∧
    (∀ k v, revAt o.records env.ptrZone k = some v →
      (∀ w ∈ cycleWrites env inv, w.ptrName env ≠ k) →
      (¬ Seconds (run.purgeNow env.ptrZone - v.timestamp) >
          Seconds o.config.stale_record_duration →
        revAt final.records env.ptrZone k = some (v.lowerName lower) ∧
        (lower v.record.Name = v.record.Name →
          revAt final.records env.ptrZone k = some v)) ∧
      (Seconds (run.purgeNow env.ptrZone - v.timestamp) >
          Seconds o.config.stale_record_duration →
        revAt final.records env.ptrZone k = none ∧
        (∀ d z, final.zones.get? d = some z → RR.PTR (v.lowerName lower).record ∈ z.rrs →
          ∃ dom k' v', (dom ≠ env.ptrZone ∨ k' ≠ k) ∧ revAt final.records dom k' = some v' ∧
            v'.record = (v.lowerName lower).record) ∧
        ((∀ dom k' v', revAt final.records dom k' = some v' →
            v'.record.Name ≠ lower v.record.Name) →
          ∀ d z, final.zones.get? d = some z →
            RR.PTR (v.lowerName lower).record ∉ z.rrs))) ∧
    (∀ d ∈ final.records.keys, env.ptrZone ≠ d ∨ PtrOnlyInPtrZone env o.records →
      ∃ dr wild, final.records.get? d = some dr ∧
        (wild = [] ∨ ∃ ip, wild = [RR.A ⟨lower ("*." ++ d), 300, ip⟩]) ∧
        final.zones.get? d = some ⟨d, RR.SOA (lower d) :: (wild ++
          dr.ARecords.values.map (fun v => RR.A v.record) ++
          (if env.ptrZone = d then dr.PtrRecords.values.map (fun v => RR.PTR v.record)
            else []))⟩) ∧
    ((∀ s, lower (lower s) = lower s) →
      (∀ d k v, fwdAt final.records d k = some v → lower v.record.Name = v.record.Name) ∧
      (∀ d k v, revAt final.records d k = some v → lower v.record.Name = v.record.Name)) ∧
    (∀ before runBefore invBefore, runBefore.Valid →
      applyInventoryLowering lower env runBefore before invBefore = some o →
      (∀ s, lower (lower s) = lower s) →
      (∀ d k v, fwdAt o.records d k = some v →
        (∀ w ∈ cycleWrites env inv, ¬ (w.dnsDomain = d ∧ w.fqdn = k)) →
        ¬ Seconds (run.purgeNow d - v.timestamp) > Seconds o.config.stale_record_duration →
        fwdAt final.records d k = some v) ∧
      (∀ k v, revAt o.records env.ptrZone k = some v →
        (∀ w ∈ cycleWrites env inv, w.ptrName env ≠ k) →
        ¬ Seconds (run.purgeNow env.ptrZone - v.timestamp) >
          Seconds o.config.stale_record_duration →
        revAt final.records env.ptrZone k = some v)) := by
  have hnames := applyInventoryLowering_names lower env run o inv final hrun hok
  obtain ⟨hbase, hfin⟩ := applyInventoryLowering_some lower env run o inv final hrun hok
  have hrec : final.records =
      (applyInventory env run o inv).1.records.mapValues (fun _ dr => dr.lowerNames lower) := by
    rw [hfin]; rfl
  have hzon : final.zones =
      (applyInventory env run o inv).1.zones.mapValues (fun _ z => z.lowerNames lower) := by
    rw [hfin]; rfl
  have hzok := applyInventory_ZonesOk env run o inv hbase
  have hfwd : ∀ d k v, fwdAt o.records d k = some v →
      (∀ w ∈ cycleWrites env inv, ¬ (w.dnsDomain = d ∧ w.fqdn = k)) →
      ¬ Seconds (run.purgeNow d - v.timestamp) > Seconds o.config.stale_record_duration →
      lower v.record.Name = v.record.Name → fwdAt final.records d k = some v := by
    intro d k v hv hnone hfresh hn
    have hb := applyInventory_unbacked_fwd env run o inv hrun hbase d k v hv hnone
    rw [keepA_of_fresh _ _ _ hfresh] at hb
    rw [hrec, fwdAt_mapValues_lowerNames, hb, Option.map_some']
    congr 1
    cases v with
    | mk r ts =>
      cases r with
      | mk n ttl a =>
        simp only [ARecord.lowerName] at hn ⊢
        rw [hn]
  have hrev : ∀ k v, revAt o.records env.ptrZone k = some v →
      (∀ w ∈ cycleWrites env inv, w.ptrName env ≠ k) →
      ¬ Seconds (run.purgeNow env.ptrZone - v.timestamp) >
        Seconds o.config.stale_record_duration →
      lower v.record.Name = v.record.Name → revAt final.records env.ptrZone k = some v := by
    intro k v hv hnone hfresh hn
    have hb := applyInventory_unbacked_rev env run o inv hrun hbase k v hv hnone
    rw [keepP_of_fresh _ _ _ hfresh] at hb
    rw [hrec, revAt_mapValues_lowerNames, hb, Option.map_some']
    congr 1
    cases v with
    | mk r ts =>
      cases r with
      | mk n ttl a =>
        simp only [PtrRecord.lowerName] at hn ⊢
        rw [hn]
  refine ⟨?_, ?_, ?_, hnames, ?_⟩
  rotate_right
  · intro before runBefore invBefore hrunB hokB hidem
    have hnB := applyInventoryLowering_names lower env runBefore before invBefore o hrunB hokB
      hidem
    exact ⟨fun d k v hv hnone hfresh => hfwd d k v hv hnone hfresh (hnB.1 d k v hv),
      fun k v hv hnone hfresh => hrev k v hv hnone hfresh (hnB.2 env.ptrZone k v hv)⟩
  all_goals rw [hrec, hzon]
  · intro d k v hv hnone
    have hb := applyInventory_unbacked_fwd env run o inv hrun hbase d k v hv hnone
    constructor
    · intro hfresh
      rw [keepA_of_fresh _ _ _ hfresh] at hb
      have h1 : fwdAt ((applyInventory env run o inv).1.records.mapValues
          (fun _ dr => dr.lowerNames lower)) d k = some (v.lowerName lower) := by
        rw [fwdAt_mapValues_lowerNames, hb]
        rfl
      refine ⟨h1, fun hn => ?_⟩
      rw [h1]
      congr 1
      cases v with
      | mk r ts =>
        cases r with
        | mk n ttl a =>
          simp only [ARecord.lowerName] at hn ⊢
          rw [hn]
    · intro hstale
      have hgoneB : fwdAt (applyInventory env run o inv).1.records d k = none := by
        rw [hb]; simp [keepA, hstale]
      have hgone : fwdAt ((applyInventory env run o inv).1.records.mapValues
          (fun _ dr => dr.lowerNames lower)) d k = none := by
        rw [fwdAt_mapValues_lowerNames, hgoneB]
        rfl
      have hsrc : ∀ z, ((applyInventory env run o inv).1.zones.mapValues
            (fun _ z => z.lowerNames lower)).get? d = some z →
          RR.A (v.lowerName lower).record ∈ z.rrs →
          (∃ ip, (v.lowerName lower).record = ⟨lower ("*." ++ d), 300, ip⟩) ∨
          ∃ k' v', k' ≠ k ∧ fwdAt ((applyInventory env run o inv).1.records.mapValues
              (fun _ dr => dr.lowerNames lower)) d k' = some v' ∧
            v'.record = (v.lowerName lower).record := by
        intro z hz hin
        rw [GoMap.get?_mapValues] at hz
        cases hzb : (applyInventory env run o inv).1.zones.get? d with
        | none => rw [hzb] at hz; cases hz
        | some zb =>
          rw [hzb, Option.map_some', Option.some.injEq] at hz
          rw [← hz] at hin
          simp only [Zone.lowerNames, List.mem_map] at hin
          obtain ⟨rr, hrr, hlow⟩ := hin
          rcases hzok d zb hzb rr hrr with h | ⟨ip, h⟩ | ⟨k', v', hf, h, _⟩ |
            ⟨_, _, _, _, _, h, _⟩
          · rw [h] at hlow
            cases hlow
          · rw [h] at hlow
            simp only [RR.lowerName, RR.A.injEq] at hlow
            exact Or.inl ⟨ip, hlow.symm⟩
          · rw [h] at hlow
            simp only [RR.lowerName, RR.A.injEq] at hlow
            refine Or.inr ⟨k', v'.lowerName lower, ?_, ?_, hlow⟩
            · intro e
              rw [e, hgoneB] at hf
              cases hf
            · rw [fwdAt_mapValues_lowerNames, hf]
              rfl
          · rw [h] at hlow
            cases hlow
      refine ⟨hgone, hsrc, ?_⟩
      intro httl hname z hz hin
      rcases hsrc z hz hin with ⟨ip, h⟩ | ⟨k', v', _, hf, h⟩
      · have : (v.lowerName lower).record.Ttl = 300 := by rw [h]
        exact httl this
      · apply hname k' v' hf
        rw [h]
        rfl
  · intro k v hv hnone
    have hb := applyInventory_unbacked_rev env run o inv hrun hbase k v hv hnone
    constructor
    · intro hfresh
      rw [keepP_of_fresh _ _ _ hfresh] at hb
      have h1 : revAt ((applyInventory env run o inv).1.records.mapValues
          (fun _ dr => dr.lowerNames lower)) env.ptrZone k = some (v.lowerName lower) := by
        rw [revAt_mapValues_lowerNames, hb]
        rfl
      refine ⟨h1, fun hn => ?_⟩
      rw [h1]
      congr 1
      cases v with
      | mk r ts =>
        cases r with
        | mk n ttl a =>
          simp only [PtrRecord.lowerName] at hn ⊢
          rw [hn]
    · intro hstale
      have hgoneB : revAt (applyInventory env run o inv).1.records env.ptrZone k = none := by
        rw [hb]; simp [keepP, hstale]
      have hgone : revAt ((applyInventory env run o inv).1.records.mapValues
          (fun _ dr => dr.lowerNames lower)) env.ptrZone k = none := by
        rw [revAt_mapValues_lowerNames, hgoneB]
        rfl
      have hsrc : ∀ d z, ((applyInventory env run o inv).1.zones.mapValues
            (fun _ z => z.lowerNames lower)).get? d = some z →
          RR.PTR (v.lowerName lower).record ∈ z.rrs →
          ∃ dom k' v', (dom ≠ env.ptrZone ∨ k' ≠ k) ∧
            revAt ((applyInventory env run o inv).1.records.mapValues
              (fun _ dr => dr.lowerNames lower)) dom k' = some v' ∧
            v'.record = (v.lowerName lower).record := by
        intro d z hz hin
        rw [GoMap.get?_mapValues] at hz
        cases hzb : (applyInventory env run o inv).1.zones.get? d with
        | none => rw [hzb] at hz; cases hz
        | some zb =>
          rw [hzb, Option.map_some', Option.some.injEq] at hz
          rw [← hz] at hin
          simp only [Zone.lowerNames, List.mem_map] at hin
          obtain ⟨rr, hrr, hlow⟩ := hin
          rcases hzok d zb hzb rr hrr with h | ⟨ip, h⟩ | ⟨_, _, _, h, _⟩ |
            ⟨_, dom, k', v', hf, h, _⟩
          · rw [h] at hlow
            cases hlow
          · rw [h] at hlow
            cases hlow
          · rw [h] at hlow
            cases hlow
          · rw [h] at hlow
            simp only [RR.lowerName, RR.PTR.injEq] at hlow
            refine ⟨dom, k', v'.lowerName lower, ?_, ?_, hlow⟩
            · by_cases e1 : dom = env.ptrZone
              · right
                intro e2
                rw [e1, e2, hgoneB] at hf
                cases hf
              · exact Or.inl e1
            · rw [revAt_mapValues_lowerNames, hf]
              rfl
      refine ⟨hgone, hsrc, ?_⟩
      intro hname d z hz hin
      obtain ⟨dom, k', v', _, hf, h⟩ := hsrc d z hz hin
      apply hname dom k' v' hf
      rw [h]
      rfl
  · intro d hd hp
    rw [GoMap.keys_mapValues, applyInventory_records_keys] at hd
    obtain ⟨dr, wild, hr, hw, _, _, hz⟩ :=
      applyInventory_zone_of_records env run o inv hrun hbase d hd hp
    refine ⟨dr.lowerNames lower, wild.map (RR.lowerName lower), ?_, ?_, ?_⟩
    · rw [GoMap.get?_mapValues, hr]
      rfl
    · rcases hw with hw | ⟨ip, hw⟩
      · left
        rw [hw]
        rfl
      · right
        refine ⟨ip, ?_⟩
        rw [hw]
        rfl
    · rw [GoMap.get?_mapValues, hz]
      simp only [Option.map_some', Zone.lowerNames, List.map_cons, List.map_append,
        forwardRRs_lowerNames, Option.some.injEq]
      congr 2
      by_cases e : env.ptrZone = d
      · simp only [e, if_true, reverseRRs_lowerNames]
        rfl
      · simp only [e, if_false, List.map_nil]
        rfl

/-- The theorem of C4 at a domain written with upper-case letters: the record
of a client that has left the inventory of `Omada.Home` is kept, as the first
cycle left it, by a second cycle one minute later, and is gone from the record
map, forward and reverse, and from the zone after a second cycle 400 seconds
later. -/
theorem unbacked_record_kept_until_stale_witness :
    fwdAt upperPublished2.records "Omada.Home." "client-002.Omada.Home." =
      some ⟨⟨"client-002.omada.home.", 60, ⟨[10, 0, 0, 103]⟩⟩, 0⟩ ∧
    fwdAt (upperSecond 60000000000).records "Omada.Home." "client-002.Omada.Home." =
      some ⟨⟨"client-002.omada.home.", 60, ⟨[10, 0, 0, 103]⟩⟩, 0⟩ ∧
    fwdAt (upperSecond 400000000000).records "Omada.Home." "client-002.Omada.Home." = none ∧
    revAt (upperSecond 400000000000).records "in-addr.arpa." "103.0.0.10.in-addr.arpa." = none ∧
    (upperSecond 400000000000).zones.get? "Omada.Home." =
      some ⟨"Omada.Home.", [RR.SOA "omada.home.",
        RR.A ⟨"client-001.omada.home.", 60, ⟨[10, 0, 0, 101]⟩⟩,
        RR.A ⟨"win10-vm.omada.home.", 60, ⟨[10, 0, 0, 102]⟩⟩,
        RR.A ⟨"client-01.omada.home.", 60, ⟨[10, 0, 0, 101]⟩⟩]⟩ :=
  ⟨by decide,
   ((((unbacked_record_kept_until_stale stdToLower stdEnv (stdRun 60000000000) upperPublished2
      upperInventory (upperSecond 60000000000) (stdRun_valid _) (by decide)).1
      "Omada.Home." "client-002.Omada.Home."
      ⟨⟨"client-002.omada.home.", 60, ⟨[10, 0, 0, 103]⟩⟩, 0⟩ (by decide) (by decide)).1
      (by decide)).2 (by decide)),
   (((unbacked_record_kept_until_stale stdToLower stdEnv (stdRun 400000000000) upperPublished2
      upperInventory (upperSecond 400000000000) (stdRun_valid _) (by decide)).1
      "Omada.Home." "client-002.Omada.Home."
      ⟨⟨"client-002.omada.home.", 60, ⟨[10, 0, 0, 103]⟩⟩, 0⟩ (by decide) (by decide)).2
      (by decide)).1,
   (((unbacked_record_kept_until_stale stdToLower stdEnv (stdRun 400000000000) upperPublished2
      upperInventory (upperSecond 400000000000) (stdRun_valid _) (by decide)).2.1
      "103.0.0.10.in-addr.arpa."
      ⟨⟨"103.0.0.10.in-addr.arpa.", 60, "client-002.Omada.Home."⟩, 0⟩ (by decide) (by decide)).2
      (by decide)).1,
   by decide⟩

/-! ## C5: purging -/

/-- C5: `purgeStaleRecords` removes exactly the forward and the reverse entries
whose age in seconds is strictly greater than `maxAgeSeconds`: an entry is in
a purged map if and only if it was in that map with the same key, record and
timestamp and its age does not exceed the bound; the forward map is filtered
by the forward entries alone and the reverse map by the reverse entries alone,
and the entries kept stay in their order. -/
theorem purgeStaleRecords_exact (d : DnsRecords) (now maxAgeSeconds : Int) :
    (∀ k v, (purgeStaleRecords d now maxAgeSeconds).ARecords.get? k = some v ↔
      (d.ARecords.get? k = some v ∧ ¬ Seconds (now - v.timestamp) > maxAgeSeconds)) ∧
    (∀ k v, (purgeStaleRecords d now maxAgeSeconds).PtrRecords.get? k = some v ↔
      (d.PtrRecords.get? k = some v ∧ ¬ Seconds (now - v.timestamp) > maxAgeSeconds)) ∧
    (purgeStaleRecords d now maxAgeSeconds).ARecords.entries.Sublist d.ARecords.entries ∧
    (purgeStaleRecords d now maxAgeSeconds).PtrRecords.entries.Sublist d.PtrRecords.entries ∧
    (∀ p : GoMap PtrRecord, (purgeStaleRecords ⟨d.ARecords, p⟩ now maxAgeSeconds).ARecords =
      (purgeStaleRecords d now maxAgeSeconds).ARecords) ∧
    (∀ a : GoMap ARecord, (purgeStaleRecords ⟨a, d.PtrRecords⟩ now maxAgeSeconds).PtrRecords =
      (purgeStaleRecords d now maxAgeSeconds).PtrRecords) := by
  refine ⟨?_, ?_, List.filter_sublist _, List.filter_sublist _, fun _ => rfl, fun _ => rfl⟩
  · intro k v
    rw [purge_fwd]
    cases hg : d.ARecords.get? k with
    | none => simp
    | some w =>
      by_cases h : Seconds (now - w.timestamp) > maxAgeSeconds
      · simp only [h, if_true, Option.some.injEq]
        constructor
        · intro e; cases e
        · rintro ⟨e, hn⟩; subst e; exact absurd h hn
      · simp only [h, if_false, Option.some.injEq]
        constructor
        · intro e; subst e; exact ⟨rfl, h⟩
        · intro e; exact e.1
  · intro k v
    rw [purge_rev]
    cases hg : d.PtrRecords.get? k with
    | none => simp
    | some w =>
      by_cases h : Seconds (now - w.timestamp) > maxAgeSeconds
      · simp only [h, if_true, Option.some.injEq]
        constructor
        · intro e; cases e
        · rintro ⟨e, hn⟩; subst e; exact absurd h hn
      · simp only [h, if_false, Option.some.injEq]
        constructor
        · intro e; subst e; exact ⟨rfl, h⟩
        · intro e; exact e.1

/-! ## C6: fetch failures -/

/-- C6: if an inventory call made for some site fails, `updateZones` returns an
error and leaves the whole state as it was: `zones`, `zoneNames` and `records`
(and with them every per-domain forward and reverse map) are unchanged. -/
theorem updateZones_fetch_failure (env : Env) (ctl : Controller) (run : Run) (o : Omada)
    (h : ∃ s ∈ o.sites, callFails o.config ctl s) :
    ∃ e, updateZones env ctl run o = (o, Result.error e) := by
  obtain ⟨e, he⟩ := fetchInventory_fails o.config ctl o.sites ⟨[], [], [], []⟩ h
  exact ⟨e, by simp [updateZones, he]⟩

theorem updateZones_fetch_failure_witness :
    (∃ s ∈ (newOmada ⟨true, true, true, 300000000000, ""⟩ ["Default"]).sites,
      callFails (newOmada ⟨true, true, true, 300000000000, ""⟩ ["Default"]).config
        ⟨fun _ => .ok [], fun _ => .error "timeout", fun _ => .ok [], fun _ => .ok []⟩ s) ∧
    ∃ e, updateZones stdEnv
        ⟨fun _ => .ok [], fun _ => .error "timeout", fun _ => .ok [], fun _ => .ok []⟩
        (stdRun 0) (newOmada ⟨true, true, true, 300000000000, ""⟩ ["Default"]) =
      (newOmada ⟨true, true, true, 300000000000, ""⟩ ["Default"], Result.error e) :=
  ⟨⟨"Default", by simp [newOmada], Or.inr (Or.inl ⟨rfl, "timeout", rfl⟩)⟩,
   updateZones_fetch_failure stdEnv _ (stdRun 0) _
    ⟨"Default", by simp [newOmada], Or.inr (Or.inl ⟨rfl, "timeout", rfl⟩)⟩⟩

/-! ## C7: writes before publication -/

/-- C7, as stated, fails: in a second cycle over an inventory with a new
client, the published record map already holds the record of the new client
when the lock is reached, while the published zones are still the old ones. -/
theorem published_records_written_before_lock :
    (buildCandidate stdEnv (stdRun 60000000000) samplePublished sampleInventory2).1.zones =
      samplePublished.zones ∧
    fwdAt samplePublished.records "omada.home." "client-002.omada.home." = none ∧
    fwdAt (buildCandidate stdEnv (stdRun 60000000000) samplePublished sampleInventory2).1.records
      "omada.home." "client-002.omada.home." =
      some ⟨⟨"client-002.omada.home.", 60, ⟨[10, 0, 0, 103]⟩⟩, 60000000000⟩ ∧
    (buildCandidate stdEnv (stdRun 60000000000) samplePublished sampleInventory2).1 ≠
      samplePublished := by
  decide

/-- C7, amended: up to the locked assignment `updateZones` writes neither the
published zone map nor the published zone-name list (nor the configuration or
the site list); they are replaced, by a zone map and a name list built afresh,
only in the final assignment.  The record map is not copied: the writes of the
cycle go to the published record map itself, which on reaching the lock
already is the record map of the final state, so that the locked assignment of
`records` changes nothing. -/
theorem published_zones_untouched_before_lock (env : Env) (run : Run) (o : Omada)
    (inv : Inventory) :
    (buildCandidate env run o inv).1.zones = o.zones ∧
    (buildCandidate env run o inv).1.zoneNames = o.zoneNames ∧
    (buildCandidate env run o inv).1.config = o.config ∧
    (buildCandidate env run o inv).1.sites = o.sites ∧
    (applyInventory env run o inv).1.records = (buildCandidate env run o inv).1.records ∧
    (∀ zones zoneNames, (buildCandidate env run o inv).2 = some (zones, zoneNames) →
      (applyInventory env run o inv).1 =
        { (buildCandidate env run o inv).1 with zones := zones, zoneNames := zoneNames }) := by
  have h := zoneLoop_frame env run
    (run.zoneOrder (synthesize env inv run.timestamp o.records).keys)
    { o with records := synthesize env inv run.timestamp o.records } GoMap.empty
  rw [← buildCandidate_fst] at h
  refine ⟨h.2.2.1, h.2.2.2, h.1, h.2.1, applyInventory_records env run o inv, ?_⟩
  intro zones zoneNames hc
  simp [applyInventory, hc, publish]

/-! ## C8: fallback, literal address -/

/-- C8: when the configured fallback parses as an address, `addFallbackRecord`
inserts exactly one record into the zone of the domain being processed, the A
record named `"*." ++ domain` with that address and TTL 300; the other zones
are untouched, the outcome is the same whatever the record map and the range
order are (no record set is consulted), and with no fallback configured the
zones are returned as they were.  Hence a successful cycle (of a valid run)
publishes the same zones as the cycle with no fallback configured, each
holding exactly one record more. -/
theorem addFallbackRecord_literal (env : Env) (o : Omada) (order : List String) (zones : Zones)
    (d : String) (dr : DnsRecords) (ip : IP) (z : Zone) (hEmpty : env.ParseIP "" = none)
    (hip : env.ParseIP o.config.fallback = some ip) (hz : zones.get? d = some z) :
    addFallbackRecord env o order zones d dr =
        some (zones.set d (z.Insert (RR.A ⟨"*." ++ d, 300, ip⟩))) ∧
    (z.Insert (RR.A ⟨"*." ++ d, 300, ip⟩)).rrs = z.rrs ++ [RR.A ⟨"*." ++ d, 300, ip⟩] ∧
    (∀ k, k ≠ d →
      (zones.set d (z.Insert (RR.A ⟨"*." ++ d, 300, ip⟩))).get? k = zones.get? k) ∧
    (∀ (records' : Records) (order' : List String) (dr' : DnsRecords),
      addFallbackRecord env { o with records := records' } order' zones d dr' =
        addFallbackRecord env o order zones d dr) ∧
    addFallbackRecord env (noFallback o) order zones d dr = some zones ∧
    (∀ run inv, run.Valid → (applyInventory env run o inv).2 = Result.ok →
      (applyInventory env run (noFallback o) inv).2 = Result.ok ∧
      (applyInventory env run o inv).1.zones.keys =
        (applyInventory env run (noFallback o) inv).1.zones.keys ∧
      ∀ d' z0, (applyInventory env run (noFallback o) inv).1.zones.get? d' = some z0 →
        ∃ z1, (applyInventory env run o inv).1.zones.get? d' = some z1 ∧
          z1.rrs.length = z0.rrs.length + 1) := by
  have hne : o.config.fallback ≠ "" := by
    intro e
    rw [e, hEmpty] at hip
    cases hip
  refine ⟨?_, rfl, ?_, ?_, ?_, ?_⟩
  · simp [addFallbackRecord, hne, hip, insertInto, hz]
  · intro k hk
    exact GoMap.get?_set_ne _ _ _ _ (fun e => hk e.symm)
  · intro records' order' dr'
    simp [addFallbackRecord, hne, hip, insertInto, hz]
  · exact addFallbackRecord_noFallback env o order zones d dr
  · intro run inv hrun hok
    obtain ⟨h1, _, h3⟩ := literal_fallback_cycle env run o inv ip hne hip hrun
    exact ⟨h1 ▸ hok, (h3 hok).1, (h3 hok).2⟩

theorem addFallbackRecord_literal_witness :
    addFallbackRecord stdEnv (sampleWithFallback "10.0.0.200") [] sampleZones "omada.home."
        DnsRecords.fresh =
      some (sampleZones.set "omada.home."
        ⟨"omada.home.", [RR.SOA "omada.home.",
          RR.A ⟨"*.omada.home.", 300, ⟨[10, 0, 0, 200]⟩⟩]⟩) ∧
    (∃ z1, (applyInventory stdEnv (stdRun 60000000000) (sampleWithFallback "10.0.0.200")
          sampleInventory).1.zones.get? "omada.home." = some z1 ∧
        z1.rrs.length = 4 + 1) ∧
    ((applyInventory stdEnv (stdRun 60000000000) (sampleWithFallback "10.0.0.200")
        sampleInventory).1.zones.get? "omada.home.").map (fun z => z.rrs) =
      some [RR.SOA "omada.home.", RR.A ⟨"*.omada.home.", 300, ⟨[10, 0, 0, 200]⟩⟩,
        RR.A ⟨"client-001.omada.home.", 60, ⟨[10, 0, 0, 101]⟩⟩,
        RR.A ⟨"win10-vm.omada.home.", 60, ⟨[10, 0, 0, 102]⟩⟩,
        RR.A ⟨"client-01.omada.home.", 60, ⟨[10, 0, 0, 101]⟩⟩] :=
  ⟨(addFallbackRecord_literal stdEnv (sampleWithFallback "10.0.0.200") [] sampleZones
      "omada.home." DnsRecords.fresh ⟨[10, 0, 0, 200]⟩
      (addSoaRecord (NewZone "omada.home.") "omada.home.") (by decide) (by decide)
      (by decide)).1,
   ((addFallbackRecord_literal stdEnv (sampleWithFallback "10.0.0.200") [] sampleZones
      "omada.home." DnsRecords.fresh ⟨[10, 0, 0, 200]⟩
      (addSoaRecord (NewZone "omada.home.") "omada.home.") (by decide) (by decide)
      (by decide)).2.2.2.2.2 (stdRun 60000000000) sampleInventory (stdRun_valid _)
      (by decide)).2.2 "omada.home."
      ⟨"omada.home.", [RR.SOA "omada.home.",
        RR.A ⟨"client-001.omada.home.", 60, ⟨[10, 0, 0, 101]⟩⟩,
        RR.A ⟨"win10-vm.omada.home.", 60, ⟨[10, 0, 0, 102]⟩⟩,
        RR.A ⟨"client-01.omada.home.", 60, ⟨[10, 0, 0, 101]⟩⟩]⟩ (by decide),
   by decide⟩

/-! ## C9: fallback, short hostname -/

/-- C9: when a fallback is configured that is not an address and contains no
dot, the name looked up for domain `d` is `fallback ++ "." ++ d`; the wildcard
`"*." ++ d` is added if and only if some forward record of the record map has
exactly that name, and it then carries the address of such a record; otherwise
the zones are left as they were. -/
theorem addFallbackRecord_hostname (env : Env) (o : Omada) (order : List String) (zones : Zones)
    (d : String) (dr : DnsRecords) (z : Zone) (hne : o.config.fallback ≠ "")
    (hip : env.ParseIP o.config.fallback = none) (hdot : containsDot o.config.fallback = false)
    (hord : order.Perm o.records.keys) (hz : zones.get? d = some z) :
    fallbackTarget env o.config.fallback d = o.config.fallback ++ "." ++ d ∧
    ((∀ dom, fwdAt o.records dom (o.config.fallback ++ "." ++ d) = none) →
      addFallbackRecord env o order zones d dr = some zones) ∧
    ((∃ dom rec, fwdAt o.records dom (o.config.fallback ++ "." ++ d) = some rec) →
      ∃ dom rec, fwdAt o.records dom (o.config.fallback ++ "." ++ d) = some rec ∧
        addFallbackRecord env o order zones d dr =
          some (zones.set d (z.Insert (RR.A ⟨"*." ++ d, 300, rec.record.A⟩)))) := by
  have ht : fallbackTarget env o.config.fallback d = o.config.fallback ++ "." ++ d := by
    simp [fallbackTarget, hdot]
  have h := addFallbackRecord_lookup env o order zones d dr z hne hip hord hz
  rw [ht] at h
  exact ⟨ht, h⟩

theorem addFallbackRecord_hostname_witness :
    ∃ dom rec,
      fwdAt (sampleWithFallback "client-001").records dom ("client-001" ++ "." ++ "omada.home.") =
        some rec ∧
      addFallbackRecord stdEnv (sampleWithFallback "client-001")
          (sampleWithFallback "client-001").records.keys sampleZones "omada.home."
          DnsRecords.fresh =
        some (sampleZones.set "omada.home."
          ((addSoaRecord (NewZone "omada.home.") "omada.home.").Insert
            (RR.A ⟨"*." ++ "omada.home.", 300, rec.record.A⟩))) :=
  (addFallbackRecord_hostname stdEnv (sampleWithFallback "client-001")
    (sampleWithFallback "client-001").records.keys sampleZones "omada.home." DnsRecords.fresh
    (addSoaRecord (NewZone "omada.home.") "omada.home.") (by decide) (by decide) (by decide)
    (List.Perm.refl _) (by decide)).2.2
    ⟨"omada.home.", ⟨⟨"client-001.omada.home.", 60, ⟨[10, 0, 0, 101]⟩⟩, 0⟩, by decide⟩

/-! ## C10: fallback, fully-qualified name -/

/-- Counterexample to C10 as worded: with the fallback `host.a.home`, neither an
address nor dot-free, and a forward record of that name in the record map, a
successful cycle in which that record is stale gives the wildcard with its
address to the zones of the domains processed before the domain of the record
is purged and no wildcard to the others.  Visiting the domains in list order,
the reverse zone gets the wildcard, `a.home.` and `b.home.` get none; visiting
them in the reverse order, `b.home.` gets it and the reverse zone does not. -/
theorem fqdn_fallback_wildcard_depends_on_order :
    stdEnv.ParseIP twoDomainPublished.config.fallback = none ∧
    containsDot twoDomainPublished.config.fallback = true ∧
    fwdAt (synthesize stdEnv twoDomainInventory 400000000000 twoDomainPublished.records)
      "a.home." "host.a.home." = some ⟨⟨"host.a.home.", 60, ⟨[10, 0, 0, 5]⟩⟩, 0⟩ ∧
    (updateZones stdEnv (constController twoDomainInventory) (stdRun 400000000000)
      twoDomainPublished).2 = Result.ok ∧
    (updateZones stdEnv (constController twoDomainInventory) (stdRun 400000000000)
      twoDomainPublished).1.zones.get? "in-addr.arpa." =
      some ⟨"in-addr.arpa.", [RR.SOA "in-addr.arpa.",
        RR.A ⟨"*.in-addr.arpa.", 300, ⟨[10, 0, 0, 5]⟩⟩,
        RR.PTR ⟨"7.1.0.10.in-addr.arpa.", 60, "other.b.home."⟩]⟩ ∧
    (updateZones stdEnv (constController twoDomainInventory) (stdRun 400000000000)
      twoDomainPublished).1.zones.get? "a.home." = some ⟨"a.home.", [RR.SOA "a.home."]⟩ ∧
    (updateZones stdEnv (constController twoDomainInventory) (stdRun 400000000000)
      twoDomainPublished).1.zones.get? "b.home." =
      some ⟨"b.home.", [RR.SOA "b.home.",
        RR.A ⟨"other.b.home.", 60, ⟨[10, 0, 1, 7]⟩⟩]⟩ ∧
    (updateZones stdEnv (constController twoDomainInventory) (reverseRun 400000000000)
      twoDomainPublished).2 = Result.ok ∧
    (updateZones stdEnv (constController twoDomainInventory) (reverseRun 400000000000)
      twoDomainPublished).1.zones.get? "b.home." =
      some ⟨"b.home.", [RR.SOA "b.home.",
        RR.A ⟨"*.b.home.", 300, ⟨[10, 0, 0, 5]⟩⟩,
        RR.A ⟨"other.b.home.", 60, ⟨[10, 0, 1, 7]⟩⟩]⟩ ∧
    (updateZones stdEnv (constController twoDomainInventory) (reverseRun 400000000000)
      twoDomainPublished).1.zones.get? "in-addr.arpa." =
      some ⟨"in-addr.arpa.", [RR.SOA "in-addr.arpa.",
        RR.PTR ⟨"7.1.0.10.in-addr.arpa.", 60, "other.b.home."⟩]⟩ := by
  decide

/-- C10 (amended): when the configured fallback is not an IP address and
contains a dot, the name looked up is `dns.Fqdn` of the fallback whatever the
domain being processed (a trailing dot is added if missing), and the forward
records of all domains are searched for that key as they stand when a domain
is processed.  In a successful cycle the zone of a processed domain holds the
authority record, the wildcard and the records of its record set: there is no
wildcard only if no record of the name is left in the record map after the
cycle, and the address of the wildcard is that of a record of the name in the
synthesized record map which is left after the cycle or is a stale record of
another domain.  When a record of the name is left after the cycle, every
published zone holds a wildcard with the address of a record of the name, and
with the address `ip` if every record of the name has the address `ip`. -/
theorem fqdn_fallback_follows_lookup (env : Env) (run : Run) (o : Omada) (inv : Inventory)
    (hip : env.ParseIP o.config.fallback = none) (hdot : containsDot o.config.fallback = true)
    (hrun : run.Valid) (hok : (applyInventory env run o inv).2 = Result.ok) :
    (∀ d, fallbackTarget env o.config.fallback d = env.Fqdn o.config.fallback) ∧
    (stdEnv.Fqdn o.config.fallback =
      if o.config.fallback.data.getLast? = some '.' then o.config.fallback
      else o.config.fallback ++ ".") ∧
    (∀ d ∈ (applyInventory env run o inv).1.records.keys,
      env.ptrZone ≠ d ∨ PtrOnlyInPtrZone env o.records →
      ∃ dr wild, (applyInventory env run o inv).1.records.get? d = some dr ∧
        ((wild = [] ∧ ∀ dom, fwdAt (applyInventory env run o inv).1.records dom
            (env.Fqdn o.config.fallback) = none) ∨
          ∃ dom rec, fwdAt (synthesize env inv run.timestamp o.records) dom
              (env.Fqdn o.config.fallback) = some rec ∧
            wild = [RR.A ⟨"*." ++ d, 300, rec.record.A⟩] ∧
            (fwdAt (applyInventory env run o inv).1.records dom
                (env.Fqdn o.config.fallback) = some rec ∨
              (dom ≠ d ∧ Seconds (run.purgeNow dom - rec.timestamp) >
                Seconds o.config.stale_record_duration))) ∧
        (applyInventory env run o inv).1.zones.get? d = some ⟨d, RR.SOA d :: (wild ++
          dr.ARecords.values.map (fun v => RR.A v.record) ++
          (if env.ptrZone = d then dr.PtrRecords.values.map (fun v => RR.PTR v.record)
            else []))⟩) ∧
    ((∃ dom rec, fwdAt (applyInventory env run o inv).1.records dom
        (env.Fqdn o.config.fallback) = some rec) →
      ∀ d z, (applyInventory env run o inv).1.zones.get? d = some z →
        ∃ dom rec, fwdAt (synthesize env inv run.timestamp o.records) dom
            (env.Fqdn o.config.fallback) = some rec ∧
          RR.A ⟨"*." ++ d, 300, rec.record.A⟩ ∈ z.rrs) ∧
    (∀ ip, (∃ dom rec, fwdAt (applyInventory env run o inv).1.records dom
        (env.Fqdn o.config.fallback) = some rec) →
      (∀ dom rec, fwdAt (synthesize env inv run.timestamp o.records) dom
        (env.Fqdn o.config.fallback) = some rec → rec.record.A = ip) →
      ∀ d z, (applyInventory env run o inv).1.zones.get? d = some z →
        RR.A ⟨"*." ++ d, 300, ip⟩ ∈ z.rrs) := by
  have hne := containsDot_ne_empty _ hdot
  have ht : ∀ d, fallbackTarget env o.config.fallback d = env.Fqdn o.config.fallback :=
    fun d => fallbackTarget_of_dot env _ d hdot
  refine ⟨ht, rfl, ?_, ?_, ?_⟩
  · intro d hd hp
    rw [applyInventory_records_keys] at hd
    have h := applyInventory_name_zone env run o inv hrun hne hip hok d hd hp
    rw [ht d] at h
    exact h
  · intro hlive d z hz
    obtain ⟨a, ⟨dom, rec, hf, ha⟩, hin⟩ := applyInventory_name_wildcard env run o inv
      (fun a => ∃ dom rec, fwdAt (synthesize env inv run.timestamp o.records) dom
        (env.Fqdn o.config.fallback) = some rec ∧ rec.record.A = a)
      (env.Fqdn o.config.fallback) hrun hne hip ht hok
      (fun dom rec hf => ⟨dom, rec, hf, rfl⟩) hlive d z hz
    refine ⟨dom, rec, hf, ?_⟩
    rw [ha]
    exact hin
  · intro ip hlive huniq d z hz
    obtain ⟨a, ha, hin⟩ := applyInventory_name_wildcard env run o inv (fun a => a = ip)
      (env.Fqdn o.config.fallback) hrun hne hip ht hok huniq hlive d z hz
    rw [← ha]
    exact hin

/-- The theorem of C10 at a second two-domain cycle one minute after the
first: the record `host.a.home.` is left in the record map, and each of the
three published zones holds the wildcard with its address `10.0.0.5`. -/
theorem fqdn_fallback_follows_lookup_witness :
    fwdAt (applyInventory stdEnv (stdRun 60000000000) twoDomainPublished
        twoDomainInventory).1.records "a.home." "host.a.home." =
      some ⟨⟨"host.a.home.", 60, ⟨[10, 0, 0, 5]⟩⟩, 0⟩ ∧
    (applyInventory stdEnv (stdRun 60000000000) twoDomainPublished
        twoDomainInventory).1.zones.keys = ["in-addr.arpa.", "a.home.", "b.home."] ∧
    ∀ d z, (applyInventory stdEnv (stdRun 60000000000) twoDomainPublished
        twoDomainInventory).1.zones.get? d = some z →
      RR.A ⟨"*." ++ d, 300, ⟨[10, 0, 0, 5]⟩⟩ ∈ z.rrs :=
  ⟨by decide, by decide,
   (fqdn_fallback_follows_lookup stdEnv (stdRun 60000000000) twoDomainPublished
      twoDomainInventory (by decide) (by decide) (stdRun_valid _) (by decide)).2.2.2.2
      ⟨[10, 0, 0, 5]⟩ ⟨"a.home.", ⟨⟨"host.a.home.", 60, ⟨[10, 0, 0, 5]⟩⟩, 0⟩, by decide⟩
      twoDomain_host_address⟩

/-! ## C11: fallback, unresolvable target -/

/-- C11: when the configured fallback is not an address and no forward record
of any domain has the target name, `addFallbackRecord` succeeds and leaves the
zone map as it was, which is what it does when no fallback is configured; and
a whole cycle in which no synthesized forward record has a target name
publishes the zones and the result of the cycle with no fallback
configured. -/
theorem addFallbackRecord_unresolvable (env : Env) (o : Omada) (order : List String)
    (zones : Zones) (d : String) (dr : DnsRecords)
    (hip : env.ParseIP o.config.fallback = none)
    (hnone : ∀ dom, fwdAt o.records dom (fallbackTarget env o.config.fallback d) = none) :
    addFallbackRecord env o order zones d dr = some zones ∧
    addFallbackRecord env o order zones d dr =
      addFallbackRecord env (noFallback o) order zones d dr ∧
    (∀ z, zones.get? d = some z →
      ∃ zones', addFallbackRecord env o order zones d dr = some zones' ∧
        zones'.get? d = some z) ∧
    (∀ (run : Run) (inv : Inventory),
      (∀ d' dom, fwdAt (synthesize env inv run.timestamp o.records) dom
        (fallbackTarget env o.config.fallback d') = none) →
      (applyInventory env run o inv).1.zones = (applyInventory env run (noFallback o) inv).1.zones ∧
      (applyInventory env run o inv).1.zoneNames =
        (applyInventory env run (noFallback o) inv).1.zoneNames ∧
      (applyInventory env run o inv).2 = (applyInventory env run (noFallback o) inv).2) := by
  have h1 := addFallbackRecord_unresolved env o order zones d dr hip hnone
  refine ⟨h1, ?_, ?_, ?_⟩
  · rw [h1, addFallbackRecord_noFallback]
  · intro z hz
    exact ⟨zones, h1, hz⟩
  · intro run inv hn
    rw [unresolved_fallback_cycle env run o inv hip hn]
    exact ⟨rfl, rfl, rfl⟩

theorem addFallbackRecord_unresolvable_witness :
    addFallbackRecord stdEnv (sampleWithFallback "nosuch-host")
        (sampleWithFallback "nosuch-host").records.keys sampleZones "omada.home."
        DnsRecords.fresh = some sampleZones ∧
      (updateZones stdEnv (constController sampleInventory) (stdRun 60)
        (sampleWithFallback "nosuch-host")).1.zones =
      (updateZones stdEnv (constController sampleInventory) (stdRun 60)
        (sampleWithFallback "")).1.zones :=
  ⟨(addFallbackRecord_unresolvable stdEnv (sampleWithFallback "nosuch-host")
      (sampleWithFallback "nosuch-host").records.keys sampleZones "omada.home." DnsRecords.fresh
      (by decide) (fwdAt_none_of_keys _ _ (by decide))).1, by decide⟩

/-! ## C12: skip and continue -/

/-- C12: if no inventory call of a cycle fails (and only the reverse domain
holds reverse records, as in every state reached from the empty record map),
`updateZones` returns no error and publishes the zones built from the fetched
inventory, whatever that inventory is. A network with an empty domain or a
subnet that does not parse makes no write, and neither does a client, device or
reservation whose address does not parse; removing such a network or entry
from the inventory changes neither the writes of the cycle nor any forward or
reverse record of the synthesized record map, so the records of the others are
produced as without it. -/
theorem skip_and_continue (env : Env) (ctl : Controller) (run : Run) (o : Omada)
    (hfetch : ∀ s ∈ o.sites, ¬ callFails o.config ctl s)
    (hinv : PtrOnlyInPtrZone env o.records) :
    (updateZones env ctl run o).2 = Result.ok ∧
    (∃ inv zones, fetchInventory o.config ctl o.sites ⟨[], [], [], []⟩ = .ok inv ∧
      (cycleLoop env run o inv).2 = some zones ∧
      (updateZones env ctl run o).1 =
        publish (cycleLoop env run o inv).1 zones (run.nameOrder zones.keys)) ∧
    (∀ inv n, n.Domain = "" ∨ env.ParseCIDR n.Subnet = none → networkWrites env inv n = []) ∧
    (∀ subnet d (c : Client), env.ParseIP c.Ip = none → clientWrite env subnet d c = none) ∧
    (∀ subnet d (dv : Device), env.ParseIP dv.IP = none → deviceWrite env subnet d dv = none) ∧
    (∀ subnet d (r : DhcpReservation), env.ParseIP r.IP = none →
      reservationWrite env subnet d r = none) ∧
    (∀ pre post n clients devices reservations ts records,
      n.Domain = "" ∨ env.ParseCIDR n.Subnet = none →
      cycleWrites env ⟨pre ++ n :: post, clients, devices, reservations⟩ =
        cycleWrites env ⟨pre ++ post, clients, devices, reservations⟩ ∧
      (∀ d k, fwdAt (synthesize env ⟨pre ++ n :: post, clients, devices, reservations⟩ ts records)
          d k = fwdAt (synthesize env ⟨pre ++ post, clients, devices, reservations⟩ ts records)
          d k) ∧
      (∀ d k, revAt (synthesize env ⟨pre ++ n :: post, clients, devices, reservations⟩ ts records)
          d k = revAt (synthesize env ⟨pre ++ post, clients, devices, reservations⟩ ts records)
          d k)) ∧
    (∀ networks pre post (c : Client) devices reservations ts records,
      env.ParseIP c.Ip = none →
      cycleWrites env ⟨networks, pre ++ c :: post, devices, reservations⟩ =
        cycleWrites env ⟨networks, pre ++ post, devices, reservations⟩ ∧
      (∀ d k, fwdAt (synthesize env ⟨networks, pre ++ c :: post, devices, reservations⟩ ts records)
          d k = fwdAt (synthesize env ⟨networks, pre ++ post, devices, reservations⟩ ts records)
          d k) ∧
      (∀ d k, revAt (synthesize env ⟨networks, pre ++ c :: post, devices, reservations⟩ ts records)
          d k = revAt (synthesize env ⟨networks, pre ++ post, devices, reservations⟩ ts records)
          d k)) ∧
    (∀ networks clients pre post (dv : Device) reservations ts records,
      env.ParseIP dv.IP = none →
      cycleWrites env ⟨networks, clients, pre ++ dv :: post, reservations⟩ =
        cycleWrites env ⟨networks, clients, pre ++ post, reservations⟩ ∧
      (∀ d k, fwdAt (synthesize env ⟨networks, clients, pre ++ dv :: post, reservations⟩ ts records)
          d k = fwdAt (synthesize env ⟨networks, clients, pre ++ post, reservations⟩ ts records)
          d k) ∧
      (∀ d k, revAt (synthesize env ⟨networks, clients, pre ++ dv :: post, reservations⟩ ts records)
          d k = revAt (synthesize env ⟨networks, clients, pre ++ post, reservations⟩ ts records)
          d k)) ∧
    (∀ networks clients devices pre post (r : DhcpReservation) ts records,
      env.ParseIP r.IP = none →
      cycleWrites env ⟨networks, clients, devices, pre ++ r :: post⟩ =
        cycleWrites env ⟨networks, clients, devices, pre ++ post⟩ ∧
      (∀ d k, fwdAt (synthesize env ⟨networks, clients, devices, pre ++ r :: post⟩ ts records)
          d k = fwdAt (synthesize env ⟨networks, clients, devices, pre ++ post⟩ ts records)
          d k) ∧
      (∀ d k, revAt (synthesize env ⟨networks, clients, devices, pre ++ r :: post⟩ ts records)
          d k = revAt (synthesize env ⟨networks, clients, devices, pre ++ post⟩ ts records)
          d k)) := by
  obtain ⟨inv, hf⟩ := fetchInventory_succeeds o.config ctl o.sites ⟨[], [], [], []⟩ hfetch
  have hu := updateZones_of_fetch env ctl run o inv hf
  have hok := applyInventory_succeeds env run o inv hinv
  obtain ⟨zones, hz, _⟩ := applyInventory_ok env run o inv hok
  refine ⟨by rw [hu]; exact hok, ⟨inv, zones, hf, hz, ?_⟩,
    fun inv n h => networkWrites_skipped env inv n h,
    fun subnet d c h => clientWrite_unparsed env subnet d c h,
    fun subnet d dv h => deviceWrite_unparsed env subnet d dv h,
    fun subnet d r h => reservationWrite_unparsed env subnet d r h, ?_, ?_, ?_, ?_⟩
  · rw [hu, applyInventory_of_loop_some env run o inv zones hz]
  · intro pre post n clients devices reservations ts records h
    have e := cycleWrites_drop_network env pre post n clients devices reservations h
    exact ⟨e, synthesize_lookups_of_writes env _ _ ts records e⟩
  · intro networks pre post c devices reservations ts records h
    have e := cycleWrites_drop_client env networks pre post c devices reservations h
    exact ⟨e, synthesize_lookups_of_writes env _ _ ts records e⟩
  · intro networks clients pre post dv reservations ts records h
    have e := cycleWrites_drop_device env networks clients pre post dv reservations h
    exact ⟨e, synthesize_lookups_of_writes env _ _ ts records e⟩
  · intro networks clients devices pre post r ts records h
    have e := cycleWrites_drop_reservation env networks clients devices pre post r h
    exact ⟨e, synthesize_lookups_of_writes env _ _ ts records e⟩

theorem skip_and_continue_witness :
    (updateZones stdEnv (constController skipInventory) (stdRun 0)
        (newOmada sampleConfig ["Default"])).2 = Result.ok ∧
      (updateZones stdEnv (constController skipInventory) (stdRun 0)
          (newOmada sampleConfig ["Default"])).1.records.get? "omada.home." =
        samplePublished.records.get? "omada.home." ∧
      (updateZones stdEnv (constController skipInventory) (stdRun 0)
          (newOmada sampleConfig ["Default"])).1.zoneNames =
        ["in-addr.arpa.", "guest.home.", "omada.home."] :=
  ⟨(skip_and_continue stdEnv (constController skipInventory) (stdRun 0)
      (newOmada sampleConfig ["Default"])
      (fun s _ => constController_calls sampleConfig skipInventory s)
      (PtrOnlyInPtrZone_empty stdEnv)).1, by decide, by decide⟩

/-! ## C13: what the validation of the fallback accepts -/

/-- C13, as stated, fails: the value `.a` is accepted and stored by `parse`,
and it is neither an address literal (it does not parse as a dotted quad and
has no colon) nor a hostname whose labels are all non-empty, its first label
being empty; and the text `::1` of the IPv6 loopback address is rejected. -/
theorem fallback_leading_dot_accepted :
    (parseProperty stdParseLib defaultConfig "fallback" (some ".a")).2 = none ∧
    parse stdParseLib (sampleBlock ".a") =
      (⟨"https://10.0.0.2", "Default", "dns", "secret", 1, 24, true, true, true, 600000000000,
        false, ".a"⟩, none) ∧
    ".a" ≠ "" ∧ ".a".length ≤ 253 ∧ parseIPv4 ".a" = none ∧ ':' ∉ ".a".data ∧
    splitChars '.' ".a".data = [[], ['a']] ∧ validHostname ".a" = false ∧
    (parseProperty stdParseLib defaultConfig "fallback" (some "::1")).2 =
      some (.Errf "fallback contains invalid characters: %q" "::1") := by
  decide

/-- C13, amended: a fallback value is accepted by `parse` if and only if it has
at most 253 characters and is a dotted name, that is, every label between its
dots is made of letters, digits and hyphens, is not empty and has no hyphen at
either end, except that the first and the last label may be empty (the value
may begin or end with a dot). So every dotted-quad IPv4 literal and every
hostname with valid labels of at most 253 characters is accepted, a value with a
colon, such as an IPv6 literal, is rejected, and whatever `parse` leaves in the
`fallback` field is empty or such a dotted name. -/
theorem fallback_validation (lib : ParseLib) (cfg : config) (v : String) :
    ((parseProperty lib cfg "fallback" (some v)).2 = none ↔
      v.length ≤ 253 ∧ dottedName v = true) ∧
    (∀ ip, parseIPv4 v = some ip → (parseProperty lib cfg "fallback" (some v)).2 = none) ∧
    (validHostname v = true → v.length ≤ 253 →
      (parseProperty lib cfg "fallback" (some v)).2 = none) ∧
    (':' ∈ v.data → (parseProperty lib cfg "fallback" (some v)).2 ≠ none) ∧
    (∀ blocks, (parse lib blocks).1.fallback.length ≤ 253 ∧
      dottedName (parse lib blocks).1.fallback = true) := by
  rw [parseProperty_fallback]
  refine ⟨accepts_iff_dottedName cfg v, ?_, ?_, ?_, ?_⟩
  · intro ip hip
    obtain ⟨h1, h2⟩ := parseIPv4_hostname v ip hip
    exact (accepts_iff_dottedName cfg v).mpr ⟨by omega, dottedName_of_validHostname v h1⟩
  · intro h1 h2
    exact (accepts_iff_dottedName cfg v).mpr ⟨h2, dottedName_of_validHostname v h1⟩
  · intro hc hacc
    have hs := ((parseFallback_accepts_iff cfg v).mp hacc).2.1 ':' hc
    revert hs
    decide
  · intro blocks
    obtain ⟨h1, h2⟩ := parse_stored lib blocks
    rw [utf8ByteSize_eq _ h2.1] at h1
    exact ⟨h1, (dottedName_iff _).mpr h2⟩

/-! ## C14: the zone set -/

/-- C14: after a successful cycle (of a run whose iteration orders are
permutations), the keys of the published zone map are the keys of the record
map, each once; the zone stored under a key is the zone of that name; the
reverse zone is among them, and so is `domain ++ "."` for every fetched
interface network with a non-empty domain; and `zoneNames` lists the keys of
the zone map, each once. -/
theorem published_zone_set (env : Env) (ctl : Controller) (run : Run) (o : Omada)
    (hrun : run.Valid) (hok : (updateZones env ctl run o).2 = Result.ok) :
    (updateZones env ctl run o).1.zones.keys.Perm (updateZones env ctl run o).1.records.keys ∧
    (updateZones env ctl run o).1.zones.keys.Nodup ∧
    (∀ d, d ∈ (updateZones env ctl run o).1.zones.keys ↔
      d ∈ (updateZones env ctl run o).1.records.keys) ∧
    (∀ d z, (updateZones env ctl run o).1.zones.get? d = some z →
      z.origin = d ∧ z.rrs.head? = some (RR.SOA d)) ∧
    env.ptrZone ∈ (updateZones env ctl run o).1.zones.keys ∧
    (∀ s ∈ o.sites, ∀ ns, ctl.GetNetworks s = .ok ns → ∀ n ∈ getInterfaces ns,
      n.Domain ≠ "" → n.Domain ++ "." ∈ (updateZones env ctl run o).1.zones.keys) ∧
    (updateZones env ctl run o).1.zoneNames.Perm (updateZones env ctl run o).1.zones.keys ∧
    (updateZones env ctl run o).1.zoneNames.Nodup ∧
    (∀ d, d ∈ (updateZones env ctl run o).1.zoneNames ↔
      d ∈ (updateZones env ctl run o).1.zones.keys) := by
  obtain ⟨inv, hf, he⟩ := updateZones_ok_fetch env ctl run o hok
  rw [he] at hok ⊢
  obtain ⟨hz, hr, hn, hnamed⟩ := applyInventory_zone_keys env run o inv hrun hok
  have hperm : (applyInventory env run o inv).1.zones.keys.Perm
      (applyInventory env run o inv).1.records.keys := by
    rw [hz, hr]
    exact hrun.1 _
  have hnperm : (applyInventory env run o inv).1.zoneNames.Perm
      (applyInventory env run o inv).1.zones.keys := by
    rw [hn]
    exact hrun.2.2.1 _
  have hnd : (applyInventory env run o inv).1.zones.keys.Nodup :=
    (applyInventory env run o inv).1.zones.nodup
  have hmem : ∀ d, d ∈ (synthesize env inv run.timestamp o.records).keys →
      d ∈ (applyInventory env run o inv).1.zones.keys := by
    intro d hd
    rw [hz]
    exact (hrun.1 _).mem_iff.mpr hd
  refine ⟨hperm, hnd, fun d => hperm.mem_iff, hnamed, ?_, ?_, hnperm,
    hnperm.nodup_iff.mpr hnd, fun d => hnperm.mem_iff⟩
  · exact hmem _ (synthesize_ptrZone_mem env inv run.timestamp o.records)
  · intro s hs ns hns n hnmem hdom
    apply hmem
    apply synthesize_domain_mem env inv run.timestamp o.records n _ hdom
    rw [fetchInventory_networks _ _ _ _ _ hf]
    simp only [List.nil_append, List.mem_flatMap]
    exact ⟨s, hs, mem_siteInterfaces ctl s ns n hns hnmem⟩

theorem published_zone_set_witness :
    (updateZones stdEnv (constController sampleInventory) (stdRun 0)
        (newOmada sampleConfig ["Default"])).1.zoneNames.Perm
      (updateZones stdEnv (constController sampleInventory) (stdRun 0)
        (newOmada sampleConfig ["Default"])).1.zones.keys ∧
    (updateZones stdEnv (constController sampleInventory) (stdRun 0)
        (newOmada sampleConfig ["Default"])).1.zoneNames =
      ["in-addr.arpa.", "omada.home."] :=
  ⟨(published_zone_set stdEnv (constController sampleInventory) (stdRun 0)
      (newOmada sampleConfig ["Default"]) (stdRun_valid 0) (by decide)).2.2.2.2.2.2.1,
    by decide⟩

/-! ## C16: the name of a client -/

/-- C16: the name used for a client is its `Name`, or its `HostName` when
`Name` equals `MAC` and `HostName` is not `"--"`. For every client with a
non-empty `HostName`, and for every client whose `Name` differs from its `MAC`,
this is the name the claim describes. For a client whose `Name` equals its
`MAC` and whose `HostName` is empty the code takes the empty `HostName`, where
the claim keeps the `Name`: the record written for it is named after the empty
text. The reservation path, given the same texts, keeps the name. -/
theorem clientDnsName_empty_hostname :
    clientDnsName ⟨"AA-BB-CC-00-00-09", "AA-BB-CC-00-00-09", "", "10.0.0.9"⟩ = "" ∧
    (∀ (env : Env) subnet d ip, env.ParseIP "10.0.0.9" = some ip →
      env.Contains subnet ip = true →
      clientWrite env subnet d ⟨"AA-BB-CC-00-00-09", "AA-BB-CC-00-00-09", "", "10.0.0.9"⟩ =
        some ⟨d, env.makeDNSSafe "" ++ "." ++ d, ip, "10.0.0.9"⟩) ∧
    reservationDnsName ⟨"AA-BB-CC-00-00-09", "AA-BB-CC-00-00-09", "", "10.0.0.9", true⟩ =
      "AA-BB-CC-00-00-09" ∧
    (∀ c : Client, c.HostName ≠ "" →
      clientDnsName c =
        if c.Name = c.MAC ∧ c.HostName ≠ "" ∧ c.HostName ≠ "--" then c.HostName else c.Name) ∧
    (∀ c : Client, c.Name ≠ c.MAC → clientDnsName c = c.Name) := by
  refine ⟨by decide, ?_, by decide, ?_, ?_⟩
  · intro env subnet d ip hip hc
    have hn : clientDnsName ⟨"AA-BB-CC-00-00-09", "AA-BB-CC-00-00-09", "", "10.0.0.9"⟩ = "" := by
      decide
    simp [clientWrite, hip, hc, hn]
  · intro c hc
    simp [clientDnsName, hc]
  · intro c hc
    simp [clientDnsName, hc]

/-! ## C17: subnet soundness -/

/-- C17: every write of a cycle is made while an interface network with a
non-empty domain and a parsed subnet is processed, goes to the record set of
that network's domain and is for an address inside that subnet; a forward
record of domain `d` found in the record map after the cycle is either the
record that was there before the cycle or a record stamped by this cycle whose
address lies in the subnet of such a network of domain `d`; a reverse record is
either the one that was there before or the reverse record of such a write; and
an address text that is inside the subnet of no such network has no write. -/
theorem subnet_soundness (env : Env) (run : Run) (o : Omada) (inv : Inventory) :
    (∀ w ∈ cycleWrites env inv, ∃ n ∈ inv.networks, n.Domain ≠ "" ∧
      w.dnsDomain = n.Domain ++ "." ∧
      ∃ subnet, env.ParseCIDR n.Subnet = some subnet ∧ env.ParseIP w.ipText = some w.ip ∧
        env.Contains subnet w.ip = true) ∧
    (∀ d k v, fwdAt (applyInventory env run o inv).1.records d k = some v →
      fwdAt o.records d k = some v ∨
      (v.timestamp = run.timestamp ∧ ∃ n ∈ inv.networks, n.Domain ≠ "" ∧ d = n.Domain ++ "." ∧
        ∃ subnet, env.ParseCIDR n.Subnet = some subnet ∧
          env.Contains subnet v.record.A = true)) ∧
    (∀ d k v, revAt (applyInventory env run o inv).1.records d k = some v →
      revAt o.records d k = some v ∨
      (d = env.ptrZone ∧ v.timestamp = run.timestamp ∧
        ∃ w ∈ cycleWrites env inv, k = env.getPtrZoneFromIp w.ipText ∧
          v.record.Ptr = env.Fqdn w.fqdn ∧
          ∃ n ∈ inv.networks, n.Domain ≠ "" ∧
            ∃ subnet, env.ParseCIDR n.Subnet = some subnet ∧
              env.ParseIP w.ipText = some w.ip ∧ env.Contains subnet w.ip = true)) ∧
    (∀ ipText,
      (∀ n ∈ inv.networks, n.Domain ≠ "" → ∀ subnet ip, env.ParseCIDR n.Subnet = some subnet →
        env.ParseIP ipText = some ip → env.Contains subnet ip = false) →
      ∀ w ∈ cycleWrites env inv, w.ipText ≠ ipText) := by
  refine ⟨fun w hw => cycleWrites_sound env inv w hw, ?_, ?_, ?_⟩
  · intro d k v hv
    rw [applyInventory_records, buildCandidate_fst] at hv
    have hs := zoneLoop_fwdAt_sub env run _ _ _ d k v hv
    simp only at hs
    rw [synthesize_fwdAt] at hs
    rcases fwdOverlay_cases run.timestamp (cycleWrites env inv) d k (fwdAt o.records d k) with
      e | ⟨w, hw, hd, _, e⟩
    · left
      rw [← e]
      exact hs
    · right
      rw [e] at hs
      have hv' : v = w.aRecord run.timestamp := (Option.some.inj hs).symm
      obtain ⟨n, hn, hdom, hwd, subnet, hsub, _, hc⟩ := cycleWrites_sound env inv w hw
      refine ⟨by rw [hv']; rfl, n, hn, hdom, by rw [← hd, hwd], subnet, hsub, ?_⟩
      rw [hv']
      exact hc
  · intro d k v hv
    rw [applyInventory_records, buildCandidate_fst] at hv
    have hs := zoneLoop_revAt_sub env run _ _ _ d k v hv
    simp only at hs
    rw [synthesize_revAt] at hs
    by_cases hp : env.ptrZone = d
    · simp only [hp, if_true] at hs
      rcases revOverlay_cases env run.timestamp (cycleWrites env inv) k (revAt o.records d k) with
        e | ⟨w, hw, hk, e⟩
      · left
        rw [← e]
        exact hs
      · right
        rw [e] at hs
        have hv' : v = w.ptrRecord env run.timestamp := (Option.some.inj hs).symm
        obtain ⟨n, hn, hdom, _, subnet, hsub, hip, hc⟩ := cycleWrites_sound env inv w hw
        exact ⟨hp.symm, by rw [hv']; rfl, w, hw, hk.symm, by rw [hv']; rfl, n, hn, hdom, subnet,
          hsub, hip, hc⟩
    · simp only [hp, if_false] at hs
      exact Or.inl hs
  · intro ipText hout w hw he
    obtain ⟨n, hn, hdom, _, subnet, hsub, hip, hc⟩ := cycleWrites_sound env inv w hw
    rw [he] at hip
    rw [hout n hn hdom subnet w.ip hsub hip] at hc
    cases hc

/-! ## C18: rejection of a fallback value -/

/-- C18: in the `fallback` case, `parse` returns an error and leaves the
configuration as it was (so a `fallback` that was never set stays empty) if and
only if the value is longer than 253 characters, or has a character outside
`[a-zA-Z0-9.-]`, or has two dots in a row, or has a hyphen at its start, at its
end, after a dot or before a dot; every other value, the empty one included, is
stored as it is in the `fallback` field. The length test of the code counts
bytes: a value of more than 253 bytes and at most 253 characters has a
character outside the class and is rejected as well. -/
theorem parse_fallback_rejection (lib : ParseLib) (cfg : config) (v : String) :
    ((parseProperty lib cfg "fallback" (some v)).2 ≠ none ↔
      (253 < v.length ∨ (v ≠ "" ∧ ∃ c ∈ v.data, fallbackChar c = false) ∨
        (∃ pre post, v.data = pre ++ ['.', '.'] ++ post) ∨
        v.data.head? = some '-' ∨ v.data.getLast? = some '-' ∨
        (∃ pre post, v.data = pre ++ ['.', '-'] ++ post) ∨
        (∃ pre post, v.data = pre ++ ['-', '.'] ++ post))) ∧
    ((parseProperty lib cfg "fallback" (some v)).2 ≠ none →
      (parseProperty lib cfg "fallback" (some v)).1 = cfg ∧
      (parse lib [[["fallback", v]]]).1.fallback = "" ∧
      (parse lib [[["fallback", v]]]).2 ≠ none) ∧
    ((parseProperty lib cfg "fallback" (some v)).2 = none →
      (parseProperty lib cfg "fallback" (some v)).1 = { cfg with fallback := v } ∧
      (parse lib [[["fallback", v]]]).1.fallback = v) ∧
    (∀ c, fallbackChar c = true ↔
      ('a' ≤ c ∧ c ≤ 'z') ∨ ('A' ≤ c ∧ c ≤ 'Z') ∨ ('0' ≤ c ∧ c ≤ '9') ∨ c = '.' ∨ c = '-') := by
  rw [parseProperty_fallback]
  have hsame : ∀ cfg', (parseFallback cfg' v).2 = (parseFallback cfg v).2 := by
    intro cfg'
    cases h : (parseFallback cfg v).2 with
    | none =>
      exact (parseFallback_accepts_iff cfg' v).mpr ((parseFallback_accepts_iff cfg v).mp h)
    | some e =>
      cases h' : (parseFallback cfg' v).2 with
      | none =>
        rw [(parseFallback_accepts_iff cfg v).mpr ((parseFallback_accepts_iff cfg' v).mp h')] at h
        cases h
      | some e' =>
        unfold parseFallback at h h'
        split at h
        · rename_i hlen
          rw [if_pos hlen] at h'
          rw [← Option.some.inj h, ← Option.some.inj h']
        · rename_i hlen
          rw [if_neg hlen] at h'
          split at h
          · rename_i hbad
            rw [if_pos hbad] at h'
            rw [← Option.some.inj h, ← Option.some.inj h']
          · cases h
  refine ⟨?_, ?_, ?_, ?_⟩
  · rw [ne_eq, parseFallback_accepts_iff]
    constructor
    · intro hrej
      by_contra hD
      simp only [not_or, not_and, not_exists, not_lt] at hD
      obtain ⟨hlen, hchars, hdd, hh, hl, hdh, hhd⟩ := hD
      have hall : ∀ c ∈ v.data, fallbackChar c = true := by
        intro c hc
        have hne : v ≠ "" := by
          intro e
          rw [e] at hc
          simp at hc
        cases hf : fallbackChar c with
        | true => rfl
        | false => exact absurd hf (hchars hne c hc)
      apply hrej
      refine ⟨by rw [utf8ByteSize_eq v hall]; exact hlen, hall, ?_, hh, hl⟩
      rw [← noPairs_iff]
      refine ⟨?_, ?_, ?_⟩
      · cases hc : containsChars ['.', '.'] v.data with
        | false => rfl
        | true =>
          obtain ⟨pre, post, e⟩ := (containsChars_iff _ _).mp hc
          exact absurd e (hdd pre post)
      · cases hc : containsChars ['.', '-'] v.data with
        | false => rfl
        | true =>
          obtain ⟨pre, post, e⟩ := (containsChars_iff _ _).mp hc
          exact absurd e (hdh pre post)
      · cases hc : containsChars ['-', '.'] v.data with
        | false => rfl
        | true =>
          obtain ⟨pre, post, e⟩ := (containsChars_iff _ _).mp hc
          exact absurd e (hhd pre post)
    · rintro hD ⟨hsize, hall, hchain, hh, hl⟩
      rw [← noPairs_iff] at hchain
      rcases hD with h | ⟨_, c, hc, hf⟩ | ⟨pre, post, e⟩ | h | h | ⟨pre, post, e⟩ | ⟨pre, post, e⟩
      · have := utf8ByteSize_ge v
        omega
      · rw [hall c hc] at hf
        cases hf
      · rw [(containsChars_iff _ _).mpr ⟨pre, post, e⟩] at hchain
        cases hchain.1
      · exact hh h
      · exact hl h
      · rw [(containsChars_iff _ _).mpr ⟨pre, post, e⟩] at hchain
        cases hchain.2.1
      · rw [(containsChars_iff _ _).mpr ⟨pre, post, e⟩] at hchain
        cases hchain.2.2
  · intro hrej
    have hrej0 : (parseFallback defaultConfig v).2 ≠ none := by
      rw [hsame defaultConfig]
      exact hrej
    obtain ⟨hp1, hp2⟩ := parse_single_fallback lib v
    refine ⟨?_, ?_, ?_⟩
    · rcases parseFallback_cases cfg v with ⟨h1, _⟩ | ⟨_, h2⟩
      · exact absurd h1 hrej
      · exact h2
    · rw [hp1]
      rcases parseFallback_cases defaultConfig v with ⟨h1, _⟩ | ⟨_, h2⟩
      · exact absurd h1 hrej0
      · rw [h2]
        rfl
    · rw [hp2 hrej0]
      exact hrej0
  · intro hacc
    have hacc0 : (parseFallback defaultConfig v).2 = none := by
      rw [hsame defaultConfig]
      exact hacc
    refine ⟨?_, ?_⟩
    · rcases parseFallback_cases cfg v with ⟨_, h2⟩ | ⟨h1, _⟩
      · exact h2
      · exact absurd hacc h1
    · rw [(parse_single_fallback lib v).1]
      rcases parseFallback_cases defaultConfig v with ⟨_, h2⟩ | ⟨h1, _⟩
      · rw [h2]
      · exact absurd hacc0 h1
  · intro c
    simp only [fallbackChar, Char.isAlphanum, Char.isAlpha, Char.isUpper, Char.isLower,
      Char.isDigit, Bool.or_eq_true, Bool.and_eq_true, decide_eq_true_eq, beq_iff_eq]
    constructor
    · rintro ((((h | h) | h) | h) | h)
      · exact Or.inr (Or.inl h)
      · exact Or.inl h
      · exact Or.inr (Or.inr (Or.inl h))
      · exact Or.inr (Or.inr (Or.inr (Or.inl h)))
      · exact Or.inr (Or.inr (Or.inr (Or.inr h)))
    · rintro (h | h | h | h | h)
      · exact Or.inl (Or.inl (Or.inl (Or.inr h)))
      · exact Or.inl (Or.inl (Or.inl (Or.inl h)))
      · exact Or.inl (Or.inl (Or.inr h))
      · exact Or.inl (Or.inr h)
      · exact Or.inr h

/-! ## C19: network eligibility -/

/-- C19: `getInterfaces` returns the networks whose purpose contains the
text "interface", each as it was given, in the order given and as often as
given; the networks of a fetched inventory are these networks of the sites; and
record synthesis processes exactly those of them that have a non-empty domain:
a network with an empty domain leaves the record map as it is, the synthesis is
the run over the networks with a non-empty domain, and each of these gets the
record set of its domain. -/
theorem network_eligibility (networks : List OmadaNetwork) :
    getInterfaces networks = networks.filter (fun n => matchInterface n.Purpose) ∧
    (∀ purpose, matchInterface purpose = true ↔
      ∃ pre post, purpose.data = pre ++ "interface".data ++ post) ∧
    (getInterfaces networks).Sublist networks ∧
    (∀ n, n ∈ getInterfaces networks ↔
      n ∈ networks ∧ ∃ pre post, n.Purpose.data = pre ++ "interface".data ++ post) ∧
    (∀ n, (∃ pre post, n.Purpose.data = pre ++ "interface".data ++ post) →
      (getInterfaces networks).count n = networks.count n) ∧
    (∀ cfg ctl sites inv, fetchInventory cfg ctl sites ⟨[], [], [], []⟩ = .ok inv →
      inv.networks = sites.flatMap (siteInterfaces ctl)) ∧
    (∀ env inv ts records n, n.Domain = "" → processNetwork env inv ts records n = records) ∧
    (∀ env inv ts records,
      synthesize env inv ts records =
        (inv.networks.filter (fun n => decide (n.Domain ≠ ""))).foldl (processNetwork env inv ts)
          (ensureRecords records env.ptrZone)) ∧
    (∀ env inv ts records, ∀ n ∈ inv.networks, n.Domain ≠ "" →
      n.Domain ++ "." ∈ (synthesize env inv ts records).keys) := by
  have hm : ∀ purpose, matchInterface purpose = true ↔
      ∃ pre post, purpose.data = pre ++ "interface".data ++ post :=
    fun purpose => containsChars_iff _ _
  refine ⟨getInterfaces_eq_filter networks, hm, ?_, ?_, ?_, ?_, ?_, ?_, ?_⟩
  · rw [getInterfaces_eq_filter]
    exact List.filter_sublist _
  · intro n
    rw [getInterfaces_eq_filter, List.mem_filter, hm]
  · intro n hn
    rw [getInterfaces_eq_filter, List.count_filter]
    exact (hm n.Purpose).mpr hn
  · intro cfg ctl sites inv h
    rw [fetchInventory_networks cfg ctl sites _ inv h]
    rfl
  · intro env inv ts records n h
    exact processNetwork_skip env inv ts records n h
  · intro env inv ts records
    exact foldl_processNetwork_filter env inv ts inv.networks _
  · intro env inv ts records n hn hd
    exact synthesize_domain_mem env inv ts records n hn hd

/-! ## C20: reverse records only in the reverse domain -/

/-- C20: starting from a record map in which only the record set of the shared
reverse domain holds reverse records, a cycle leaves a record map with the same
property and never inserts into a nil zone, whatever the iteration orders and
the clock of the run; in the zone loop the reverse records to insert are none
unless the domain processed is the reverse domain, whose zone exists by then, so
every iteration of the loop body succeeds. -/
theorem reverse_records_placement (env : Env) (run : Run) (o : Omada)
    (h : PtrOnlyInPtrZone env o.records) :
    (∀ inv, PtrOnlyInPtrZone env (synthesize env inv run.timestamp o.records) ∧
      PtrOnlyInPtrZone env (applyInventory env run o inv).1.records ∧
      (applyInventory env run o inv).2 = Result.ok) ∧
    (∀ ctl, PtrOnlyInPtrZone env (updateZones env ctl run o).1.records ∧
      (updateZones env ctl run o).2 ≠ Result.nilDeref) ∧
    (∀ zones d dr, o.records.get? d = some dr →
      (d ≠ env.ptrZone →
        (purgeStaleRecords dr (run.purgeNow d)
          (Seconds o.config.stale_record_duration)).PtrRecords.values = []) ∧
      (d = env.ptrZone → env.ptrZone ∈ (withZone zones d).keys) ∧
      ∃ zones', (zoneLoopBody env run o zones d dr).2 = some zones') := by
  refine ⟨?_, ?_, ?_⟩
  · intro inv
    exact ⟨PtrOnlyInPtrZone_synthesize env inv run.timestamp o.records h,
      PtrOnlyInPtrZone_applyInventory env run o inv h, applyInventory_succeeds env run o inv h⟩
  · intro ctl
    refine ⟨PtrOnlyInPtrZone_updateZones env ctl run o h, ?_⟩
    unfold updateZones
    split
    · simp
    · rw [applyInventory_succeeds env run o _ h]
      simp
  · intro zones d dr hd
    refine ⟨fun hp => purged_ptr_values_nil env o.records d dr _ _ hd h hp, ?_, ?_⟩
    · intro hp
      rw [← hp]
      exact withZone_mem zones d
    · obtain ⟨z, hz, _⟩ := zoneLoopBody_succeeds env run o zones d dr hd h
      exact ⟨z, hz⟩

theorem reverse_records_placement_witness :
    PtrOnlyInPtrZone stdEnv
        (updateZones stdEnv (constController sampleInventory2) (stdRun 60) samplePublished).1.records ∧
      (updateZones stdEnv (constController sampleInventory2) (stdRun 60) samplePublished).2 ≠
        Result.nilDeref :=
  (reverse_records_placement stdEnv (stdRun 60) samplePublished
    (PtrOnlyInPtrZone_updateZones stdEnv (constController sampleInventory) (stdRun 0)
      (newOmada sampleConfig ["Default"]) (PtrOnlyInPtrZone_empty stdEnv))).2.1
    (constController sampleInventory2)

/-! ## C21: domains are never retired -/

/-- C21, as stated, fails for a domain whose network has disappeared: a minute
after the first cycle over the sample inventory, a cycle whose inventory has no
network at all still publishes the zone `omada.home.` with the three forward
records of the first cycle, which are not stale yet, and not with its
authority record alone. -/
theorem vanished_network_zone_keeps_records :
    (updateZones stdEnv (constController ⟨[], [], [], []⟩) (stdRun 60000000000)
      samplePublished).2 = Result.ok ∧
    "omada.home." ∈ samplePublished.records.keys ∧
    (updateZones stdEnv (constController ⟨[], [], [], []⟩) (stdRun 60000000000)
      samplePublished).1.zones.get? "omada.home." =
      some ⟨"omada.home.", [RR.SOA "omada.home.",
        RR.A ⟨"client-001.omada.home.", 60, ⟨[10, 0, 0, 101]⟩⟩,
        RR.A ⟨"win10-vm.omada.home.", 60, ⟨[10, 0, 0, 102]⟩⟩,
        RR.A ⟨"client-01.omada.home.", 60, ⟨[10, 0, 0, 101]⟩⟩]⟩ ∧
    (updateZones stdEnv (constController ⟨[], [], [], []⟩) (stdRun 60000000000)
      samplePublished).1.zones.get? "omada.home." ≠
      some ⟨"omada.home.", [RR.SOA "omada.home."]⟩ := by
  decide

/-- C21, amended: `updateZones` never removes a key from the record map, and
the published zone names after a cycle include those published before it (in a
state in which the published names are domains of the record map and only the
reverse domain holds reverse records, which every cycle leaves so again).
After a successful cycle every domain of the prior record map, whether or not
a network of the cycle has it, is still published: its zone holds the
authority record, at most one wildcard (none without a fallback), the forward
records of its record set after the cycle and, in the reverse zone, the
reverse records; so once these records are all purged the zone holds only the
authority record and the wildcard, if any. The forward records of a domain
that no network of the cycle has are the prior ones that are not yet stale. -/
theorem domains_never_retired (env : Env) (ctl : Controller) (run : Run) (o : Omada)
    (hrun : run.Valid) (hinv : PtrOnlyInPtrZone env o.records)
    (hnames : ∀ d ∈ o.zoneNames, d ∈ o.records.keys) :
    (∀ d ∈ o.records.keys, d ∈ (updateZones env ctl run o).1.records.keys) ∧
    (∀ d ∈ o.zoneNames, d ∈ (updateZones env ctl run o).1.zoneNames) ∧
    PtrOnlyInPtrZone env (updateZones env ctl run o).1.records ∧
    (∀ d ∈ (updateZones env ctl run o).1.zoneNames,
      d ∈ (updateZones env ctl run o).1.records.keys) ∧
    ((updateZones env ctl run o).2 = Result.ok → ∀ d ∈ o.records.keys,
      d ∈ (updateZones env ctl run o).1.zoneNames ∧
      ∃ dr wild, (updateZones env ctl run o).1.records.get? d = some dr ∧
        (wild = [] ∨ ∃ ip, wild = [RR.A ⟨"*." ++ d, 300, ip⟩]) ∧
        (o.config.fallback = "" → wild = []) ∧
        (updateZones env ctl run o).1.zones.get? d = some ⟨d, RR.SOA d :: (wild ++
          dr.ARecords.values.map (fun v => RR.A v.record) ++
          (if env.ptrZone = d then dr.PtrRecords.values.map (fun v => RR.PTR v.record)
            else []))⟩ ∧
        (dr.ARecords.values = [] → dr.PtrRecords.values = [] →
          (updateZones env ctl run o).1.zones.get? d = some ⟨d, RR.SOA d :: wild⟩)) ∧
    (∀ inv, fetchInventory o.config ctl o.sites ⟨[], [], [], []⟩ = .ok inv →
      ∀ d ∈ o.records.keys, (∀ n ∈ inv.networks, n.Domain ++ "." ≠ d) →
        ∀ k, fwdAt (updateZones env ctl run o).1.records d k =
          keepA (run.purgeNow d) (Seconds o.config.stale_record_duration)
            (fwdAt o.records d k)) := by
  cases hf : fetchInventory o.config ctl o.sites ⟨[], [], [], []⟩ with
  | error e =>
    have hu : updateZones env ctl run o = (o, Result.error e) := by
      unfold updateZones
      rw [hf]
    rw [hu]
    refine ⟨fun d hd => hd, fun d hd => hd, hinv, hnames, ?_, ?_⟩
    · intro hc
      cases hc
    · intro inv hc
      cases hc
  | ok inv =>
    rw [updateZones_of_fetch env ctl run o inv hf]
    have hok := applyInventory_succeeds env run o inv hinv
    have hkeys := applyInventory_records_keys env run o inv
    have hmono : ∀ d ∈ o.records.keys, d ∈ (synthesize env inv run.timestamp o.records).keys :=
      fun d hd => synthesize_keys_mono env inv run.timestamp o.records d hd
    have hn : ∀ d, d ∈ (applyInventory env run o inv).1.zoneNames ↔
        d ∈ (synthesize env inv run.timestamp o.records).keys := by
      rcases applyInventory_names env run o inv hrun with ⟨_, h⟩ | ⟨h, _⟩
      · exact h
      · rw [hok] at h
        cases h
    refine ⟨?_, ?_, PtrOnlyInPtrZone_applyInventory env run o inv hinv, ?_, ?_, ?_⟩
    · intro d hd
      rw [hkeys]
      exact hmono d hd
    · intro d hd
      exact (hn d).mpr (hmono d (hnames d hd))
    · intro d hd
      rw [hkeys]
      exact (hn d).mp hd
    · intro _ d hd
      refine ⟨(hn d).mpr (hmono d hd), ?_⟩
      obtain ⟨dr, wild, hr, hw, hw0, _, hz⟩ := applyInventory_zone_of_records env run o inv hrun
        hok d (hmono d hd) (Or.inr hinv)
      refine ⟨dr, wild, hr, hw, hw0, hz, ?_⟩
      intro ha hp
      rw [hz]
      simp only [forwardRRs, reverseRRs, ha, hp, List.map_nil, List.append_nil, ite_self]
    · intro inv' hinv' d hd hnone k
      have e : inv' = inv := by
        simp only [Except.ok.injEq] at hinv'
        exact hinv'.symm
      subst e
      rw [(applyInventory_purged env run o inv' hrun hok d k).1 (hmono d hd),
        synthesize_fwdAt_no_network env inv' run.timestamp o.records d k hnone]

theorem domains_never_retired_witness :
    (∀ d ∈ samplePublished.zoneNames,
      d ∈ (updateZones stdEnv (constController ⟨[], [], [], []⟩) (stdRun 600000000000)
        samplePublished).1.zoneNames) ∧
    (updateZones stdEnv (constController ⟨[], [], [], []⟩) (stdRun 600000000000)
      samplePublished).1.zones.get? "omada.home." =
      some ⟨"omada.home.", [RR.SOA "omada.home."]⟩ :=
  ⟨(domains_never_retired stdEnv (constController ⟨[], [], [], []⟩) (stdRun 600000000000)
      samplePublished (stdRun_valid _)
      (PtrOnlyInPtrZone_updateZones stdEnv (constController sampleInventory) (stdRun 0)
        (newOmada sampleConfig ["Default"]) (PtrOnlyInPtrZone_empty stdEnv))
      (by decide)).2.1, by decide⟩

/-! ## C22: fallback records are zone-only -/

/-- C22: `addFallbackRecord` returns a zone map with the same keys in which at
most one record, a wildcard of the domain, is added to the zone of the domain;
the state that a round of the zone loop leaves differs from the one it found
only by the purge of the record set of its domain, so the call of
`addFallbackRecord` in it writes no record set. Hence the record map and the
result of a cycle are those of the cycle with no fallback configured; the
zones, names, records and result of a cycle do not depend on the zones and
names published before, so a wildcard is not carried over but added anew by
each cycle; `resolveInZones` depends on nothing but the record map and
returns the address of a forward record stored under the name asked for; and
no forward record of a well-formed record map is a wildcard record, whose TTL
is 300. -/
theorem fallback_records_zone_only (env : Env) (run : Run) (o : Omada) (inv : Inventory) :
    (∀ order zones zones' d dr, addFallbackRecord env o order zones d dr = some zones' →
      zones'.keys = zones.keys ∧
      ∃ wild, (wild = [] ∨ ∃ ip, wild = [RR.A ⟨"*." ++ d, 300, ip⟩]) ∧
        (∀ x, x ≠ d → zones'.get? x = zones.get? x) ∧
        zones'.get? d = (zones.get? d).map (fun z => { z with rrs := z.rrs ++ wild })) ∧
    (∀ zones d dr, (zoneLoopBody env run o zones d dr).1 =
      { o with records := (o.records.set d
          (purgeStaleRecords dr (run.purgeNow d) (Seconds o.config.stale_record_duration))) }) ∧
    ((applyInventory env run (noFallback o) inv).2 = (applyInventory env run o inv).2 ∧
      (applyInventory env run (noFallback o) inv).1.records =
        (applyInventory env run o inv).1.records) ∧
    (∀ zones0 names0,
      (applyInventory env run { o with zones := zones0, zoneNames := names0 } inv).2 =
        (applyInventory env run o inv).2 ∧
      (applyInventory env run { o with zones := zones0, zoneNames := names0 } inv).1.records =
        (applyInventory env run o inv).1.records ∧
      ((applyInventory env run o inv).2 = Result.ok →
        (applyInventory env run { o with zones := zones0, zoneNames := names0 } inv).1.zones =
          (applyInventory env run o inv).1.zones ∧
        (applyInventory env run { o with zones := zones0, zoneNames := names0 } inv).1.zoneNames =
          (applyInventory env run o inv).1.zoneNames)) ∧
    (∀ (o' : Omada) order t, o'.records = o.records →
      resolveInZones o' order t = resolveInZones o order t) ∧
    (∀ order t a, resolveInZones o order t = some a →
      ∃ dom rec, dom ∈ order ∧ fwdAt o.records dom t = some rec ∧ rec.record.A = a) ∧
    (RecordsWF env o.records → ∀ d k v,
      fwdAt (applyInventory env run o inv).1.records d k = some v →
        ∀ d' ip, v.record ≠ ⟨"*." ++ d', 300, ip⟩) := by
  refine ⟨?_, fun zones d dr => zoneLoopBody_fst env run o zones d dr,
    ⟨(applyInventory_noFallback env run o inv).1, (applyInventory_noFallback env run o inv).2.1⟩,
    fun zones0 names0 => applyInventory_prior_zones env run o inv zones0 names0,
    fun o' order t h => resolveInZones_congr o' o order t h,
    fun order t a h => resolveInZones_eq_some o order t a h, ?_⟩
  · intro order zones zones' d dr h
    obtain ⟨wild, hw, _, _, hg⟩ := addFallbackRecord_get? env o order zones zones' d dr h
    have hk : zones'.keys = zones.keys := by
      unfold addFallbackRecord at h
      by_cases hf : o.config.fallback = ""
      · simp only [hf, if_true, Option.some.injEq] at h
        rw [h]
      · simp only [hf, if_false] at h
        split at h
        · simp only [Option.some.injEq] at h
          rw [h]
        · exact insertInto_keys _ _ _ _ h
    refine ⟨hk, wild, hw, ?_, ?_⟩
    · intro x hx
      rw [hg x, appendAt_ne _ _ _ _ (fun e => hx e.symm)]
    · rw [hg d]
      simp [appendAt]
  · intro hwf d k v hv d' ip e
    have h60 := ((RecordsWF_applyInventory env run o inv hwf).1 d k v hv).2
    rw [e] at h60
    cases h60

/-! ## C23: the fallback reaches the reverse zone -/

/-- C23: every round of the zone loop calls `addFallbackRecord` for its own
key, the key of the shared reverse domain included; so when the configured
fallback parses as an address, every zone that a round returns for its key
holds the wildcard of that key with that address, and after a successful cycle
(of a run whose iteration orders are permutations) every published zone holds
the A record named `"*." ++ zone name` with that address: there is such a zone for
every domain of the record map, and the shared reverse zone is one of them. -/
theorem fallback_reaches_reverse_zone (env : Env) (ctl : Controller) (run : Run) (o : Omada)
    (ip : IP) (hEmpty : env.ParseIP "" = none) (hip : env.ParseIP o.config.fallback = some ip)
    (hrun : run.Valid) (hok : (updateZones env ctl run o).2 = Result.ok) :
    (∀ d z, (updateZones env ctl run o).1.zones.get? d = some z →
      RR.A ⟨"*." ++ d, 300, ip⟩ ∈ z.rrs) ∧
    (∀ d ∈ (updateZones env ctl run o).1.records.keys,
      ∃ z, (updateZones env ctl run o).1.zones.get? d = some z ∧
        RR.A ⟨"*." ++ d, 300, ip⟩ ∈ z.rrs) ∧
    (∃ z, (updateZones env ctl run o).1.zones.get? env.ptrZone = some z ∧
      RR.A ⟨"*." ++ env.ptrZone, 300, ip⟩ ∈ z.rrs) ∧
    (∀ zones zones' d dr, (zoneLoopBody env run o zones d dr).2 = some zones' →
      ∃ z, zones'.get? d = some z ∧ RR.A ⟨"*." ++ d, 300, ip⟩ ∈ z.rrs) := by
  have hne : o.config.fallback ≠ "" := by
    intro e
    rw [e, hEmpty] at hip
    cases hip
  obtain ⟨inv, _, he⟩ := updateZones_ok_fetch env ctl run o hok
  rw [he] at hok ⊢
  have hw := applyInventory_wildcard env run o inv ip hne hip hok
  obtain ⟨hz, hr, _, _⟩ := applyInventory_zone_keys env run o inv hrun hok
  have hzone : ∀ d ∈ (applyInventory env run o inv).1.records.keys,
      ∃ z, (applyInventory env run o inv).1.zones.get? d = some z ∧
        RR.A ⟨"*." ++ d, 300, ip⟩ ∈ z.rrs := by
    intro d hd
    have hm : d ∈ (applyInventory env run o inv).1.zones.keys := by
      rw [hz, (hrun.1 _).mem_iff, ← hr]
      exact hd
    obtain ⟨z, hzd⟩ := (GoMap.mem_keys_iff _ _).mp hm
    exact ⟨z, hzd, hw d z hzd⟩
  refine ⟨hw, hzone, ?_, ?_⟩
  · apply hzone
    rw [hr]
    exact synthesize_ptrZone_mem env inv run.timestamp o.records
  · intro zones zones' d dr hb
    obtain ⟨wild, _, _, hw1, hg⟩ := zoneLoopBody_get? env run o zones zones' d dr hb
    have hk := zoneLoopBody_zone_keys env run o zones zones' d dr hb
    have hm : d ∈ zones'.keys := by
      rw [hk]
      exact withZone_mem zones d
    obtain ⟨z, hzd⟩ := (GoMap.mem_keys_iff _ _).mp hm
    refine ⟨z, hzd, ?_⟩
    rw [hg d] at hzd
    obtain ⟨z1, hz1, hsub⟩ := appendAt_some _ _ _ _ _ hzd
    apply hsub
    cases hwz : (withZone zones d).get? d with
    | none => rw [hwz] at hz1; simp [appendAt] at hz1
    | some z0 =>
      rw [hwz, appendAt_self, Option.some.injEq] at hz1
      rw [← hz1, hw1 hne ip hip]
      simp [wildcardRR]

theorem fallback_reaches_reverse_zone_witness :
    (∃ z, (updateZones stdEnv (constController sampleInventory) (stdRun 60000000000)
        (sampleWithFallback "10.0.0.200")).1.zones.get? "in-addr.arpa." = some z ∧
      RR.A ⟨"*." ++ "in-addr.arpa.", 300, ⟨[10, 0, 0, 200]⟩⟩ ∈ z.rrs) ∧
    ((updateZones stdEnv (constController sampleInventory) (stdRun 60000000000)
        (sampleWithFallback "10.0.0.200")).1.zones.get? "in-addr.arpa.").map (fun z => z.rrs) =
      some [RR.SOA "in-addr.arpa.", RR.A ⟨"*.in-addr.arpa.", 300, ⟨[10, 0, 0, 200]⟩⟩,
        RR.PTR ⟨"101.0.0.10.in-addr.arpa.", 60, "client-01.omada.home."⟩,
        RR.PTR ⟨"102.0.0.10.in-addr.arpa.", 60, "win10-vm.omada.home."⟩] :=
  ⟨(fallback_reaches_reverse_zone stdEnv (constController sampleInventory)
      (stdRun 60000000000) (sampleWithFallback "10.0.0.200") ⟨[10, 0, 0, 200]⟩ (by decide)
      (by decide) (stdRun_valid _) (by decide)).2.2.1, by decide⟩

end CorednsOmada
